import Mathlib

/-!
# ArrayOpt: GRASP with path-relinking for the quadratic assignment problem

A shallow embedding of `src/src/qap/grasppr/*.c` (solution, instance, sort
kernels, GRASP engine, elite pool, driver) and of the JNI entry points.

Conventions of the embedding.

* C arrays are lists; every array access is checked and an access outside the
  array yields `Err.oob`.  Division or remainder by zero yields `Err.divzero`.
  Loops without a syntactic bound take a fuel argument and yield `Err.fuel`
  when it runs out.
* Array positions, permutation entries and loop counters are `Nat`.  Costs and
  matrix cells are values of the C type `int`: they are `Int`, and every sum,
  difference and product the code computes on them is reduced to 32 bits
  (two's complement) by `wrap`.  The iteration counters stay within `max_itr`
  and the array indices within the `n * n` entries of the allocated buffers.
* The process-wide random generator and timer (`randgen.h`, `timer.h`) are the
  streams of an `env`; the number of values consumed so far is carried in the
  engine state.
* Memory allocation never fails.
-/

namespace Qap

/-! ## Checked memory -/

/-- Ways in which a run can go wrong. -/
inductive Err where
  | oob
  | divzero
  | fuel
deriving DecidableEq, Repr

/-- Checked read `a[i]`. -/
def rd {α : Type} (a : List α) (i : Nat) : Except Err α :=
  match a[i]? with
  | some v => .ok v
  | none => .error .oob

/-- Checked write `a[i] = v`. -/
def wr {α : Type} (a : List α) (i : Nat) (v : α) : Except Err (List α) :=
  if i < a.length then .ok (a.set i v) else .error .oob

/-- Checked read `m[i][j]` of a matrix stored as rows. -/
def rdm (m : List (List Int)) (i j : Nat) : Except Err Int :=
  match m[i]? with
  | some row => rd row j
  | none => .error .oob

/-- Checked write `m[i][j] = v`. -/
def wrm (m : List (List Int)) (i j : Nat) (v : Int) : Except Err (List (List Int)) :=
  match m[i]? with
  | some row =>
    match wr row j v with
    | .ok row1 => .ok (m.set i row1)
    | .error e => .error e
  | none => .error .oob

/-- Remainder `a % b` as C computes it on non-negative operands. -/
def cmod (a b : Nat) : Except Err Nat :=
  if b = 0 then .error .divzero else .ok (a % b)

/-- The value of type `int` (32 bits, two's complement) in which the arithmetic
result `x` is stored: `x` reduced modulo `2^32` into `-2^31 .. 2^31 - 1`. -/
def wrap (x : Int) : Int := (x + 2147483648) % 4294967296 - 2147483648

/-- The sum `a + b` of two `int`s. -/
def iadd (a b : Int) : Int := wrap (a + b)

/-- The difference `a - b` of two `int`s. -/
def isub (a b : Int) : Int := wrap (a - b)

/-- The product `a * b` of two `int`s. -/
def imul (a b : Int) : Int := wrap (a * b)

/-- The loop `for (i = lo; i < lo + count; i++) body`. -/
def for_loop {σ : Type} (body : Nat → σ → Except Err σ) : Nat → Nat → σ → Except Err σ
  | _, 0, s => .ok s
  | i, k + 1, s => body i s >>= for_loop body (i + 1) k

/-- What the program cannot determine itself: the values `genrandint` returns,
the values `get_time` returns, and the content of a freshly allocated `cost`
field. -/
structure env where
  genrandint : Nat → Nat
  get_time : Nat → Int
  junk : Int

/-! ## qapinst.h, qapinst.c -/

/-- The struct `qap_inst`. -/
structure qap_inst where
  n : Nat
  F : List (List Int)
  D : List (List Int)
deriving DecidableEq, Repr

/-- The function `qi_new`: the matrices are allocated zeroed (`NewVec2zero`) and
filled from the row-major arrays. -/
def qi_new (dim : Nat) (f d : List Int) : Except Err qap_inst := do
  let z := List.replicate dim (List.replicate dim (0 : Int))
  let D ← for_loop (fun i m => for_loop (fun j m => do
      let v ← rd d (i * dim + j)
      wrm m i j v) 0 dim m) 0 dim z
  let F ← for_loop (fun i m => for_loop (fun j m => do
      let v ← rd f (i * dim + j)
      wrm m i j v) 0 dim m) 0 dim z
  pure { n := dim, F := F, D := D }

/-! ## qapsol.h, qapsol.c -/

/-- The struct `qap_sol`. -/
structure qap_sol where
  n : Nat
  p : List Nat
  rev : List Nat
  cost : Int
deriving DecidableEq, Repr, Inhabited

/-- The function `qs_new`; `none` stands for the null pointer returned when
`n < 1`.  The cost field is not initialised by the code. -/
def qs_new (E : env) (n : Int) : Option qap_sol :=
  if n < 1 then none
  else some { n := n.toNat, p := List.range n.toNat, rev := List.range n.toNat, cost := E.junk }

/-- The function `qs_swap`. -/
def qs_swap (s : qap_sol) (a b : Nat) : Except Err qap_sol := do
  let pa ← rd s.p a
  let rev ← wr s.rev pa b
  let pb ← rd s.p b
  let rev ← wr rev pb a
  let t ← rd s.p a
  let pb ← rd s.p b
  let p ← wr s.p a pb
  let p ← wr p b t
  pure { s with p := p, rev := rev }

/-- The function `qs_assign`. -/
def qs_assign (s : qap_sol) (pos val : Nat) : Except Err qap_sol := do
  let r ← rd s.rev val
  qs_swap s pos r

/-- The function `qs_random`; `rc` counts the random values consumed. -/
def qs_random (E : env) (s : qap_sol) (rc : Nat) : Except Err (qap_sol × Nat) := do
  let p ← for_loop (fun i p => wr p i i) 0 s.n s.p
  let (p, rc) ← for_loop (fun i (st : List Nat × Nat) => do
      let r ← cmod (E.genrandint st.2) (s.n - i)
      let t ← rd st.1 i
      let pr ← rd st.1 r
      let p ← wr st.1 i pr
      let p ← wr p r t
      pure (p, st.2 + 1)) 0 s.n (p, rc)
  let rev ← for_loop (fun i rev => do
      let pi ← rd p i
      wr rev pi i) 0 s.n s.rev
  pure ({ s with p := p, rev := rev }, rc)

/-- The function `qs_copy`: copy `ns` into `s`. -/
def qs_copy (s ns : qap_sol) : Except Err qap_sol := do
  let (p, rev) ← for_loop (fun i (st : List Nat × List Nat) => do
      let v ← rd ns.p i
      let p ← wr st.1 i v
      let w ← rd ns.rev i
      let rev ← wr st.2 i w
      pure (p, rev)) 0 s.n (s.p, s.rev)
  pure { n := ns.n, p := p, rev := rev, cost := ns.cost }

/-- The function `qs_equal`. -/
def qs_equal (sa sb : qap_sol) : Except Err Bool :=
  if sa.cost ≠ sb.cost ∨ sa.n ≠ sb.n then pure false
  else for_loop (fun i ok => if ok then do
      let x ← rd sa.p i
      let y ← rd sb.p i
      pure (decide (x = y)) else pure false) 0 sa.n true

/-- The function `qs_similarity`. -/
def qs_similarity (s1 s2 : qap_sol) : Except Err Nat :=
  for_loop (fun i d => do
      let x ← rd s1.p i
      let y ← rd s2.p i
      pure (if x ≠ y then d + 1 else d)) 0 s1.n 0

/-- The function `qs_objective`. -/
def qs_objective (s : qap_sol) (q : qap_inst) : Except Err qap_sol := do
  let cost ← for_loop (fun i cost => for_loop (fun j cost => do
      let dij ← rdm q.D i j
      let pi ← rd s.p i
      let pj ← rd s.p j
      let fij ← rdm q.F pi pj
      pure (iadd cost (imul dij fij))) 0 q.n cost) 0 q.n (0 : Int)
  pure { s with cost := cost }

/-! ## sort.h -/

/-- The two macros a heap-sort family is expanded with: `heap_compare(p,q)` and
`heap_swap(p,q)`, over the array state `σ` they act on. -/
structure heap_ops (σ : Type) where
  heap_compare : σ → Nat → Nat → Except Err Bool
  heap_swap : σ → Nat → Nat → Except Err σ

/-- The `while` loop of `upheap_T`; `i` is recomputed as `n/2` in each round. -/
def upheap_loop {σ : Type} (H : heap_ops σ) : Nat → σ → Nat → Except Err σ
  | 0, _, _ => .error .fuel
  | fuel + 1, a, n =>
    if n > 1 then do
      let c ← H.heap_compare a n (n / 2)
      if c then do
        let a ← H.heap_swap a (n / 2) n
        upheap_loop H fuel a (n / 2)
      else pure a
    else pure a

/-- The function `upheap_T(a, s, n)`. -/
def upheap {σ : Type} (H : heap_ops σ) (a : σ) (n : Nat) : Except Err σ :=
  upheap_loop H (n + 1) a n

/-- The `while` loop of `heapfy_T`. -/
def heapfy_loop {σ : Type} (H : heap_ops σ) : Nat → σ → Nat → Nat → Except Err σ
  | 0, _, _, _ => .error .fuel
  | fuel + 1, a, i, n =>
    if i ≤ n / 2 then do
      let j := 2 * i
      let c ← (if j < n then H.heap_compare a (j + 1) j else pure false)
      let j := if c then j + 1 else j
      let b ← H.heap_compare a i j
      if b then pure a
      else do
        let a ← H.heap_swap a i j
        heapfy_loop H fuel a j n
    else pure a

/-- The function `heapfy_T(a, s, i, n)`. -/
def heapfy {σ : Type} (H : heap_ops σ) (a : σ) (i n : Nat) : Except Err σ :=
  heapfy_loop H (n + 1) a i n

/-- The function `heap_sortn_T(a, s, n, k)`: the second loop runs `i = k, k-1, .., 2`. -/
def heap_sortn {σ : Type} (H : heap_ops σ) (a : σ) (n k : Nat) : Except Err σ := do
  let a ← for_loop (fun i a => upheap H a i) 2 (n - 1) a
  for_loop (fun t a => do
      let a ← H.heap_swap a 1 (k - t)
      heapfy H a 1 (k - t - 1)) 0 (k - 1) a

/-- The function `heap_sort_T(a, s, n)`. -/
def heap_sort {σ : Type} (H : heap_ops σ) (a : σ) (n : Nat) : Except Err σ := do
  let a ← for_loop (fun i a => upheap H a i) 2 (n - 1) a
  for_loop (fun t a => do
      let a ← H.heap_swap a 1 (n - t)
      heapfy H a 1 (n - t - 1)) 0 (n - 1) a

/-! ## qapgrasp.h, qapgrasp.c -/

/-- The struct `pair`. -/
structure pair where
  cost : Int
  i : Nat
  j : Nat
deriving DecidableEq, Repr, Inhabited

/-- A `float` parameter, embedded by the one operation the program applies to
it: `scale k` is `(int)(k * x)` for an `int` value `k >= 0`. -/
structure cfloat where
  scale : Nat → Nat

/-- The struct `grasp`, with the two global cursors `rc` (random values drawn)
and `tc` (timer readings taken). -/
structure grasp where
  ralpha : Int
  alpha : cfloat
  beta : cfloat
  best : qap_sol
  s : qap_sol
  q : qap_inst
  f : List pair
  d : List pair
  n_assigned : Nat
  assigned : List Nat
  done : List Nat
  ldone : List Nat
  max_time : Int
  elite_size : Int
  l4 : Int
  print : Int
  print2 : Int
  curr_iter : Int
  curr_prog_iter : Int
  no_pr : Int
  last_improv_iter : Int
  rc : Nat
  tc : Nat

/-- The function `g_new`; buffers come uninitialised (filled with `junk`). -/
def g_new (E : env) (q : qap_inst) : Option grasp :=
  match qs_new E q.n, qs_new E q.n with
  | some s, some best =>
    some { ralpha := 0, alpha := ⟨fun k => k / 10⟩, beta := ⟨fun k => k / 2⟩,
           best := best, s := s, q := q,
           f := List.replicate (q.n * q.n - q.n + 1) ⟨E.junk, 0, 0⟩,
           d := List.replicate (q.n * q.n - q.n + 1) ⟨E.junk, 0, 0⟩,
           n_assigned := 0, assigned := List.replicate q.n 0,
           done := List.replicate q.n 0, ldone := List.replicate q.n 0,
           max_time := 0, elite_size := 10, l4 := -1, print := 0, print2 := 0,
           curr_iter := 0, curr_prog_iter := 0, no_pr := 0, last_improv_iter := 0,
           rc := 0, tc := 0 }
  | _, _ => none

/-- The macros of the `pairinc` family: `a[p].cost > a[q].cost`. -/
def pairinc : heap_ops (List pair) where
  heap_compare := fun a p q => do
    let x ← rd a p
    let y ← rd a q
    pure (decide (x.cost > y.cost))
  heap_swap := fun a p q => do
    let x ← rd a p
    let y ← rd a q
    let a ← wr a p y
    wr a q x

/-- The macros of the `pairdec` family: `a[p].cost < a[q].cost`. -/
def pairdec : heap_ops (List pair) where
  heap_compare := fun a p q => do
    let x ← rd a p
    let y ← rd a q
    pure (decide (x.cost < y.cost))
  heap_swap := fun a p q => do
    let x ← rd a p
    let y ← rd a q
    let a ← wr a p y
    wr a q x

/-- The macros of the `doublepair` family, acting on `a` and the companion `S`
together: `a[p].cost*S[p].cost < a[q].cost*S[q].cost`. -/
def doublepair : heap_ops (List pair × List pair) where
  heap_compare := fun st p q => do
    let ap ← rd st.1 p
    let sp ← rd st.2 p
    let aq ← rd st.1 q
    let sq ← rd st.2 q
    pure (decide (imul ap.cost sp.cost < imul aq.cost sq.cost))
  heap_swap := fun st p q => do
    let x ← rd st.1 p
    let y ← rd st.2 p
    let aq ← rd st.1 q
    let a ← wr st.1 p aq
    let a ← wr a q x
    let sq ← rd st.2 q
    let s ← wr st.2 p sq
    let s ← wr s q y
    pure (a, s)

/-- The function `sort_vector`. -/
def sort_vector (d : List pair) (s : List (List Int)) (n : Nat) (inc : Bool) :
    Except Err (List pair) := do
  let (d, k) ← for_loop (fun i st => for_loop (fun j (st : List pair × Nat) =>
      if i ≠ j then do
        let c ← rdm s i j
        let d ← wr st.1 st.2 ⟨c, i, j⟩
        pure (d, st.2 + 1)
      else pure st) 0 n st) 0 n (d, 0)
  let d0 ← rd d 0
  let d ← wr d k d0
  let d ← (if inc then heap_sort pairinc d k else heap_sort pairdec d k)
  for_loop (fun i d => do
      let x ← rd d (i + 1)
      wr d i x) 0 k d

/-- The function `g_assign`. -/
def g_assign (g : grasp) (p q : Nat) : Except Err grasp := do
  let s ← qs_assign g.s p q
  let assigned ← wr g.assigned g.n_assigned p
  let ldone ← wr g.ldone q 1
  let done ← wr g.done p 1
  pure { g with s := s, assigned := assigned, n_assigned := g.n_assigned + 1,
                done := done, ldone := ldone }

/-- An `int` used as an array index: a negative value is outside every array. -/
def idx (x : Int) : Except Err Nat :=
  if 0 ≤ x then .ok x.toNat else .error .oob

/-- The function `phase1`. -/
def phase1 (E : env) (g : grasp) : Except Err grasp := do
  let n := g.q.n
  let last := g.beta.scale (n * n - n)
  let rcl_size := g.alpha.scale last
  let rcl_size := if rcl_size = 0 then rcl_size + 1 else rcl_size
  let d ← sort_vector g.d g.q.D n true
  let f ← sort_vector g.f g.q.F n false
  let pos ← cmod (E.genrandint g.rc) rcl_size
  let pos := pos + 1
  let f0 ← rd f 0
  let f ← wr f n f0
  let d0 ← rd d 0
  let d ← wr d n d0
  let (f, d) ← heap_sortn doublepair (f, d) (n * n - n) (n * n - n)
  let pos ← idx ((n : Int) * n - n - pos + 1)
  let done ← for_loop (fun i a => wr a i 0) 0 n g.done
  let ldone ← for_loop (fun i a => wr a i 0) 0 n g.ldone
  let g := { g with f := f, d := d, rc := g.rc + 1, done := done, ldone := ldone,
                    n_assigned := 0 }
  let fp ← rd g.f pos
  let dp ← rd g.d pos
  let g ← g_assign g fp.i dp.i
  let fp ← rd g.f pos
  let dp ← rd g.d pos
  g_assign g fp.j dp.j

/-- The function `g_compute_cost`. -/
def g_compute_cost (g : grasp) (p q : Nat) : Except Err Int :=
  for_loop (fun i cost => do
      let a ← rd g.assigned i
      let b ← rd g.s.p a
      let x ← rdm g.q.F a p
      let y ← rdm g.q.D b q
      pure (iadd cost (imul x y))) 0 g.n_assigned (0 : Int)

/-- The first collection loop of `sparse_phase2`: all free `(i,j)` with
`g_compute_cost(g,i,j) == 0` are stored in `g->d[0..l)`; only the fields `i`
and `j` of an entry are written. -/
def sparse_collect (g : grasp) : Except Err (List pair × Nat) :=
  for_loop (fun i st => for_loop (fun j (st : List pair × Nat) => do
      let di ← rd g.done i
      if di = 0 then do
        let lj ← rd g.ldone j
        if lj = 0 then do
          let c ← g_compute_cost g i j
          if c = 0 then do
            let e ← rd st.1 st.2
            let d ← wr st.1 st.2 { e with i := i, j := j }
            pure (d, st.2 + 1)
          else pure st
        else pure st
      else pure st) 0 g.q.n st) 0 g.q.n (g.d, 0)

/-- The filter loop inside the main loop of `sparse_phase2`: the entries of
`delta[0..nd)` that are still free and have zero cost relative to `last` are
stored in `ndelta[0..l)`. -/
def sparse_filter (g : grasp) (delta ndelta : List pair) (nd : Nat) (last : pair) :
    Except Err (List pair × Nat) :=
  for_loop (fun i (st : List pair × Nat) => do
      let e ← rd delta i
      let di ← rd g.done e.i
      if di = 0 then do
        let lj ← rd g.ldone e.j
        if lj = 0 then do
          let x ← rdm g.q.F e.i last.i
          let y ← rdm g.q.D e.j last.j
          if imul x y = 0 then do
            let o ← rd st.1 st.2
            let nd1 ← wr st.1 st.2 { o with i := e.i, j := e.j }
            pure (nd1, st.2 + 1)
          else pure st
        else pure st
      else pure st) 0 nd (ndelta, 0)

/-- The state of the main loop of `sparse_phase2`: the engine, the buffers the
pointers `delta` and `ndelta` refer to, whether they are exchanged with respect
to `g->d`, `g->f`, the count `l`, and `last`. -/
structure sparse_state where
  g : grasp
  delta : List pair
  ndelta : List pair
  swapped : Bool
  l : Nat
  last : pair

/-- The loop `for (k = 0; k < n - 3; k++)` of `sparse_phase2`, `count` rounds
left; a `return` inside the loop ends it. -/
def sparse_loop (E : env) : Nat → sparse_state → Except Err sparse_state
  | 0, st => pure st
  | count + 1, st => do
    let (ndelta, l) ← sparse_filter st.g st.delta st.ndelta st.l st.last
    if l = 0 then pure { st with ndelta := ndelta, l := l }
    else do
      let r ← cmod (E.genrandint st.g.rc) l
      let last ← rd ndelta r
      let g ← g_assign { st.g with rc := st.g.rc + 1 } last.i last.j
      sparse_loop E count { g := g, delta := ndelta, ndelta := st.delta,
                            swapped := !st.swapped, l := l, last := last }

/-- The function `sparse_phase2`. -/
def sparse_phase2 (E : env) (g : grasp) : Except Err grasp := do
  let (d, l) ← sparse_collect g
  let g := { g with d := d }
  if l = 0 then pure g
  else do
    let r ← cmod (E.genrandint g.rc) l
    let last ← rd g.d r
    let g ← g_assign { g with rc := g.rc + 1 } last.i last.j
    let st ← sparse_loop E (g.q.n - 3)
      { g := g, delta := g.d, ndelta := g.f, swapped := false, l := l, last := last }
    if st.swapped then pure { st.g with d := st.ndelta, f := st.delta }
    else pure { st.g with d := st.delta, f := st.ndelta }

/-- The enumeration loop of a round of `phase2`: all free `(i,j)` are stored
with their relative cost in `g->f[0..l)`. -/
def phase2_collect (g : grasp) : Except Err (List pair × Nat) :=
  for_loop (fun i st => for_loop (fun j (st : List pair × Nat) => do
      let di ← rd g.done i
      if di = 0 then do
        let lj ← rd g.ldone j
        if lj = 0 then do
          let c ← g_compute_cost g i j
          let f ← wr st.1 st.2 ⟨c, i, j⟩
          pure (f, st.2 + 1)
        else pure st
      else pure st) 0 g.q.n st) 0 g.q.n (g.f, 0)

/-- One round of the completion loop of `phase2`. -/
def phase2_round (E : env) (g : grasp) : Except Err grasp := do
  let (f, l) ← phase2_collect g
  let f0 ← rd f 0
  let f ← wr f l f0
  let f ← heap_sort pairinc f l
  let p := g.alpha.scale l
  let p := if p = 0 then p + 1 else p
  let pos ← cmod (E.genrandint g.rc) p
  let pos := pos + 1
  let g := { g with f := f, rc := g.rc + 1 }
  let fp ← rd g.f pos
  g_assign g fp.i fp.j

/-- The function `phase2`. -/
def phase2 (E : env) (g : grasp) : Except Err grasp := do
  let i ← rd g.assigned 0
  let j ← rd g.s.p i
  let k ← rd g.assigned 1
  let l ← rd g.s.p k
  let x ← rdm g.q.F i k
  let y ← rdm g.q.D j l
  let g ← (if imul x y = 0 then sparse_phase2 E g else pure g)
  let max := g.q.n - g.n_assigned - 1
  for_loop (fun _ g => phase2_round E g) 0 max g

/-- The function `constructor`. -/
def constructor (E : env) (g : grasp) : Except Err grasp := do
  let g ← phase1 E g
  let g ← phase2 E g
  let s ← qs_objective g.s g.q
  pure { g with s := s }

/-- The function `g_improvement`. -/
def g_improvement (s : qap_sol) (q : qap_inst) (i j : Nat) : Except Err Int := do
  let xgain ← for_loop (fun k xgain =>
      if k ≠ i ∧ k ≠ j then do
        let dki ← rdm q.D k i
        let dkj ← rdm q.D k j
        let ak ← rd s.p k
        let ai ← rd s.p i
        let aj ← rd s.p j
        let fki ← rdm q.F ak ai
        let fkj ← rdm q.F ak aj
        let dik ← rdm q.D i k
        let djk ← rdm q.D j k
        let fik ← rdm q.F ai ak
        let fjk ← rdm q.F aj ak
        pure (iadd xgain (iadd (imul (isub dki dkj) (isub fki fkj))
          (imul (isub dik djk) (isub fik fjk))))
      else pure xgain) 0 q.n (0 : Int)
  let dij ← rdm q.D i j
  let dji ← rdm q.D j i
  let ai ← rd s.p i
  let aj ← rd s.p j
  let fij ← rdm q.F ai aj
  let fji ← rdm q.F aj ai
  pure (iadd xgain (imul (isub dij dji) (isub fij fji)))

/-- The test `g->max_time > 0 && get_time() >= g->max_time`; the timer is read
only when `max_time > 0`. -/
def timed_out (E : env) (g : grasp) : Bool × grasp :=
  if g.max_time > 0 then (decide (E.get_time g.tc ≥ g.max_time), { g with tc := g.tc + 1 })
  else (false, g)

/-- One pass `for (i = 0; i < n - 1; i++)` of `local_search`.  The state holds
the engine, the flag `change` and whether the function has returned. -/
def local_search_pass (E : env) (g : grasp) : Except Err (grasp × Bool × Bool) :=
  for_loop (fun i (st : grasp × Bool × Bool) =>
      if st.2.2 then pure st
      else
        let (t, g) := timed_out E st.1
        if t then pure (g, st.2.1, true)
        else for_loop (fun t (st : grasp × Bool × Bool) => do
            let j := i + 1 + t
            let cost ← g_improvement st.1.s st.1.q i j
            if cost > 0 then do
              let s ← qs_swap st.1.s i j
              pure ({ st.1 with s := { s with cost := isub s.cost cost } }, true, st.2.2)
            else pure st) 0 (g.q.n - (i + 1)) (g, st.2.1, false))
    0 (g.q.n - 1) (g, false, false)

/-- The function `local_search`. -/
def local_search (E : env) : Nat → grasp → Except Err grasp
  | 0, _ => .error .fuel
  | fuel + 1, g => do
    let (g, change, returned) ← local_search_pass E g
    if returned then pure g
    else if change then local_search E fuel g
    else pure g

/-- The function `update`. -/
def update (g : grasp) : Except Err grasp :=
  if g.s.cost < g.best.cost then do
    let best ← qs_copy g.best g.s
    pure { g with best := best, last_improv_iter := g.curr_iter }
  else pure g

/-- The `do .. while (p == q)` loop of `ls_step`. -/
def ls_step_draw (E : env) (n p : Nat) : Nat → Nat → Except Err (Nat × Nat)
  | 0, _ => .error .fuel
  | fuel + 1, rc => do
    let q ← cmod (E.genrandint rc) n
    if p = q then ls_step_draw E n p fuel (rc + 1)
    else pure (q, rc + 1)

/-- The function `ls_step`. -/
def ls_step (E : env) (fuel : Nat) (g : grasp) : Except Err grasp := do
  let n := g.q.n
  let p ← cmod (E.genrandint g.rc) n
  let (q, rc) ← ls_step_draw E n p fuel (g.rc + 1)
  let imp ← g_improvement g.s g.q p q
  let s := { g.s with cost := isub g.s.cost imp }
  let s ← qs_swap s p q
  pure { g with s := s, rc := rc }

/-! ## qappr.h, qappr.c -/

/-- The constant `MAX_ITER_NO_IMPROV`. -/
def MAX_ITER_NO_IMPROV : Int := 20

/-- The constant `MIN_DIFF`. -/
def MIN_DIFF : Nat := 3

/-- The struct `elite` (the back pointer `g` is passed explicitly instead). -/
structure elite where
  size : Nat
  cur_size : Nat
  worst : Nat
  best : Nat
  sol : List qap_sol
  diff : List Nat
deriving DecidableEq, Repr

/-- The function `pr_new`; a negative `size` makes the allocation of the slot
array fail (`none`), as does a failing `qs_new` when there is a slot to fill. -/
def pr_new (E : env) (g : grasp) (size : Int) : Option elite :=
  if size < 0 then none
  else if size = 0 then
    some { size := 0, cur_size := 0, worst := 0, best := 0, sol := [], diff := [] }
  else
    match qs_new E g.q.n with
    | some s =>
      some { size := size.toNat, cur_size := 0, worst := 0, best := 0,
             sol := List.replicate size.toNat s, diff := List.replicate size.toNat 0 }
    | none => none

/-- The function `pr_copy`: copy `e2` into `e`. -/
def pr_copy (e e2 : elite) : Except Err elite := do
  let sol ← for_loop (fun i sol => do
      let dst ← rd sol i
      let src ← rd e2.sol i
      let c ← qs_copy dst src
      wr sol i c) 0 e2.cur_size e.sol
  pure { e with sol := sol, size := e2.size, cur_size := e2.cur_size,
                worst := e2.worst, best := e2.best }

/-- The `while (nochange < 20)` loop of `pr_local_search`; `p` and `q` are the
locals of the same name (their initial value is never used). -/
def pr_local_search_loop (E : env) : Nat → grasp → Nat → Nat → Nat → Except Err grasp
  | 0, _, _, _, _ => .error .fuel
  | fuel + 1, g, nochange, p, q =>
    if nochange < 20 then
      let (t, g) := timed_out E g
      if t then pure g
      else do
        let i ← cmod (E.genrandint g.rc) g.q.n
        let g := { g with rc := g.rc + 1 }
        let (best, p, q) ← for_loop (fun j (st : Int × Nat × Nat) =>
            if j ≠ i then do
              let cost ← g_improvement g.s g.q i j
              if cost > st.1 then pure (cost, i, j) else pure st
            else pure st) 0 g.q.n (0, p, q)
        if best > 0 then do
          let s ← qs_swap g.s p q
          pr_local_search_loop E fuel { g with s := { s with cost := isub s.cost best } } 0 p q
        else pr_local_search_loop E fuel g (nochange + 1) p q
    else pure g

/-- The function `pr_local_search`. -/
def pr_local_search (E : env) (fuel : Nat) (g : grasp) : Except Err grasp :=
  pr_local_search_loop E fuel g 0 0 0

/-- The function `extra_ls`. -/
def extra_ls (E : env) (fuel : Nat) (g : grasp) : Except Err grasp :=
  for_loop (fun _ g => do
      let g ← pr_local_search E fuel g
      let g ← update g
      let g ← ls_step E fuel g
      ls_step E fuel g) 0 10 g

/-- The locals of `execute_pr` together with the engine. -/
structure pr_state where
  g : grasp
  s : qap_sol
  sbest : qap_sol
  prev : qap_sol
  lopt : qap_sol
  cpp : Int
  cp : Int

/-- The object the pointer `s2` of `execute_pr` refers to: a solution of its
own, or (`none`) the engine's working solution `g->s` itself, as in the call
made by `pr_rev_run`. -/
def deref (s2 : Option qap_sol) (g : grasp) : qap_sol :=
  match s2 with
  | some s => s
  | none => g.s

/-- The body of the walk of `execute_pr` at position `i`. -/
def execute_pr_step (E : env) (fuel : Nat) (s2 : Option qap_sol) (i : Nat) (st : pr_state) :
    Except Err pr_state := do
  let si ← rd st.s.p i
  let ei ← rd (deref s2 st.g).p i
  if si ≠ ei then do
    let cpp := st.cp
    let cp := st.s.cost
    let prev ← qs_copy st.prev st.s
    let ei ← rd (deref s2 st.g).p i
    let j ← rd st.s.rev ei
    let improv ← g_improvement st.s st.g.q i j
    let s ← qs_swap st.s i j
    let s := { s with cost := isub s.cost improv }
    let (g, sbest) ←
      (if s.cost < st.sbest.cost then do
        let gs ← qs_copy st.g.s s
        let g ← pr_local_search E fuel { st.g with s := gs }
        let sbest ← qs_copy st.sbest g.s
        pure (g, sbest)
      else pure (st.g, st.sbest))
    let lopt ←
      (if cpp ≠ -1 ∧ cp < cpp ∧ cp < s.cost ∧ (st.lopt.cost = -1 ∨ cp < st.lopt.cost) then
        qs_copy st.lopt prev
      else pure st.lopt)
    pure { g := g, s := s, sbest := sbest, prev := prev, lopt := lopt, cpp := cpp, cp := cp }
  else pure st

/-- The function `execute_pr`; the result is the returned status and the engine. -/
def execute_pr (E : env) (fuel : Nat) (s1 : qap_sol) (s2 : Option qap_sol) (g : grasp) :
    Except Err (Int × grasp) :=
  match qs_new E s1.n, qs_new E s1.n, qs_new E s1.n, qs_new E s1.n with
  | some prev, some lopt, some s, some sbest => do
    let n := g.s.n
    let lopt := { lopt with cost := -1 }
    let s ← qs_copy s s1
    let sbest ← qs_copy sbest s1
    let st ← for_loop (execute_pr_step E fuel s2) 0 n
      { g := g, s := s, sbest := sbest, prev := prev, lopt := lopt, cpp := -1, cp := -1 }
    let gs ←
      (if st.sbest.cost < (deref s2 st.g).cost then qs_copy st.g.s st.sbest
      else if st.lopt.cost > -1 then qs_copy st.g.s st.lopt
      else qs_copy st.g.s st.sbest)
    pure (1, { st.g with s := gs })
  | _, _, _, _ => pure (0, g)

/-- The last loop of `pr_get_guiding_sol`: `for (i = 0; i < size && r > diff[i]; i++);`
with `count` slots left to look at. -/
def guiding_scan (diff : List Nat) (r : Nat) : Nat → Nat → Except Err Nat
  | 0, i => pure i
  | count + 1, i => do
    let d ← rd diff i
    if r > d then guiding_scan diff r count (i + 1) else pure i

/-- The function `pr_get_guiding_sol`; the result is the index, the pool (its
`diff` array is written) and the random cursor. -/
def pr_get_guiding_sol (E : env) (e : elite) (sol : qap_sol) (rc : Nat) :
    Except Err (Nat × elite × Nat) := do
  let (diff, total) ← for_loop (fun i (st : List Nat × Nat) => do
      let m ← rd e.sol i
      let v ← qs_similarity sol m
      let diff ← wr st.1 i v
      let x ← rd diff i
      pure (diff, st.2 + x)) 0 e.size (e.diff, 0)
  let diff ← for_loop (fun i diff => do
      let x ← rd diff i
      let y ← rd diff (i - 1)
      wr diff i (x + y)) 1 (e.size - 1) diff
  let r ← cmod (E.genrandint rc) total
  let i ← guiding_scan diff r e.size 0
  pure (i, { e with diff := diff }, rc + 1)

/-- The function `pr_rev_run`. -/
def pr_rev_run (E : env) (fuel : Nat) (e : elite) (g : grasp) : Except Err (elite × grasp) :=
  if e.cur_size = e.size then do
    let (guide, e, rc) ← pr_get_guiding_sol E e g.s g.rc
    let g := { g with rc := rc }
    let s1 ← rd e.sol guide
    let (_, g) ← execute_pr E fuel s1 none g
    pure (e, g)
  else pure (e, g)

/-- The function `pr_insert_sol`. -/
def pr_insert_sol (e : elite) (g : grasp) : Except Err elite := do
  let slot ← rd e.sol e.cur_size
  let c ← qs_copy slot g.s
  let sol ← wr e.sol e.cur_size c
  let e := { e with sol := sol }
  let e ←
    (if e.cur_size > 0 then do
      let cur ← rd e.sol e.cur_size
      let w ← rd e.sol e.worst
      let e := if cur.cost > w.cost then { e with worst := e.cur_size } else e
      let cur ← rd e.sol e.cur_size
      let b ← rd e.sol e.best
      pure (if cur.cost < b.cost then { e with best := e.cur_size } else e)
    else pure e)
  pure { e with cur_size := e.cur_size + 1 }

/-- The function `pr_run`. -/
def pr_run (E : env) (fuel : Nat) (e : elite) (g : grasp) : Except Err (elite × grasp) :=
  if e.cur_size < e.size then do
    let reject ← for_loop (fun i (reject : Bool) => do
        let m ← rd e.sol i
        let v ← qs_similarity g.s m
        pure (if v < MIN_DIFF then true else reject)) 0 e.cur_size false
    if !reject then do
      let e ← pr_insert_sol e g
      pure (e, g)
    else pure (e, g)
  else do
    let (guide, e, rc) ← pr_get_guiding_sol E e g.s g.rc
    let g := { g with rc := rc }
    let s2 ← rd e.sol guide
    let (_, g) ← execute_pr E fuel g.s (some s2) g
    pure (e, g)

/-- The function `pr_sol_in_e`; once a slot matches, the function has returned
and no further slot is read. -/
def pr_sol_in_e (e : elite) (s : qap_sol) : Except Err Bool :=
  for_loop (fun i (found : Bool) =>
      if found then pure true
      else do
        let m ← rd e.sol i
        if m.cost = s.cost then pure true
        else do
          let v ← qs_similarity m s
          pure (decide (v < MIN_DIFF))) 0 e.size false

/-- The comparison `pr_compar` handed to `qsort`: `-1` puts the larger cost first. -/
def pr_compar (sa sb : qap_sol) : Int :=
  if sa.cost > sb.cost then -1 else if sa.cost < sb.cost then 1 else 0

/-- Insertion of one element for `qsort` below. -/
def qsort_insert (x : qap_sol) : List qap_sol → List qap_sol
  | [] => [x]
  | y :: ys => if pr_compar y x ≤ 0 then y :: qsort_insert x ys else x :: y :: ys

/-- The library call `qsort(scp, size, .., pr_compar)`, as an insertion sort
from the last entry to the first.  C leaves the order of entries that compare
equal open; here they come out in the reverse of their order in the array. -/
def qsort (l : List qap_sol) : List qap_sol :=
  l.foldr qsort_insert []

/-- The inner loop `while (e->sol[j]->cost == -1 && i<j) j--;` of the compaction. -/
def compact_skip (sol : List qap_sol) (i : Nat) : Nat → Nat → Except Err Nat
  | 0, _ => .error .fuel
  | fuel + 1, j => do
    let m ← rd sol j
    if m.cost = -1 ∧ i < j then compact_skip sol i fuel (j - 1) else pure j

/-- The compaction loop `for (i=0, j=e->size-1; i < j; i++)` of
`mark_half_set_infinite`. -/
def compact_loop : Nat → List qap_sol → Nat → Nat → Except Err (List qap_sol)
  | 0, _, _, _ => .error .fuel
  | fuel + 1, sol, i, j =>
    if i < j then do
      let m ← rd sol i
      if m.cost = -1 then do
        let j ← compact_skip sol i (j + 1) j
        if i ≥ j then compact_loop fuel sol (i + 1) j
        else do
          let a ← rd sol i
          let b ← rd sol j
          let sol ← wr sol i b
          let sol ← wr sol j a
          compact_loop fuel sol (i + 1) (j - 1)
      else compact_loop fuel sol (i + 1) j
    else pure sol

/-- The function `mark_half_set_infinite`; the result is the returned status,
the pool and the engine.  The copies `scp[i]` are built from a fresh solution
each; when `qs_new` fails for the first one the function returns 0. -/
def mark_half_set_infinite (E : env) (e : elite) (g : grasp) :
    Except Err (Int × elite × grasp) :=
  if e.size > 0 ∧ (qs_new E g.q.n).isNone then pure (0, e, g)
  else do
    let fresh := (qs_new E g.q.n).getD ⟨0, [], [], E.junk⟩
    let scp ← for_loop (fun i (scp : List qap_sol) => do
        let m ← rd e.sol i
        let c ← qs_copy fresh m
        pure (scp ++ [{ c with n := i }])) 0 e.size []
    let scp := qsort scp
    let e ← for_loop (fun i (e : elite) => do
        let c ← rd scp i
        let m ← rd e.sol c.n
        let sol ← wr e.sol c.n { m with cost := -1 }
        pure { e with sol := sol, cur_size := e.cur_size - 1 }) 0 (e.size / 2) e
    let sol ← compact_loop (e.size + 1) e.sol 0 (e.size - 1)
    let e := { e with sol := sol }
    let (e, _, _) ← for_loop (fun i (st : elite × Int × Int) => do
        let m ← rd st.1.sol i
        let st := if m.cost < st.2.1 then ({ st.1 with best := i }, m.cost, st.2.2) else st
        let m ← rd st.1.sol i
        pure (if m.cost > st.2.2 then ({ st.1 with worst := i }, st.2.1, m.cost) else st))
      0 e.cur_size (e, 999999, 0)
    pure (1, e, { g with last_improv_iter := g.curr_iter })

/-- The search of `pr_update` for the slot to replace: the state is `diff`,
`position` and the random cursor. -/
def pr_update_position (E : env) (e : elite) (g : grasp) : Except Err (Nat × Nat × Nat) :=
  for_loop (fun i (st : Nat × Nat × Nat) => do
      let m ← rd e.sol i
      if m.cost ≥ g.s.cost then do
        let sim ← qs_similarity m g.s
        let st := if st.1 > sim then (sim, i, st.2.2) else st
        if st.1 = sim then do
          let c ← cmod (E.genrandint st.2.2) 2
          pure (if c = 0 then (st.1, i, st.2.2 + 1) else (st.1, st.2.1, st.2.2 + 1))
        else pure st
      else pure st) 0 e.size (g.s.n + 1, 0, g.rc)

/-- The function `pr_update`. -/
def pr_update (E : env) (e : elite) (g : grasp) : Except Err (elite × grasp) :=
  if e.cur_size ≠ e.size then pure (e, g)
  else do
    let b ← rd e.sol e.best
    let admit1 := decide (g.s.cost < b.cost)
    let admit2 ←
      (if admit1 then pure true
      else do
        let w ← rd e.sol e.worst
        if g.s.cost < w.cost then do
          let within ← pr_sol_in_e e g.s
          pure (!within)
        else pure false)
    if admit2 then do
      let (_, position, rc) ← pr_update_position E e g
      let g := { g with rc := rc }
      let slot ← rd e.sol position
      let c ← qs_copy slot g.s
      let sol ← wr e.sol position c
      let e := { e with sol := sol }
      let b ← rd e.sol e.best
      let e := if g.s.cost < b.cost then { e with best := position } else e
      let w ← rd e.sol e.worst
      let e := if g.s.cost > w.cost then { e with worst := position } else e
      pure (e, g)
    else if g.curr_iter - g.last_improv_iter ≥ MAX_ITER_NO_IMPROV then do
      let (_, e, g) ← mark_half_set_infinite E e g
      pure (e, g)
    else pure (e, g)

/-- The function `call_pr`. -/
def call_pr (E : env) (fuel : Nat) (s1 s2 : qap_sol) (e : elite) (g : grasp) :
    Except Err (elite × grasp) := do
  let (_, g) ← execute_pr E fuel s1 (some s2) g
  if e.cur_size < e.size then do
    let e ← pr_insert_sol e g
    pure (e, g)
  else do
    let (e, g) ← pr_update E e g
    let g ← update g
    pure (e, g)

/-- One sweep of `pr_post_optimization` over all ordered pairs of `ecp`. -/
def post_sweep (E : env) (fuel : Nat) (ecp e : elite) (g : grasp) : Except Err (elite × grasp) :=
  for_loop (fun i st => for_loop (fun j (st : elite × grasp) =>
      if i = j then pure st
      else do
        let a ← rd ecp.sol i
        let b ← rd ecp.sol j
        let st ← call_pr E fuel a b st.1 st.2
        let b ← rd ecp.sol j
        let a ← rd ecp.sol i
        call_pr E fuel b a st.1 st.2) 0 e.size st) 0 e.size (e, g)

/-- The `while (change)` loop of `pr_post_optimization`. -/
def post_loop (E : env) (fuel : Nat) : Nat → elite → elite → grasp →
    Except Err (elite × elite × grasp)
  | 0, _, _, _ => .error .fuel
  | k + 1, ecp, e, g => do
    let ecp ← pr_copy ecp e
    let e := { e with cur_size := 0 }
    let cost := g.best.cost
    let (e, g) ← post_sweep E fuel ecp e g
    if g.best.cost < cost then post_loop E fuel k ecp e g
    else pure (ecp, e, g)

/-- The function `pr_post_optimization`; the result is the returned status, the
pool and the engine. -/
def pr_post_optimization (E : env) (fuel : Nat) (e : elite) (g : grasp) :
    Except Err (Int × elite × grasp) :=
  match pr_new E g e.size with
  | none => pure (0, e, g)
  | some ecp =>
    if e.cur_size < e.size then pure (0, e, g)
    else do
      let (_, e, g) ← post_loop E fuel fuel ecp e g
      pure (1, e, g)

/-- The function `pr_diversity`. -/
def pr_diversity (e : elite) : Except Err Nat :=
  for_loop (fun i d => for_loop (fun j d => do
      let a ← rd e.sol i
      let b ← rd e.sol j
      let v ← qs_similarity a b
      pure (d + v)) 0 e.cur_size d) 0 e.cur_size 0

/-! ## qap_grasppr.c -/

/-- The constant `ERROR_CODE`. -/
def ERROR_CODE : Int := -1

/-- The constant `MIN_DIMENSION`. -/
def MIN_DIMENSION : Int := 2

/-- The main loop of `run_grasp_pr`, `count` iterations left; a `break` ends it. -/
def main_loop (E : env) (fuel : Nat) : Nat → elite → grasp → Except Err (elite × grasp)
  | 0, e, g => pure (e, g)
  | count + 1, e, g =>
    let g := { g with curr_iter := g.curr_iter + 1 }
    if g.l4 ≥ 0 ∧ g.l4 < g.best.cost then pure (e, g)
    else
      let (t, g) := timed_out E g
      if t then pure (e, g)
      else do
        let g ← constructor E g
        let g ← extra_ls E fuel g
        let (e, g) ← pr_run E fuel e g
        let (e, g) ← pr_rev_run E fuel e g
        let (e, g) ← pr_update E e g
        let g ← update g
        main_loop E fuel count e g

/-- The function `run_grasp_pr`; the result is the returned value and the
engine as the caller finds it afterwards. -/
def run_grasp_pr (E : env) (fuel : Nat) (param : grasp) (max_iter : Int) :
    Except Err (Int × grasp) :=
  match pr_new E param param.elite_size with
  | none => pure (-1, param)
  | some elite_set => do
    let param := { param with curr_iter := 0 }
    let best ← qs_objective param.best param.q
    let param := { param with best := best }
    let (elite_set, param) ← main_loop E fuel max_iter.toNat elite_set param
    let (_, _, param) ← pr_post_optimization E fuel elite_set param
    let param ← update param
    pure (param.best.cost, param)

/-- What a JNI entry point leaves behind: the returned `jlong` and the two
arrays it may write. -/
structure jni_result where
  ret : Int
  sol : List Int
  in_out : List Int
deriving DecidableEq, Repr

/-- The function `Java_arrayopt_qap_GraspPathRelinking_qap_1grasppr`.  The seed
`io[0]` selects the stream `E.genrandint` (`sgenrand`). -/
def qap_grasppr (E : env) (fuel : Nat) (n : Int) (flow dist sol : List Int)
    (alpha beta : cfloat) (runs max_itr look4 elite_size max_time : Int)
    (in_out : List Int) : Except Err jni_result :=
  if n < MIN_DIMENSION then pure ⟨ERROR_CODE, sol, in_out⟩
  else do
    let _n2 := n * n
    let _seed ← rd in_out 0
    let _runs := runs
    let qap_data ← qi_new n.toNat flow dist
    match g_new E qap_data with
    | none => pure ⟨-1, sol, in_out⟩
    | some g => do
      let grasp_param := { g with alpha := alpha, beta := beta, elite_size := elite_size,
                                  max_time := max_time, l4 := look4, curr_prog_iter := 1,
                                  print := 0, print2 := 0, ralpha := 0, no_pr := 0 }
      let (best_cost, grasp_param) ← run_grasp_pr E fuel grasp_param max_itr
      let s ← for_loop (fun i s => do
          let v ← rd grasp_param.best.p i
          wr s i (v : Int)) 0 n.toNat sol
      let io ← wr in_out 1 grasp_param.curr_iter
      pure ⟨best_cost, s, io⟩

/-! ## qap_graspd.c, qap_grasps.c -/

/-- What the Fortran subroutine `gqapd` / `gqaps` (not part of the sources)
hands back: the seed, the best permutation, its value and the iteration count. -/
structure fortran_result where
  seed : Int
  opta : List Int
  bestv : Int
  iter : Int

/-- The function `Java_arrayopt_qap_GraspDense_qap_1graspd`, over the Fortran
subroutine `gqapd` it calls. -/
def qap_graspd (gqapd : Int → Int → Int → cfloat → cfloat → Int → Int → List Int → List Int →
      List Int → fortran_result)
    (n niter : Int) (alpha beta : cfloat) (look4 : Int) (dist flow sol in_out : List Int) :
    Except Err jni_result :=
  if n < MIN_DIMENSION then pure ⟨ERROR_CODE, sol, in_out⟩
  else do
    let n2 := n * n
    let seed ← rd in_out 0
    let r := gqapd n n2 niter alpha beta look4 seed flow dist sol
    let io ← wr in_out 0 r.seed
    let io ← wr io 1 r.iter
    pure ⟨r.bestv, r.opta, io⟩

/-- The function `Java_arrayopt_qap_GraspSparse_qap_1grasps`, over the Fortran
subroutine `gqaps` it calls. -/
def qap_grasps (gqaps : Int → Int → Int → cfloat → cfloat → Int → Int → List Int → List Int →
      List Int → fortran_result)
    (n niter : Int) (alpha beta : cfloat) (look4 : Int) (dist flow sol in_out : List Int) :
    Except Err jni_result :=
  if n < MIN_DIMENSION then pure ⟨ERROR_CODE, sol, in_out⟩
  else do
    let n2 := n * n
    let seed ← rd in_out 0
    let r := gqaps n n2 niter alpha beta look4 seed flow dist sol
    let io ← wr in_out 0 r.seed
    let io ← wr io 1 r.iter
    pure ⟨r.bestv, r.opta, io⟩

/-! ## Vocabulary of the statements -/

open Finset

/-- The entry `a[i]`, with a default outside the array. -/
def sel {α : Type} [Inhabited α] (a : List α) (i : Nat) : α := (a[i]?).getD default

/-- The predicate `Valid(s)`: `p` and `rev` have `n` entries, `p` maps `0..n-1`
injectively into `0..n-1`, and `rev[p[i]] = i`. -/
def Valid (s : qap_sol) : Prop :=
  s.p.length = s.n ∧ s.rev.length = s.n ∧
  (∀ i, i < s.n → sel s.p i < s.n) ∧
  (∀ i, i < s.n → ∀ j, j < s.n → sel s.p i = sel s.p j → i = j) ∧
  (∀ i, i < s.n → sel s.rev (sel s.p i) = i)

instance (s : qap_sol) : Decidable (Valid s) := by
  unfold Valid; infer_instance

/-- Both arrays of a solution have `n` entries. -/
def Shaped (s : qap_sol) : Prop := s.p.length = s.n ∧ s.rev.length = s.n

instance (s : qap_sol) : Decidable (Shaped s) := by
  unfold Shaped; infer_instance

/-- The list `p` with the entries at `a` and `b` exchanged. -/
def swp (p : List Nat) (a b : Nat) : List Nat := (p.set a (sel p b)).set b (sel p a)

/-- The list `p` has `n` entries and maps `0..n-1` injectively into `0..n-1`. -/
def IsPerm (p : List Nat) (n : Nat) : Prop :=
  p.length = n ∧ (∀ i, i < n → sel p i < n) ∧
  (∀ i, i < n → ∀ j, j < n → sel p i = sel p j → i = j)

/-- The exchange of positions `i` and `j` applied to the map `p`, in the order
the code writes: position `j` receives `p i`, position `i` receives `p j`. -/
def exch (p : Nat → Nat) (i j : Nat) : Nat → Nat :=
  fun k => if k = j then p i else if k = i then p j else p k

/-- The objective `C(p) = sum over i, j < n of d i j * f (p i) (p j)`. -/
def objf (n : Nat) (d f : Nat → Nat → Int) (p : Nat → Nat) : Int :=
  ∑ a in range n, ∑ b in range n, d a b * f (p a) (p b)

/-- The value `g_improvement` accumulates, as one sum. -/
def gainf (n : Nat) (d f : Nat → Nat → Int) (p : Nat → Nat) (i j : Nat) : Int :=
  (∑ k in range n, if k ≠ i ∧ k ≠ j then
      (d k i - d k j) * (f (p k) (p i) - f (p k) (p j)) +
      (d i k - d j k) * (f (p i) (p k) - f (p j) (p k)) else 0) +
  (d i j - d j i) * (f (p i) (p j) - f (p j) (p i))

/-- The cell `D[i][j]` of an instance. -/
def Dv (q : qap_inst) (i j : Nat) : Int := sel (sel q.D i) j

/-- The cell `F[i][j]` of an instance. -/
def Fv (q : qap_inst) (i j : Nat) : Int := sel (sel q.F i) j

/-- Both matrices of the instance are `n` by `n`. -/
def WF (q : qap_inst) : Prop :=
  q.F.length = q.n ∧ q.D.length = q.n ∧
  ∀ i, i < q.n → (sel q.F i).length = q.n ∧ (sel q.D i).length = q.n

instance (q : qap_inst) : Decidable (WF q) := by
  unfold WF; infer_instance

/-- The objective `C(p)` of the instance `q` for the permutation stored in `p`. -/
def objective (q : qap_inst) (p : List Nat) : Int := objf q.n (Dv q) (Fv q) (sel p)

/-- An instance with `n = 3` used to instantiate statements. -/
def inst3 : qap_inst := ⟨3, [[0, 1, 2], [3, 0, 4], [5, 6, 0]], [[1, 2, 0], [0, 2, 1], [3, 0, 2]]⟩

/-- A valid solution with `n = 3`, `p = (2,0,1)`, used to instantiate statements. -/
def sol3 : qap_sol := ⟨3, [2, 0, 1], [1, 2, 0], 7⟩

/-- A stream of random values and of timer readings with junk 2, used to
evaluate runs: the `k`-th random value is `k`. -/
def env_id : env := ⟨fun k => k, fun _ => 0, 2⟩

/-- The parameter `alpha = 0.25`: `(int)(k * 0.25)` is `k / 4`. -/
def quarter : cfloat := ⟨fun k => k / 4⟩

/-- The parameter `beta = 0.5`: `(int)(k * 0.5)` is `k / 2`. -/
def half : cfloat := ⟨fun k => k / 2⟩

/-- The macros of a heap-sort family never leave the array on indices up to
`bound` and keep the property `inv` of the array state. -/
def HeapSafe {σ : Type} (H : heap_ops σ) (inv : σ → Prop) (bound : Nat) : Prop :=
  (∀ a p q, inv a → p ≤ bound → q ≤ bound → ∃ c, H.heap_compare a p q = Except.ok c) ∧
  (∀ a p q, inv a → p ≤ bound → q ≤ bound → ∃ a', H.heap_swap a p q = Except.ok a' ∧ inv a')

/-- The array has at least `len` entries and each of the first `len` satisfies `P`. -/
def AllP {α : Type} [Inhabited α] (P : α → Prop) (len : Nat) (a : List α) : Prop :=
  len ≤ a.length ∧ ∀ k, k < len → P (sel a k)

/-- The pair names an off-diagonal cell of an `n` by `n` matrix. -/
def OffDiag (n : Nat) (x : pair) : Prop := x.i < n ∧ x.j < n ∧ x.i ≠ x.j

/-- The matrix `m` is `n` by `n`. -/
def Square (n : Nat) (m : List (List Int)) : Prop :=
  m.length = n ∧ ∀ i, i < n → (sel m i).length = n

/-- The static shape of an engine: a well-formed instance with `n >= 2`, a
working solution of the same `n`, buffers of the allocated sizes, and
parameters `alpha`, `beta` at most 1. -/
def Buffers (g : grasp) : Prop :=
  WF g.q ∧ 2 ≤ g.q.n ∧ g.s.n = g.q.n ∧
  g.f.length = g.q.n * g.q.n - g.q.n + 1 ∧ g.d.length = g.q.n * g.q.n - g.q.n + 1 ∧
  g.assigned.length = g.q.n ∧ g.done.length = g.q.n ∧ g.ldone.length = g.q.n ∧
  (∀ k, g.alpha.scale k ≤ k) ∧ (∀ k, g.beta.scale k ≤ k)

/-- The bookkeeping of one construction: the working solution is valid, the
first `n_assigned` entries of `assigned` are distinct positions, `done` marks
exactly these positions and `ldone` marks exactly the values placed there. -/
def Marks (g : grasp) : Prop :=
  Valid g.s ∧ g.n_assigned ≤ g.q.n ∧
  (∀ t, t < g.n_assigned → sel g.assigned t < g.q.n) ∧
  (∀ t, t < g.n_assigned → ∀ u, u < g.n_assigned →
    sel g.assigned t = sel g.assigned u → t = u) ∧
  (∀ a, a < g.q.n → (sel g.done a ≠ 0 ↔ ∃ t, t < g.n_assigned ∧ sel g.assigned t = a)) ∧
  (∀ v, v < g.q.n →
    (sel g.ldone v ≠ 0 ↔ ∃ t, t < g.n_assigned ∧ sel g.s.p (sel g.assigned t) = v))

/-- The fields of the engine that the construction and the searches leave
alone. -/
def Kept (g g' : grasp) : Prop :=
  g'.q = g.q ∧ g'.best = g.best ∧ g'.alpha = g.alpha ∧ g'.beta = g.beta ∧
  g'.max_time = g.max_time ∧ g'.elite_size = g.elite_size ∧ g'.l4 = g.l4 ∧
  g'.curr_iter = g.curr_iter ∧ g'.last_improv_iter = g.last_improv_iter

/-- The pair names a position and a value that are both still free. -/
def FreePair (g : grasp) (x : pair) : Prop :=
  x.i < g.q.n ∧ x.j < g.q.n ∧ sel g.done x.i = 0 ∧ sel g.ldone x.j = 0

/-- The cost of assigning value `q` to position `p` relative to the assignments
made so far, as `g_compute_cost` accumulates it. -/
def rel_cost (g : grasp) (p q : Nat) : Int :=
  ∑ t in range g.n_assigned,
    Fv g.q (sel g.assigned t) p * Dv g.q (sel g.s.p (sel g.assigned t)) q

/-- Both components of the pair are below `n`. -/
def InRange (n : Nat) (x : pair) : Prop := x.i < n ∧ x.j < n

/-- One of the two matrices is zero on all of its `n` by `n` cells. -/
def ZeroInst (q : qap_inst) : Prop :=
  (∀ i j, i < q.n → j < q.n → Fv q i j = 0) ∨ (∀ i j, i < q.n → j < q.n → Dv q i j = 0)

/-- Every pair that is still free occurs among the first `l` entries of `buf`. -/
def Complete (g : grasp) (buf : List pair) (l : Nat) : Prop :=
  ∀ a v, a < g.q.n → v < g.q.n → sel g.done a = 0 → sel g.ldone v = 0 →
    ∃ t, t < l ∧ (sel buf t).i = a ∧ (sel buf t).j = v

/-- The invariant of the main loop of `sparse_phase2`. -/
def SparseInv (st : sparse_state) : Prop :=
  Buffers st.g ∧ Marks st.g ∧
  st.delta.length = st.g.q.n * st.g.q.n - st.g.q.n + 1 ∧
  st.ndelta.length = st.g.q.n * st.g.q.n - st.g.q.n + 1 ∧
  st.l ≤ st.g.q.n * st.g.q.n - st.g.q.n + 1 ∧
  AllP (InRange st.g.q.n) st.l st.delta ∧ InRange st.g.q.n st.last

/-- An engine for `inst3` as `g_new` and the entry point set it up, with
`alpha = 0.25` and `beta = 0.5`, used to instantiate statements. -/
def engine3 : grasp :=
  { ralpha := 0, alpha := quarter, beta := half,
    best := ⟨3, [0, 1, 2], [0, 1, 2], 2⟩, s := ⟨3, [0, 1, 2], [0, 1, 2], 2⟩, q := inst3,
    f := List.replicate 7 ⟨2, 0, 0⟩, d := List.replicate 7 ⟨2, 0, 0⟩,
    n_assigned := 0, assigned := [0, 0, 0], done := [0, 0, 0], ldone := [0, 0, 0],
    max_time := 0, elite_size := 10, l4 := -1, print := 0, print2 := 0,
    curr_iter := 0, curr_prog_iter := 1, no_pr := 0, last_improv_iter := 0,
    rc := 0, tc := 0 }

/-- The instance with `n = 3` whose flow matrix is zero. -/
def inst3z : qap_inst := ⟨3, [[0, 0, 0], [0, 0, 0], [0, 0, 0]], [[1, 2, 0], [0, 2, 1], [3, 0, 2]]⟩

/-- The engine `engine3` over the instance `inst3z`. -/
def engine3z : grasp := { engine3 with q := inst3z }

/-- The result `x` is a value satisfying `P`, or the fuel of the embedding ran
out: no access outside an array and no division by zero happened. -/
def Good {α : Type} (x : Except Err α) (P : α → Prop) : Prop :=
  match x with
  | .ok a => P a
  | .error e => e = Err.fuel

/-- The computation `f`, given its fuel, never goes wrong and every value it
returns satisfies `P`; and when `T` holds, it returns one and the same value for
every sufficiently large fuel. -/
def Spec {α : Type} (T : Prop) (f : Nat → Except Err α) (P : α → Prop) : Prop :=
  (∀ fuel, Good (f fuel) P) ∧ (T → ∃ N a, ∀ fuel, N ≤ fuel → f fuel = Except.ok a)

/-- The stream of random values never stays on one residue modulo `n` forever:
after every position another residue comes up. -/
def Fair (E : env) (n : Nat) : Prop :=
  ∀ c p, ∃ m, E.genrandint (c + m) % n ≠ p

/-- All cells of both matrices are non-negative. -/
def NonNeg (q : qap_inst) : Prop :=
  ∀ i j, i < q.n → j < q.n → 0 ≤ Fv q i j ∧ 0 ≤ Dv q i j

/-- One of the two matrices has a constant diagonal. -/
def Neutral (q : qap_inst) : Prop :=
  (∀ i j, i < q.n → j < q.n → Dv q i i = Dv q j j) ∨
  (∀ i j, i < q.n → j < q.n → Fv q i i = Fv q j j)

/-- The diagonal part `sum over a < n of d a a * f (p a) (p a)` of the objective. -/
def diagf (n : Nat) (d f : Nat → Nat → Int) (p : Nat → Nat) : Int :=
  ∑ a in range n, d a a * f (p a) (p a)

/-- The off-diagonal part of the objective of `q` for the permutation stored
in `p`: the sum of `D[a][b] * F[p[a]][p[b]]` over `a != b`. -/
def offobj (q : qap_inst) (p : List Nat) : Int :=
  objf q.n (Dv q) (Fv q) (sel p) - diagf q.n (Dv q) (Fv q) (sel p)

/-- A bound of every cost of the instance: the sum of `|D[a][b] * F[c][d]|`
over all cells of the two matrices. -/
def span (q : qap_inst) : Int :=
  ∑ a in range q.n, ∑ b in range q.n, ∑ c in range q.n, ∑ d in range q.n,
    |Dv q a b * Fv q c d|

/-- The costs of the instance fit in an `int` with room for one difference:
twice the sum of `|D[a][b] * F[c][d]|` over all cells is below `2^31`. -/
def Fits (q : qap_inst) : Prop := 2 * span q < 2147483648

instance (q : qap_inst) : Decidable (Fits q) := by
  unfold Fits; infer_instance

/-- The stored cost of the solution is within `span q` of the off-diagonal
objective of its permutation, as is a cost that `qs_objective` computed and the
deltas of swaps updated. -/
def Ranged (q : qap_inst) (s : qap_sol) : Prop :=
  offobj q s.p - span q ≤ s.cost ∧ s.cost ≤ offobj q s.p + span q

/-- The solution is valid for the instance `q`, whose costs fit in an `int`, and
its cost field tracks the objective of its permutation: it is never below the
off-diagonal part of the objective and exceeds it by `span q` at most, and it is
the objective itself when one of the two matrices has a constant diagonal. -/
def Tracked (q : qap_inst) (s : qap_sol) : Prop :=
  Valid s ∧ s.n = q.n ∧ offobj q s.p ≤ s.cost ∧ (Neutral q → s.cost = objective q s.p) ∧
  Fits q ∧ s.cost ≤ offobj q s.p + span q

/-- The engine works on the instance `q` with buffers in shape, and both its
best and its working solution are tracked. -/
def Sound (q : qap_inst) (g : grasp) : Prop :=
  g.q = q ∧ Buffers g ∧ Tracked q g.best ∧ Tracked q g.s

/-- The engine as it is before the first construction: as `Sound`, but the cost
of the working solution may be anything. -/
def Ready (q : qap_inst) (g : grasp) : Prop :=
  g.q = q ∧ Buffers g ∧ Tracked q g.best ∧ Valid g.s

/-- The engine `g'` has the instance, the parameters and the buffer sizes of `g`. -/
def SameBuf (g g' : grasp) : Prop :=
  g'.q = g.q ∧ g'.f.length = g.f.length ∧ g'.d.length = g.d.length ∧
  g'.assigned.length = g.assigned.length ∧ g'.done.length = g.done.length ∧
  g'.ldone.length = g.ldone.length ∧ g'.alpha = g.alpha ∧ g'.beta = g.beta

/-- The invariant of the walk of `execute_pr`: engine, current, best-so-far
solutions are exact; the scratch solutions have the right shape; the local
optimum is exact once it has been recorded. -/
def WalkInv (q : qap_inst) (s2 : Option qap_sol) (st : pr_state) : Prop :=
  Sound q st.g ∧ Tracked q st.s ∧ Tracked q st.sbest ∧
  Shaped st.prev ∧ st.prev.n = q.n ∧ Shaped st.lopt ∧ st.lopt.n = q.n ∧
  (st.lopt.cost > -1 → Tracked q st.lopt) ∧ (∀ x, s2 = some x → Tracked q x)

/-- The number of positions below `n` at which the lists `a` and `b` differ. -/
def simf (a b : List Nat) (n : Nat) : Nat :=
  ∑ k in range n, if sel a k ≠ sel b k then 1 else 0

/-- The pool is in shape for the instance `q`: `size >= 2` slots, each holding
a solution of the right dimensions, the indices `best` and `worst` inside the
array, and the `cur_size` members exact. -/
def Pool (q : qap_inst) (e : elite) : Prop :=
  e.sol.length = e.size ∧ e.diff.length = e.size ∧ 2 ≤ e.size ∧ e.cur_size ≤ e.size ∧
  e.best < e.size ∧ e.worst < e.size ∧
  (∀ i, i < e.size → Shaped (sel e.sol i) ∧ (sel e.sol i).n = q.n) ∧
  (∀ i, i < e.cur_size → Tracked q (sel e.sol i))

/-- No two members of the pool hold the same permutation. -/
def Distinct (e : elite) : Prop :=
  ∀ i j, i < e.cur_size → j < e.cur_size → (sel e.sol i).p = (sel e.sol j).p → i = j

/-- The slot is marked for deletion: its cost is the sentinel `-1`. -/
def marked (x : qap_sol) : Bool := decide (x.cost = -1)

/-- The scratch pool of `pr_post_optimization`: `size` slots of the right
dimensions. -/
def Slots (q : qap_inst) (size : Nat) (sol : List qap_sol) : Prop :=
  sol.length = size ∧ ∀ i, i < size → Shaped (sel sol i) ∧ (sel sol i).n = q.n

/-- Every slot of the array holds an exact solution. -/
def AllTracked (q : qap_inst) (size : Nat) (sol : List qap_sol) : Prop :=
  sol.length = size ∧ ∀ i, i < size → Tracked q (sel sol i)

/-- The operations that act on an engine and its elite pool, by name. -/
inductive engine_op where
  | construct
  | search (fuel : Nat)
  | improve
  | step (fuel : Nat)
  | pr_search (fuel : Nat)
  | extra (fuel : Nat)
  | relink (fuel : Nat) (s1 : qap_sol) (s2 : Option qap_sol)
  | run (fuel : Nat)
  | rev_run (fuel : Nat)
  | pool_update
  | call (fuel : Nat) (s1 s2 : qap_sol)
  | post (fuel : Nat)

/-- One engine operation applied to a pool and an engine: `constructor`,
`local_search`, `update`, `ls_step`, `pr_local_search`, `extra_ls`,
`execute_pr`, `pr_run`, `pr_rev_run`, `pr_update`, `call_pr` and
`pr_post_optimization`, in the order of `engine_op`. -/
def run_op (E : env) (op : engine_op) (st : elite × grasp) : Except Err (elite × grasp) :=
  match op with
  | .construct => do let g ← constructor E st.2; pure (st.1, g)
  | .search fuel => do let g ← local_search E fuel st.2; pure (st.1, g)
  | .improve => do let g ← update st.2; pure (st.1, g)
  | .step fuel => do let g ← ls_step E fuel st.2; pure (st.1, g)
  | .pr_search fuel => do let g ← pr_local_search E fuel st.2; pure (st.1, g)
  | .extra fuel => do let g ← extra_ls E fuel st.2; pure (st.1, g)
  | .relink fuel s1 s2 => do let r ← execute_pr E fuel s1 s2 st.2; pure (st.1, r.2)
  | .run fuel => pr_run E fuel st.1 st.2
  | .rev_run fuel => pr_rev_run E fuel st.1 st.2
  | .pool_update => pr_update E st.1 st.2
  | .call fuel s1 s2 => call_pr E fuel s1 s2 st.1 st.2
  | .post fuel => do let r ← pr_post_optimization E fuel st.1 st.2; pure r.2

/-- A sequence of engine operations, applied from left to right. -/
def run_ops (E : env) : List engine_op → elite × grasp → Except Err (elite × grasp)
  | [], st => pure st
  | op :: ops, st => run_op E op st >>= run_ops E ops

/-- An instance with `n = 3` whose two diagonals are not constant. -/
def instd : qap_inst := ⟨3, [[0, 0, 0], [1, 1, 1], [0, 0, 0]], [[0, 0, 1], [1, 0, 0], [0, 0, 1]]⟩

/-- The stream `env_id` with the content `-5` in every fresh `cost` field. -/
def env_low : env := ⟨fun k => k, fun _ => 0, -5⟩

/-- The arrays of the pool have the declared size and every slot holds a
solution of dimension `n` (nothing is asked of the recorded costs). -/
def Shape (n : Nat) (e : elite) : Prop :=
  e.sol.length = e.size ∧ e.cur_size ≤ e.size ∧ e.best < e.size ∧ e.worst < e.size ∧
  ∀ i, i < e.size → Shaped (sel e.sol i) ∧ (sel e.sol i).n = n

/-- Some slot of the pool has the cost of `s`, or differs from it in fewer than
`MIN_DIFF` positions. -/
def Near (e : elite) (s : qap_sol) : Prop :=
  ∃ i, i < e.size ∧ ((sel e.sol i).cost = s.cost ∨ simf (sel e.sol i).p s.p s.n < MIN_DIFF)

/-- The admission test of `pr_update`. -/
def Admitted (e : elite) (s : qap_sol) : Prop :=
  s.cost < (sel e.sol e.best).cost ∨ (s.cost < (sel e.sol e.worst).cost ∧ ¬ Near e s)

/-- Any two distinct filled slots differ in at least `MIN_DIFF` positions. -/
def MinDiff (n : Nat) (e : elite) : Prop :=
  ∀ i j, i < e.cur_size → j < e.cur_size → i ≠ j →
    MIN_DIFF ≤ simf (sel e.sol i).p (sel e.sol j).p n

/-- A full pool of three solutions of dimension 4 with costs 1, 5 and 9, whose
`best` is slot 0 and whose `worst` is slot 2. -/
def pool17 : elite :=
  ⟨3, 3, 2, 0, [⟨4, [3, 2, 1, 0], [3, 2, 1, 0], 1⟩, ⟨4, [1, 0, 3, 2], [1, 0, 3, 2], 5⟩,
    ⟨4, [1, 2, 0, 3], [2, 0, 1, 3], 9⟩], [0, 0, 0]⟩

/-- An engine whose current solution is the identity of dimension 4 with cost 3. -/
def engine17 : grasp := { engine3 with s := ⟨4, [0, 1, 2, 3], [0, 1, 2, 3], 3⟩ }

/-- A pool of size 2 that was emptied (`cur_size = 0`) while `best` and `worst`
still name slot 1. -/
def pool18 : elite :=
  ⟨2, 0, 1, 1, [⟨3, [0, 1, 2], [0, 1, 2], 4⟩, ⟨3, [1, 2, 0], [2, 0, 1], 8⟩], [0, 0]⟩

/-- A full pool of two solutions of dimension 4 that differ in all four
positions, both of cost 10. -/
def pool19 : elite :=
  ⟨2, 2, 0, 0, [⟨4, [1, 0, 2, 3], [1, 0, 2, 3], 10⟩, ⟨4, [0, 1, 3, 2], [0, 1, 3, 2], 10⟩],
    [0, 0]⟩

/-- An engine whose current solution is the identity of dimension 4 with cost 5. -/
def engine19 : grasp := { engine3 with s := ⟨4, [0, 1, 2, 3], [0, 1, 2, 3], 5⟩ }

/-- An empty pool of size 2 for `inst3`. -/
def pool_empty : elite :=
  ⟨2, 0, 0, 0, [⟨3, [0, 1, 2], [0, 1, 2], 2⟩, ⟨3, [0, 1, 2], [0, 1, 2], 2⟩], [0, 0]⟩

/-- A full pool of two solutions of dimension 3 with costs 0 and 7, whose `best`
is slot 0 and whose `worst` is slot 1. -/
def pool16 : elite :=
  ⟨2, 2, 1, 0, [⟨3, [0, 1, 2], [0, 1, 2], 0⟩, ⟨3, [2, 1, 0], [2, 1, 0], 7⟩], [0, 0]⟩

/-- A full pool of two solutions for `inst3`, with their objective values as costs. -/
def pool20 : elite :=
  ⟨2, 2, 0, 1, [⟨3, [0, 1, 2], [0, 1, 2], 21⟩, ⟨3, [1, 2, 0], [2, 0, 1], 16⟩], [0, 0]⟩

/-- The engine `engine3` with the identity and its objective value 21 as working
and best solution. -/
def engine20 : grasp :=
  { engine3 with best := ⟨3, [0, 1, 2], [0, 1, 2], 21⟩, s := ⟨3, [0, 1, 2], [0, 1, 2], 21⟩ }

/-- The two heap macros act on the content `get a i` of the state as the
comparison `key (a[p]) > key (a[q])` and as the exchange of the entries `p` and
`q`, for indices up to `B`. -/
def HeapModel {σ β : Type} (H : heap_ops σ) (inv : σ → Prop) (get : σ → Nat → β)
    (key : β → Int) (B : Nat) : Prop :=
  (∀ a p q, inv a → p ≤ B → q ≤ B →
    H.heap_compare a p q = Except.ok (decide (key (get a p) > key (get a q)))) ∧
  (∀ a p q, inv a → p ≤ B → q ≤ B → ∃ a', H.heap_swap a p q = Except.ok a' ∧ inv a' ∧
    ∀ i, get a' i = if i = p then get a q else if i = q then get a p else get a i)

/-- The keys at `1..h` form a heap: no key is larger than the key of its parent. -/
def IsHeap (K : Nat → Int) (h : Nat) : Prop :=
  ∀ x, 2 ≤ x → x ≤ h → K x ≤ K (x / 2)

/-- The keys at `1..h` form a heap except that the key at `m` may be larger than
the key of its parent. -/
def UpInv (K : Nat → Int) (m h : Nat) : Prop :=
  (∀ x y, 2 ≤ x → x ≤ h → x ≠ m → y = x / 2 → K x ≤ K y) ∧
  (∀ x y, 2 ≤ x → x ≤ h → x / 2 = m → 2 ≤ m → y = m / 2 → K x ≤ K y)

/-- The keys at `1..h` form a heap except that the key at `m` may be smaller than
the keys of its children. -/
def DownInv (K : Nat → Int) (m h : Nat) : Prop :=
  (∀ x y, 2 ≤ x → x ≤ h → x / 2 ≠ m → y = x / 2 → K x ≤ K y) ∧
  (∀ x y, 2 ≤ x → x ≤ h → x / 2 = m → 2 ≤ m → y = m / 2 → K x ≤ K y)

/-- The state of the extraction loop of heap sort: the keys at `1..m` form a
heap, the keys at `m+1..n` are in non-decreasing order, and no key of the heap
is larger than a key behind it. -/
def SortInv (K : Nat → Int) (m n : Nat) : Prop :=
  IsHeap K m ∧ (∀ i j, m < i → i ≤ j → j ≤ n → K i ≤ K j) ∧
  (∀ i j, 1 ≤ i → i ≤ m → m < j → j ≤ n → K i ≤ K j)

/-- The array `g'` holds at `1..n` the entries that `g` holds there, each as often,
and agrees with `g` at every other index. -/
def Rearr {β : Type} (g g' : Nat → β) (n : Nat) : Prop :=
  (∀ i, i = 0 ∨ n < i → g' i = g i) ∧
  ∀ f : β → Nat, ∑ i in Ioc 0 n, f (g' i) = ∑ i in Ioc 0 n, f (g i)

/-- The `t`-th off-diagonal cell of the `n` by `n` matrix `s` in row-major order,
as the triple `(s[i][j], i, j)`. -/
def cell (s : List (List Int)) (n t : Nat) : pair :=
  ⟨sel (sel s (t / (n - 1))) (if t % (n - 1) < t / (n - 1) then t % (n - 1) else t % (n - 1) + 1),
    t / (n - 1), if t % (n - 1) < t / (n - 1) then t % (n - 1) else t % (n - 1) + 1⟩

/-- A 1-based array of three pairs with costs 1, 2, 3 (entry 0 is not part of it). -/
def heap_a : List pair := [⟨0, 0, 0⟩, ⟨1, 1, 0⟩, ⟨2, 2, 0⟩, ⟨3, 3, 0⟩]

/-- The companion array of `heap_a`, every cost 1. -/
def heap_s : List pair := [⟨0, 0, 1⟩, ⟨1, 1, 1⟩, ⟨1, 2, 1⟩, ⟨1, 3, 1⟩]

/-- The closed form `Delta(i,j)` as the specification writes it: the sum over
`k` other than `i`, `j` of `(D[k][i]-D[k][j]) * (F[p k][p i]-F[p k][p j])`, plus
`(D[i][j]-D[j][i]) * (F[p i][p j]-F[p j][p i])`. -/
def delta_closed_form (n : Nat) (d f : Nat → Nat → Int) (p : Nat → Nat) (i j : Nat) : Int :=
  (∑ k in range n, if k ≠ i ∧ k ≠ j then
      (d k i - d k j) * (f (p k) (p i) - f (p k) (p j)) else 0) +
  (d i j - d j i) * (f (p i) (p j) - f (p j) (p i))

/-- The row part that `g_improvement` adds for every `k` other than `i`, `j`:
`(D[i][k]-D[j][k]) * (F[p i][p k]-F[p j][p k])`. -/
def delta_row_part (n : Nat) (d f : Nat → Nat → Int) (p : Nat → Nat) (i j : Nat) : Int :=
  ∑ k in range n, if k ≠ i ∧ k ≠ j then
    (d i k - d j k) * (f (p i) (p k) - f (p j) (p k)) else 0

/-- The symmetric instance with `n = 3` and `F = D = |i - j|`. -/
def inst_sym3 : qap_inst := ⟨3, [[0, 1, 2], [1, 0, 1], [2, 1, 0]], [[0, 1, 2], [1, 0, 1], [2, 1, 0]]⟩

/-- The function `pr_rev_run` as the specification describes it: the guiding
solution handed to `execute_pr` is a copy of the current solution, an object of
its own that the walk does not write. -/
def pr_rev_run_copy (E : env) (fuel : Nat) (e : elite) (g : grasp) :
    Except Err (elite × grasp) :=
  if e.cur_size = e.size then do
    let (guide, e, rc) ← pr_get_guiding_sol E e g.s g.rc
    let g := { g with rc := rc }
    let s1 ← rd e.sol guide
    let (_, g) ← execute_pr E fuel s1 (some g.s) g
    pure (e, g)
  else pure (e, g)

/-- An instance with `n = 3` whose flow cells sorted down are 9, 8, 7, 1, 1, 1
and whose distance cells sorted up are 1, 1, 1, 1, 2, 3. -/
def inst24 : qap_inst := ⟨3, [[0, 9, 8], [7, 0, 1], [1, 1, 0]], [[0, 1, 1], [1, 0, 1], [2, 3, 0]]⟩

/-- The engine `engine3` over `inst24`. -/
def engine24 : grasp := { engine3 with q := inst24 }

/-- A non-negative instance with `n = 4` whose matrices are not symmetric. -/
def inst26 : qap_inst :=
  ⟨4, [[0, 0, 1, 1], [1, 0, 0, 1], [0, 0, 0, 1], [0, 0, 1, 0]],
    [[0, 1, 1, 0], [0, 0, 1, 1], [1, 0, 0, 1], [0, 0, 0, 0]]⟩

/-- An engine over a given instance with `n = 4`, set up as `g_new` does. -/
def engine4 (q : qap_inst) (s : qap_sol) : grasp :=
  { ralpha := 0, alpha := quarter, beta := half,
    best := s, s := s, q := q,
    f := List.replicate 13 ⟨2, 0, 0⟩, d := List.replicate 13 ⟨2, 0, 0⟩,
    n_assigned := 0, assigned := [0, 0, 0, 0], done := [0, 0, 0, 0], ldone := [0, 0, 0, 0],
    max_time := 0, elite_size := 10, l4 := -1, print := 0, print2 := 0,
    curr_iter := 0, curr_prog_iter := 1, no_pr := 0, last_improv_iter := 0,
    rc := 0, tc := 0 }

/-- A symmetric non-negative instance with `n = 4`. -/
def inst29 : qap_inst :=
  ⟨4, [[0, 1, 3, 2], [1, 0, 0, 1], [3, 0, 0, 3], [2, 1, 3, 0]],
    [[0, 2, 2, 3], [2, 0, 2, 0], [2, 2, 0, 1], [3, 0, 1, 0]]⟩

/-- A full pool of two solutions for `inst29`, both of cost 34. -/
def pool29 : elite :=
  ⟨2, 2, 0, 0, [⟨4, [2, 3, 0, 1], [2, 3, 0, 1], 34⟩, ⟨4, [0, 1, 2, 3], [0, 1, 2, 3], 34⟩], [0, 0]⟩

/-- A full pool of two solutions of dimension 3; slot 0 holds the identity. -/
def pool30 : elite :=
  ⟨2, 2, 0, 0, [⟨3, [0, 1, 2], [0, 1, 2], 5⟩, ⟨3, [1, 0, 2], [1, 0, 2], 5⟩], [0, 0]⟩

/-- The matrix `|i - j|` for `n = 4` as a row-major array: the flow and the
distance array of scenario 3. -/
def abs4 : List Int := [0, 1, 2, 3, 1, 0, 1, 2, 2, 1, 0, 1, 3, 2, 1, 0]

/-- The instance that `qi_new` builds from `abs4` for both matrices. -/
def inst_abs4 : qap_inst :=
  ⟨4, [[0, 1, 2, 3], [1, 0, 1, 2], [2, 1, 0, 1], [3, 2, 1, 0]],
    [[0, 1, 2, 3], [1, 0, 1, 2], [2, 1, 0, 1], [3, 2, 1, 0]]⟩

/-- The engine that the entry point sets up for scenario 3: `g_new` over
`inst_abs4`, then `alpha = 0.25`, `beta = 0.5`, `elite_size = 10`, `look4 = -1`,
`max_time = 0`. -/
def engine21 (E : env) : grasp :=
  { ralpha := 0, alpha := quarter, beta := half,
    best := ⟨4, [0, 1, 2, 3], [0, 1, 2, 3], E.junk⟩, s := ⟨4, [0, 1, 2, 3], [0, 1, 2, 3], E.junk⟩,
    q := inst_abs4,
    f := List.replicate 13 ⟨E.junk, 0, 0⟩, d := List.replicate 13 ⟨E.junk, 0, 0⟩,
    n_assigned := 0, assigned := [0, 0, 0, 0], done := [0, 0, 0, 0], ldone := [0, 0, 0, 0],
    max_time := 0, elite_size := 10, l4 := -1, print := 0, print2 := 0,
    curr_iter := 0, curr_prog_iter := 1, no_pr := 0, last_improv_iter := 0,
    rc := 0, tc := 0 }

/-- The state in which `execute_pr` enters its walk from `s1`: the walker `s`
and `sbest` are copies of `s1`, `prev` is fresh, `lopt` is fresh with cost -1,
and `cpp = cp = -1`. -/
def walk_init (E : env) (s1 : qap_sol) (g : grasp) : pr_state :=
  ⟨g, s1, s1, ⟨s1.n, List.range s1.n, List.range s1.n, E.junk⟩,
    ⟨s1.n, List.range s1.n, List.range s1.n, -1⟩, -1, -1⟩

/-- The sequence `tr 0, tr 1, ..` lists the states of the walk of `execute_pr`
from `st` toward `t`: `tr 0 = st`, and for every fuel from `N` on the body of the
loop at position `i < n` takes `tr i` to `tr (i + 1)`. -/
def IsWalk (E : env) (N : Nat) (t : qap_sol) (n : Nat) (st : pr_state)
    (tr : Nat → pr_state) : Prop :=
  tr 0 = st ∧ ∀ fuel, N ≤ fuel → ∀ i, i < n →
    execute_pr_step E fuel (some t) i (tr i) = Except.ok (tr (i + 1))

/-- The walker states visited in the first `i` positions of the walk `tr` toward
the permutation `t`, latest first: the start, and the walker after every swap. -/
def visited (tr : Nat → pr_state) (t : List Nat) : Nat → List qap_sol
  | 0 => [(tr 0).s]
  | i + 1 =>
    if sel (tr i).s.p i ≠ sel t i then (tr (i + 1)).s :: visited tr t i else visited tr t i

/-- The intermediate local optimum as the specification describes it, for the
visited states listed latest first: among the states `b` that have a state `a`
before them and a state `c` after them with `b.cost < a.cost` and
`b.cost < c.cost`, the cheapest one (the earliest of the cheapest); `none` when
there is no such state. -/
def spec_lopt : List qap_sol → Option qap_sol
  | c :: b :: a :: rest =>
    if b.cost < a.cost ∧ b.cost < c.cost then
      match spec_lopt (b :: a :: rest) with
      | some y => if b.cost < y.cost then some b else some y
      | none => some b
    else spec_lopt (b :: a :: rest)
  | _ => none

/-- The positions below `n` at which the walk `tr` toward `t` makes a swap. -/
def swaps (tr : Nat → pr_state) (t : List Nat) (n : Nat) : Finset Nat :=
  (range n).filter (fun i => sel (tr i).s.p i ≠ sel t i)

/-- The solution `execute_pr` leaves in the engine as the specification states
it: `sbest` if it is cheaper than the guiding solution, else `lopt` if one was
recorded (its cost is not -1), else `sbest`. -/
def spec_pr_result (sbest lopt s2 : qap_sol) : qap_sol :=
  if sbest.cost < s2.cost then sbest else if lopt.cost ≠ -1 then lopt else sbest

/-- The engine `engine3` with the positions 0 and 1 assigned (values 0 and 1). -/
def engine25 : grasp :=
  { engine3 with n_assigned := 2, assigned := [0, 1, 0], done := [1, 1, 0], ldone := [1, 1, 0] }

/-- The off-diagonal objective of the specification: the sum of
`D[a][b] * F[p[a]][p[b]]` over `a != b`. -/
def c_off (q : qap_inst) (p : List Nat) : Int :=
  ∑ a in range q.n, ∑ b in range q.n,
    if a ≠ b then Dv q a b * Fv q (sel p a) (sel p b) else 0

/-- The engine that `g_new` and the entry point set up for `n = 2`,
`F = D = ((0,1),(1,0))` with `elite_size = 2`, fresh cost fields holding `-5`. -/
def engine37 : grasp :=
  { ralpha := 0, alpha := quarter, beta := half,
    best := ⟨2, [0, 1], [0, 1], -5⟩, s := ⟨2, [0, 1], [0, 1], -5⟩,
    q := ⟨2, [[0, 1], [1, 0]], [[0, 1], [1, 0]]⟩,
    f := List.replicate 3 ⟨-5, 0, 0⟩, d := List.replicate 3 ⟨-5, 0, 0⟩,
    n_assigned := 0, assigned := [0, 0], done := [0, 0], ldone := [0, 0],
    max_time := 0, elite_size := 2, l4 := -1, print := 0, print2 := 0,
    curr_iter := 0, curr_prog_iter := 1, no_pr := 0, last_improv_iter := 0,
    rc := 0, tc := 0 }

/-- The entries of `done` and `ldone` below `n` are 0 or 1. -/
def Bits (g : grasp) : Prop :=
  (∀ a, a < g.q.n → sel g.done a ≤ 1) ∧ (∀ v, v < g.q.n → sel g.ldone v ≤ 1)

/-- The invariant of one construction in the words of the specification: the
working solution is valid, the first `n_assigned` entries of `assigned` are
positions without repeats, `done` and `ldone` hold 0 or 1, and `done[a] = 1` iff
`a` is among the assigned positions iff `ldone[s.p[a]] = 1`. -/
def AssignInv (g : grasp) : Prop :=
  Valid g.s ∧ g.n_assigned ≤ g.q.n ∧
  (∀ t, t < g.n_assigned → sel g.assigned t < g.q.n) ∧
  (∀ t, t < g.n_assigned → ∀ u, u < g.n_assigned →
    sel g.assigned t = sel g.assigned u → t = u) ∧
  (∀ a, a < g.q.n → sel g.done a = 0 ∨ sel g.done a = 1) ∧
  (∀ v, v < g.q.n → sel g.ldone v = 0 ∨ sel g.ldone v = 1) ∧
  (∀ a, a < g.q.n → (sel g.done a = 1 ↔ ∃ t, t < g.n_assigned ∧ sel g.assigned t = a)) ∧
  (∀ a, a < g.q.n → (sel g.done a = 1 ↔ sel g.ldone (sel g.s.p a) = 1))

/-- The effect of one `g_assign(g, p, q)` in the words of the specification:
`s.p[p] = q`, `n_assigned` grows by one, `p` is recorded as the newest assigned
position, and the earlier assigned positions keep their record and their value. -/
def AssignStep (g : grasp) (p q : Nat) (g' : grasp) : Prop :=
  sel g'.s.p p = q ∧ g'.n_assigned = g.n_assigned + 1 ∧
  sel g'.assigned g.n_assigned = p ∧
  ∀ t, t < g.n_assigned → sel g'.assigned t = sel g.assigned t ∧
    sel g'.s.p (sel g.assigned t) = sel g.s.p (sel g.assigned t)

/-- The `while` loop of `pr_local_search` with a record of its rounds: `hist`
receives, newest first, one entry per round, the drawn `i` and whether the round
swapped.  Erasing the record gives `pr_local_search_loop`. -/
def pr_local_search_hist (E : env) :
    Nat → grasp → Nat → Nat → Nat → List (Nat × Bool) → Except Err (grasp × List (Nat × Bool))
  | 0, _, _, _, _, _ => .error .fuel
  | fuel + 1, g, nochange, p, q, hist =>
    if nochange < 20 then
      let (t, g) := timed_out E g
      if t then pure (g, hist)
      else do
        let i ← cmod (E.genrandint g.rc) g.q.n
        let g := { g with rc := g.rc + 1 }
        let (best, p, q) ← for_loop (fun j (st : Int × Nat × Nat) =>
            if j ≠ i then do
              let cost ← g_improvement g.s g.q i j
              if cost > st.1 then pure (cost, i, j) else pure st
            else pure st) 0 g.q.n (0, p, q)
        if best > 0 then do
          let s ← qs_swap g.s p q
          pr_local_search_hist E fuel { g with s := { s with cost := isub s.cost best } } 0 p q
            ((i, true) :: hist)
        else pr_local_search_hist E fuel g (nochange + 1) p q ((i, false) :: hist)
    else pure (g, hist)

/-- The number of rounds without a swap at the newest end of a record. -/
def lead : List (Nat × Bool) → Nat
  | (_, false) :: h => lead h + 1
  | _ => 0

/-- At no point of the record had 20 consecutive rounds gone without a swap. -/
def Calm : List (Nat × Bool) → Prop
  | [] => True
  | x :: h => lead (x :: h) < 20 ∧ Calm h

/-- The number of rounds of a record that swapped. -/
def swaps_of (h : List (Nat × Bool)) : Nat := h.countP (fun x => x.2)

/-- One pass of `local_search` with a record of the swaps: `log` receives,
newest first, the improvement of every swap applied.  Erasing the record gives
`local_search_pass`. -/
def local_search_pass_log (E : env) (g : grasp) (log : List Int) :
    Except Err ((grasp × Bool × Bool) × List Int) :=
  for_loop (fun i (st : (grasp × Bool × Bool) × List Int) =>
      if st.1.2.2 then pure st
      else
        let (t, g) := timed_out E st.1.1
        if t then pure ((g, st.1.2.1, true), st.2)
        else for_loop (fun t (st : (grasp × Bool × Bool) × List Int) => do
            let j := i + 1 + t
            let cost ← g_improvement st.1.1.s st.1.1.q i j
            if cost > 0 then do
              let s ← qs_swap st.1.1.s i j
              pure (({ st.1.1 with s := { s with cost := isub s.cost cost } }, true, st.1.2.2),
                cost :: st.2)
            else pure st) 0 (g.q.n - (i + 1)) ((g, st.1.2.1, false), st.2))
    0 (g.q.n - 1) ((g, false, false), log)

/-- The function `local_search` with the record of `local_search_pass_log`. -/
def local_search_log (E : env) : Nat → grasp → List Int → Except Err (grasp × List Int)
  | 0, _, _ => .error .fuel
  | fuel + 1, g, log => do
    let ((g, change, returned), log) ← local_search_pass_log E g log
    if returned then pure (g, log)
    else if change then local_search_log E fuel g log
    else pure (g, log)

/-- The state of a pass of `local_search` that started from the engine `g` with
the record `log`, after the pairs `(a, b)` with `a < k1`, or `a = k1` and
`b < k2`, have been tried: the working solution is valid, the record has grown
by positive improvements whose sum the stored cost and the off-diagonal
objective have lost, and as long as `change` is unset the engine is `g` itself
and no pair tried has a positive improvement. -/
def LsInv (g : grasp) (log : List Int) (k1 k2 : Nat)
    (st : (grasp × Bool × Bool) × List Int) : Prop :=
  st.1.1.q = g.q ∧ st.1.1.max_time = g.max_time ∧ Valid st.1.1.s ∧ st.1.1.s.n = g.s.n ∧
  st.1.2.2 = false ∧
  ∃ ext, st.2 = ext ++ log ∧ (∀ x, x ∈ ext → 0 < x) ∧
    st.1.1.s.cost = g.s.cost - ext.sum ∧
    offobj g.q st.1.1.s.p = offobj g.q g.s.p - ext.sum ∧
    (st.1.2.1 = true → ext ≠ []) ∧
    (st.1.2.1 = false → st.1.1 = g ∧ ext = [] ∧
      ∀ a b, a < b → b < g.q.n → (a < k1 ∨ (a = k1 ∧ b < k2)) →
        gainf g.q.n (Dv g.q) (Fv g.q) (sel g.s.p) a b ≤ 0)

/-- An instance with `n = 2` whose costs leave the range of `int`:
`F = ((0,60000),(40000,0))`, `D = ((0,50000),(0,0))`.  The identity has the
objective `3 * 10^9`, the other permutation `2 * 10^9`. -/
def inst_wide : qap_inst := ⟨2, [[0, 60000], [40000, 0]], [[0, 50000], [0, 0]]⟩

/-- An instance with `n = 2` and one cell 100000 in each matrix:
`F = D = ((0,100000),(0,0))`.  The identity has the objective `10^10`, the
other permutation 0. -/
def inst_deep : qap_inst := ⟨2, [[0, 100000], [0, 0]], [[0, 100000], [0, 0]]⟩

/-- The symmetric instance with `n = 2` and both off-diagonal cells 100000 in
each matrix: `F = D = ((0,100000),(100000,0))`.  Both permutations have the
objective `2 * 10^10`. -/
def inst_big : qap_inst := ⟨2, [[0, 100000], [100000, 0]], [[0, 100000], [100000, 0]]⟩

/-- An engine over a given instance with `n = 2`, set up as `g_new` does, with
`alpha = 0.25`, `beta = 0.5` and an elite pool of 2. -/
def engine2 (q : qap_inst) : grasp :=
  { ralpha := 0, alpha := quarter, beta := half,
    best := ⟨2, [0, 1], [0, 1], 0⟩, s := ⟨2, [0, 1], [0, 1], 0⟩, q := q,
    f := List.replicate 3 ⟨0, 0, 0⟩, d := List.replicate 3 ⟨0, 0, 0⟩,
    n_assigned := 0, assigned := [0, 0], done := [0, 0], ldone := [0, 0],
    max_time := 0, elite_size := 2, l4 := -1, print := 0, print2 := 0,
    curr_iter := 0, curr_prog_iter := 1, no_pr := 0, last_improv_iter := 0,
    rc := 0, tc := 0 }

/-- The stream whose random values are all 0. -/
def env_zero : env := ⟨fun _ => 0, fun _ => 0, 2⟩

/-- The instance `inst_big` with the cells of `D` negated:
`F = ((0,100000),(100000,0))`, `D = ((0,-100000),(-100000,0))`.  Both
permutations have the objective `-2 * 10^10`. -/
def inst_neg : qap_inst := ⟨2, [[0, 100000], [100000, 0]], [[0, -100000], [-100000, 0]]⟩

/-- An instance with `n = 3` whose only cells are `F[2][1] = D[0][1] = 50000`:
the permutation (2, 1, 0) has the objective `2.5 * 10^9`, every other one 0. -/
def inst_sweep : qap_inst :=
  ⟨3, [[0, 0, 0], [0, 0, 0], [0, 50000, 0]], [[0, 50000, 0], [0, 0, 0], [0, 0, 0]]⟩

/-- A full pool of two solutions for `inst_sweep`, with their objective value 0
as cost. -/
def pool_sweep : elite :=
  ⟨2, 2, 0, 1, [⟨3, [0, 1, 2], [0, 1, 2], 0⟩, ⟨3, [2, 0, 1], [1, 2, 0], 0⟩], [0, 0]⟩

/-- The engine `engine3` over `inst_sweep` with the identity and its objective
value 0 as working and best solution. -/
def engine_sweep : grasp :=
  { engine3 with q := inst_sweep, best := ⟨3, [0, 1, 2], [0, 1, 2], 0⟩,
                 s := ⟨3, [0, 1, 2], [0, 1, 2], 0⟩ }

/-- A 1-based array of two pairs with costs 50000 and 1 (entry 0 is not part of
it); it serves as its own companion array. -/
def heap_w : List pair := [⟨0, 0, 0⟩, ⟨50000, 1, 0⟩, ⟨1, 2, 0⟩]

/-- The state of the walk of `execute_pr` is in shape for the instance `q`: the
engine works on `q` and its working solution has `n` entries, the walker is a
valid solution of `q`, and the other locals have `n` entries. -/
def WalkShape (q : qap_inst) (st : pr_state) : Prop :=
  st.g.q = q ∧ Shaped st.g.s ∧ st.g.s.n = q.n ∧ Valid st.s ∧ st.s.n = q.n ∧
  Shaped st.sbest ∧ st.sbest.n = q.n ∧ Shaped st.prev ∧ st.prev.n = q.n ∧
  Shaped st.lopt ∧ st.lopt.n = q.n

/-- An engine over a given instance with `n = 5`, set up as `g_new` does. -/
def engine5 (q : qap_inst) (s : qap_sol) : grasp :=
  { ralpha := 0, alpha := quarter, beta := half,
    best := s, s := s, q := q,
    f := List.replicate 21 ⟨2, 0, 0⟩, d := List.replicate 21 ⟨2, 0, 0⟩,
    n_assigned := 0, assigned := [0, 0, 0, 0, 0], done := [0, 0, 0, 0, 0],
    ldone := [0, 0, 0, 0, 0],
    max_time := 0, elite_size := 10, l4 := -1, print := 0, print2 := 0,
    curr_iter := 0, curr_prog_iter := 1, no_pr := 0, last_improv_iter := 0,
    rc := 0, tc := 0 }

/-- An instance with `n = 5` that has negative cells. -/
def instN5 : qap_inst :=
  ⟨5, [[0, -1, 0, -2, 2], [-2, 0, 0, -1, 0], [-1, 1, 0, 0, 2], [1, 1, 1, 0, -2],
      [2, 2, -1, 2, 0]],
    [[0, 2, -2, 0, -2], [-1, 0, 1, -2, 0], [2, 0, 0, 1, 1], [-1, -2, -2, 0, -2],
      [-1, 1, 2, 0, 0]]⟩

/-- A non-negative instance with `n = 5` and cells up to 2. -/
def instU5 : qap_inst :=
  ⟨5, [[0, 0, 1, 1, 2], [1, 0, 0, 2, 1], [2, 2, 0, 1, 0], [1, 2, 2, 0, 0], [2, 0, 2, 1, 0]],
    [[0, 2, 2, 2, 0], [1, 0, 1, 2, 2], [1, 0, 0, 0, 1], [0, 0, 0, 0, 1], [2, 1, 2, 0, 0]]⟩

/-- A non-negative instance with `n = 5` whose costs leave the range of `int`. -/
def instW5 : qap_inst :=
  ⟨5, [[0, 30000, 30000, 1, 30000], [30000, 0, 40000, 30000, 0], [40000, 1, 0, 0, 30000],
      [0, 1, 1, 0, 30000], [0, 0, 0, 30000, 0]],
    [[0, 0, 40000, 0, 0], [30000, 0, 0, 40000, 40000], [40000, 40000, 0, 40000, 0],
      [0, 0, 0, 0, 40000], [0, 0, 30000, 30000, 0]]⟩

/-! # Proofs -/

/-! ## Checked memory and loops: basic facts -/

@[simp] theorem ok_bind {α β : Type} (a : α) (f : α → Except Err β) :
    (Except.ok a >>= f) = f a := rfl

@[simp] theorem error_bind {α β : Type} (e : Err) (f : α → Except Err β) :
    ((Except.error e : Except Err α) >>= f) = Except.error e := rfl

@[simp] theorem pure_eq_ok {α : Type} (a : α) : (pure a : Except Err α) = Except.ok a := rfl

theorem bind_eq_ok {α β : Type} {x : Except Err α} {f : α → Except Err β} {b : β} :
    (x >>= f) = Except.ok b ↔ ∃ a, x = Except.ok a ∧ f a = Except.ok b := by
  cases x with
  | error e => simp
  | ok a => simp

theorem rd_eq {α : Type} [Inhabited α] {a : List α} {i : Nat} (h : i < a.length) :
    rd a i = Except.ok (sel a i) := by
  simp [rd, sel, List.getElem?_eq_getElem h]

theorem rd_eq_ok {α : Type} [Inhabited α] {a : List α} {i : Nat} {v : α} :
    rd a i = Except.ok v ↔ i < a.length ∧ sel a i = v := by
  unfold rd sel
  by_cases h : i < a.length
  · simp [List.getElem?_eq_getElem h, h]
  · simp [List.getElem?_eq_none (Nat.le_of_not_lt h), h]

theorem wr_eq {α : Type} {a : List α} {i : Nat} {v : α} (h : i < a.length) :
    wr a i v = Except.ok (a.set i v) := by
  simp [wr, h]

theorem wr_eq_ok {α : Type} {a b : List α} {i : Nat} {v : α} :
    wr a i v = Except.ok b ↔ i < a.length ∧ a.set i v = b := by
  unfold wr
  by_cases h : i < a.length <;> simp [h]

theorem sel_set {α : Type} [Inhabited α] (a : List α) (i j : Nat) (v : α) :
    sel (a.set i v) j = if j = i ∧ i < a.length then v else sel a j := by
  unfold sel
  rw [List.getElem?_set]
  by_cases h : i = j
  · subst h
    by_cases h2 : i < a.length
    · simp [h2]
    · simp [h2, List.getElem?_eq_none (Nat.le_of_not_lt h2)]
  · have : ¬ j = i := fun e => h e.symm
    simp [h, this]

theorem sel_set_eq {α : Type} [Inhabited α] (a : List α) (i : Nat) (v : α) (h : i < a.length) :
    sel (a.set i v) i = v := by
  simp [sel_set, h]

theorem sel_set_ne {α : Type} [Inhabited α] (a : List α) (i j : Nat) (v : α) (h : j ≠ i) :
    sel (a.set i v) j = sel a j := by
  simp [sel_set, h]

theorem ext_sel {α : Type} [Inhabited α] {a b : List α} (hl : a.length = b.length)
    (h : ∀ i, i < a.length → sel a i = sel b i) : a = b := by
  apply List.ext_getElem hl
  intro i h1 h2
  have := h i h1
  simpa [sel, List.getElem?_eq_getElem h1, List.getElem?_eq_getElem h2] using this

theorem for_loop_succ {σ : Type} (body : Nat → σ → Except Err σ) (lo k : Nat) (s : σ) :
    for_loop body lo (k + 1) s = body lo s >>= for_loop body (lo + 1) k := rfl

theorem for_loop_tot {σ : Type} {b : Nat → σ → Except Err σ} (I : Nat → σ → Prop)
    (n : Nat) : ∀ (lo : Nat) (s : σ), I lo s →
    (∀ i s, lo ≤ i → i < lo + n → I i s → ∃ s', b i s = Except.ok s' ∧ I (i + 1) s') →
    ∃ s', for_loop b lo n s = Except.ok s' ∧ I (lo + n) s' := by
  induction n with
  | zero => intro lo s h0 _; exact ⟨s, rfl, by simpa using h0⟩
  | succ k ih =>
    intro lo s h0 hstep
    obtain ⟨s1, h1, h2⟩ := hstep lo s (Nat.le_refl _) (by omega) h0
    obtain ⟨s2, h3, h4⟩ := ih (lo + 1) s1 h2 (fun i t hi hlt hI => hstep i t (by omega) (by omega) hI)
    refine ⟨s2, ?_, ?_⟩
    · rw [for_loop_succ, h1]; exact h3
    · have : lo + (k + 1) = lo + 1 + k := by omega
      rw [this]; exact h4

theorem for_loop_par {σ : Type} {b : Nat → σ → Except Err σ} (I : Nat → σ → Prop)
    (n : Nat) : ∀ (lo : Nat) (s : σ), I lo s →
    (∀ i s s', lo ≤ i → i < lo + n → I i s → b i s = Except.ok s' → I (i + 1) s') →
    ∀ s', for_loop b lo n s = Except.ok s' → I (lo + n) s' := by
  induction n with
  | zero => intro lo s h0 _ s' h; cases h; simpa using h0
  | succ k ih =>
    intro lo s h0 hstep s' h
    rw [for_loop_succ, bind_eq_ok] at h
    obtain ⟨s1, h1, h2⟩ := h
    have := ih (lo + 1) s1 (hstep lo s s1 (Nat.le_refl _) (by omega) h0 h1)
      (fun i t t' hi hlt hI => hstep i t t' (by omega) (by omega) hI) s' h2
    have e : lo + (k + 1) = lo + 1 + k := by omega
    rw [e]; exact this

/-! ## Machine integers -/

theorem wrap_modEq (x : Int) : wrap x ≡ x [ZMOD 4294967296] := by
  unfold wrap Int.ModEq
  omega

theorem wrap_congr {a b : Int} (h : a ≡ b [ZMOD 4294967296]) : wrap a = wrap b := by
  unfold Int.ModEq at h
  unfold wrap
  omega

theorem wrap_id {x : Int} (h1 : -2147483648 ≤ x) (h2 : x < 2147483648) : wrap x = x := by
  unfold wrap
  omega

theorem wrap_range (x : Int) : -2147483648 ≤ wrap x ∧ wrap x < 2147483648 := by
  unfold wrap
  omega

theorem wrap_wrap (x : Int) : wrap (wrap x) = wrap x := wrap_congr (wrap_modEq x)

theorem iadd_modEq {a b a' b' : Int} (ha : a ≡ a' [ZMOD 4294967296])
    (hb : b ≡ b' [ZMOD 4294967296]) : iadd a b ≡ a' + b' [ZMOD 4294967296] :=
  (wrap_modEq _).trans (ha.add hb)

theorem isub_modEq {a b a' b' : Int} (ha : a ≡ a' [ZMOD 4294967296])
    (hb : b ≡ b' [ZMOD 4294967296]) : isub a b ≡ a' - b' [ZMOD 4294967296] :=
  (wrap_modEq _).trans (ha.sub hb)

theorem imul_modEq {a b a' b' : Int} (ha : a ≡ a' [ZMOD 4294967296])
    (hb : b ≡ b' [ZMOD 4294967296]) : imul a b ≡ a' * b' [ZMOD 4294967296] :=
  (wrap_modEq _).trans (ha.mul hb)

theorem iadd_wrap (a t t' : Int) (h : t ≡ t' [ZMOD 4294967296]) :
    iadd (wrap a) t = wrap (a + t') :=
  wrap_congr ((wrap_modEq a).add h)

theorem imul_id {a b : Int} (h1 : -2147483648 ≤ a * b) (h2 : a * b < 2147483648) :
    imul a b = a * b := wrap_id h1 h2

theorem isub_id {a b : Int} (h1 : -2147483648 ≤ a - b) (h2 : a - b < 2147483648) :
    isub a b = a - b := wrap_id h1 h2

/-! ## Solutions -/

theorem length_swp (p : List Nat) (a b : Nat) : (swp p a b).length = p.length := by
  simp [swp]

theorem sel_swp (p : List Nat) (a b i : Nat) (ha : a < p.length) (hb : b < p.length) :
    sel (swp p a b) i = if i = b then sel p a else if i = a then sel p b else sel p i := by
  unfold swp
  rw [sel_set, sel_set]
  simp [ha, hb]

theorem Valid.of_inv {s : qap_sol} (h1 : s.p.length = s.n) (h2 : s.rev.length = s.n)
    (h3 : ∀ i, i < s.n → sel s.p i < s.n)
    (h4 : ∀ i, i < s.n → sel s.rev (sel s.p i) = i) : Valid s := by
  refine ⟨h1, h2, h3, ?_, h4⟩
  intro i hi j hj e
  have a := h4 i hi
  have b := h4 j hj
  rw [e] at a
  omega

theorem Valid.surj {s : qap_sol} (h : Valid s) (v : Nat) (hv : v < s.n) :
    ∃ i, i < s.n ∧ sel s.p i = v := by
  obtain ⟨_, _, h3, h4, _⟩ := h
  have := Finset.surj_on_of_inj_on_of_card_le (s := Finset.range s.n) (t := Finset.range s.n)
    (fun a _ => sel s.p a) (fun a ha => by simpa using h3 a (by simpa using ha))
    (fun a b ha hb e => h4 a (by simpa using ha) b (by simpa using hb) e) (le_refl _)
    v (by simpa using hv)
  obtain ⟨a, ha, e⟩ := this
  exact ⟨a, by simpa using ha, e.symm⟩

theorem Valid.rev_lt {s : qap_sol} (h : Valid s) (v : Nat) (hv : v < s.n) :
    sel s.rev v < s.n := by
  obtain ⟨i, hi, e⟩ := h.surj v hv
  rw [← e, h.2.2.2.2 i hi]; exact hi

theorem Valid.p_rev {s : qap_sol} (h : Valid s) (v : Nat) (hv : v < s.n) :
    sel s.p (sel s.rev v) = v := by
  obtain ⟨i, hi, e⟩ := h.surj v hv
  rw [← e, h.2.2.2.2 i hi]

theorem qs_swap_eq {s : qap_sol} {a b : Nat} (h1 : s.p.length = s.n) (h2 : s.rev.length = s.n)
    (h3 : ∀ i, i < s.n → sel s.p i < s.n) (ha : a < s.n) (hb : b < s.n) :
    qs_swap s a b = Except.ok
      { s with p := swp s.p a b, rev := (s.rev.set (sel s.p a) b).set (sel s.p b) a } := by
  have pa := h3 a ha
  have pb := h3 b hb
  unfold qs_swap
  rw [rd_eq (by omega : a < s.p.length)]
  simp only [ok_bind]
  rw [wr_eq (by omega : sel s.p a < s.rev.length)]
  simp only [ok_bind]
  rw [rd_eq (by omega : b < s.p.length)]
  simp only [ok_bind]
  rw [wr_eq (by simp; omega)]
  simp only [ok_bind]
  rw [wr_eq (by omega : a < s.p.length)]
  simp only [ok_bind]
  rw [wr_eq (by simp; omega)]
  simp [swp]

theorem valid_swap {s : qap_sol} {a b : Nat} (h : Valid s) (ha : a < s.n) (hb : b < s.n) :
    Valid { s with p := swp s.p a b, rev := (s.rev.set (sel s.p a) b).set (sel s.p b) a } := by
  obtain ⟨h1, h2, h3, h4, h5⟩ := h
  have pa := h3 a ha
  have pb := h3 b hb
  apply Valid.of_inv
  · simp [length_swp, h1]
  · simp [h2]
  · intro i hi
    simp only at hi ⊢
    rw [sel_swp _ _ _ _ (by omega) (by omega)]
    split_ifs
    · exact pa
    · exact pb
    · exact h3 i hi
  · intro i hi
    simp only at hi ⊢
    rw [sel_swp _ _ _ _ (by omega) (by omega)]
    by_cases e1 : i = b
    · subst e1
      simp only [if_true]
      rw [sel_set, sel_set]
      by_cases e2 : sel s.p a = sel s.p i
      · have := h4 a ha i hi e2
        simp [e2, this]; omega
      · simp [e2]; omega
    · by_cases e2 : i = a
      · subst e2
        simp only [e1, if_false, if_true]
        rw [sel_set]
        simp; omega
      · simp only [e1, e2, if_false]
        rw [sel_set, sel_set]
        have n1 : sel s.p i ≠ sel s.p b := fun e => e1 (h4 i hi b hb e)
        have n2 : sel s.p i ≠ sel s.p a := fun e => e2 (h4 i hi a ha e)
        simp [n1, n2, h5 i hi]

theorem qs_assign_eq {s : qap_sol} {pos val : Nat} (h : Valid s) (hp : pos < s.n)
    (hv : val < s.n) :
    qs_assign s pos val = Except.ok
      { s with p := swp s.p pos (sel s.rev val),
               rev := (s.rev.set (sel s.p pos) (sel s.rev val)).set
                        (sel s.p (sel s.rev val)) pos } := by
  unfold qs_assign
  rw [rd_eq (by rw [h.2.1]; exact hv)]
  simp only [ok_bind]
  exact qs_swap_eq h.1 h.2.1 h.2.2.1 hp (h.rev_lt val hv)

theorem valid_qs_new (E : env) (n : Int) (h : 1 ≤ n) :
    ∃ s, qs_new E n = some s ∧ Valid s ∧ (s.n : Int) = n ∧ s.p = List.range s.n := by
  refine ⟨{ n := n.toNat, p := List.range n.toNat, rev := List.range n.toNat, cost := E.junk },
    by simp [qs_new, not_lt.mpr h], ?_, by simp; omega, rfl⟩
  have sr : ∀ k i, i < k → sel (List.range k) i = i := by
    intro k i hi
    simp [sel, List.getElem?_range hi]
  apply Valid.of_inv
  · simp
  · simp
  · intro i hi
    simp only at hi ⊢
    rw [sr _ _ hi]; exact hi
  · intro i hi
    simp only at hi ⊢
    rw [sr _ _ hi, sr _ _ hi]

theorem qs_copy_eq {s ns : qap_sol} (hs : Shaped s) (hn : Shaped ns) (e : s.n = ns.n) :
    qs_copy s ns = Except.ok ns := by
  unfold qs_copy
  obtain ⟨st, h1, h2⟩ := for_loop_tot
    (b := fun i (st : List Nat × List Nat) =>
      (do let v ← rd ns.p i
          let p ← wr st.1 i v
          let w ← rd ns.rev i
          let rev ← wr st.2 i w
          pure (p, rev) : Except Err (List Nat × List Nat)))
    (fun i st => st.1.length = s.n ∧ st.2.length = s.n ∧
      ∀ k, k < i → sel st.1 k = sel ns.p k ∧ sel st.2 k = sel ns.rev k)
    s.n 0 (s.p, s.rev) ⟨hs.1, hs.2, by intro k hk; omega⟩
    (by
      intro i st _ hi ⟨l1, l2, hk⟩
      dsimp only
      rw [rd_eq (by rw [hn.1]; omega)]
      simp only [ok_bind]
      rw [wr_eq (by omega)]
      simp only [ok_bind]
      rw [rd_eq (by rw [hn.2]; omega)]
      simp only [ok_bind]
      rw [wr_eq (by omega)]
      refine ⟨_, rfl, by simpa using l1, by simpa using l2, ?_⟩
      intro k hk2
      by_cases ek : k = i
      · subst ek
        simp [sel_set, l1, l2]; omega
      · have := hk k (by omega)
        simp [sel_set, ek, this])
  rw [h1]
  obtain ⟨l1, l2, hk⟩ := h2
  have e1 : st.1 = ns.p := ext_sel (by rw [l1, hn.1, e]) (fun i hi => (hk i (by omega)).1)
  have e2 : st.2 = ns.rev := ext_sel (by rw [l2, hn.2, e]) (fun i hi => (hk i (by omega)).2)
  simp [e1, e2]

theorem Valid.shaped {s : qap_sol} (h : Valid s) : Shaped s := ⟨h.1, h.2.1⟩

theorem Valid.isPerm {s : qap_sol} (h : Valid s) : IsPerm s.p s.n := ⟨h.1, h.2.2.1, h.2.2.2.1⟩

theorem isPerm_swp {p : List Nat} {n a b : Nat} (h : IsPerm p n) (ha : a < n) (hb : b < n) :
    IsPerm (swp p a b) n := by
  obtain ⟨h1, h2, h3⟩ := h
  refine ⟨by simp [length_swp, h1], ?_, ?_⟩
  · intro i hi
    rw [sel_swp _ _ _ _ (by omega) (by omega)]
    split_ifs
    · exact h2 a ha
    · exact h2 b hb
    · exact h2 i hi
  · intro i hi j hj e
    rw [sel_swp _ _ _ _ (by omega) (by omega), sel_swp _ _ _ _ (by omega) (by omega)] at e
    split_ifs at e with c1 c2 c3 c4 c5 c6 c7 c8
    · omega
    · have := h3 a ha b hb e; omega
    · have := h3 a ha j hj e; omega
    · have := h3 b hb a ha e; omega
    · omega
    · have := h3 b hb j hj e; omega
    · have := h3 i hi a ha e; omega
    · have := h3 i hi b hb e; omega
    · exact h3 i hi j hj e

theorem qs_random_valid (E : env) (s : qap_sol) (rc : Nat) (hs : Shaped s) :
    ∃ s', qs_random E s rc = Except.ok (s', rc + s.n) ∧ Valid s' ∧ s'.n = s.n ∧
      s'.cost = s.cost := by
  unfold qs_random
  obtain ⟨p1, e1, l1, k1⟩ := for_loop_tot (b := fun i (p : List Nat) => wr p i i)
    (fun i p => p.length = s.n ∧ ∀ k, k < i → sel p k = k) s.n 0 s.p
    ⟨hs.1, by intro k hk; omega⟩
    (by
      intro i p _ hi ⟨l, hk⟩
      dsimp only
      rw [wr_eq (by omega)]
      refine ⟨_, rfl, by simpa using l, ?_⟩
      intro k hk2
      by_cases ek : k = i
      · subst ek; simp [sel_set, l]; omega
      · simp [sel_set, ek, hk k (by omega)])
  rw [e1]
  simp only [ok_bind, Nat.zero_add] at k1 ⊢
  have perm1 : IsPerm p1 s.n :=
    ⟨l1, fun i hi => by rw [k1 i hi]; exact hi,
     fun i hi j hj e => by rwa [k1 i hi, k1 j hj] at e⟩
  obtain ⟨st, e2, perm2, c2⟩ := for_loop_tot
    (b := fun i (st : List Nat × Nat) =>
      (do let r ← cmod (E.genrandint st.2) (s.n - i)
          let t ← rd st.1 i
          let pr ← rd st.1 r
          let p ← wr st.1 i pr
          let p ← wr p r t
          pure (p, st.2 + 1) : Except Err (List Nat × Nat)))
    (fun i st => IsPerm st.1 s.n ∧ st.2 = rc + i) s.n 0 (p1, rc) ⟨perm1, rfl⟩
    (by
      intro i st _ hi ⟨hp, hc⟩
      dsimp only
      have hr : E.genrandint st.2 % (s.n - i) < s.n - i := Nat.mod_lt _ (by omega)
      have hl := hp.1
      simp only [cmod, show ¬ (s.n - i = 0) by omega, if_false, ok_bind]
      rw [rd_eq (by omega)]
      simp only [ok_bind]
      rw [rd_eq (by omega)]
      simp only [ok_bind]
      rw [wr_eq (by omega)]
      simp only [ok_bind]
      rw [wr_eq (by simp; omega)]
      refine ⟨_, rfl, ?_, by simp; omega⟩
      exact isPerm_swp hp (by omega) (by omega))
  rw [e2]
  simp only [ok_bind, Nat.zero_add] at perm2 c2 ⊢
  obtain ⟨rv, e3, l3, k3⟩ := for_loop_tot
    (b := fun i (rev : List Nat) =>
      (do let pi ← rd st.1 i
          wr rev pi i : Except Err (List Nat)))
    (fun i rev => rev.length = s.n ∧ ∀ k, k < i → sel rev (sel st.1 k) = k) s.n 0 s.rev
    ⟨hs.2, by intro k hk; omega⟩
    (by
      intro i rev _ hi ⟨l, hk⟩
      dsimp only
      rw [rd_eq (by rw [perm2.1]; omega)]
      simp only [ok_bind]
      have b := perm2.2.1 i (by omega)
      rw [wr_eq (by omega)]
      refine ⟨_, rfl, by simpa using l, ?_⟩
      intro k hk2
      by_cases ek : k = i
      · subst ek; simp [sel_set, l]; omega
      · have ne : sel st.1 k ≠ sel st.1 i := fun e => ek (perm2.2.2 k (by omega) i (by omega) e)
        simp [sel_set, ne, hk k (by omega)])
  obtain ⟨p2, c⟩ := st
  simp only at e3 perm2 c2 k3 l3 ⊢
  rw [e3]
  simp only [ok_bind, Nat.zero_add] at k3 ⊢
  subst c2
  refine ⟨_, rfl, ?_, rfl, rfl⟩
  exact Valid.of_inv perm2.1 l3 perm2.2.1 k3

theorem sum_split2 (n i j : Nat) (hi : i < n) (hj : j < n) (hij : i ≠ j) (h : Nat → Int) :
    ∑ k in range n, h k = h i + h j + ∑ k in range n, (if k ≠ i ∧ k ≠ j then h k else 0) := by
  have e : ∀ k, h k = (if k = i then h i else 0) + (if k = j then h j else 0) +
      (if k ≠ i ∧ k ≠ j then h k else 0) := by
    intro k
    by_cases c1 : k = i
    · subst c1; simp [hij]
    · by_cases c2 : k = j
      · subst c2; simp [c1]
      · simp [c1, c2]
  rw [Finset.sum_congr rfl (fun k _ => e k), Finset.sum_add_distrib, Finset.sum_add_distrib,
    Finset.sum_ite_eq', Finset.sum_ite_eq']
  simp [hi, hj]

theorem objf_exch (n : Nat) (d f : Nat → Nat → Int) (p : Nat → Nat) (i j : Nat)
    (hi : i < n) (hj : j < n) (hij : i ≠ j) :
    objf n d f p - objf n d f (exch p i j) =
      gainf n d f p i j + (d i i - d j j) * (f (p i) (p i) - f (p j) (p j)) := by
  have hji : j ≠ i := fun e => hij e.symm
  have ei : exch p i j i = p j := by simp [exch, hij]
  have ej : exch p i j j = p i := by simp [exch]
  have eo : ∀ k, k ≠ i → k ≠ j → exch p i j k = p k := by
    intro k h1 h2; simp [exch, h1, h2]
  unfold objf gainf
  rw [← Finset.sum_sub_distrib]
  have inner : ∀ a, (∑ b in range n, d a b * f (p a) (p b)) -
      (∑ b in range n, d a b * f (exch p i j a) (exch p i j b)) =
      d a i * (f (p a) (p i) - f (exch p i j a) (p j)) +
      d a j * (f (p a) (p j) - f (exch p i j a) (p i)) +
      ∑ b in range n, (if b ≠ i ∧ b ≠ j then
        d a b * (f (p a) (p b) - f (exch p i j a) (p b)) else 0) := by
    intro a
    rw [← Finset.sum_sub_distrib, sum_split2 n i j hi hj hij, ei, ej]
    congr 1
    · ring
    · apply Finset.sum_congr rfl
      intro b _
      by_cases c : b ≠ i ∧ b ≠ j
      · rw [if_pos c, if_pos c, eo b c.1 c.2]; ring
      · rw [if_neg c, if_neg c]
  rw [Finset.sum_congr rfl (fun a _ => inner a), sum_split2 n i j hi hj hij, ei, ej]
  have rest : ∀ a, (if a ≠ i ∧ a ≠ j then
      d a i * (f (p a) (p i) - f (exch p i j a) (p j)) +
      d a j * (f (p a) (p j) - f (exch p i j a) (p i)) +
      ∑ b in range n, (if b ≠ i ∧ b ≠ j then
        d a b * (f (p a) (p b) - f (exch p i j a) (p b)) else 0) else 0) =
      (if a ≠ i ∧ a ≠ j then (d a i - d a j) * (f (p a) (p i) - f (p a) (p j)) else 0) := by
    intro a
    by_cases c : a ≠ i ∧ a ≠ j
    · rw [if_pos c, if_pos c, eo a c.1 c.2]
      have z : ∑ b in range n, (if b ≠ i ∧ b ≠ j then
          d a b * (f (p a) (p b) - f (p a) (p b)) else 0) = 0 := by
        apply Finset.sum_eq_zero
        intro b _
        split_ifs <;> simp
      rw [z]; ring
    · rw [if_neg c, if_neg c]
  rw [Finset.sum_congr rfl (fun a _ => rest a)]
  have comb : ∀ (u v w : Nat → Int),
      (∑ k in range n, if k ≠ i ∧ k ≠ j then u k else 0) +
      (∑ k in range n, if k ≠ i ∧ k ≠ j then v k else 0) +
      (∑ k in range n, if k ≠ i ∧ k ≠ j then w k else 0) =
      ∑ k in range n, if k ≠ i ∧ k ≠ j then u k + v k + w k else 0 := by
    intro u v w
    rw [← Finset.sum_add_distrib, ← Finset.sum_add_distrib]
    apply Finset.sum_congr rfl
    intro k _
    split_ifs <;> simp
  have key := comb (fun k => d i k * (f (p i) (p k) - f (p j) (p k)))
    (fun k => d j k * (f (p j) (p k) - f (p i) (p k)))
    (fun k => (d k i - d k j) * (f (p k) (p i) - f (p k) (p j)))
  have tgt : (∑ k in range n, if k ≠ i ∧ k ≠ j then
      (d k i - d k j) * (f (p k) (p i) - f (p k) (p j)) +
      (d i k - d j k) * (f (p i) (p k) - f (p j) (p k)) else 0) =
      ∑ k in range n, if k ≠ i ∧ k ≠ j then
        d i k * (f (p i) (p k) - f (p j) (p k)) + d j k * (f (p j) (p k) - f (p i) (p k)) +
        (d k i - d k j) * (f (p k) (p i) - f (p k) (p j)) else 0 := by
    apply Finset.sum_congr rfl
    intro k _
    split_ifs
    · ring
    · rfl
  rw [tgt, ← key]
  ring

theorem rdm_eq {m : List (List Int)} {i j : Nat} (hi : i < m.length)
    (hj : j < (sel m i).length) : rdm m i j = Except.ok (sel (sel m i) j) := by
  unfold rdm
  have : m[i]? = some (sel m i) := by
    simp [sel, List.getElem?_eq_getElem hi]
  rw [this]
  exact rd_eq hj

theorem rdF {q : qap_inst} (h : WF q) {i j : Nat} (hi : i < q.n) (hj : j < q.n) :
    rdm q.F i j = Except.ok (Fv q i j) :=
  rdm_eq (by rw [h.1]; exact hi) (by rw [(h.2.2 i hi).1]; exact hj)

theorem rdD {q : qap_inst} (h : WF q) {i j : Nat} (hi : i < q.n) (hj : j < q.n) :
    rdm q.D i j = Except.ok (Dv q i j) :=
  rdm_eq (by rw [h.2.1]; exact hi) (by rw [(h.2.2 i hi).2]; exact hj)

theorem for_loop_sum {b : Nat → Int → Except Err Int} (f : Nat → Int) (n : Nat) :
    ∀ (lo : Nat) (a : Int),
    (∀ i acc, lo ≤ i → i < lo + n → b i acc = Except.ok (acc + f i)) →
    for_loop b lo n a = Except.ok (a + ∑ k in range n, f (lo + k)) := by
  induction n with
  | zero => intro lo a _; simp [for_loop]
  | succ k ih =>
    intro lo a h
    rw [for_loop_succ, h lo a (le_refl _) (by omega)]
    simp only [ok_bind]
    rw [ih (lo + 1) (a + f lo) (fun i acc h1 h2 => h i acc (by omega) (by omega)),
      Finset.sum_range_succ']
    have : ∀ x, lo + 1 + x = lo + (x + 1) := by intro x; omega
    simp only [this, Nat.add_zero]
    congr 1
    ring

/-- A loop that adds `f i` to an `int` accumulator computes the sum of the
`f i`, reduced to 32 bits. -/
theorem for_loop_wsum {b : Nat → Int → Except Err Int} (f : Nat → Int) (n : Nat) :
    ∀ (lo : Nat) (a : Int),
    (∀ i acc, lo ≤ i → i < lo + n → b i (wrap acc) = Except.ok (wrap (acc + f i))) →
    for_loop b lo n (wrap a) = Except.ok (wrap (a + ∑ k in range n, f (lo + k))) := by
  induction n with
  | zero => intro lo a _; simp [for_loop]
  | succ k ih =>
    intro lo a h
    rw [for_loop_succ, h lo a (le_refl _) (by omega)]
    simp only [ok_bind]
    rw [ih (lo + 1) (a + f lo) (fun i acc h1 h2 => h i acc (by omega) (by omega)),
      Finset.sum_range_succ']
    have : ∀ x, lo + 1 + x = lo + (x + 1) := by intro x; omega
    simp only [this, Nat.add_zero]
    congr 2
    ring

theorem wrap_zero : wrap 0 = 0 := by decide

/-- What `qs_objective` stores: the objective of the permutation, reduced to 32
bits. -/
theorem qs_objective_wrap {s : qap_sol} {q : qap_inst} (hq : WF q) (hp : IsPerm s.p q.n) :
    qs_objective s q = Except.ok { s with cost := wrap (objective q s.p) } := by
  unfold qs_objective
  have inner : ∀ i cost, 0 ≤ i → i < 0 + q.n →
      for_loop (fun j cost => (do
        let dij ← rdm q.D i j
        let pi ← rd s.p i
        let pj ← rd s.p j
        let fij ← rdm q.F pi pj
        pure (iadd cost (imul dij fij)) : Except Err Int)) 0 q.n (wrap cost) =
      Except.ok (wrap (cost + ∑ j in range q.n, Dv q i j * Fv q (sel s.p i) (sel s.p j))) := by
    intro i cost _ hi
    have := for_loop_wsum (b := fun j cost => (do
        let dij ← rdm q.D i j
        let pi ← rd s.p i
        let pj ← rd s.p j
        let fij ← rdm q.F pi pj
        pure (iadd cost (imul dij fij)) : Except Err Int))
      (fun j => Dv q i j * Fv q (sel s.p i) (sel s.p j)) q.n 0 cost
      (by
        intro j acc _ hj
        dsimp only
        rw [rdD hq (by omega) (by omega), ok_bind, rd_eq (by rw [hp.1]; omega), ok_bind,
          rd_eq (by rw [hp.1]; omega), ok_bind,
          rdF hq (hp.2.1 i (by omega)) (hp.2.1 j (by omega)), ok_bind]
        exact congrArg Except.ok (iadd_wrap _ _ _ (wrap_modEq _)))
    simpa using this
  have z : (0 : Int) = wrap 0 := wrap_zero.symm
  rw [z, for_loop_wsum
    (fun i => ∑ j in range q.n, Dv q i j * Fv q (sel s.p i) (sel s.p j)) q.n 0 0 inner]
  simp [objective, objf]

/-- What `g_improvement` returns: the sum `gainf` of its terms, reduced to 32
bits. -/
theorem g_improvement_wrap {s : qap_sol} {q : qap_inst} {i j : Nat} (hq : WF q)
    (hp : IsPerm s.p q.n) (hi : i < q.n) (hj : j < q.n) :
    g_improvement s q i j = Except.ok (wrap (gainf q.n (Dv q) (Fv q) (sel s.p) i j)) := by
  unfold g_improvement
  have pi := hp.2.1 i hi
  have pj := hp.2.1 j hj
  have li : i < s.p.length := by rw [hp.1]; exact hi
  have lj : j < s.p.length := by rw [hp.1]; exact hj
  have z : (0 : Int) = wrap 0 := wrap_zero.symm
  rw [z, for_loop_wsum (fun k => if k ≠ i ∧ k ≠ j then
      (Dv q k i - Dv q k j) * (Fv q (sel s.p k) (sel s.p i) - Fv q (sel s.p k) (sel s.p j)) +
      (Dv q i k - Dv q j k) * (Fv q (sel s.p i) (sel s.p k) - Fv q (sel s.p j) (sel s.p k))
      else 0) q.n 0 0
    (by
      intro k acc _ hk
      have hk : k < q.n := by omega
      have pk := hp.2.1 k hk
      dsimp only
      by_cases c : k ≠ i ∧ k ≠ j
      · rw [if_pos c, if_pos c]
        rw [rdD hq hk hi, ok_bind, rdD hq hk hj, ok_bind, rd_eq (by rw [hp.1]; exact hk), ok_bind,
          rd_eq li, ok_bind, rd_eq lj, ok_bind, rdF hq pk pi, ok_bind, rdF hq pk pj, ok_bind,
          rdD hq hi hk, ok_bind, rdD hq hj hk, ok_bind, rdF hq pi pk, ok_bind, rdF hq pj pk,
          ok_bind]
        exact congrArg Except.ok (iadd_wrap _ _ _
          (iadd_modEq (imul_modEq (isub_modEq rfl rfl) (isub_modEq rfl rfl))
            (imul_modEq (isub_modEq rfl rfl) (isub_modEq rfl rfl))))
      · rw [if_neg c, if_neg c, add_zero]; rfl)]
  simp only [ok_bind]
  rw [rdD hq hi hj, ok_bind, rdD hq hj hi, ok_bind, rd_eq li, ok_bind, rd_eq lj, ok_bind,
    rdF hq pi pj, ok_bind, rdF hq pj pi, ok_bind]
  refine congrArg Except.ok ?_
  rw [iadd_wrap _ _ _ (imul_modEq (isub_modEq rfl rfl) (isub_modEq rfl rfl))]
  simp [gainf]

theorem sel_swp_exch (p : List Nat) (a b : Nat) (ha : a < p.length) (hb : b < p.length) :
    sel (swp p a b) = exch (sel p) a b := by
  funext k
  rw [sel_swp _ _ _ _ ha hb]
  rfl

theorem update_eq {g : grasp} (hs : Shaped g.s) (hb : Shaped g.best) (hn : g.best.n = g.s.n) :
    update g = Except.ok (if g.s.cost < g.best.cost then
      { g with best := g.s, last_improv_iter := g.curr_iter } else g) := by
  unfold update
  by_cases c : g.s.cost < g.best.cost
  · rw [if_pos c, if_pos c, qs_copy_eq hb hs hn]
    rfl
  · rw [if_neg c, if_neg c]
    rfl

theorem upheap_loop_ok {σ : Type} {H : heap_ops σ} {inv : σ → Prop} {B : Nat}
    (hs : HeapSafe H inv B) : ∀ (fuel : Nat) (a : σ) (n : Nat), inv a → n ≤ B → n < fuel →
    ∃ a', upheap_loop H fuel a n = Except.ok a' ∧ inv a' := by
  intro fuel
  induction fuel with
  | zero => intro a n _ _ h; omega
  | succ k ih =>
    intro a n ha hn hf
    unfold upheap_loop
    by_cases c : n > 1
    · rw [if_pos c]
      obtain ⟨b, hb⟩ := hs.1 a n (n / 2) ha hn (by omega)
      rw [hb, ok_bind]
      cases b with
      | false => exact ⟨a, rfl, ha⟩
      | true =>
        obtain ⟨a1, h1, i1⟩ := hs.2 a (n / 2) n ha (by omega) hn
        simp only [if_true, h1, ok_bind]
        exact ih a1 (n / 2) i1 (by omega) (by omega)
    · rw [if_neg c]
      exact ⟨a, rfl, ha⟩

theorem upheap_ok {σ : Type} {H : heap_ops σ} {inv : σ → Prop} {B : Nat}
    (hs : HeapSafe H inv B) (a : σ) (n : Nat) (ha : inv a) (hn : n ≤ B) :
    ∃ a', upheap H a n = Except.ok a' ∧ inv a' :=
  upheap_loop_ok hs (n + 1) a n ha hn (by omega)

theorem heapfy_loop_ok {σ : Type} {H : heap_ops σ} {inv : σ → Prop} {B : Nat}
    (hs : HeapSafe H inv B) : ∀ (fuel : Nat) (a : σ) (i n : Nat), inv a → n ≤ B → 1 ≤ i →
    1 ≤ fuel → n + 1 ≤ fuel + i →
    ∃ a', heapfy_loop H fuel a i n = Except.ok a' ∧ inv a' := by
  intro fuel
  induction fuel with
  | zero => intro a i n _ _ _ h; omega
  | succ k ih =>
    intro a i n ha hn hi _ hf
    unfold heapfy_loop
    by_cases c : i ≤ n / 2
    · rw [if_pos c]
      have hc : ∃ b, (if 2 * i < n then H.heap_compare a (2 * i + 1) (2 * i) else pure false)
          = Except.ok b := by
        by_cases c2 : 2 * i < n
        · rw [if_pos c2]; exact hs.1 a _ _ ha (by omega) (by omega)
        · rw [if_neg c2]; exact ⟨false, rfl⟩
      obtain ⟨b, hb⟩ := hc
      simp only [hb, ok_bind]
      have hj : (if b = true then 2 * i + 1 else 2 * i) ≤ n ∧
          i + 1 ≤ (if b = true then 2 * i + 1 else 2 * i) := by
        by_cases c2 : 2 * i < n
        · split_ifs <;> omega
        · rw [if_neg c2] at hb
          cases hb
          simp; omega
      obtain ⟨b2, hb2⟩ := hs.1 a i (if b = true then 2 * i + 1 else 2 * i) ha (by omega)
        (by omega)
      rw [hb2, ok_bind]
      cases b2 with
      | true => exact ⟨a, rfl, ha⟩
      | false =>
        obtain ⟨a1, h1, i1⟩ := hs.2 a i (if b = true then 2 * i + 1 else 2 * i) ha (by omega)
          (by omega)
        simp only [h1, ok_bind]
        exact ih a1 _ n i1 hn (by omega) (by omega) (by omega)
    · rw [if_neg c]
      exact ⟨a, rfl, ha⟩

theorem heapfy_ok {σ : Type} {H : heap_ops σ} {inv : σ → Prop} {B : Nat}
    (hs : HeapSafe H inv B) (a : σ) (n : Nat) (ha : inv a) (hn : n ≤ B) :
    ∃ a', heapfy H a 1 n = Except.ok a' ∧ inv a' :=
  heapfy_loop_ok hs (n + 1) a 1 n ha hn (le_refl _) (by omega) (by omega)

theorem heap_sortn_ok {σ : Type} {H : heap_ops σ} {inv : σ → Prop} {B : Nat}
    (hs : HeapSafe H inv B) (a : σ) (n k : Nat) (ha : inv a) (hn : n ≤ B) (hk : k ≤ B) :
    ∃ a', heap_sortn H a n k = Except.ok a' ∧ inv a' := by
  unfold heap_sortn
  obtain ⟨a1, h1, i1⟩ := for_loop_tot (b := fun i a => upheap H a i) (fun _ a => inv a)
    (n - 1) 2 a ha (by
      intro i s _ hi hI
      exact upheap_ok hs s i hI (by omega))
  rw [h1, ok_bind]
  exact for_loop_tot (b := fun t a => (do
      let a ← H.heap_swap a 1 (k - t)
      heapfy H a 1 (k - t - 1) : Except Err σ)) (fun _ a => inv a)
    (k - 1) 0 a1 i1 (by
      intro t s _ ht hI
      dsimp only
      obtain ⟨a2, h2, i2⟩ := hs.2 s 1 (k - t) hI (by omega) (by omega)
      rw [h2, ok_bind]
      exact heapfy_ok hs a2 _ i2 (by omega))

theorem heap_sort_ok {σ : Type} {H : heap_ops σ} {inv : σ → Prop} {B : Nat}
    (hs : HeapSafe H inv B) (a : σ) (n : Nat) (ha : inv a) (hn : n ≤ B) :
    ∃ a', heap_sort H a n = Except.ok a' ∧ inv a' :=
  heap_sortn_ok hs a n n ha hn hn

theorem allP_set {α : Type} [Inhabited α] {P : α → Prop} {len : Nat} {a : List α}
    (h : AllP P len a) (i : Nat) (v : α) (hv : i < len → P v) : AllP P len (a.set i v) := by
  refine ⟨by simpa using h.1, ?_⟩
  intro k hk
  rw [sel_set]
  split_ifs with c
  · exact hv (by omega)
  · exact h.2 k hk

theorem allP_mono {α : Type} [Inhabited α] {P : α → Prop} {len m : Nat} {a : List α}
    (h : AllP P len a) (hm : m ≤ len) : AllP P m a :=
  ⟨by have := h.1; omega, fun k hk => h.2 k (by omega)⟩

theorem pair_swap_ok {P R : pair → Prop} {l1 l2 : Nat} {a : List pair}
    (ha : AllP P l1 a ∧ AllP R l2 a) (h12 : l1 ≤ l2)
    {p q : Nat} (hp : p < l1) (hq : q < l1) :
    ∃ a', (do
      let x ← rd a p
      let y ← rd a q
      let a ← wr a p y
      wr a q x : Except Err (List pair)) = Except.ok a' ∧ AllP P l1 a' ∧ AllP R l2 a' ∧
        a'.length = a.length := by
  have l := ha.1.1
  rw [rd_eq (by omega), ok_bind, rd_eq (by omega), ok_bind,
    wr_eq (by omega), ok_bind, wr_eq (by simp; omega)]
  exact ⟨_, rfl, allP_set (allP_set ha.1 _ _ (fun _ => ha.1.2 q hq)) _ _ (fun _ => ha.1.2 p hp),
    allP_set (allP_set ha.2 _ _ (fun _ => ha.2.2 q (by omega))) _ _
      (fun _ => ha.2.2 p (by omega)), by simp⟩

theorem heapSafe_pairinc (P R : pair → Prop) (l1 l2 len : Nat) (hl : 1 ≤ l1) (h12 : l1 ≤ l2) :
    HeapSafe pairinc (fun a => AllP P l1 a ∧ AllP R l2 a ∧ a.length = len) (l1 - 1) := by
  constructor
  · intro a p q ha hp hq
    have l := ha.1.1
    simp only [pairinc]
    rw [rd_eq (by omega), ok_bind, rd_eq (by omega), ok_bind]
    exact ⟨_, rfl⟩
  · intro a p q ha hp hq
    obtain ⟨a', h1, h2, h3, h4⟩ := pair_swap_ok ⟨ha.1, ha.2.1⟩ h12 (by omega : p < l1)
      (by omega : q < l1)
    exact ⟨a', h1, h2, h3, by rw [h4]; exact ha.2.2⟩

theorem heapSafe_pairdec (P R : pair → Prop) (l1 l2 len : Nat) (hl : 1 ≤ l1) (h12 : l1 ≤ l2) :
    HeapSafe pairdec (fun a => AllP P l1 a ∧ AllP R l2 a ∧ a.length = len) (l1 - 1) := by
  constructor
  · intro a p q ha hp hq
    have l := ha.1.1
    simp only [pairdec]
    rw [rd_eq (by omega), ok_bind, rd_eq (by omega), ok_bind]
    exact ⟨_, rfl⟩
  · intro a p q ha hp hq
    obtain ⟨a', h1, h2, h3, h4⟩ := pair_swap_ok ⟨ha.1, ha.2.1⟩ h12 (by omega : p < l1)
      (by omega : q < l1)
    exact ⟨a', h1, h2, h3, by rw [h4]; exact ha.2.2⟩

theorem heapSafe_doublepair (P Q : pair → Prop) (l1 len : Nat) (hl : 1 ≤ l1) :
    HeapSafe doublepair (fun st => (AllP P l1 st.1 ∧ st.1.length = len) ∧
      (AllP Q l1 st.2 ∧ st.2.length = len)) (l1 - 1) := by
  constructor
  · intro a p q ha hp hq
    have l := ha.1.1.1
    have l' := ha.2.1.1
    simp only [doublepair]
    rw [rd_eq (by omega), ok_bind, rd_eq (by omega), ok_bind,
      rd_eq (by omega), ok_bind, rd_eq (by omega), ok_bind]
    exact ⟨_, rfl⟩
  · intro a p q ha hp hq
    have hp' : p < l1 := by omega
    have hq' : q < l1 := by omega
    have l := ha.1.1.1
    have l' := ha.2.1.1
    simp only [doublepair]
    rw [rd_eq (by omega), ok_bind, rd_eq (by omega), ok_bind,
      rd_eq (by omega), ok_bind, wr_eq (by omega), ok_bind,
      wr_eq (by simp; omega), ok_bind,
      rd_eq (by omega), ok_bind, wr_eq (by omega), ok_bind,
      wr_eq (by simp; omega), ok_bind]
    exact ⟨_, rfl,
      ⟨allP_set (allP_set ha.1.1 _ _ (fun _ => ha.1.1.2 q hq')) _ _ (fun _ => ha.1.1.2 p hp'),
        by simpa using ha.1.2⟩,
      ⟨allP_set (allP_set ha.2.1 _ _ (fun _ => ha.2.1.2 q hq')) _ _ (fun _ => ha.2.1.2 p hp'),
        by simpa using ha.2.2⟩⟩

theorem mul_pred_eq (n : Nat) : n * (n - 1) = n * n - n := by
  cases n with
  | zero => rfl
  | succ k => simp [Nat.mul_succ]

theorem sort_vector_fill_ok (d : List pair) (m : List (List Int)) (n : Nat) (hn : 1 ≤ n)
    (hm : Square n m) (hd : d.length = n * n - n + 1) :
    ∃ d', for_loop (fun i st => for_loop (fun j (st : List pair × Nat) =>
        if i ≠ j then (do
          let c ← rdm m i j
          let d ← wr st.1 st.2 ⟨c, i, j⟩
          pure (d, st.2 + 1) : Except Err (List pair × Nat))
        else pure st) 0 n st) 0 n (d, 0) = Except.ok (d', n * n - n) ∧
      d'.length = d.length ∧ AllP (OffDiag n) (n * n - n) d' := by
  have hN := mul_pred_eq n
  obtain ⟨st, h1, h2⟩ := for_loop_tot
    (b := fun i st => for_loop (fun j (st : List pair × Nat) =>
        if i ≠ j then (do
          let c ← rdm m i j
          let d ← wr st.1 st.2 ⟨c, i, j⟩
          pure (d, st.2 + 1) : Except Err (List pair × Nat))
        else pure st) 0 n st)
    (fun i st => st.2 = i * (n - 1) ∧ st.1.length = d.length ∧ AllP (OffDiag n) st.2 st.1)
    n 0 (d, 0) ⟨by simp, rfl, by simp [AllP]⟩
    (by
      intro i st _ hi ⟨hk, hl, hP⟩
      have hi : i < n := by omega
      have e1 : (i + 1) * (n - 1) = i * (n - 1) + (n - 1) := by ring
      have e2 : (i + 1) * (n - 1) ≤ n * (n - 1) := Nat.mul_le_mul_right _ (by omega)
      obtain ⟨st', g1, g2⟩ := for_loop_tot
        (b := fun j (st : List pair × Nat) =>
          if i ≠ j then (do
            let c ← rdm m i j
            let d ← wr st.1 st.2 ⟨c, i, j⟩
            pure (d, st.2 + 1) : Except Err (List pair × Nat))
          else pure st)
        (fun j st => st.2 = i * (n - 1) + (if i < j then j - 1 else j) ∧
          st.1.length = d.length ∧ AllP (OffDiag n) st.2 st.1)
        n 0 st ⟨by simp [hk], hl, hP⟩
        (by
          intro j t _ hj ⟨tk, tl, tP⟩
          have hj : j < n := by omega
          dsimp only
          by_cases c : i ≠ j
          · rw [if_pos c, rdm_eq (by rw [hm.1]; exact hi) (by rw [hm.2 i hi]; exact hj), ok_bind]
            have hb : t.2 < t.1.length := by
              rw [tl, hd, tk]
              split_ifs <;> omega
            rw [wr_eq hb]
            refine ⟨_, rfl, ?_, by simpa using tl, ?_⟩
            · simp only [tk]
              split_ifs <;> omega
            · refine ⟨by simp; omega, ?_⟩
              intro k hk2
              simp only at hk2 ⊢
              rw [sel_set]
              by_cases e : k = t.2
              · simp only [e, hb, and_self, if_true]
                exact ⟨hi, hj, c⟩
              · simp only [e, false_and, if_false]
                exact tP.2 k (by omega)
          · rw [if_neg c]
            refine ⟨t, rfl, ?_, tl, tP⟩
            have : i = j := by omega
            subst this
            simp only [tk]
            split_ifs <;> omega)
      refine ⟨st', g1, ?_, g2.2.1, g2.2.2⟩
      rw [g2.1, e1]
      simp only [Nat.zero_add]
      rw [if_pos hi])
  obtain ⟨d', k⟩ := st
  obtain ⟨ek, el, eP⟩ := h2
  simp only [Nat.zero_add] at ek el eP
  rw [hN] at ek
  subst ek
  exact ⟨d', h1, el, eP⟩

theorem two_le_cells (n : Nat) (hn : 2 ≤ n) : n ≤ n * n - n ∧ 2 ≤ n * n - n := by
  rw [← mul_pred_eq]
  have : n * 1 ≤ n * (n - 1) := Nat.mul_le_mul_left _ (by omega)
  omega

theorem sort_vector_ok (d : List pair) (m : List (List Int)) (n : Nat) (inc : Bool)
    (hn : 2 ≤ n) (hm : Square n m) (hd : d.length = n * n - n + 1) :
    ∃ d', sort_vector d m n inc = Except.ok d' ∧ d'.length = d.length ∧
      AllP (OffDiag n) (n * n - n + 1) d' := by
  unfold sort_vector
  obtain ⟨d1, h1, l1, p1⟩ := sort_vector_fill_ok d m n (by omega) hm hd
  have hN := (two_le_cells n hn).2
  rw [h1]
  simp only [ok_bind]
  rw [rd_eq (by omega), ok_bind, wr_eq (by omega), ok_bind]
  have p2 : AllP (OffDiag n) (n * n - n + 1) (d1.set (n * n - n) (sel d1 0)) := by
    refine ⟨by simp; omega, ?_⟩
    intro k hk
    rw [sel_set]
    split_ifs with c
    · exact p1.2 0 (by omega)
    · exact p1.2 k (by
        by_contra hc
        exact c ⟨by omega, by omega⟩)
  have hs : ∃ d2, (if inc = true then heap_sort pairinc (d1.set (n * n - n) (sel d1 0)) (n * n - n)
      else heap_sort pairdec (d1.set (n * n - n) (sel d1 0)) (n * n - n)) = Except.ok d2 ∧
      AllP (OffDiag n) (n * n - n + 1) d2 ∧ d2.length = d.length := by
    by_cases c : inc = true
    · rw [if_pos c]
      obtain ⟨d2, e2, q1, _, q3⟩ := heap_sort_ok
        (heapSafe_pairinc (OffDiag n) (OffDiag n) (n * n - n + 1) (n * n - n + 1) d.length
          (by omega) (le_refl _))
        (d1.set (n * n - n) (sel d1 0)) (n * n - n) ⟨p2, p2, by simpa using l1⟩ (by omega)
      exact ⟨d2, e2, q1, q3⟩
    · rw [if_neg c]
      obtain ⟨d2, e2, q1, _, q3⟩ := heap_sort_ok
        (heapSafe_pairdec (OffDiag n) (OffDiag n) (n * n - n + 1) (n * n - n + 1) d.length
          (by omega) (le_refl _))
        (d1.set (n * n - n) (sel d1 0)) (n * n - n) ⟨p2, p2, by simpa using l1⟩ (by omega)
      exact ⟨d2, e2, q1, q3⟩
  obtain ⟨d2, e2, q2, l2⟩ := hs
  rw [e2, ok_bind]
  obtain ⟨d3, e3, q3, l3⟩ := for_loop_tot
    (b := fun i (d : List pair) => (do
      let x ← rd d (i + 1)
      wr d i x : Except Err (List pair)))
    (fun _ d' => AllP (OffDiag n) (n * n - n + 1) d' ∧ d'.length = d.length)
    (n * n - n) 0 d2 ⟨q2, l2⟩
    (by
      intro i t _ hi ⟨tP, tl⟩
      dsimp only
      rw [rd_eq (by omega), ok_bind, wr_eq (by omega)]
      exact ⟨_, rfl, allP_set tP _ _ (fun _ => tP.2 (i + 1) (by omega)), by simpa using tl⟩)
  exact ⟨d3, e3, l3, q3⟩

theorem inj_card_le (f : Nat → Nat) (k n : Nat) (hf : ∀ t, t < k → f t < n)
    (hinj : ∀ t, t < k → ∀ u, u < k → f t = f u → t = u) : k ≤ n := by
  have := Finset.card_le_card_of_injOn (s := range k) (t := range n) f
    (fun t ht => by simpa using hf t (by simpa using ht))
    (fun t ht u hu e => hinj t (by simpa using ht) u (by simpa using hu) e)
  simpa using this

theorem inj_card_lt (f : Nat → Nat) (k n a : Nat) (hf : ∀ t, t < k → f t < n)
    (hinj : ∀ t, t < k → ∀ u, u < k → f t = f u → t = u) (ha : a < n)
    (hne : ∀ t, t < k → f t ≠ a) : k < n := by
  have := Finset.card_le_card_of_injOn (s := range k) (t := (range n).erase a) f
    (fun t ht => by
      have h1 := hf t (by simpa using ht)
      have h2 := hne t (by simpa using ht)
      simp [h1, h2])
    (fun t ht u hu e => hinj t (by simpa using ht) u (by simpa using hu) e)
  rw [Finset.card_erase_of_mem (by simpa using ha)] at this
  simp at this
  omega

theorem inj_surj (f : Nat → Nat) (n : Nat) (hf : ∀ t, t < n → f t < n)
    (hinj : ∀ t, t < n → ∀ u, u < n → f t = f u → t = u) (a : Nat) (ha : a < n) :
    ∃ t, t < n ∧ f t = a := by
  by_contra h
  have := inj_card_lt f n n a hf hinj ha (fun t ht e => h ⟨t, ht, e⟩)
  omega

theorem Marks.free_lt {g : grasp} (h : Marks g) {a : Nat} (ha : a < g.q.n)
    (hd : sel g.done a = 0) : g.n_assigned < g.q.n := by
  obtain ⟨_, _, h3, h4, h5, _⟩ := h
  apply inj_card_lt (fun t => sel g.assigned t) g.n_assigned g.q.n a h3 h4 ha
  intro t ht e
  exact ((h5 a ha).2 ⟨t, ht, e⟩) hd

theorem Marks.exists_free {g : grasp} (h : Marks g)
    (hk : g.n_assigned < g.q.n) :
    (∃ a, a < g.q.n ∧ sel g.done a = 0) ∧ (∃ v, v < g.q.n ∧ sel g.ldone v = 0) := by
  obtain ⟨hv, _, h3, h4, h5, h6⟩ := h
  constructor
  · by_contra hc
    have all : ∀ a, a < g.q.n → ∃ t, t < g.n_assigned ∧ sel g.assigned t = a := by
      intro a ha
      apply (h5 a ha).1
      intro e
      exact hc ⟨a, ha, e⟩
    choose! r hr using all
    have := inj_card_le r g.q.n g.n_assigned (fun a ha => (hr a ha).1)
      (fun a ha b hb e => by
        have e1 := (hr a ha).2
        have e2 := (hr b hb).2
        rw [e] at e1
        omega)
    omega
  · by_contra hc
    have all : ∀ v, v < g.q.n → ∃ t, t < g.n_assigned ∧ sel g.s.p (sel g.assigned t) = v := by
      intro v hv'
      apply (h6 v hv').1
      intro e
      exact hc ⟨v, hv', e⟩
    choose! r hr using all
    have := inj_card_le r g.q.n g.n_assigned (fun a ha => (hr a ha).1)
      (fun a ha b hb e => by
        have e1 := (hr a ha).2
        have e2 := (hr b hb).2
        rw [e] at e1
        omega)
    omega

theorem g_assign_ok {g : grasp} (hb : Buffers g) (hm : Marks g) {p q : Nat} (hp : p < g.q.n)
    (hq : q < g.q.n) (dp : sel g.done p = 0) (dq : sel g.ldone q = 0) :
    ∃ s', g_assign g p q = Except.ok
        { g with s := s', assigned := g.assigned.set g.n_assigned p,
                 n_assigned := g.n_assigned + 1, done := g.done.set p 1,
                 ldone := g.ldone.set q 1 } ∧
      Marks { g with s := s', assigned := g.assigned.set g.n_assigned p,
                     n_assigned := g.n_assigned + 1, done := g.done.set p 1,
                     ldone := g.ldone.set q 1 } ∧
      s'.n = g.s.n ∧ s'.cost = g.s.cost ∧ sel s'.p p = q ∧
      ∀ t, t < g.n_assigned → sel s'.p (sel g.assigned t) = sel g.s.p (sel g.assigned t) := by
  obtain ⟨hwf, hn2, hsn, hfl, hdl, hal, hdnl, hldl, _, _⟩ := hb
  have hlt := hm.free_lt hp dp
  obtain ⟨hv, hk, h3, h4, h5, h6⟩ := hm
  have hp' : p < g.s.n := by omega
  have hq' : q < g.s.n := by omega
  have hr := hv.rev_lt q hq'
  have hpr := hv.p_rev q hq'
  have pl : g.s.p.length = g.s.n := hv.1
  -- the assigned positions are neither `p` nor the position holding `q`
  have np : ∀ t, t < g.n_assigned → sel g.assigned t ≠ p := by
    intro t ht e
    exact ((h5 p hp).2 ⟨t, ht, e⟩) dp
  have nr : ∀ t, t < g.n_assigned → sel g.assigned t ≠ sel g.s.rev q := by
    intro t ht e
    exact ((h6 q hq).2 ⟨t, ht, by rw [e, hpr]⟩) dq
  have keep : ∀ t, t < g.n_assigned →
      sel (swp g.s.p p (sel g.s.rev q)) (sel g.assigned t) = sel g.s.p (sel g.assigned t) := by
    intro t ht
    rw [sel_swp _ _ _ _ (by omega) (by omega), if_neg (nr t ht), if_neg (np t ht)]
  have placed : sel (swp g.s.p p (sel g.s.rev q)) p = q := by
    rw [sel_swp _ _ _ _ (by omega) (by omega)]
    by_cases e : p = sel g.s.rev q
    · rw [if_pos e, e, hpr]
    · rw [if_neg e, if_pos rfl, hpr]
  refine ⟨{ g.s with p := swp g.s.p p (sel g.s.rev q),
                      rev := (g.s.rev.set (sel g.s.p p) (sel g.s.rev q)).set
                               (sel g.s.p (sel g.s.rev q)) p },
    ?_, ?_, rfl, rfl, placed, keep⟩
  · unfold g_assign
    rw [qs_assign_eq hv hp' hq', ok_bind, wr_eq (by omega), ok_bind, wr_eq (by omega), ok_bind,
      wr_eq (by omega)]
    rfl
  · refine ⟨valid_swap hv hp' hr, by simp only; omega, ?_, ?_, ?_, ?_⟩
    · intro t ht
      simp only at ht ⊢
      rw [sel_set]
      split_ifs
      · exact hp
      · exact h3 t (by omega)
    · intro t ht u hu e
      simp only at ht hu e
      rw [sel_set, sel_set] at e
      by_cases c1 : t = g.n_assigned <;> by_cases c2 : u = g.n_assigned
      · omega
      · simp only [c1, hal, hlt, and_self, if_true, c2, false_and, if_false] at e
        exact absurd e.symm (np u (by omega))
      · simp only [c1, hal, hlt, false_and, if_false, c2, and_self, if_true] at e
        exact absurd e (np t (by omega))
      · simp only [c1, c2, false_and, if_false] at e
        exact h4 t (by omega) u (by omega) e
    · intro a ha
      simp only at ha ⊢
      rw [sel_set]
      constructor
      · intro h
        by_cases c : a = p
        · exact ⟨g.n_assigned, by omega, by rw [sel_set]; simp [hal, hlt, c]⟩
        · simp only [c, false_and, if_false] at h
          obtain ⟨t, ht, e⟩ := (h5 a ha).1 h
          refine ⟨t, by omega, ?_⟩
          rw [sel_set, if_neg (by omega)]
          exact e
      · rintro ⟨t, ht, e⟩
        rw [sel_set] at e
        by_cases c : t = g.n_assigned
        · simp only [c, hal, hlt, and_self, if_true] at e
          simp [← e, hdnl, hp]
        · simp only [c, false_and, if_false] at e
          have := (h5 a ha).2 ⟨t, by omega, e⟩
          split_ifs
          · omega
          · exact this
    · intro v hv'
      simp only at hv' ⊢
      rw [sel_set]
      constructor
      · intro h
        by_cases c : v = q
        · refine ⟨g.n_assigned, by omega, ?_⟩
          rw [sel_set]
          simp only [hal, hlt, and_self, if_true]
          rw [placed, c]
        · simp only [c, false_and, if_false] at h
          obtain ⟨t, ht, e⟩ := (h6 v hv').1 h
          refine ⟨t, by omega, ?_⟩
          rw [sel_set, if_neg (by omega), keep t ht]
          exact e
      · rintro ⟨t, ht, e⟩
        rw [sel_set] at e
        by_cases c : t = g.n_assigned
        · simp only [c, hal, hlt, and_self, if_true] at e
          rw [placed] at e
          simp [← e, hldl, hq]
        · simp only [c, false_and, if_false] at e
          rw [keep t (by omega)] at e
          have := (h6 v hv').2 ⟨t, by omega, e⟩
          split_ifs
          · omega
          · exact this

theorem Kept.refl (g : grasp) : Kept g g := ⟨rfl, rfl, rfl, rfl, rfl, rfl, rfl, rfl, rfl⟩

theorem Kept.trans {a b c : grasp} (h1 : Kept a b) (h2 : Kept b c) : Kept a c := by
  obtain ⟨a1, a2, a3, a4, a5, a6, a7, a8, a9⟩ := h1
  obtain ⟨b1, b2, b3, b4, b5, b6, b7, b8, b9⟩ := h2
  exact ⟨b1.trans a1, b2.trans a2, b3.trans a3, b4.trans a4, b5.trans a5, b6.trans a6,
    b7.trans a7, b8.trans a8, b9.trans a9⟩

theorem zero_loop_ok (a : List Nat) (n : Nat) (h : n ≤ a.length) :
    ∃ a', for_loop (fun i (a : List Nat) => wr a i 0) 0 n a = Except.ok a' ∧
      a'.length = a.length ∧ ∀ k, k < n → sel a' k = 0 := by
  obtain ⟨a', h1, h2, h3⟩ := for_loop_tot (b := fun i (a : List Nat) => wr a i 0)
    (fun i t => t.length = a.length ∧ ∀ k, k < i → sel t k = 0) n 0 a
    ⟨rfl, by intro k hk; omega⟩
    (by
      intro i t _ hi ⟨tl, tk⟩
      dsimp only
      rw [wr_eq (by omega)]
      refine ⟨_, rfl, by simpa using tl, ?_⟩
      intro k hk
      by_cases e : k = i
      · subst e
        rw [sel_set_eq _ _ _ (by omega)]
      · rw [sel_set_ne _ _ _ _ e]
        exact tk k (by omega))
  exact ⟨a', h1, h2, by simpa using h3⟩

theorem idx_eq {x : Int} (h : 0 ≤ x) : idx x = Except.ok x.toNat := by
  simp [idx, h]

theorem cmod_eq {a b : Nat} (h : 0 < b) : cmod a b = Except.ok (a % b) := by
  simp [cmod, Nat.pos_iff_ne_zero.mp h]

theorem phase1_ok (E : env) (g : grasp) (hb : Buffers g) (hv : Valid g.s) :
    ∃ g', phase1 E g = Except.ok g' ∧ Buffers g' ∧ Marks g' ∧ g'.n_assigned = 2 ∧
      Kept g g' ∧ g'.s.n = g.s.n ∧ g'.rc = g.rc + 1 ∧ g'.tc = g.tc ∧
      AllP (OffDiag g.q.n) (g.q.n * g.q.n - g.q.n + 1) g'.f ∧
      AllP (OffDiag g.q.n) (g.q.n * g.q.n - g.q.n + 1) g'.d := by
  obtain ⟨hwf, hn2, hsn, hfl, hdl, hal, hdnl, hldl, ha, hbeta⟩ := hb
  have hN := two_le_cells g.q.n hn2
  unfold phase1
  obtain ⟨d1, e1, l1, p1⟩ := sort_vector_ok g.d g.q.D g.q.n true hn2
    ⟨hwf.2.1, fun i hi => (hwf.2.2 i hi).2⟩ hdl
  obtain ⟨f1, e2, l2, p2⟩ := sort_vector_ok g.f g.q.F g.q.n false hn2
    ⟨hwf.1, fun i hi => (hwf.2.2 i hi).1⟩ hfl
  simp only [e1, e2, ok_bind]
  -- the size of the candidate list
  have hlast := hbeta (g.q.n * g.q.n - g.q.n)
  have hrcl := ha (g.beta.scale (g.q.n * g.q.n - g.q.n))
  generalize hR : (if g.alpha.scale (g.beta.scale (g.q.n * g.q.n - g.q.n)) = 0 then
      g.alpha.scale (g.beta.scale (g.q.n * g.q.n - g.q.n)) + 1
    else g.alpha.scale (g.beta.scale (g.q.n * g.q.n - g.q.n))) = rcl
  have hr1 : 1 ≤ rcl ∧ rcl ≤ g.q.n * g.q.n - g.q.n := by
    rw [← hR]; split_ifs <;> omega
  rw [cmod_eq (by omega), ok_bind]
  have hpos := Nat.mod_lt (E.genrandint g.rc) (by omega : 0 < rcl)
  generalize E.genrandint g.rc % rcl = pos0 at hpos
  rw [rd_eq (by omega), ok_bind, wr_eq (by omega), ok_bind,
    rd_eq (by omega), ok_bind, wr_eq (by omega), ok_bind]
  have pf : AllP (OffDiag g.q.n) (g.q.n * g.q.n - g.q.n + 1) (f1.set g.q.n (sel f1 0)) :=
    allP_set p2 _ _ (fun _ => p2.2 0 (by omega))
  have pd : AllP (OffDiag g.q.n) (g.q.n * g.q.n - g.q.n + 1) (d1.set g.q.n (sel d1 0)) :=
    allP_set p1 _ _ (fun _ => p1.2 0 (by omega))
  obtain ⟨⟨f3, d3⟩, e3, ⟨pf3, lf3⟩, ⟨pd3, ld3⟩⟩ := heap_sortn_ok
    (heapSafe_doublepair (OffDiag g.q.n) (OffDiag g.q.n) (g.q.n * g.q.n - g.q.n + 1)
      (g.q.n * g.q.n - g.q.n + 1) (by omega))
    (f1.set g.q.n (sel f1 0), d1.set g.q.n (sel d1 0)) (g.q.n * g.q.n - g.q.n)
    (g.q.n * g.q.n - g.q.n)
    ⟨⟨pf, by simp; omega⟩, ⟨pd, by simp; omega⟩⟩ (by omega) (by omega)
  simp only at pf3 lf3 pd3 ld3
  rw [e3]
  simp only [ok_bind]
  have hidx : (0 : Int) ≤ (g.q.n : Int) * g.q.n - g.q.n - ((pos0 + 1 : Nat) : Int) + 1 := by
    have : ((g.q.n * g.q.n - g.q.n : Nat) : Int) = (g.q.n : Int) * g.q.n - g.q.n := by
      rw [Nat.cast_sub (Nat.le_mul_self _)]
      push_cast; ring
    omega
  rw [idx_eq hidx, ok_bind]
  have hposn : ((g.q.n : Int) * g.q.n - g.q.n - ((pos0 + 1 : Nat) : Int) + 1).toNat
      = g.q.n * g.q.n - g.q.n - pos0 := by
    have : ((g.q.n * g.q.n - g.q.n : Nat) : Int) = (g.q.n : Int) * g.q.n - g.q.n := by
      rw [Nat.cast_sub (Nat.le_mul_self _)]
      push_cast; ring
    omega
  rw [hposn]
  generalize hP : g.q.n * g.q.n - g.q.n - pos0 = pos at *
  have hpos1 : 1 ≤ pos ∧ pos ≤ g.q.n * g.q.n - g.q.n := by omega
  obtain ⟨dn, e4, l4, z4⟩ := zero_loop_ok g.done g.q.n (by omega)
  obtain ⟨ld, e5, l5, z5⟩ := zero_loop_ok g.ldone g.q.n (by omega)
  rw [e4, ok_bind, e5, ok_bind]
  rw [rd_eq (by omega), ok_bind, rd_eq (by omega), ok_bind]
  have of := pf3.2 pos (by omega)
  have od := pd3.2 pos (by omega)
  -- the state before the two seed assignments
  have b1 : Buffers { g with f := f3, d := d3, rc := g.rc + 1, done := dn, ldone := ld,
                             n_assigned := 0 } :=
    ⟨hwf, hn2, hsn, by simp only; omega, by simp only; omega, hal, by simp only; omega,
      by simp only; omega, ha, hbeta⟩
  have m1 : Marks { g with f := f3, d := d3, rc := g.rc + 1, done := dn, ldone := ld,
                           n_assigned := 0 } := by
    refine ⟨hv, Nat.zero_le _, ?_, ?_, ?_, ?_⟩
    · intro t ht; simp only at ht; omega
    · intro t ht; simp only at ht; omega
    · intro a ha'
      simp only at ha' ⊢
      rw [z4 a ha']
      simp
    · intro v hv'
      simp only at hv' ⊢
      rw [z5 v hv']
      simp
  obtain ⟨s2, e6, m2, n2, c2, pl2, k2⟩ := g_assign_ok b1 m1 of.1 od.1
    (z4 _ of.1) (z5 _ od.1)
  have n2' : s2.n = g.s.n := n2
  rw [e6, ok_bind]
  simp only
  rw [rd_eq (by omega), ok_bind, rd_eq (by omega), ok_bind]
  have b2 : Buffers { g with f := f3, d := d3, rc := g.rc + 1, s := s2,
                             assigned := g.assigned.set 0 (sel f3 pos).i, n_assigned := 0 + 1,
                             done := dn.set (sel f3 pos).i 1,
                             ldone := ld.set (sel d3 pos).i 1 } :=
    ⟨hwf, hn2, by simp only; omega, by simp only; omega, by simp only; omega,
      by simp only [List.length_set]; omega, by simp only [List.length_set]; omega,
      by simp only [List.length_set]; omega, ha, hbeta⟩
  obtain ⟨s3, e7, m3, n3, c3, pl3, k3⟩ := g_assign_ok b2 m2 of.2.1 od.2.1
    (by simp only; rw [sel_set_ne _ _ _ _ (Ne.symm of.2.2)]; exact z4 _ of.2.1)
    (by simp only; rw [sel_set_ne _ _ _ _ (Ne.symm od.2.2)]; exact z5 _ od.2.1)
  have n3' : s3.n = s2.n := n3
  refine ⟨_, e7, ?_, m3, rfl, ⟨rfl, rfl, rfl, rfl, rfl, rfl, rfl, rfl, rfl⟩, ?_, rfl, rfl,
    pf3, pd3⟩
  · exact ⟨hwf, hn2, by simp only; omega, by simp only; omega, by simp only; omega,
      by simp only [List.length_set]; omega, by simp only [List.length_set]; omega,
      by simp only [List.length_set]; omega, ha, hbeta⟩
  · simp only; omega

theorem nested_loop_tot {σ : Type} {b : Nat → Nat → σ → Except Err σ}
    (I : Nat → Nat → σ → Prop) (n : Nat) (s : σ) (h0 : I 0 0 s)
    (hrow : ∀ i s, i < n → I i n s → I (i + 1) 0 s)
    (hstep : ∀ i j s, i < n → j < n → I i j s → ∃ s', b i j s = Except.ok s' ∧ I i (j + 1) s') :
    ∃ s', for_loop (fun i s => for_loop (fun j s => b i j s) 0 n s) 0 n s = Except.ok s' ∧
      I n 0 s' := by
  have := for_loop_tot (b := fun i s => for_loop (fun j s => b i j s) 0 n s)
    (fun i s => I i 0 s) n 0 s h0
    (by
      intro i t _ hi hI
      obtain ⟨t', h1, h2⟩ := for_loop_tot (b := fun j s => b i j s) (fun j s => I i j s) n 0 t hI
        (by
          intro j u _ hj hu
          exact hstep i j u (by omega) (by omega) hu)
      exact ⟨t', h1, hrow i t' (by omega) (by simpa using h2)⟩)
  simpa using this

theorem g_compute_cost_ok {g : grasp} (hb : Buffers g) (hm : Marks g) {p q : Nat}
    (hp : p < g.q.n) (hq : q < g.q.n) :
    g_compute_cost g p q = Except.ok (wrap (rel_cost g p q)) := by
  obtain ⟨hwf, hn2, hsn, hfl, hdl, hal, hdnl, hldl, _, _⟩ := hb
  obtain ⟨hv, hk, h3, h4, h5, h6⟩ := hm
  unfold g_compute_cost
  have z : (0 : Int) = wrap 0 := wrap_zero.symm
  rw [z, for_loop_wsum (fun t => Fv g.q (sel g.assigned t) p *
      Dv g.q (sel g.s.p (sel g.assigned t)) q) g.n_assigned 0 0
    (by
      intro t acc _ ht
      have ht : t < g.n_assigned := by omega
      have a1 := h3 t ht
      have a2 := hv.2.2.1 (sel g.assigned t) (by omega)
      rw [rd_eq (by omega), ok_bind, rd_eq (by rw [hv.1]; omega), ok_bind,
        rdF hwf a1 hp, ok_bind, rdD hwf (by omega) hq, ok_bind]
      exact congrArg Except.ok (iadd_wrap _ _ _ (wrap_modEq _)))]
  simp [rel_cost]

theorem Marks.first {g : grasp} (hm : Marks g) (h1 : 1 ≤ g.n_assigned) :
    sel g.assigned 0 < g.q.n ∧ sel g.done (sel g.assigned 0) ≠ 0 :=
  ⟨hm.2.2.1 0 (by omega), (hm.2.2.2.2.1 _ (hm.2.2.1 0 (by omega))).2 ⟨0, by omega, rfl⟩⟩

theorem collect_ok {g : grasp} (hb : Buffers g) (hm : Marks g) (h1 : 1 ≤ g.n_assigned)
    (A : Nat → Nat → List pair × Nat → Except Err (List pair × Nat))
    (want : Nat → Nat → Prop)
    (hA : ∀ i j (st : List pair × Nat), i < g.q.n → j < g.q.n → sel g.done i = 0 →
      sel g.ldone j = 0 → st.2 < st.1.length →
      ∃ st', A i j st = Except.ok st' ∧ ((st' = st ∧ ¬ want i j) ∨
        (∃ x : pair, x.i = i ∧ x.j = j ∧ st' = (st.1.set st.2 x, st.2 + 1))))
    (buf : List pair) (hl : buf.length = g.q.n * g.q.n - g.q.n + 1) :
    ∃ f' l, for_loop (fun i st => for_loop (fun j (st : List pair × Nat) => (do
        let di ← rd g.done i
        if di = 0 then do
          let lj ← rd g.ldone j
          if lj = 0 then A i j st
          else pure st
        else pure st : Except Err (List pair × Nat))) 0 g.q.n st) 0 g.q.n (buf, 0)
        = Except.ok (f', l) ∧
      f'.length = buf.length ∧ AllP (FreePair g) l f' ∧ l ≤ g.q.n * g.q.n - g.q.n ∧
      ∀ a v, a < g.q.n → v < g.q.n → sel g.done a = 0 → sel g.ldone v = 0 → want a v →
        ∃ t, t < l ∧ (sel f' t).i = a ∧ (sel f' t).j = v := by
  obtain ⟨hwf, hn2, hsn, hfl, hdl, hal, hdnl, hldl, _, _⟩ := hb
  obtain ⟨ha0, hd0⟩ := hm.first h1
  generalize sel g.assigned 0 = a0 at ha0 hd0
  have hN := mul_pred_eq g.q.n
  have hN2 : (g.q.n - 1) * g.q.n = g.q.n * g.q.n - g.q.n := by rw [Nat.mul_comm]; exact hN
  have hN3 : (g.q.n - 2) * g.q.n + g.q.n = (g.q.n - 1) * g.q.n := by
    have : g.q.n - 1 = (g.q.n - 2) + 1 := by omega
    rw [this, Nat.add_mul, Nat.one_mul]
  obtain ⟨⟨f', l⟩, h, i1, i2, i3, i4⟩ := nested_loop_tot
    (b := fun i j (st : List pair × Nat) => (do
        let di ← rd g.done i
        if di = 0 then do
          let lj ← rd g.ldone j
          if lj = 0 then A i j st
          else pure st
        else pure st : Except Err (List pair × Nat)))
    (fun i j st => st.1.length = buf.length ∧ AllP (FreePair g) st.2 st.1 ∧
      st.2 ≤ (if a0 < i then i - 1 else i) * g.q.n + (if i = a0 then 0 else j) ∧
      ∀ a v, a < g.q.n → v < g.q.n → sel g.done a = 0 → sel g.ldone v = 0 → want a v →
        (a < i ∨ (a = i ∧ v < j)) → ∃ t, t < st.2 ∧ (sel st.1 t).i = a ∧ (sel st.1 t).j = v)
    g.q.n (buf, 0)
    ⟨rfl, ⟨Nat.zero_le _, fun k hk => by omega⟩, Nat.zero_le _,
      fun a v _ _ _ _ _ h => by omega⟩
    (by
      intro i st hi ⟨l1, l2, l3, l4⟩
      refine ⟨l1, l2, ?_, ?_⟩
      · by_cases c : i = a0
        · subst c
          simp only [lt_irrefl, if_false, if_true] at l3
          simp only [Nat.lt_succ_self, if_true, Nat.add_sub_cancel]
          split_ifs <;> omega
        · rw [if_neg c] at l3
          have hB : (if a0 < i then i - 1 else i) + 1 ≤ (if a0 < i + 1 then i + 1 - 1 else i + 1) := by
            split_ifs <;> omega
          have := Nat.mul_le_mul_right g.q.n hB
          rw [Nat.add_mul, Nat.one_mul] at this
          omega
      · intro a v h1 h2 h3 h4 h5 h6
        exact l4 a v h1 h2 h3 h4 h5 (by omega))
    (by
      intro i j st hi hj ⟨l1, l2, l3, l4⟩
      dsimp only
      rw [rd_eq (by omega), ok_bind]
      by_cases c1 : sel g.done i = 0
      · rw [if_pos c1, rd_eq (by omega), ok_bind]
        by_cases c2 : sel g.ldone j = 0
        · rw [if_pos c2]
          have ne : i ≠ a0 := fun e => hd0 (e ▸ c1)
          rw [if_neg ne] at l3
          have hB : (if a0 < i then i - 1 else i) ≤ g.q.n - 2 := by split_ifs <;> omega
          have hB2 := Nat.mul_le_mul_right g.q.n hB
          have hlen : st.2 < st.1.length := by omega
          obtain ⟨st', e, hcase⟩ := hA i j st hi hj c1 c2 hlen
          refine ⟨st', e, ?_⟩
          rcases hcase with ⟨rfl, nw⟩ | ⟨x, xi, xj, rfl⟩
          · refine ⟨l1, l2, by rw [if_neg ne]; omega, ?_⟩
            intro a v h1 h2 h3 h4 h5 h6
            by_cases c : a = i ∧ v = j
            · exact absurd (c.1 ▸ c.2 ▸ h5) nw
            · exact l4 a v h1 h2 h3 h4 h5 (by omega)
          · refine ⟨by simpa using l1, ?_, by rw [if_neg ne]; simp only; omega, ?_⟩
            · refine ⟨by simp only [List.length_set]; omega, ?_⟩
              intro k hk
              simp only at hk ⊢
              by_cases ek : k = st.2
              · rw [ek, sel_set_eq _ _ _ hlen]
                exact ⟨xi ▸ hi, xj ▸ hj, xi ▸ c1, xj ▸ c2⟩
              · rw [sel_set_ne _ _ _ _ ek]
                exact l2.2 k (by omega)
            · intro a v h1 h2 h3 h4 h5 h6
              simp only
              by_cases c : a = i ∧ v = j
              · refine ⟨st.2, by omega, ?_⟩
                rw [sel_set_eq _ _ _ hlen]
                exact ⟨xi.trans c.1.symm, xj.trans c.2.symm⟩
              · obtain ⟨t, ht, e1, e2⟩ := l4 a v h1 h2 h3 h4 h5 (by omega)
                refine ⟨t, by omega, ?_⟩
                rw [sel_set_ne _ _ _ _ (by omega)]
                exact ⟨e1, e2⟩
        · rw [if_neg c2]
          refine ⟨st, rfl, l1, l2, by split_ifs at l3 ⊢ <;> omega, ?_⟩
          intro a v h1 h2 h3 h4 h5 h6
          by_cases c : a = i ∧ v = j
          · exact absurd (c.2 ▸ h4) c2
          · exact l4 a v h1 h2 h3 h4 h5 (by omega)
      · rw [if_neg c1]
        refine ⟨st, rfl, l1, l2, by split_ifs at l3 ⊢ <;> omega, ?_⟩
        intro a v h1 h2 h3 h4 h5 h6
        by_cases c : a = i
        · exact absurd (c ▸ h3) c1
        · exact l4 a v h1 h2 h3 h4 h5 (by omega))
  refine ⟨f', l, h, i1, i2, ?_, ?_⟩
  · simp only [ha0, if_true] at i3
    have : ¬ g.q.n = a0 := by omega
    rw [if_neg this] at i3
    omega
  · intro a v h1 h2 h3 h4 h5
    exact i4 a v h1 h2 h3 h4 h5 (by omega)

theorem phase2_collect_ok {g : grasp} (hb : Buffers g) (hm : Marks g) (h1 : 1 ≤ g.n_assigned) :
    ∃ f' l, phase2_collect g = Except.ok (f', l) ∧
      f'.length = g.f.length ∧ AllP (FreePair g) l f' ∧ l ≤ g.q.n * g.q.n - g.q.n ∧
      ∀ a v, a < g.q.n → v < g.q.n → sel g.done a = 0 → sel g.ldone v = 0 →
        ∃ t, t < l ∧ (sel f' t).i = a ∧ (sel f' t).j = v := by
  obtain ⟨f', l, h, i1, i2, i3, i4⟩ := collect_ok hb hm h1
    (fun i j st => (do
      let c ← g_compute_cost g i j
      let f ← wr st.1 st.2 ⟨c, i, j⟩
      pure (f, st.2 + 1) : Except Err (List pair × Nat)))
    (fun _ _ => True)
    (by
      intro i j st hi hj _ _ hlen
      dsimp only
      rw [g_compute_cost_ok hb hm hi hj, ok_bind, wr_eq hlen, ok_bind]
      exact ⟨_, rfl, Or.inr ⟨_, rfl, rfl, rfl⟩⟩)
    g.f hb.2.2.2.1
  exact ⟨f', l, h, i1, i2, i3, fun a v h1 h2 h3 h4 => i4 a v h1 h2 h3 h4 trivial⟩

theorem phase2_round_ok (E : env) {g : grasp} (hb : Buffers g) (hm : Marks g)
    (h1 : 1 ≤ g.n_assigned) (hk : g.n_assigned < g.q.n) :
    ∃ g', phase2_round E g = Except.ok g' ∧ Buffers g' ∧ Marks g' ∧
      g'.n_assigned = g.n_assigned + 1 ∧ Kept g g' ∧ g'.s.n = g.s.n ∧ g'.tc = g.tc ∧
      g'.s.cost = g.s.cost := by
  obtain ⟨f1, l, e1, l1, p1, b1, c1⟩ := phase2_collect_ok hb hm h1
  obtain ⟨⟨a, ha, da⟩, ⟨v, hv, dv⟩⟩ := hm.exists_free hk
  obtain ⟨t0, ht0, _, _⟩ := c1 a v ha hv da dv
  have hl1 : 1 ≤ l := by omega
  have hfl := hb.2.2.2.1
  unfold phase2_round
  rw [e1]
  simp only [ok_bind]
  rw [rd_eq (by omega), ok_bind, wr_eq (by omega), ok_bind]
  have p2 : AllP (FreePair g) (l + 1) (f1.set l (sel f1 0)) := by
    refine ⟨by simp only [List.length_set]; omega, ?_⟩
    intro k hk2
    by_cases e : k = l
    · rw [e, sel_set_eq _ _ _ (by omega)]
      exact p1.2 0 (by omega)
    · rw [sel_set_ne _ _ _ _ e]
      exact p1.2 k (by omega)
  obtain ⟨f2, e2, q1, _, q3⟩ := heap_sort_ok
    (heapSafe_pairinc (FreePair g) (fun _ => True) (l + 1) (l + 1) g.f.length (by omega)
      (le_refl _))
    (f1.set l (sel f1 0)) l ⟨p2, ⟨p2.1, fun _ _ => trivial⟩, by simpa using l1⟩ (by omega)
  rw [e2, ok_bind]
  have hsc := hb.2.2.2.2.2.2.2.2.1 l
  generalize hP : (if g.alpha.scale l = 0 then g.alpha.scale l + 1 else g.alpha.scale l) = p
  have hp : 1 ≤ p ∧ p ≤ l := by
    rw [← hP]; split_ifs <;> omega
  rw [cmod_eq (by omega), ok_bind]
  have hpos := Nat.mod_lt (E.genrandint g.rc) (by omega : 0 < p)
  generalize E.genrandint g.rc % p = pos0 at hpos
  rw [rd_eq (by omega), ok_bind]
  have fr := q1.2 (pos0 + 1) (by omega)
  have b2 : Buffers { g with f := f2, rc := g.rc + 1 } := by
    obtain ⟨x1, x2, x3, x4, x5, x6, x7, x8, x9, x10⟩ := hb
    exact ⟨x1, x2, x3, by simp only; omega, x5, x6, x7, x8, x9, x10⟩
  have m2 : Marks { g with f := f2, rc := g.rc + 1 } := hm
  obtain ⟨s', e3, m3, n3, c3, _, _⟩ := g_assign_ok b2 m2 fr.1 fr.2.1 fr.2.2.1 fr.2.2.2
  refine ⟨_, e3, ?_, m3, rfl, ⟨rfl, rfl, rfl, rfl, rfl, rfl, rfl, rfl, rfl⟩, n3, rfl, c3⟩
  obtain ⟨x1, x2, x3, x4, x5, x6, x7, x8, x9, x10⟩ := b2
  have n3' : s'.n = g.s.n := n3
  exact ⟨x1, x2, by simp only at x3 ⊢; omega, x4, x5, by simp only [List.length_set]; exact x6,
    by simp only [List.length_set]; exact x7, by simp only [List.length_set]; exact x8, x9, x10⟩

theorem FreePair.inRange {g : grasp} {x : pair} (h : FreePair g x) : InRange g.q.n x :=
  ⟨h.1, h.2.1⟩

theorem rel_cost_zero {g : grasp} (hm : Marks g) (hs : g.s.n = g.q.n) (hz : ZeroInst g.q)
    {p q : Nat} (hp : p < g.q.n) (hq : q < g.q.n) : rel_cost g p q = 0 := by
  unfold rel_cost
  apply Finset.sum_eq_zero
  intro t ht
  have ht : t < g.n_assigned := by simpa using ht
  have a1 := hm.2.2.1 t ht
  have a2 := hm.1.2.2.1 (sel g.assigned t) (by omega)
  rcases hz with h | h
  · rw [h _ _ a1 hp, zero_mul]
  · rw [h _ _ (by omega) hq, mul_zero]

theorem sparse_collect_ok {g : grasp} (hb : Buffers g) (hm : Marks g) (h1 : 1 ≤ g.n_assigned) :
    ∃ d' l, sparse_collect g = Except.ok (d', l) ∧
      d'.length = g.d.length ∧ AllP (FreePair g) l d' ∧ l ≤ g.q.n * g.q.n - g.q.n ∧
      (ZeroInst g.q → Complete g d' l) := by
  obtain ⟨d', l, h, i1, i2, i3, i4⟩ := collect_ok hb hm h1
    (fun i j st => (do
      let c ← g_compute_cost g i j
      if c = 0 then do
        let e ← rd st.1 st.2
        let d ← wr st.1 st.2 { e with i := i, j := j }
        pure (d, st.2 + 1)
      else pure st : Except Err (List pair × Nat)))
    (fun i j => wrap (rel_cost g i j) = 0)
    (by
      intro i j st hi hj _ _ hlen
      dsimp only
      rw [g_compute_cost_ok hb hm hi hj, ok_bind]
      by_cases c : wrap (rel_cost g i j) = 0
      · rw [if_pos c, rd_eq hlen, ok_bind, wr_eq hlen, ok_bind]
        exact ⟨_, rfl, Or.inr ⟨_, rfl, rfl, rfl⟩⟩
      · rw [if_neg c]
        exact ⟨_, rfl, Or.inl ⟨rfl, c⟩⟩)
    g.d hb.2.2.2.2.1
  refine ⟨d', l, h, i1, i2, i3, ?_⟩
  intro hz a v h1 h2 h3 h4
  exact i4 a v h1 h2 h3 h4 (by rw [rel_cost_zero hm hb.2.2.1 hz h1 h2, wrap_zero])

theorem sparse_filter_ok {g : grasp} (hb : Buffers g) (delta ndelta : List pair) (nd : Nat)
    (last : pair) (hd : nd ≤ delta.length) (hnl : nd ≤ ndelta.length)
    (hin : AllP (InRange g.q.n) nd delta) (hlast : InRange g.q.n last) :
    ∃ nd' l, sparse_filter g delta ndelta nd last = Except.ok (nd', l) ∧
      nd'.length = ndelta.length ∧ l ≤ nd ∧ AllP (FreePair g) l nd' ∧
      (ZeroInst g.q → Complete g delta nd → Complete g nd' l) := by
  obtain ⟨hwf, hn2, hsn, hfl, hdl, hal, hdnl, hldl, _, _⟩ := hb
  obtain ⟨⟨nd', l⟩, h, i1, i2, i3, i4⟩ := for_loop_tot
    (b := fun i (st : List pair × Nat) => (do
      let e ← rd delta i
      let di ← rd g.done e.i
      if di = 0 then do
        let lj ← rd g.ldone e.j
        if lj = 0 then do
          let x ← rdm g.q.F e.i last.i
          let y ← rdm g.q.D e.j last.j
          if imul x y = 0 then do
            let o ← rd st.1 st.2
            let nd1 ← wr st.1 st.2 { o with i := e.i, j := e.j }
            pure (nd1, st.2 + 1)
          else pure st
        else pure st
      else pure st : Except Err (List pair × Nat)))
    (fun i st => st.1.length = ndelta.length ∧ st.2 ≤ i ∧ AllP (FreePair g) st.2 st.1 ∧
      ∀ t, t < i → FreePair g (sel delta t) →
        imul (Fv g.q (sel delta t).i last.i) (Dv g.q (sel delta t).j last.j) = 0 →
        ∃ u, u < st.2 ∧ (sel st.1 u).i = (sel delta t).i ∧ (sel st.1 u).j = (sel delta t).j)
    nd 0 (ndelta, 0)
    ⟨rfl, Nat.le_refl _, ⟨Nat.zero_le _, fun k hk => by omega⟩, fun t ht => by omega⟩
    (by
      intro i st _ hi ⟨l1, l2, l3, l4⟩
      have hi : i < nd := by omega
      have he := hin.2 i hi
      have hlen : st.2 < st.1.length := by omega
      dsimp only
      rw [rd_eq (by omega), ok_bind, rd_eq (by rw [hdnl]; exact he.1), ok_bind]
      by_cases c1 : sel g.done (sel delta i).i = 0
      · rw [if_pos c1, rd_eq (by rw [hldl]; exact he.2), ok_bind]
        by_cases c2 : sel g.ldone (sel delta i).j = 0
        · rw [if_pos c2, rdF hwf he.1 hlast.1, ok_bind, rdD hwf he.2 hlast.2, ok_bind]
          by_cases c3 : imul (Fv g.q (sel delta i).i last.i) (Dv g.q (sel delta i).j last.j) = 0
          · rw [if_pos c3, rd_eq hlen, ok_bind, wr_eq hlen, ok_bind]
            refine ⟨_, rfl, by simpa using l1, by simp only; omega, ?_, ?_⟩
            · refine ⟨by simp only [List.length_set]; omega, ?_⟩
              intro k hk
              simp only at hk ⊢
              by_cases ek : k = st.2
              · rw [ek, sel_set_eq _ _ _ hlen]
                exact ⟨he.1, he.2, c1, c2⟩
              · rw [sel_set_ne _ _ _ _ ek]
                exact l3.2 k (by omega)
            · intro t ht hf hzc
              simp only
              by_cases et : t = i
              · refine ⟨st.2, by omega, ?_⟩
                rw [sel_set_eq _ _ _ hlen, et]
                exact ⟨rfl, rfl⟩
              · obtain ⟨u, hu, e1, e2⟩ := l4 t (by omega) hf hzc
                refine ⟨u, by omega, ?_⟩
                rw [sel_set_ne _ _ _ _ (by omega)]
                exact ⟨e1, e2⟩
          · rw [if_neg c3]
            refine ⟨st, rfl, l1, by omega, l3, ?_⟩
            intro t ht hf hzc
            by_cases et : t = i
            · exact absurd (et ▸ hzc) c3
            · exact l4 t (by omega) hf hzc
        · rw [if_neg c2]
          refine ⟨st, rfl, l1, by omega, l3, ?_⟩
          intro t ht hf hzc
          by_cases et : t = i
          · exact absurd (et ▸ hf.2.2.2) c2
          · exact l4 t (by omega) hf hzc
      · rw [if_neg c1]
        refine ⟨st, rfl, l1, by omega, l3, ?_⟩
        intro t ht hf hzc
        by_cases et : t = i
        · exact absurd (et ▸ hf.2.2.1) c1
        · exact l4 t (by omega) hf hzc)
  refine ⟨nd', l, h, i1, by simpa using i2, i3, ?_⟩
  intro hz hc a v h1 h2 h3 h4
  obtain ⟨t, ht, e1, e2⟩ := hc a v h1 h2 h3 h4
  have hfree : FreePair g (sel delta t) := ⟨e1 ▸ h1, e2 ▸ h2, e1 ▸ h3, e2 ▸ h4⟩
  have hzc : imul (Fv g.q (sel delta t).i last.i) (Dv g.q (sel delta t).j last.j) = 0 := by
    unfold imul
    rcases hz with h | h
    · rw [h _ _ hfree.1 hlast.1, zero_mul, wrap_zero]
    · rw [h _ _ hfree.2.1 hlast.2, mul_zero, wrap_zero]
  obtain ⟨u, hu, f1, f2⟩ := i4 t (by omega) hfree hzc
  exact ⟨u, hu, f1.trans e1, f2.trans e2⟩

theorem allP_imp {α : Type} [Inhabited α] {P Q : α → Prop} {len : Nat} {a : List α}
    (h : AllP P len a) (hi : ∀ x, P x → Q x) : AllP Q len a :=
  ⟨h.1, fun k hk => hi _ (h.2 k hk)⟩

theorem g_assign_spec {g : grasp} (hb : Buffers g) (hm : Marks g) {p q : Nat} (hp : p < g.q.n)
    (hq : q < g.q.n) (dp : sel g.done p = 0) (dq : sel g.ldone q = 0) :
    ∃ g', g_assign g p q = Except.ok g' ∧ Buffers g' ∧ Marks g' ∧ Kept g g' ∧
      g'.n_assigned = g.n_assigned + 1 ∧ g'.s.n = g.s.n ∧ g'.s.cost = g.s.cost ∧
      g'.tc = g.tc ∧ g'.rc = g.rc ∧ g'.f = g.f ∧ g'.d = g.d ∧
      g'.done = g.done.set p 1 ∧ g'.ldone = g.ldone.set q 1 ∧ sel g'.s.p p = q := by
  obtain ⟨s', e, m, n1, c1, pl, _⟩ := g_assign_ok hb hm hp hq dp dq
  refine ⟨_, e, ?_, m, ⟨rfl, rfl, rfl, rfl, rfl, rfl, rfl, rfl, rfl⟩, rfl, n1, c1, rfl, rfl,
    rfl, rfl, rfl, rfl, pl⟩
  obtain ⟨x1, x2, x3, x4, x5, x6, x7, x8, x9, x10⟩ := hb
  exact ⟨x1, x2, by simp only; omega, x4, x5, by simp only [List.length_set]; exact x6,
    by simp only [List.length_set]; exact x7, by simp only [List.length_set]; exact x8, x9, x10⟩

theorem sparse_loop_ok (E : env) : ∀ (count : Nat) (st : sparse_state), SparseInv st →
    ∃ st', sparse_loop E count st = Except.ok st' ∧ SparseInv st' ∧ Kept st.g st'.g ∧
      st'.g.s.n = st.g.s.n ∧ st'.g.tc = st.g.tc ∧ st'.g.s.cost = st.g.s.cost ∧
      st.g.n_assigned ≤ st'.g.n_assigned ∧
      (ZeroInst st.g.q → Complete st.g st.delta st.l → st.g.n_assigned + count ≤ st.g.q.n →
        st'.g.n_assigned = st.g.n_assigned + count) := by
  intro count
  induction count with
  | zero =>
    intro st h
    exact ⟨st, rfl, h, Kept.refl _, rfl, rfl, rfl, le_refl _, fun _ _ _ => rfl⟩
  | succ c ih =>
    intro st ⟨hb, hm, l1, l2, l3, l4, l5⟩
    obtain ⟨nd', l, e1, f1, f2, f3, f4⟩ := sparse_filter_ok hb st.delta st.ndelta st.l st.last
      (by omega) (by omega) l4 l5
    unfold sparse_loop
    rw [e1]
    simp only [ok_bind]
    by_cases c0 : l = 0
    · rw [if_pos c0]
      refine ⟨_, rfl, ⟨hb, hm, l1, by simp only; omega, by simp only; omega, ?_, l5⟩,
        Kept.refl _, rfl, rfl, rfl, le_refl _, ?_⟩
      · exact allP_mono l4 (by simp only; omega)
      · intro hz hc hk
        exfalso
        obtain ⟨⟨a, ha, da⟩, ⟨v, hv, dv⟩⟩ := hm.exists_free (by omega)
        obtain ⟨t, ht, _⟩ := f4 hz hc a v ha hv da dv
        omega
    · rw [if_neg c0, cmod_eq (by omega), ok_bind]
      have hr := Nat.mod_lt (E.genrandint st.g.rc) (by omega : 0 < l)
      generalize E.genrandint st.g.rc % l = r at hr
      rw [rd_eq (by omega), ok_bind]
      have fr := f3.2 r hr
      have b2 : Buffers { st.g with rc := st.g.rc + 1 } := hb
      have m2 : Marks { st.g with rc := st.g.rc + 1 } := hm
      obtain ⟨g', e3, b3, m3, k3, n3, sn3, c3, t3, _, _, _, d3, ld3, _⟩ :=
        g_assign_spec b2 m2 fr.1 fr.2.1 fr.2.2.1 fr.2.2.2
      rw [e3, ok_bind]
      have k3 : Kept st.g g' := k3
      have n3 : g'.n_assigned = st.g.n_assigned + 1 := n3
      have sn3 : g'.s.n = st.g.s.n := sn3
      have c3 : g'.s.cost = st.g.s.cost := c3
      have t3 : g'.tc = st.g.tc := t3
      have d3 : g'.done = st.g.done.set (sel nd' r).i 1 := d3
      have ld3 : g'.ldone = st.g.ldone.set (sel nd' r).j 1 := ld3
      have hq : g'.q = st.g.q := k3.1
      obtain ⟨st', g1, g2, g3, g4, g5, g6, g7, g8⟩ := ih
        { g := g', delta := nd', ndelta := st.delta, swapped := !st.swapped, l := l,
          last := sel nd' r }
        ⟨b3, m3, by simp only; rw [hq]; omega, by simp only; rw [hq]; exact l1,
          by simp only; rw [hq]; omega,
          by simp only; rw [hq]; exact allP_imp f3 (fun x hx => hx.inRange),
          by simp only; rw [hq]; exact fr.inRange⟩
      simp only at g3 g4 g5 g6 g7 g8
      refine ⟨st', g1, g2, ?_, ?_, ?_, ?_, ?_, ?_⟩
      · exact Kept.trans k3 g3
      · rw [g4]; exact sn3
      · rw [g5]; exact t3
      · rw [g6]; exact c3
      · omega
      · intro hz hc hk
        have := g8 (hq ▸ hz) (by
          intro a v h1 h2 h3 h4
          rw [hq] at h1 h2
          rw [d3] at h3
          rw [ld3] at h4
          have d0 : sel st.g.done a = 0 := by
            rw [sel_set] at h3
            split_ifs at h3
            exact h3
          have d1 : sel st.g.ldone v = 0 := by
            rw [sel_set] at h4
            split_ifs at h4
            exact h4
          exact f4 hz hc a v h1 h2 d0 d1) (by rw [hq]; omega)
        omega

theorem sparse_phase2_ok (E : env) {g : grasp} (hb : Buffers g) (hm : Marks g)
    (h1 : 1 ≤ g.n_assigned) :
    ∃ g', sparse_phase2 E g = Except.ok g' ∧ Buffers g' ∧ Marks g' ∧ Kept g g' ∧
      g'.s.n = g.s.n ∧ g'.tc = g.tc ∧ g.n_assigned ≤ g'.n_assigned ∧
      (ZeroInst g.q → g.n_assigned = 2 → g'.n_assigned = g.q.n) := by
  obtain ⟨d1, l, e1, l1, p1, b1, c1⟩ := sparse_collect_ok hb hm h1
  unfold sparse_phase2
  rw [e1]
  simp only [ok_bind]
  have hb1 : Buffers { g with d := d1 } := by
    obtain ⟨x1, x2, x3, x4, x5, x6, x7, x8, x9, x10⟩ := hb
    exact ⟨x1, x2, x3, x4, by simp only; omega, x6, x7, x8, x9, x10⟩
  have hm1 : Marks { g with d := d1 } := hm
  by_cases c0 : l = 0
  · rw [if_pos c0]
    refine ⟨_, rfl, hb1, hm1, ⟨rfl, rfl, rfl, rfl, rfl, rfl, rfl, rfl, rfl⟩, rfl, rfl,
      le_refl _, ?_⟩
    intro hz _
    by_contra hne
    have hk : g.n_assigned < g.q.n := by
      have := hm.2.1
      simp only at hne
      omega
    obtain ⟨⟨a, ha, da⟩, ⟨v, hv, dv⟩⟩ := hm.exists_free hk
    obtain ⟨t, ht, _⟩ := c1 hz a v ha hv da dv
    omega
  · rw [if_neg c0, cmod_eq (by omega), ok_bind]
    have hr := Nat.mod_lt (E.genrandint g.rc) (by omega : 0 < l)
    generalize E.genrandint g.rc % l = r at hr
    have hdl := hb.2.2.2.2.1
    rw [rd_eq (show r < d1.length by omega), ok_bind]
    have fr := p1.2 r hr
    have b2 : Buffers { g with d := d1, rc := g.rc + 1 } := hb1
    have m2 : Marks { g with d := d1, rc := g.rc + 1 } := hm
    obtain ⟨g', e3, b3, m3, k3, n3, sn3, c3, t3, _, f3, dd3, d3, ld3, _⟩ :=
      g_assign_spec b2 m2 fr.1 fr.2.1 fr.2.2.1 fr.2.2.2
    rw [e3, ok_bind]
    have k3 : Kept g g' := k3
    have n3 : g'.n_assigned = g.n_assigned + 1 := n3
    have sn3 : g'.s.n = g.s.n := sn3
    have t3 : g'.tc = g.tc := t3
    have f3 : g'.f = g.f := f3
    have dd3 : g'.d = d1 := dd3
    have d3 : g'.done = g.done.set (sel d1 r).i 1 := d3
    have ld3 : g'.ldone = g.ldone.set (sel d1 r).j 1 := ld3
    have hq : g'.q = g.q := k3.1
    have hfl := hb.2.2.2.1
    obtain ⟨st', g1, g2, g3, g4, g5, _, g7, g8⟩ := sparse_loop_ok E (g'.q.n - 3)
      { g := g', delta := g'.d, ndelta := g'.f, swapped := false, l := l, last := sel d1 r }
      ⟨b3, m3, by simp only; rw [hq, dd3]; omega, by simp only; rw [hq, f3]; omega,
        by simp only; rw [hq]; omega,
        by simp only; rw [hq, dd3]; exact allP_imp p1 (fun x hx => hx.inRange),
        by simp only; rw [hq]; exact fr.inRange⟩
    rw [g1, ok_bind]
    have g3 : Kept g' st'.g := g3
    have g4 : st'.g.s.n = g.s.n := (g4 : st'.g.s.n = g'.s.n).trans sn3
    have g5 : st'.g.tc = g.tc := (g5 : st'.g.tc = g'.tc).trans t3
    have g7 : g.n_assigned ≤ st'.g.n_assigned := by
      have : g'.n_assigned ≤ st'.g.n_assigned := g7
      omega
    have g8 : ZeroInst g'.q → Complete g' g'.d l → g'.n_assigned + (g'.q.n - 3) ≤ g'.q.n →
        st'.g.n_assigned = g'.n_assigned + (g'.q.n - 3) := g8
    obtain ⟨y1, y2, y3, y4, y5, y6, y7⟩ := g2
    have hfin : ∀ (a b : List pair), a.length = st'.g.q.n * st'.g.q.n - st'.g.q.n + 1 →
        b.length = st'.g.q.n * st'.g.q.n - st'.g.q.n + 1 →
        Buffers { st'.g with d := a, f := b } ∧ Marks { st'.g with d := a, f := b } := by
      intro a b ha hb'
      obtain ⟨x1, x2, x3, x4, x5, x6, x7, x8, x9, x10⟩ := y1
      exact ⟨⟨x1, x2, x3, hb', ha, x6, x7, x8, x9, x10⟩, y2⟩
    have hcnt : ZeroInst g.q → g.n_assigned = 2 → st'.g.n_assigned = g.q.n := by
      intro hz hk2
      have hk : g.n_assigned < g.q.n := hm.free_lt fr.1 fr.2.2.1
      have := g8 (hq ▸ hz) (by
        intro a v h1 h2 h3 h4
        rw [hq] at h1 h2
        rw [d3] at h3
        rw [ld3] at h4
        have d0 : sel g.done a = 0 := by
          rw [sel_set] at h3
          split_ifs at h3
          exact h3
        have d1' : sel g.ldone v = 0 := by
          rw [sel_set] at h4
          split_ifs at h4
          exact h4
        rw [dd3]
        exact c1 hz a v h1 h2 d0 d1') (by rw [hq]; omega)
      rw [hq] at this
      omega
    by_cases sw : st'.swapped = true
    · rw [if_pos sw]
      obtain ⟨z1, z2⟩ := hfin st'.ndelta st'.delta y4 y3
      exact ⟨_, rfl, z1, z2, Kept.trans k3 g3, g4, g5, g7, hcnt⟩
    · rw [if_neg sw]
      obtain ⟨z1, z2⟩ := hfin st'.delta st'.ndelta y3 y4
      exact ⟨_, rfl, z1, z2, Kept.trans k3 g3, g4, g5, g7, hcnt⟩

theorem phase2_ok (E : env) {g : grasp} (hb : Buffers g) (hm : Marks g)
    (h2 : g.n_assigned = 2) :
    ∃ g', phase2 E g = Except.ok g' ∧ Buffers g' ∧ Marks g' ∧ Kept g g' ∧
      g'.s.n = g.s.n ∧ g'.tc = g.tc ∧
      (ZeroInst g.q → g'.n_assigned = g.q.n) := by
  have hwf := hb.1
  have hal := hb.2.2.2.2.2.1
  have hsn := hb.2.2.1
  have a0 := hm.2.2.1 0 (by omega)
  have a1 := hm.2.2.1 1 (by omega)
  have p0 := hm.1.2.2.1 _ (by rw [hsn]; exact a0)
  have p1 := hm.1.2.2.1 _ (by rw [hsn]; exact a1)
  have hn2 := hb.2.1
  unfold phase2
  rw [rd_eq (by omega), ok_bind, rd_eq (by rw [hm.1.1]; omega), ok_bind,
    rd_eq (by omega), ok_bind, rd_eq (by rw [hm.1.1]; omega), ok_bind,
    rdF hwf a0 a1, ok_bind, rdD hwf (by omega) (by omega), ok_bind]
  have hsp : ∃ g1, (if imul (Fv g.q (sel g.assigned 0) (sel g.assigned 1))
        (Dv g.q (sel g.s.p (sel g.assigned 0)) (sel g.s.p (sel g.assigned 1))) = 0
      then sparse_phase2 E g else pure g) = Except.ok g1 ∧ Buffers g1 ∧ Marks g1 ∧ Kept g g1 ∧
      g1.s.n = g.s.n ∧ g1.tc = g.tc ∧ g.n_assigned ≤ g1.n_assigned ∧
      (ZeroInst g.q → g1.n_assigned = g.q.n) := by
    by_cases c : imul (Fv g.q (sel g.assigned 0) (sel g.assigned 1))
        (Dv g.q (sel g.s.p (sel g.assigned 0)) (sel g.s.p (sel g.assigned 1))) = 0
    · rw [if_pos c]
      obtain ⟨g1, e, x1, x2, x3, x4, x5, x6, x7⟩ := sparse_phase2_ok E hb hm (by omega)
      exact ⟨g1, e, x1, x2, x3, x4, x5, x6, fun hz => x7 hz h2⟩
    · rw [if_neg c]
      refine ⟨g, rfl, hb, hm, Kept.refl _, rfl, rfl, le_refl _, ?_⟩
      intro hz
      exfalso
      apply c
      unfold imul
      rcases hz with h | h
      · rw [h _ _ a0 a1, zero_mul, wrap_zero]
      · rw [h _ _ (by omega) (by omega), mul_zero, wrap_zero]
  obtain ⟨g1, e1, b1, m1, k1, s1, t1, n1, z1⟩ := hsp
  rw [e1, ok_bind]
  have hq : g1.q = g.q := k1.1
  obtain ⟨g2, e2, b2, m2, k2, n2, s2, t2⟩ := for_loop_tot
    (b := fun _ g => phase2_round E g)
    (fun t g' => Buffers g' ∧ Marks g' ∧ Kept g1 g' ∧ g'.n_assigned = g1.n_assigned + t ∧
      g'.s.n = g1.s.n ∧ g'.tc = g1.tc)
    (g1.q.n - g1.n_assigned - 1) 0 g1 ⟨b1, m1, Kept.refl _, rfl, rfl, rfl⟩
    (by
      intro t g' _ ht ⟨x1, x2, x3, x4, x5, x6⟩
      have hq' : g'.q = g1.q := x3.1
      obtain ⟨g'', y1, y2, y3, y4, y5, y6, y7, _⟩ := phase2_round_ok E x1 x2 (by omega)
        (by rw [hq']; omega)
      exact ⟨g'', y1, y2, y3, Kept.trans x3 y5, by omega, by omega, by omega⟩)
  refine ⟨g2, e2, b2, m2, Kept.trans k1 k2, by omega, by omega, ?_⟩
  intro hz
  have := z1 hz
  rw [hq] at n2
  omega

theorem objective_zero {q : qap_inst} {p : List Nat} (hz : ZeroInst q) (hp : IsPerm p q.n) :
    objective q p = 0 := by
  unfold objective objf
  apply Finset.sum_eq_zero
  intro a ha
  apply Finset.sum_eq_zero
  intro b hb
  have ha : a < q.n := by simpa using ha
  have hb : b < q.n := by simpa using hb
  rcases hz with h | h
  · rw [h _ _ (hp.2.1 a ha) (hp.2.1 b hb), mul_zero]
  · rw [h _ _ ha hb, zero_mul]

theorem phase2_zero (E : env) {g : grasp} (hb : Buffers g) (hm : Marks g)
    (h2 : g.n_assigned = 2) (hz : ZeroInst g.q) :
    ∃ g', sparse_phase2 E g = Except.ok g' ∧ phase2 E g = Except.ok g' ∧
      g'.n_assigned = g.q.n := by
  have hwf := hb.1
  have hal := hb.2.2.2.2.2.1
  have hsn := hb.2.2.1
  have a0 := hm.2.2.1 0 (by omega)
  have a1 := hm.2.2.1 1 (by omega)
  have p0 := hm.1.2.2.1 _ (by rw [hsn]; exact a0)
  have p1 := hm.1.2.2.1 _ (by rw [hsn]; exact a1)
  have hn2 := hb.2.1
  obtain ⟨g1, e, x1, x2, x3, x4, x5, x6, x7⟩ := sparse_phase2_ok E hb hm (by omega)
  have hn := x7 hz h2
  refine ⟨g1, e, ?_, hn⟩
  unfold phase2
  rw [rd_eq (by omega), ok_bind, rd_eq (by rw [hm.1.1]; omega), ok_bind,
    rd_eq (by omega), ok_bind, rd_eq (by rw [hm.1.1]; omega), ok_bind,
    rdF hwf a0 a1, ok_bind, rdD hwf (by omega) (by omega), ok_bind]
  have c : imul (Fv g.q (sel g.assigned 0) (sel g.assigned 1))
      (Dv g.q (sel g.s.p (sel g.assigned 0)) (sel g.s.p (sel g.assigned 1))) = 0 := by
    unfold imul
    rcases hz with h | h
    · rw [h _ _ a0 a1, zero_mul, wrap_zero]
    · rw [h _ _ (by omega) (by omega), mul_zero, wrap_zero]
  rw [if_pos c, e, ok_bind]
  have hq : g1.q = g.q := x3.1
  have : g1.q.n - g1.n_assigned - 1 = 0 := by rw [hq, hn]; omega
  rw [this]
  rfl

theorem constructor_ok (E : env) {g : grasp} (hb : Buffers g) (hv : Valid g.s) :
    ∃ g', constructor E g = Except.ok g' ∧ Buffers g' ∧ Marks g' ∧ Valid g'.s ∧
      g'.s.n = g.s.n ∧ g'.s.cost = wrap (objective g.q g'.s.p) ∧ Kept g g' ∧ g'.tc = g.tc := by
  obtain ⟨g1, e1, b1, m1, n1, k1, s1, _, t1, _, _⟩ := phase1_ok E g hb hv
  obtain ⟨g2, e2, b2, m2, k2, s2, t2, _⟩ := phase2_ok E b1 m1 n1
  have hq : g2.q = g.q := (Kept.trans k1 k2).1
  have hp : IsPerm g2.s.p g2.q.n := by
    have := m2.1.isPerm
    rwa [b2.2.2.1] at this
  unfold constructor
  rw [e1, ok_bind, e2, ok_bind, qs_objective_wrap b2.1 hp, ok_bind]
  refine ⟨_, rfl, ?_, ?_, ?_, ?_, ?_, ?_, ?_⟩
  · obtain ⟨x1, x2, x3, x4, x5, x6, x7, x8, x9, x10⟩ := b2
    exact ⟨x1, x2, x3, x4, x5, x6, x7, x8, x9, x10⟩
  · obtain ⟨⟨v1, v2, v3, v4, v5⟩, y2, y3, y4, y5, y6⟩ := m2
    exact ⟨⟨v1, v2, v3, v4, v5⟩, y2, y3, y4, y5, y6⟩
  · obtain ⟨v1, v2, v3, v4, v5⟩ := m2.1
    exact ⟨v1, v2, v3, v4, v5⟩
  · simp only; omega
  · simp only; rw [hq]
  · obtain ⟨x1, x2, x3, x4, x5, x6, x7, x8, x9⟩ := Kept.trans k1 k2
    exact ⟨x1, x2, x3, x4, x5, x6, x7, x8, x9⟩
  · simp only; omega

/-! ## The running best is only written by `update` -/

theorem par_bind {α β : Type} {x : Except Err α} {f : α → Except Err β} {b : β} {P : Prop}
    (h : (x >>= f) = Except.ok b) (k : ∀ a, x = Except.ok a → f a = Except.ok b → P) : P := by
  obtain ⟨a, h1, h2⟩ := bind_eq_ok.1 h
  exact k a h1 h2

theorem par_ite {α : Type} {c : Prop} [Decidable c] {x y : Except Err α} {b : α} {P : Prop}
    (h : (if c then x else y) = Except.ok b) (k1 : c → x = Except.ok b → P)
    (k2 : ¬ c → y = Except.ok b → P) : P := by
  by_cases hc : c
  · rw [if_pos hc] at h; exact k1 hc h
  · rw [if_neg hc] at h; exact k2 hc h

theorem ok_inj {α : Type} {a b : α} (h : (Except.ok a : Except Err α) = Except.ok b) : a = b :=
  Except.ok.inj h

theorem pure_inj {α : Type} {a b : α} (h : (pure a : Except Err α) = Except.ok b) : a = b :=
  Except.ok.inj h

theorem for_loop_frame {σ : Type} {b : Nat → σ → Except Err σ} (R : σ → σ → Prop)
    (hr : ∀ s, R s s) (ht : ∀ s t u, R s t → R t u → R s u)
    (hb : ∀ i s s', b i s = Except.ok s' → R s s') :
    ∀ (n lo : Nat) (s s' : σ), for_loop b lo n s = Except.ok s' → R s s' := by
  intro n lo s s' h
  exact for_loop_par (fun _ t => R s t) n lo s (hr s)
    (fun i t t' _ _ h1 h2 => ht _ _ _ h1 (hb i t t' h2)) s' h

theorem g_assign_best {g g' : grasp} {p q : Nat} (h : g_assign g p q = Except.ok g') :
    g'.best = g.best := by
  unfold g_assign at h
  refine par_bind h (fun s _ h => ?_)
  refine par_bind h (fun a _ h => ?_)
  refine par_bind h (fun l _ h => ?_)
  refine par_bind h (fun d _ h => ?_)
  rw [← ok_inj h]

theorem phase1_best {E : env} {g g' : grasp} (h : phase1 E g = Except.ok g') :
    g'.best = g.best := by
  unfold phase1 at h
  refine par_bind h (fun d _ h => ?_)
  refine par_bind h (fun f _ h => ?_)
  refine par_bind h (fun pos _ h => ?_)
  refine par_bind h (fun f0 _ h => ?_)
  refine par_bind h (fun f1 _ h => ?_)
  refine par_bind h (fun d0 _ h => ?_)
  refine par_bind h (fun d1 _ h => ?_)
  refine par_bind h (fun fd _ h => ?_)
  refine par_bind h (fun pos _ h => ?_)
  refine par_bind h (fun dn _ h => ?_)
  refine par_bind h (fun ld _ h => ?_)
  refine par_bind h (fun fp _ h => ?_)
  refine par_bind h (fun dp _ h => ?_)
  refine par_bind h (fun g1 h1 h => ?_)
  refine par_bind h (fun fp2 _ h => ?_)
  refine par_bind h (fun dp2 _ h => ?_)
  rw [g_assign_best h, g_assign_best h1]

theorem sparse_loop_best {E : env} : ∀ (count : Nat) (st st' : sparse_state),
    sparse_loop E count st = Except.ok st' → st'.g.best = st.g.best := by
  intro count
  induction count with
  | zero => intro st st' h; rw [← pure_inj h]
  | succ k ih =>
    intro st st' h
    unfold sparse_loop at h
    refine par_bind h (fun nl _ h => ?_)
    obtain ⟨ndelta, l⟩ := nl
    dsimp only at h
    refine par_ite h (fun _ h => ?_) (fun _ h => ?_)
    · rw [← pure_inj h]
    · refine par_bind h (fun r _ h => ?_)
      refine par_bind h (fun last _ h => ?_)
      refine par_bind h (fun g1 h1 h => ?_)
      have e1 := g_assign_best h1
      exact (ih _ _ h).trans e1

theorem sparse_phase2_best {E : env} {g g' : grasp} (h : sparse_phase2 E g = Except.ok g') :
    g'.best = g.best := by
  unfold sparse_phase2 at h
  refine par_bind h (fun dl _ h => ?_)
  obtain ⟨d, l⟩ := dl
  dsimp only at h
  refine par_ite h (fun _ h => ?_) (fun _ h => ?_)
  · rw [← pure_inj h]
  · refine par_bind h (fun r _ h => ?_)
    refine par_bind h (fun last _ h => ?_)
    refine par_bind h (fun g1 h1 h => ?_)
    refine par_bind h (fun st h2 h => ?_)
    have e1 := g_assign_best h1
    have e2 := sparse_loop_best _ _ _ h2
    refine par_ite h (fun _ h => ?_) (fun _ h => ?_)
    · rw [← pure_inj h]; exact e2.trans e1
    · rw [← pure_inj h]; exact e2.trans e1

theorem phase2_round_best {E : env} {g g' : grasp} (h : phase2_round E g = Except.ok g') :
    g'.best = g.best := by
  unfold phase2_round at h
  refine par_bind h (fun fl _ h => ?_)
  obtain ⟨f, l⟩ := fl
  dsimp only at h
  refine par_bind h (fun f0 _ h => ?_)
  refine par_bind h (fun f1 _ h => ?_)
  refine par_bind h (fun f2 _ h => ?_)
  refine par_bind h (fun pos _ h => ?_)
  refine par_bind h (fun fp _ h => ?_)
  have e1 := g_assign_best h
  exact e1

theorem phase2_best {E : env} {g g' : grasp} (h : phase2 E g = Except.ok g') :
    g'.best = g.best := by
  unfold phase2 at h
  refine par_bind h (fun i _ h => ?_)
  refine par_bind h (fun j _ h => ?_)
  refine par_bind h (fun k _ h => ?_)
  refine par_bind h (fun l _ h => ?_)
  refine par_bind h (fun x _ h => ?_)
  refine par_bind h (fun y _ h => ?_)
  refine par_bind h (fun g1 h1 h => ?_)
  have e1 : g1.best = g.best := by
    refine par_ite h1 (fun _ h => sparse_phase2_best h) (fun _ h => ?_)
    rw [← pure_inj h]
  have e2 := for_loop_frame (fun (a b : grasp) => b.best = a.best) (fun _ => rfl)
    (fun _ _ _ h1 h2 => h2.trans h1) (fun _ _ _ h => phase2_round_best h) _ _ _ _ h
  exact e2.trans e1

theorem constructor_best {E : env} {g g' : grasp} (h : constructor E g = Except.ok g') :
    g'.best = g.best := by
  unfold constructor at h
  refine par_bind h (fun g1 h1 h => ?_)
  refine par_bind h (fun g2 h2 h => ?_)
  refine par_bind h (fun s _ h => ?_)
  rw [← pure_inj h]
  exact (phase2_best h2).trans (phase1_best h1)

theorem timed_out_best (E : env) (g : grasp) : (timed_out E g).2.best = g.best := by
  unfold timed_out
  split_ifs <;> rfl

theorem update_best {g g' : grasp} (h : update g = Except.ok g') :
    g'.best.cost ≤ g.best.cost := by
  unfold update at h
  refine par_ite h (fun c h => ?_) (fun _ h => ?_)
  · refine par_bind h (fun b hb h => ?_)
    rw [← pure_inj h]
    unfold qs_copy at hb
    refine par_bind hb (fun st _ hb => ?_)
    rw [← pure_inj hb]
    exact le_of_lt c
  · rw [← pure_inj h]

theorem ls_step_best {E : env} {fuel : Nat} {g g' : grasp} (h : ls_step E fuel g = Except.ok g') :
    g'.best = g.best := by
  unfold ls_step at h
  refine par_bind h (fun p _ h => ?_)
  refine par_bind h (fun qr _ h => ?_)
  obtain ⟨q, rc⟩ := qr
  dsimp only at h
  refine par_bind h (fun imp _ h => ?_)
  refine par_bind h (fun s _ h => ?_)
  rw [← pure_inj h]

theorem pr_local_search_loop_best {E : env} : ∀ (fuel : Nat) (g : grasp) (nochange p q : Nat)
    (g' : grasp), pr_local_search_loop E fuel g nochange p q = Except.ok g' →
    g'.best = g.best := by
  intro fuel
  induction fuel with
  | zero => intro g nochange p q g' h; cases h
  | succ k ih =>
    intro g nochange p q g' h
    unfold pr_local_search_loop at h
    refine par_ite h (fun _ h => ?_) (fun _ h => ?_)
    · have tb := timed_out_best E g
      generalize timed_out E g = tg at h tb
      obtain ⟨t, g1⟩ := tg
      dsimp only at h tb
      refine par_ite h (fun _ h => ?_) (fun _ h => ?_)
      · rw [← pure_inj h]; exact tb
      · refine par_bind h (fun i _ h => ?_)
        refine par_bind h (fun bpq _ h => ?_)
        obtain ⟨best, p1, q1⟩ := bpq
        dsimp only at h
        refine par_ite h (fun _ h => ?_) (fun _ h => ?_)
        · refine par_bind h (fun s _ h => ?_)
          rw [ih _ _ _ _ _ h]; exact tb
        · rw [ih _ _ _ _ _ h]; exact tb
    · rw [← pure_inj h]

theorem pr_local_search_best {E : env} {fuel : Nat} {g g' : grasp}
    (h : pr_local_search E fuel g = Except.ok g') : g'.best = g.best :=
  pr_local_search_loop_best _ _ _ _ _ _ h

theorem le_of_best_eq {g g' : grasp} (h : g'.best = g.best) : g'.best.cost ≤ g.best.cost := by
  rw [h]

theorem extra_ls_best {E : env} {fuel : Nat} {g g' : grasp} (h : extra_ls E fuel g = Except.ok g') :
    g'.best.cost ≤ g.best.cost := by
  unfold extra_ls at h
  refine for_loop_frame (fun (a b : grasp) => b.best.cost ≤ a.best.cost) (fun _ => le_refl _)
    (fun _ _ _ h1 h2 => le_trans h2 h1) (fun _ s s' h => ?_) _ _ _ _ h
  refine par_bind h (fun g1 h1 h => ?_)
  refine par_bind h (fun g2 h2 h => ?_)
  refine par_bind h (fun g3 h3 h => ?_)
  show s'.best.cost ≤ s.best.cost
  rw [ls_step_best h, ls_step_best h3]
  exact le_trans (update_best h2) (le_of_best_eq (pr_local_search_best h1))

theorem local_search_pass_best {E : env} {g : grasp} {r : grasp × Bool × Bool}
    (h : local_search_pass E g = Except.ok r) : r.1.best = g.best := by
  unfold local_search_pass at h
  refine for_loop_frame (fun (a b : grasp × Bool × Bool) => b.1.best = a.1.best) (fun _ => rfl)
    (fun _ _ _ h1 h2 => h2.trans h1) (fun i s s' h => ?_) _ _ _ _ h
  show s'.1.best = s.1.best
  dsimp only at h
  refine par_ite h (fun _ h => ?_) (fun _ h => ?_)
  · rw [← pure_inj h]
  · have tb := timed_out_best E s.1
    generalize timed_out E s.1 = tg at h tb
    obtain ⟨t, g1⟩ := tg
    dsimp only at h tb
    refine par_ite h (fun _ h => ?_) (fun _ h => ?_)
    · rw [← pure_inj h]; exact tb
    · have := for_loop_frame (fun (a b : grasp × Bool × Bool) => b.1.best = a.1.best)
        (fun _ => rfl) (fun _ _ _ h1 h2 => h2.trans h1) (fun t u u' h => ?_) _ _ _ _ h
      · exact this.trans tb
      · show u'.1.best = u.1.best
        refine par_bind h (fun c _ h => ?_)
        refine par_ite h (fun _ h => ?_) (fun _ h => ?_)
        · refine par_bind h (fun w _ h => ?_)
          rw [← pure_inj h]
        · rw [← pure_inj h]

theorem local_search_best {E : env} : ∀ (fuel : Nat) (g g' : grasp),
    local_search E fuel g = Except.ok g' → g'.best = g.best := by
  intro fuel
  induction fuel with
  | zero => intro g g' h; cases h
  | succ k ih =>
    intro g g' h
    unfold local_search at h
    refine par_bind h (fun r hr h => ?_)
    have e1 := local_search_pass_best hr
    obtain ⟨g1, change, returned⟩ := r
    dsimp only at h e1
    refine par_ite h (fun _ h => ?_) (fun _ h => ?_)
    · rw [← pure_inj h]; exact e1
    · refine par_ite h (fun _ h => ?_) (fun _ h => ?_)
      · exact (ih _ _ h).trans e1
      · rw [← pure_inj h]; exact e1

theorem execute_pr_step_best {E : env} {fuel : Nat} {s2 : Option qap_sol} {i : Nat}
    {st st' : pr_state} (h : execute_pr_step E fuel s2 i st = Except.ok st') :
    st'.g.best = st.g.best := by
  unfold execute_pr_step at h
  refine par_bind h (fun si _ h => ?_)
  refine par_bind h (fun ei _ h => ?_)
  refine par_ite h (fun _ h => ?_) (fun _ h => ?_)
  · refine par_bind h (fun prev _ h => ?_)
    refine par_bind h (fun ei2 _ h => ?_)
    refine par_bind h (fun j _ h => ?_)
    refine par_bind h (fun improv _ h => ?_)
    refine par_bind h (fun s _ h => ?_)
    refine par_bind h (fun gs hgs h => ?_)
    refine par_bind h (fun lopt _ h => ?_)
    rw [← pure_inj h]
    show gs.1.best = st.g.best
    refine par_ite hgs (fun _ h => ?_) (fun _ h => ?_)
    · refine par_bind h (fun c _ h => ?_)
      refine par_bind h (fun g1 h1 h => ?_)
      refine par_bind h (fun sb _ h => ?_)
      rw [← pure_inj h]
      have e1 := pr_local_search_best h1
      exact e1
    · rw [← pure_inj h]
  · rw [← pure_inj h]

theorem execute_pr_best {E : env} {fuel : Nat} {s1 : qap_sol} {s2 : Option qap_sol} {g : grasp}
    {r : Int × grasp} (h : execute_pr E fuel s1 s2 g = Except.ok r) : r.2.best = g.best := by
  unfold execute_pr at h
  split at h
  · refine par_bind h (fun s _ h => ?_)
    refine par_bind h (fun sbest _ h => ?_)
    refine par_bind h (fun st hst h => ?_)
    refine par_bind h (fun gs _ h => ?_)
    rw [← pure_inj h]
    have := for_loop_frame (fun (a b : pr_state) => b.g.best = a.g.best) (fun _ => rfl)
      (fun _ _ _ h1 h2 => h2.trans h1) (fun _ _ _ h => execute_pr_step_best h) _ _ _ _ hst
    exact this
  · rw [← pure_inj h]

theorem pr_rev_run_best {E : env} {fuel : Nat} {e : elite} {g : grasp} {r : elite × grasp}
    (h : pr_rev_run E fuel e g = Except.ok r) : r.2.best = g.best := by
  unfold pr_rev_run at h
  refine par_ite h (fun _ h => ?_) (fun _ h => ?_)
  · refine par_bind h (fun ger _ h => ?_)
    obtain ⟨guide, e1, rc⟩ := ger
    dsimp only at h
    refine par_bind h (fun s1 _ h => ?_)
    refine par_bind h (fun x hx h => ?_)
    have e1 := execute_pr_best hx
    obtain ⟨x1, g1⟩ := x
    dsimp only at h
    rw [← pure_inj h]
    exact e1
  · rw [← pure_inj h]

theorem pr_run_best {E : env} {fuel : Nat} {e : elite} {g : grasp} {r : elite × grasp}
    (h : pr_run E fuel e g = Except.ok r) : r.2.best = g.best := by
  unfold pr_run at h
  refine par_ite h (fun _ h => ?_) (fun _ h => ?_)
  · refine par_bind h (fun reject _ h => ?_)
    refine par_ite h (fun _ h => ?_) (fun _ h => ?_)
    · refine par_bind h (fun e1 _ h => ?_)
      rw [← pure_inj h]
    · rw [← pure_inj h]
  · refine par_bind h (fun ger _ h => ?_)
    obtain ⟨guide, e1, rc⟩ := ger
    dsimp only at h
    refine par_bind h (fun s1 _ h => ?_)
    refine par_bind h (fun x hx h => ?_)
    have e1 := execute_pr_best hx
    obtain ⟨x1, g1⟩ := x
    dsimp only at h
    rw [← pure_inj h]
    exact e1

theorem mark_half_best {E : env} {e : elite} {g : grasp} {r : Int × elite × grasp}
    (h : mark_half_set_infinite E e g = Except.ok r) : r.2.2.best = g.best := by
  unfold mark_half_set_infinite at h
  refine par_ite h (fun _ h => ?_) (fun _ h => ?_)
  · rw [← pure_inj h]
  · refine par_bind h (fun scp _ h => ?_)
    refine par_bind h (fun e1 _ h => ?_)
    refine par_bind h (fun sol _ h => ?_)
    refine par_bind h (fun x _ h => ?_)
    obtain ⟨e2, x1, x2⟩ := x
    dsimp only at h
    rw [← pure_inj h]

theorem pr_update_best {E : env} {e : elite} {g : grasp} {r : elite × grasp}
    (h : pr_update E e g = Except.ok r) : r.2.best = g.best := by
  unfold pr_update at h
  refine par_ite h (fun _ h => ?_) (fun _ h => ?_)
  · rw [← pure_inj h]
  · refine par_bind h (fun b _ h => ?_)
    refine par_bind h (fun admit2 _ h => ?_)
    refine par_ite h (fun _ h => ?_) (fun _ h => ?_)
    · refine par_bind h (fun x _ h => ?_)
      obtain ⟨x1, position, rc⟩ := x
      dsimp only at h
      refine par_bind h (fun slot _ h => ?_)
      refine par_bind h (fun c _ h => ?_)
      refine par_bind h (fun sol _ h => ?_)
      refine par_bind h (fun b2 _ h => ?_)
      refine par_bind h (fun w _ h => ?_)
      rw [← pure_inj h]
    · refine par_ite h (fun _ h => ?_) (fun _ h => ?_)
      · refine par_bind h (fun x hx h => ?_)
        have e1 := mark_half_best hx
        obtain ⟨x1, e2, g2⟩ := x
        dsimp only at h
        rw [← pure_inj h]
        exact e1
      · rw [← pure_inj h]

theorem call_pr_best {E : env} {fuel : Nat} {s1 s2 : qap_sol} {e : elite} {g : grasp}
    {r : elite × grasp} (h : call_pr E fuel s1 s2 e g = Except.ok r) :
    r.2.best.cost ≤ g.best.cost := by
  unfold call_pr at h
  refine par_bind h (fun x hx h => ?_)
  have e1 := execute_pr_best hx
  obtain ⟨x1, g1⟩ := x
  dsimp only at h e1
  refine par_ite h (fun _ h => ?_) (fun _ h => ?_)
  · refine par_bind h (fun e2 _ h => ?_)
    rw [← pure_inj h]
    exact le_of_eq (congrArg qap_sol.cost e1)
  · refine par_bind h (fun y hy h => ?_)
    have e2 := pr_update_best hy
    obtain ⟨e3, g3⟩ := y
    dsimp only at h e2
    refine par_bind h (fun g4 h4 h => ?_)
    rw [← pure_inj h]
    have := update_best h4
    rw [e2, e1] at this
    exact this

theorem post_sweep_best {E : env} {fuel : Nat} {ecp e : elite} {g : grasp} {r : elite × grasp}
    (h : post_sweep E fuel ecp e g = Except.ok r) : r.2.best.cost ≤ g.best.cost := by
  unfold post_sweep at h
  refine for_loop_frame (fun (a b : elite × grasp) => b.2.best.cost ≤ a.2.best.cost)
    (fun _ => le_refl _) (fun _ _ _ h1 h2 => le_trans h2 h1) (fun i s s' h => ?_) _ _ _ _ h
  refine for_loop_frame (fun (a b : elite × grasp) => b.2.best.cost ≤ a.2.best.cost)
    (fun _ => le_refl _) (fun _ _ _ h1 h2 => le_trans h2 h1) (fun j s s' h => ?_) _ _ _ _ h
  show s'.2.best.cost ≤ s.2.best.cost
  refine par_ite h (fun _ h => ?_) (fun _ h => ?_)
  · rw [← pure_inj h]
  · refine par_bind h (fun a _ h => ?_)
    refine par_bind h (fun b _ h => ?_)
    refine par_bind h (fun st h1 h => ?_)
    refine par_bind h (fun b2 _ h => ?_)
    refine par_bind h (fun a2 _ h => ?_)
    exact le_trans (call_pr_best h) (call_pr_best h1)

theorem post_loop_best {E : env} {fuel : Nat} : ∀ (k : Nat) (ecp e : elite) (g : grasp)
    (r : elite × elite × grasp), post_loop E fuel k ecp e g = Except.ok r →
    r.2.2.best.cost ≤ g.best.cost := by
  intro k
  induction k with
  | zero => intro ecp e g r h; cases h
  | succ k ih =>
    intro ecp e g r h
    unfold post_loop at h
    refine par_bind h (fun ecp1 _ h => ?_)
    refine par_bind h (fun x hx h => ?_)
    have e1 := post_sweep_best hx
    obtain ⟨e2, g2⟩ := x
    dsimp only at h e1
    refine par_ite h (fun _ h => ?_) (fun _ h => ?_)
    · exact le_trans (ih _ _ _ _ h) e1
    · rw [← pure_inj h]; exact e1

theorem pr_post_optimization_best {E : env} {fuel : Nat} {e : elite} {g : grasp}
    {r : Int × elite × grasp} (h : pr_post_optimization E fuel e g = Except.ok r) :
    r.2.2.best.cost ≤ g.best.cost := by
  unfold pr_post_optimization at h
  split at h
  · rw [← pure_inj h]
  · refine par_ite h (fun _ h => ?_) (fun _ h => ?_)
    · rw [← pure_inj h]
    · refine par_bind h (fun x hx h => ?_)
      have e1 := post_loop_best _ _ _ _ _ hx
      obtain ⟨x1, e2, g2⟩ := x
      dsimp only at h e1
      rw [← pure_inj h]
      exact e1

theorem main_loop_best {E : env} {fuel : Nat} : ∀ (count : Nat) (e : elite) (g : grasp)
    (r : elite × grasp), main_loop E fuel count e g = Except.ok r →
    r.2.best.cost ≤ g.best.cost := by
  intro count
  induction count with
  | zero => intro e g r h; rw [← pure_inj h]
  | succ k ih =>
    intro e g r h
    unfold main_loop at h
    dsimp only at h
    refine par_ite h (fun _ h => ?_) (fun _ h => ?_)
    · rw [← pure_inj h]
    · have tb := timed_out_best E { g with curr_iter := g.curr_iter + 1 }
      generalize timed_out E { g with curr_iter := g.curr_iter + 1 } = tg at h tb
      obtain ⟨t, g0⟩ := tg
      dsimp only at h tb
      refine par_ite h (fun _ h => ?_) (fun _ h => ?_)
      · rw [← pure_inj h]; exact le_of_eq (congrArg qap_sol.cost tb)
      · refine par_bind h (fun g1 h1 h => ?_)
        refine par_bind h (fun g2 h2 h => ?_)
        refine par_bind h (fun x3 h3 h => ?_)
        have e3 := pr_run_best h3
        obtain ⟨e3', g3⟩ := x3
        dsimp only at h e3
        refine par_bind h (fun x4 h4 h => ?_)
        have e4 := pr_rev_run_best h4
        obtain ⟨e4', g4⟩ := x4
        dsimp only at h e4
        refine par_bind h (fun x5 h5 h => ?_)
        have e5 := pr_update_best h5
        obtain ⟨e5', g5⟩ := x5
        dsimp only at h e5
        refine par_bind h (fun g6 h6 h => ?_)
        have e6 := update_best h6
        have e2 := extra_ls_best h2
        have e1 := constructor_best h1
        have := ih _ _ _ h
        rw [e5, e4, e3] at e6
        rw [e1, tb] at e2
        exact le_trans this (le_trans e6 e2)

/-! ## Reasoning about runs with fuel -/

theorem good_ok {α : Type} {a : α} {P : α → Prop} (h : P a) :
    Good (Except.ok a : Except Err α) P := h

theorem good_pure {α : Type} {a : α} {P : α → Prop} (h : P a) :
    Good (pure a : Except Err α) P := h

theorem good_fuel {α : Type} {P : α → Prop} : Good (Except.error Err.fuel : Except Err α) P :=
  rfl

theorem good_elim {α : Type} {x : Except Err α} {a : α} {P : α → Prop} (h : Good x P)
    (e : x = Except.ok a) : P a := by
  subst e; exact h

theorem good_bind {α β : Type} {x : Except Err α} {f : α → Except Err β} {P : α → Prop}
    {Q : β → Prop} (h : Good x P) (k : ∀ a, P a → Good (f a) Q) : Good (x >>= f) Q := by
  cases x with
  | error e => exact h
  | ok a => exact k a h

theorem good_mono {α : Type} {x : Except Err α} {P Q : α → Prop} (h : Good x P)
    (k : ∀ a, P a → Q a) : Good x Q := by
  cases x with
  | error e => exact h
  | ok a => exact k a h

theorem good_of_tot {α : Type} {x : Except Err α} {P : α → Prop}
    (h : ∃ a, x = Except.ok a ∧ P a) : Good x P := by
  obtain ⟨a, e, p⟩ := h
  subst e; exact p

theorem Spec.tot {α : Type} {T : Prop} {f : Nat → Except Err α} {P : α → Prop}
    (h : Spec T f P) (t : T) : ∃ N a, P a ∧ ∀ fuel, N ≤ fuel → f fuel = Except.ok a := by
  obtain ⟨N, a, e⟩ := h.2 t
  exact ⟨N, a, good_elim (h.1 N) (e N (le_refl _)), e⟩

theorem spec_of_tot {α : Type} {T : Prop} {x : Except Err α} {P : α → Prop}
    (h : ∃ a, x = Except.ok a ∧ P a) : Spec T (fun _ => x) P := by
  obtain ⟨a, e, p⟩ := h
  exact ⟨fun _ => good_of_tot ⟨a, e, p⟩, fun _ => ⟨0, a, fun _ _ => e⟩⟩

theorem spec_pure {α : Type} {T : Prop} {a : α} {P : α → Prop} (h : P a) :
    Spec T (fun _ => (pure a : Except Err α)) P :=
  spec_of_tot ⟨a, rfl, h⟩

theorem spec_mono {α : Type} {T : Prop} {f : Nat → Except Err α} {P Q : α → Prop}
    (h : Spec T f P) (k : ∀ a, P a → Q a) : Spec T f Q :=
  ⟨fun fuel => good_mono (h.1 fuel) k, h.2⟩

theorem spec_bind {α β : Type} {T : Prop} {f : Nat → Except Err α}
    {g : Nat → α → Except Err β} {P : α → Prop} {Q : β → Prop} (h : Spec T f P)
    (k : ∀ a, P a → Spec T (fun fuel => g fuel a) Q) :
    Spec T (fun fuel => f fuel >>= g fuel) Q := by
  refine ⟨fun fuel => good_bind (h.1 fuel) (fun a pa => (k a pa).1 fuel), fun t => ?_⟩
  obtain ⟨N, a, pa, e⟩ := h.tot t
  obtain ⟨M, b, e2⟩ := (k a pa).2 t
  refine ⟨max N M, b, fun fuel hf => ?_⟩
  show f fuel >>= g fuel = Except.ok b
  rw [e fuel (le_trans (le_max_left _ _) hf)]
  exact e2 fuel (le_trans (le_max_right _ _) hf)

theorem spec_ite {α : Type} {T : Prop} {c : Prop} [Decidable c] {f g : Nat → Except Err α}
    {P : α → Prop} (h1 : c → Spec T f P) (h2 : ¬ c → Spec T g P) :
    Spec T (fun fuel => if c then f fuel else g fuel) P := by
  by_cases hc : c
  · simp only [if_pos hc]; exact h1 hc
  · simp only [if_neg hc]; exact h2 hc

theorem spec_for {σ : Type} {T : Prop} {b : Nat → Nat → σ → Except Err σ} (I : Nat → σ → Prop)
    (n : Nat) : ∀ (lo : Nat) (s : σ), I lo s →
    (∀ i s, lo ≤ i → i < lo + n → I i s → Spec T (fun fuel => b fuel i s) (I (i + 1))) →
    Spec T (fun fuel => for_loop (b fuel) lo n s) (I (lo + n)) := by
  induction n with
  | zero => intro lo s h0 _; exact spec_pure (by simpa using h0)
  | succ k ih =>
    intro lo s h0 hstep
    have h1 := hstep lo s (le_refl _) (by omega) h0
    have := spec_bind (g := fun fuel s1 => for_loop (b fuel) (lo + 1) k s1) h1
      (fun s1 p1 => ih (lo + 1) s1 p1 (fun i s hi hi2 => hstep i s (by omega) (by omega)))
    have e : lo + (k + 1) = lo + 1 + k := by omega
    rw [e]
    exact this

/-! ## Tracked costs -/

theorem buffers_same {g g' : grasp} (hb : Buffers g) (h : SameBuf g g') (hn : g'.s.n = g.q.n) :
    Buffers g' := by
  obtain ⟨a1, a2, a3, a4, a5, a6, a7, a8, a9, a10⟩ := hb
  obtain ⟨b1, b2, b3, b4, b5, b6, b7, b8⟩ := h
  unfold Buffers
  rw [b1, b2, b3, b4, b5, b6, b7, b8]
  exact ⟨a1, a2, hn, a4, a5, a6, a7, a8, a9, a10⟩

theorem sameBuf_refl (g : grasp) : SameBuf g g := ⟨rfl, rfl, rfl, rfl, rfl, rfl, rfl, rfl⟩

theorem sound_upd {q : qap_inst} {g g' : grasp} (h : Sound q g) (hs : SameBuf g g')
    (hb : Tracked q g'.best) (he : Tracked q g'.s) : Sound q g' := by
  obtain ⟨a1, a2, a3, a4⟩ := h
  refine ⟨hs.1.trans a1, buffers_same a2 hs ?_, hb, he⟩
  rw [he.2.1, a1]

theorem objective_nonneg {q : qap_inst} (hN : NonNeg q) {p : List Nat} (hp : IsPerm p q.n) :
    0 ≤ objective q p := by
  unfold objective objf
  refine Finset.sum_nonneg (fun a ha => Finset.sum_nonneg (fun b hb => ?_))
  have ha := Finset.mem_range.1 ha
  have hb := Finset.mem_range.1 hb
  exact mul_nonneg (hN a b ha hb).2 (hN _ _ (hp.2.1 a ha) (hp.2.1 b hb)).1

theorem diagf_exch (n : Nat) (d f : Nat → Nat → Int) (p : Nat → Nat) (i j : Nat)
    (hi : i < n) (hj : j < n) (hij : i ≠ j) :
    diagf n d f p - diagf n d f (exch p i j) =
      (d i i - d j j) * (f (p i) (p i) - f (p j) (p j)) := by
  have ei : exch p i j i = p j := by simp [exch, hij]
  have ej : exch p i j j = p i := by simp [exch]
  unfold diagf
  rw [sum_split2 n i j hi hj hij (fun a => d a a * f (p a) (p a)),
    sum_split2 n i j hi hj hij (fun a => d a a * f (exch p i j a) (exch p i j a))]
  have rest : ∀ k ∈ range n, (if k ≠ i ∧ k ≠ j then d k k * f (p k) (p k) else 0) =
      (if k ≠ i ∧ k ≠ j then d k k * f (exch p i j k) (exch p i j k) else 0) := by
    intro k _
    by_cases c : k ≠ i ∧ k ≠ j
    · rw [if_pos c, if_pos c]
      have : exch p i j k = p k := by simp [exch, c.1, c.2]
      rw [this]
    · rw [if_neg c, if_neg c]
  rw [Finset.sum_congr rfl rest]
  simp only [ei, ej]
  ring

theorem offdiag_nonneg (n : Nat) (d f : Nat → Nat → Int) (p : Nat → Nat)
    (h : ∀ a b, a < n → b < n → 0 ≤ d a b * f (p a) (p b)) :
    0 ≤ objf n d f p - diagf n d f p := by
  unfold objf diagf
  rw [← Finset.sum_sub_distrib]
  refine Finset.sum_nonneg (fun a ha => ?_)
  have ha' := Finset.mem_range.1 ha
  rw [← Finset.add_sum_erase (range n) (fun b => d a b * f (p a) (p b)) ha]
  have : 0 ≤ ∑ b in (range n).erase a, d a b * f (p a) (p b) :=
    Finset.sum_nonneg (fun b hb => h a b ha' (Finset.mem_range.1 (Finset.mem_of_mem_erase hb)))
  linarith

theorem diagf_nonneg (n : Nat) (d f : Nat → Nat → Int) (p : Nat → Nat)
    (h : ∀ a b, a < n → b < n → 0 ≤ d a b * f (p a) (p b)) :
    0 ≤ diagf n d f p :=
  Finset.sum_nonneg (fun a ha => h a a (Finset.mem_range.1 ha) (Finset.mem_range.1 ha))

theorem nonneg_cells {q : qap_inst} (hP : NonNeg q) {p : List Nat} (hp : IsPerm p q.n) :
    ∀ a b, a < q.n → b < q.n → 0 ≤ Dv q a b * Fv q (sel p a) (sel p b) :=
  fun a b ha hb => mul_nonneg (hP a b ha hb).2 (hP _ _ (hp.2.1 a ha) (hp.2.1 b hb)).1

theorem offobj_nonneg {q : qap_inst} (hP : NonNeg q) {p : List Nat} (hp : IsPerm p q.n) :
    0 ≤ offobj q p :=
  offdiag_nonneg _ _ _ _ (nonneg_cells hP hp)

theorem offobj_le_objective {q : qap_inst} (hP : NonNeg q) {p : List Nat} (hp : IsPerm p q.n) :
    offobj q p ≤ objective q p := by
  have := diagf_nonneg q.n (Dv q) (Fv q) (sel p) (nonneg_cells hP hp)
  unfold offobj objective
  linarith

theorem offobj_eq_c_off (q : qap_inst) (p : List Nat) : offobj q p = c_off q p := by
  unfold offobj c_off objf diagf
  rw [← Finset.sum_sub_distrib]
  refine Finset.sum_congr rfl (fun a ha => ?_)
  have e : ∀ b, (if a ≠ b then Dv q a b * Fv q (sel p a) (sel p b) else 0) =
      Dv q a b * Fv q (sel p a) (sel p b) -
        (if a = b then Dv q a b * Fv q (sel p a) (sel p b) else 0) := by
    intro b
    by_cases c : a = b
    · rw [if_neg (not_not.2 c), if_pos c]; ring
    · rw [if_pos c, if_neg c]; ring
  simp only [e]
  rw [Finset.sum_sub_distrib, Finset.sum_ite_eq (range q.n) a, if_pos ha]

theorem off_exch (n : Nat) (d f : Nat → Nat → Int) (p : Nat → Nat) (i j : Nat)
    (hi : i < n) (hj : j < n) (hij : i ≠ j) :
    (objf n d f p - diagf n d f p) - (objf n d f (exch p i j) - diagf n d f (exch p i j)) =
      gainf n d f p i j := by
  have a := objf_exch n d f p i j hi hj hij
  have b := diagf_exch n d f p i j hi hj hij
  linarith

theorem gainf_self (n : Nat) (d f : Nat → Nat → Int) (p : Nat → Nat) (i : Nat) :
    gainf n d f p i i = 0 := by
  unfold gainf
  simp

theorem span_inner (q : qap_inst) {a b c d : Nat} (hc : c < q.n) (hd : d < q.n) :
    |Dv q a b * Fv q c d| ≤ ∑ c in range q.n, ∑ d in range q.n, |Dv q a b * Fv q c d| := by
  have s1 : |Dv q a b * Fv q c d| ≤ ∑ d in range q.n, |Dv q a b * Fv q c d| :=
    Finset.single_le_sum (f := fun d => |Dv q a b * Fv q c d|)
      (fun _ _ => abs_nonneg _) (Finset.mem_range.2 hd)
  have s2 : ∑ d in range q.n, |Dv q a b * Fv q c d| ≤
      ∑ c in range q.n, ∑ d in range q.n, |Dv q a b * Fv q c d| :=
    Finset.single_le_sum (f := fun c => ∑ d in range q.n, |Dv q a b * Fv q c d|)
      (fun _ _ => Finset.sum_nonneg (fun _ _ => abs_nonneg _)) (Finset.mem_range.2 hc)
  exact s1.trans s2

theorem span_inner_nonneg (q : qap_inst) (a b : Nat) :
    0 ≤ ∑ c in range q.n, ∑ d in range q.n, |Dv q a b * Fv q c d| :=
  Finset.sum_nonneg (fun _ _ => Finset.sum_nonneg (fun _ _ => abs_nonneg _))

theorem span_nonneg (q : qap_inst) : 0 ≤ span q :=
  Finset.sum_nonneg (fun _ _ => Finset.sum_nonneg (fun a _ => span_inner_nonneg q _ a))

/-- A double sum whose terms are bounded cell by cell is bounded by `span`. -/
theorem span_bound (q : qap_inst) (t : Nat → Nat → Int)
    (h : ∀ a b, a < q.n → b < q.n →
      |t a b| ≤ ∑ c in range q.n, ∑ d in range q.n, |Dv q a b * Fv q c d|) :
    |∑ a in range q.n, ∑ b in range q.n, t a b| ≤ span q := by
  refine (Finset.abs_sum_le_sum_abs _ _).trans ?_
  unfold span
  refine Finset.sum_le_sum (fun a ha => ?_)
  refine (Finset.abs_sum_le_sum_abs _ _).trans ?_
  exact Finset.sum_le_sum (fun b hb => h a b (Finset.mem_range.1 ha) (Finset.mem_range.1 hb))

theorem cell_le_span (q : qap_inst) {a b c d : Nat} (ha : a < q.n) (hb : b < q.n)
    (hc : c < q.n) (hd : d < q.n) : |Dv q a b * Fv q c d| ≤ span q := by
  have s1 := span_inner q (a := a) (b := b) hc hd
  have s2 : ∑ c in range q.n, ∑ d in range q.n, |Dv q a b * Fv q c d| ≤
      ∑ b in range q.n, ∑ c in range q.n, ∑ d in range q.n, |Dv q a b * Fv q c d| :=
    Finset.single_le_sum (f := fun b => ∑ c in range q.n, ∑ d in range q.n, |Dv q a b * Fv q c d|)
      (fun b _ => span_inner_nonneg q a b) (Finset.mem_range.2 hb)
  have s3 : ∑ b in range q.n, ∑ c in range q.n, ∑ d in range q.n, |Dv q a b * Fv q c d| ≤
      span q :=
    Finset.single_le_sum
      (f := fun a => ∑ b in range q.n, ∑ c in range q.n, ∑ d in range q.n, |Dv q a b * Fv q c d|)
      (fun a _ => Finset.sum_nonneg (fun b _ => span_inner_nonneg q a b)) (Finset.mem_range.2 ha)
  exact s1.trans (s2.trans s3)

theorem objective_bound (q : qap_inst) (p : List Nat) (hp : ∀ i, i < q.n → sel p i < q.n) :
    |objective q p| ≤ span q :=
  span_bound q _ (fun a b ha hb => span_inner q (hp a ha) (hp b hb))

theorem offobj_bound (q : qap_inst) (p : List Nat) (hp : ∀ i, i < q.n → sel p i < q.n) :
    |offobj q p| ≤ span q := by
  rw [offobj_eq_c_off]
  refine span_bound q _ (fun a b ha hb => ?_)
  split_ifs
  · exact span_inner q (hp a ha) (hp b hb)
  · rw [abs_zero]; exact span_inner_nonneg q a b

theorem diag_bound (q : qap_inst) (p : List Nat) (hp : ∀ i, i < q.n → sel p i < q.n) :
    |objective q p - offobj q p| ≤ span q := by
  have e : objective q p - offobj q p =
      ∑ a in range q.n, ∑ b in range q.n,
        if a = b then Dv q a b * Fv q (sel p a) (sel p b) else 0 := by
    rw [offobj_eq_c_off]
    unfold objective objf c_off
    rw [← Finset.sum_sub_distrib]
    refine Finset.sum_congr rfl (fun a _ => ?_)
    rw [← Finset.sum_sub_distrib]
    refine Finset.sum_congr rfl (fun b _ => ?_)
    by_cases c : a = b
    · rw [if_neg (not_not.2 c), if_pos c]; ring
    · rw [if_pos c, if_neg c]; ring
  rw [e]
  refine span_bound q _ (fun a b ha hb => ?_)
  split_ifs
  · exact span_inner q (hp a ha) (hp b hb)
  · rw [abs_zero]; exact span_inner_nonneg q a b

theorem offobj_lower (q : qap_inst) (p : List Nat) (hp : ∀ i, i < q.n → sel p i < q.n) :
    -span q ≤ offobj q p :=
  (abs_le.1 (offobj_bound q p hp)).1

/-- The delta of a swap is the drop of the off-diagonal objective, and so is
within twice `span`. -/
theorem gainf_off {q : qap_inst} {p : List Nat} {i j : Nat} (hp : IsPerm p q.n)
    (hi : i < q.n) (hj : j < q.n) (hij : i ≠ j) :
    gainf q.n (Dv q) (Fv q) (sel p) i j = offobj q p - offobj q (swp p i j) := by
  unfold offobj
  rw [sel_swp_exch p i j (by rw [hp.1]; exact hi) (by rw [hp.1]; exact hj)]
  exact (off_exch q.n (Dv q) (Fv q) (sel p) i j hi hj hij).symm

theorem gainf_bound {q : qap_inst} {p : List Nat} {i j : Nat} (hp : IsPerm p q.n)
    (hi : i < q.n) (hj : j < q.n) :
    |gainf q.n (Dv q) (Fv q) (sel p) i j| ≤ 2 * span q := by
  by_cases hij : i = j
  · rw [hij, gainf_self, abs_zero]
    have := span_nonneg q
    omega
  · rw [gainf_off hp hi hj hij]
    have a := abs_le.1 (offobj_bound q p hp.2.1)
    have b := abs_le.1 (offobj_bound q (swp p i j) (isPerm_swp hp hi hj).2.1)
    rw [abs_le]
    constructor <;> linarith [a.1, a.2, b.1, b.2]

/-- A bound on the cells gives a bound on `span`: with `|D[a][b]| <= x` and
`|F[c][d]| <= y` for all cells, `span q <= n^4 * x * y`. -/
theorem span_le_of_cells (q : qap_inst) (x y : Int)
    (hd : ∀ a b, a < q.n → b < q.n → |Dv q a b| ≤ x)
    (hf : ∀ c d, c < q.n → d < q.n → |Fv q c d| ≤ y) :
    span q ≤ (q.n : Int) * (q.n * (q.n * (q.n * (x * y)))) := by
  unfold span
  have step : ∀ (t : Nat → Int) (B : Int), (∀ a, a < q.n → t a ≤ B) →
      ∑ a in range q.n, t a ≤ (q.n : Int) * B := by
    intro t B h
    have := Finset.sum_le_card_nsmul (range q.n) t B (fun a ha => h a (Finset.mem_range.1 ha))
    simpa using this
  refine step _ _ (fun a ha => step _ _ (fun b hb => step _ _ (fun c hc => step _ _
    (fun d hd' => ?_))))
  rw [abs_mul]
  exact mul_le_mul (hd a b ha hb) (hf c d hc hd') (abs_nonneg _)
    (le_trans (abs_nonneg _) (hd a b ha hb))

theorem fits_of_cells (q : qap_inst) (x y : Int)
    (hd : ∀ a b, a < q.n → b < q.n → |Dv q a b| ≤ x)
    (hf : ∀ c d, c < q.n → d < q.n → |Fv q c d| ≤ y)
    (h : 2 * ((q.n : Int) * (q.n * (q.n * (q.n * (x * y))))) < 2147483648) : Fits q := by
  unfold Fits
  have := span_le_of_cells q x y hd hf
  omega

theorem qs_objective_eq {s : qap_sol} {q : qap_inst} (hq : WF q) (hp : IsPerm s.p q.n)
    (hF : Fits q) :
    qs_objective s q = Except.ok { s with cost := objective q s.p } := by
  rw [qs_objective_wrap hq hp]
  have b := abs_le.1 (objective_bound q s.p hp.2.1)
  unfold Fits at hF
  rw [wrap_id (by linarith [b.1]) (by linarith [b.2])]

theorem g_improvement_eq {s : qap_sol} {q : qap_inst} {i j : Nat} (hq : WF q)
    (hp : IsPerm s.p q.n) (hi : i < q.n) (hj : j < q.n) (hF : Fits q) :
    g_improvement s q i j = Except.ok (gainf q.n (Dv q) (Fv q) (sel s.p) i j) := by
  rw [g_improvement_wrap hq hp hi hj]
  have b := abs_le.1 (gainf_bound hp hi hj)
  unfold Fits at hF
  rw [wrap_id (by linarith [b.1]) (by linarith [b.2])]

theorem tracked_of_objective {q : qap_inst} {s : qap_sol} (hP : NonNeg q) (hF : Fits q)
    (hv : Valid s) (hn : s.n = q.n) (hc : s.cost = objective q s.p) : Tracked q s := by
  have hp : IsPerm s.p q.n := by rw [← hn]; exact hv.isPerm
  refine ⟨hv, hn, ?_, fun _ => hc, hF, ?_⟩
  · rw [hc]
    exact offobj_le_objective hP hp
  · rw [hc]
    have := (abs_le.1 (diag_bound q s.p hp.2.1)).2
    linarith

theorem Tracked.nonneg {q : qap_inst} {s : qap_sol} (hN : NonNeg q) (h : Tracked q s) :
    0 ≤ s.cost := by
  have hp := h.1.isPerm
  rw [h.2.1] at hp
  exact le_trans (offobj_nonneg hN hp) h.2.2.1

theorem Tracked.fits {q : qap_inst} {s : qap_sol} (h : Tracked q s) : Fits q := h.2.2.2.2.1

theorem Tracked.perm {q : qap_inst} {s : qap_sol} (h : Tracked q s) : IsPerm s.p q.n := by
  rw [← h.2.1]; exact h.1.isPerm

/-- A stored cost within `span` of the off-diagonal objective is an `int`, and
so is what a swap makes of it. -/
theorem ranged_int {q : qap_inst} {s : qap_sol} (hF : Fits q) (hp : IsPerm s.p q.n)
    (hr : Ranged q s) : -2147483648 ≤ s.cost ∧ s.cost < 2147483648 := by
  have a := abs_le.1 (offobj_bound q s.p hp.2.1)
  unfold Fits at hF
  obtain ⟨r1, r2⟩ := hr
  constructor <;> linarith [a.1, a.2]

theorem Tracked.ranged {q : qap_inst} {s : qap_sol} (h : Tracked q s) : Ranged q s := by
  have := span_nonneg q
  exact ⟨by linarith [h.2.2.1], h.2.2.2.2.2⟩

theorem exact_swap {q : qap_inst} {s : qap_sol} {i j : Nat} (hs : Tracked q s)
    (hi : i < q.n) (hj : j < q.n) (hij : i ≠ j) :
    Tracked q ⟨s.n, swp s.p i j, (s.rev.set (sel s.p i) j).set (sel s.p j) i,
      s.cost - gainf q.n (Dv q) (Fv q) (sel s.p) i j⟩ := by
  obtain ⟨hv, hn, ho, hc, hF, hu⟩ := hs
  have key := objf_exch q.n (Dv q) (Fv q) (sel s.p) i j hi hj hij
  have kd := diagf_exch q.n (Dv q) (Fv q) (sel s.p) i j hi hj hij
  have es := sel_swp_exch s.p i j (by rw [hv.1]; omega) (by rw [hv.1]; omega)
  refine ⟨valid_swap hv (by omega) (by omega), hn, ?_, fun hN => ?_, hF, ?_⟩
  · show offobj q (swp s.p i j) ≤ s.cost - gainf q.n (Dv q) (Fv q) (sel s.p) i j
    unfold offobj at ho ⊢
    rw [es]
    linarith
  · show s.cost - gainf q.n (Dv q) (Fv q) (sel s.p) i j = objective q (swp s.p i j)
    have hc := hc hN
    unfold objective at hc ⊢
    rw [es]
    have pi : sel s.p i < q.n := by rw [← hn]; exact hv.2.2.1 i (by omega)
    have pj : sel s.p j < q.n := by rw [← hn]; exact hv.2.2.1 j (by omega)
    have dz : (Dv q i i - Dv q j j) *
        (Fv q (sel s.p i) (sel s.p i) - Fv q (sel s.p j) (sel s.p j)) = 0 := by
      rcases hN with h | h
      · rw [h i j hi hj]; simp
      · rw [h _ _ pi pj]; simp
    rw [dz] at key
    linarith
  · show s.cost - gainf q.n (Dv q) (Fv q) (sel s.p) i j ≤ offobj q (swp s.p i j) + span q
    unfold offobj at hu ⊢
    rw [es]
    linarith

/-- The stored cost of a tracked solution less the delta of a swap is computed
without overflow. -/
theorem isub_gain {q : qap_inst} {s : qap_sol} {i j : Nat} (hs : Tracked q s)
    (hi : i < q.n) (hj : j < q.n) (hij : i ≠ j) :
    isub s.cost (gainf q.n (Dv q) (Fv q) (sel s.p) i j) =
      s.cost - gainf q.n (Dv q) (Fv q) (sel s.p) i j := by
  have t := exact_swap hs hi hj hij
  have r := ranged_int t.fits t.perm t.ranged
  exact isub_id r.1 r.2

theorem swap_step {q : qap_inst} {s : qap_sol} {i j : Nat} (hq : WF q)
    (hs : Tracked q s) (hi : i < q.n) (hj : j < q.n) (hij : i ≠ j) :
    ∃ c s1 s2, g_improvement s q i j = Except.ok c ∧ qs_swap s i j = Except.ok s1 ∧
      qs_swap { s with cost := isub s.cost c } i j = Except.ok s2 ∧
      c = gainf q.n (Dv q) (Fv q) (sel s.p) i j ∧
      s2 = { s1 with cost := isub s1.cost c } ∧ Tracked q s2 ∧ s2.cost = s.cost - c := by
  have ie := isub_gain hs hi hj hij
  have ex := exact_swap hs hi hj hij
  obtain ⟨hv, hn, hc⟩ := hs
  have hp : IsPerm s.p q.n := by rw [← hn]; exact hv.isPerm
  refine ⟨_, _, _, g_improvement_eq hq hp hi hj hc.2.2.1,
    qs_swap_eq hv.1 hv.2.1 hv.2.2.1 (by omega) (by omega),
    qs_swap_eq (s := { s with cost := isub s.cost (gainf q.n (Dv q) (Fv q) (sel s.p) i j) })
      hv.1 hv.2.1 hv.2.2.1 (by show i < s.n; omega) (by show j < s.n; omega), rfl, rfl,
    ?_, ie⟩
  show Tracked q ⟨s.n, swp s.p i j, (s.rev.set (sel s.p i) j).set (sel s.p j) i,
    isub s.cost (gainf q.n (Dv q) (Fv q) (sel s.p) i j)⟩
  rw [ie]
  exact ex

/-! ## `ls_step` -/

theorem ls_step_draw_good (E : env) (n p : Nat) (hn : 0 < n) : ∀ (fuel rc : Nat),
    Good (ls_step_draw E n p fuel rc) (fun r => r.1 < n ∧ r.1 ≠ p) := by
  intro fuel
  induction fuel with
  | zero => intro rc; exact good_fuel
  | succ k ih =>
    intro rc
    unfold ls_step_draw
    rw [cmod_eq hn, ok_bind]
    by_cases c : p = E.genrandint rc % n
    · rw [if_pos c]; exact ih _
    · rw [if_neg c]; exact good_pure ⟨Nat.mod_lt _ hn, fun e => c e.symm⟩

theorem ls_step_draw_term (E : env) (n p : Nat) (hn : 0 < n) : ∀ (m rc : Nat),
    E.genrandint (rc + m) % n ≠ p →
    ∃ N a, ∀ fuel, N ≤ fuel → ls_step_draw E n p fuel rc = Except.ok a := by
  intro m
  induction m with
  | zero =>
    intro rc h
    refine ⟨1, (E.genrandint rc % n, rc + 1), fun fuel hf => ?_⟩
    obtain ⟨k, rfl⟩ : ∃ k, fuel = k + 1 := ⟨fuel - 1, by omega⟩
    unfold ls_step_draw
    rw [cmod_eq hn, ok_bind, if_neg (fun e => h e.symm)]
    rfl
  | succ m ih =>
    intro rc h
    by_cases c : p = E.genrandint rc % n
    · obtain ⟨N, a, e⟩ := ih (rc + 1) (by rwa [show rc + 1 + m = rc + (m + 1) by omega])
      refine ⟨N + 1, a, fun fuel hf => ?_⟩
      obtain ⟨k, rfl⟩ : ∃ k, fuel = k + 1 := ⟨fuel - 1, by omega⟩
      unfold ls_step_draw
      rw [cmod_eq hn, ok_bind, if_pos c]
      exact e k (by omega)
    · refine ⟨1, (E.genrandint rc % n, rc + 1), fun fuel hf => ?_⟩
      obtain ⟨k, rfl⟩ : ∃ k, fuel = k + 1 := ⟨fuel - 1, by omega⟩
      unfold ls_step_draw
      rw [cmod_eq hn, ok_bind, if_neg c]
      rfl

theorem ls_step_draw_spec (E : env) (n p rc : Nat) (hn : 0 < n) :
    Spec (Fair E n) (fun fuel => ls_step_draw E n p fuel rc) (fun r => r.1 < n ∧ r.1 ≠ p) := by
  refine ⟨fun fuel => ls_step_draw_good E n p hn fuel rc, fun t => ?_⟩
  obtain ⟨m, hm⟩ := t rc p
  exact ls_step_draw_term E n p hn m rc hm

theorem ls_step_spec (E : env) {q : qap_inst} {g : grasp} (hs : Sound q g) :
    Spec (Fair E q.n) (fun fuel => ls_step E fuel g) (Sound q) := by
  obtain ⟨a1, a2, a3, a4⟩ := hs
  subst a1
  have hn : 0 < g.q.n := by have := a2.2.1; omega
  unfold ls_step
  dsimp only
  rw [cmod_eq hn]
  simp only [ok_bind]
  have hd := ls_step_draw_spec E g.q.n (E.genrandint g.rc % g.q.n) (g.rc + 1) hn
  refine spec_bind hd ?_
  rintro ⟨r, rc⟩ ⟨h1, h2⟩
  dsimp only at h1 h2 ⊢
  have hp : E.genrandint g.rc % g.q.n < g.q.n := Nat.mod_lt _ hn
  obtain ⟨c, s1, s2, e1, _, e3, _, _, ex, _⟩ :=
    swap_step a2.1 a4 hp h1 (fun e => h2 e.symm)
  refine spec_of_tot ⟨{ g with s := s2, rc := rc }, ?_, ?_⟩
  · rw [e1, ok_bind, e3, ok_bind]; rfl
  · exact sound_upd ⟨rfl, a2, a3, a4⟩ ⟨rfl, rfl, rfl, rfl, rfl, rfl, rfl, rfl⟩ a3 ex

/-! ## `pr_local_search`, `update`, `extra_ls` -/

theorem timed_out_cases (E : env) (g : grasp) :
    (timed_out E g).2 = g ∨ (timed_out E g).2 = { g with tc := g.tc + 1 } := by
  unfold timed_out
  split_ifs
  · exact Or.inr rfl
  · exact Or.inl rfl

theorem timed_out_sound (E : env) {q : qap_inst} {g : grasp} (hs : Sound q g) :
    Sound q (timed_out E g).2 ∧ (timed_out E g).2.s = g.s := by
  rcases timed_out_cases E g with h | h <;> rw [h]
  · exact ⟨hs, rfl⟩
  · exact ⟨sound_upd hs ⟨rfl, rfl, rfl, rfl, rfl, rfl, rfl, rfl⟩ hs.2.2.1 hs.2.2.2, rfl⟩

theorem pr_scan_ok {q : qap_inst} {s : qap_sol} (hq : WF q) (hs : Tracked q s) (i p0 q0 : Nat)
    (hi : i < q.n) :
    ∃ r, for_loop (fun j (st : Int × Nat × Nat) =>
            if j ≠ i then do
              let cost ← g_improvement s q i j
              if cost > st.1 then pure (cost, i, j) else pure st
            else pure st) 0 q.n (0, p0, q0) = Except.ok r ∧ 0 ≤ r.1 ∧
      (0 < r.1 → r.2.1 = i ∧ r.2.2 < q.n ∧ r.2.2 ≠ i ∧
        r.1 = gainf q.n (Dv q) (Fv q) (sel s.p) i r.2.2) := by
  have hp : IsPerm s.p q.n := by rw [← hs.2.1]; exact hs.1.isPerm
  have := for_loop_tot (b := fun j (st : Int × Nat × Nat) =>
            if j ≠ i then do
              let cost ← g_improvement s q i j
              if cost > st.1 then pure (cost, i, j) else pure st
            else pure st)
    (fun _ (r : Int × Nat × Nat) => 0 ≤ r.1 ∧ (0 < r.1 → r.2.1 = i ∧ r.2.2 < q.n ∧ r.2.2 ≠ i ∧
        r.1 = gainf q.n (Dv q) (Fv q) (sel s.p) i r.2.2)) q.n 0 (0, p0, q0)
    ⟨le_refl _, fun h => absurd h (lt_irrefl _)⟩
    (by
      intro j st _ hj hI
      dsimp only
      by_cases c : j ≠ i
      · rw [if_pos c, g_improvement_eq hq hp hi (by omega) hs.fits, ok_bind]
        by_cases d : gainf q.n (Dv q) (Fv q) (sel s.p) i j > st.1
        · rw [if_pos d]
          exact ⟨_, rfl, le_trans hI.1 (le_of_lt d),
            fun _ => ⟨rfl, by show j < q.n; omega, c, rfl⟩⟩
        · rw [if_neg d]
          exact ⟨_, rfl, hI⟩
      · rw [if_neg c]
        exact ⟨_, rfl, hI⟩)
  obtain ⟨r, e, h⟩ := this
  exact ⟨r, e, h⟩

theorem pr_round (E : env) {q : qap_inst} {g : grasp} (hP : NonNeg q)
    (hs : Sound q g) (nc p r : Nat) :
    (∃ g', (Sound q g' ∧ g'.s.cost ≤ g.s.cost) ∧
      ∀ fuel, pr_local_search_loop E (fuel + 1) g nc p r = Except.ok g') ∨
    (∃ g' nc' p' r', (Sound q g' ∧ g'.s.cost ≤ g.s.cost) ∧
      21 * g'.s.cost.toNat + (20 - nc') < 21 * g.s.cost.toNat + (20 - nc) ∧
      ∀ fuel, pr_local_search_loop E (fuel + 1) g nc p r =
        pr_local_search_loop E fuel g' nc' p' r') := by
  by_cases c1 : nc < 20
  swap
  · exact Or.inl ⟨g, ⟨hs, le_refl _⟩, fun fuel => by rw [pr_local_search_loop, if_neg c1]; rfl⟩
  obtain ⟨hs1, es1⟩ := timed_out_sound E hs
  rcases ht : timed_out E g with ⟨t, g1⟩
  rw [ht] at hs1 es1
  dsimp only at hs1 es1
  by_cases c2 : t = true
  · exact Or.inl ⟨g1, ⟨hs1, le_of_eq (by rw [es1])⟩, fun fuel => by
      rw [pr_local_search_loop, if_pos c1, ht]; dsimp only; rw [if_pos c2]; rfl⟩
  obtain ⟨a1, a2, a3, a4⟩ := hs1
  subst a1
  have hn : 0 < g1.q.n := by have := a2.2.1; omega
  have hi : E.genrandint g1.rc % g1.q.n < g1.q.n := Nat.mod_lt _ hn
  obtain ⟨⟨best, p1, r1⟩, e1, h1, h2⟩ := pr_scan_ok a2.1 a4 _ p r hi
  dsimp only at h1 h2
  by_cases c3 : best > 0
  · obtain ⟨_, h3, h4, h5⟩ := h2 c3
    obtain ⟨c, s1, s2, _, e3, _, e5, e6, ex, e7⟩ := swap_step a2.1 a4 hi h3 (fun e => h4 e.symm)
    rw [← h5] at e5
    subst e5
    have e9 : s2.cost ≤ g.s.cost := by rw [e7, es1]; omega
    refine Or.inr ⟨{ g1 with rc := g1.rc + 1, s := s2 }, 0, p1, r1,
      ⟨sound_upd ⟨rfl, a2, a3, a4⟩ ⟨rfl, rfl, rfl, rfl, rfl, rfl, rfl, rfl⟩ a3 ex, e9⟩, ?_,
      fun fuel => ?_⟩
    · have n1 := Tracked.nonneg hP ex
      have n2 := Tracked.nonneg hP a4
      have e8 : s2.cost = g.s.cost - c := by rw [e7, es1]
      show 21 * s2.cost.toNat + (20 - 0) < 21 * g.s.cost.toNat + (20 - nc)
      rw [es1] at n2
      omega
    · rw [pr_local_search_loop, if_pos c1, ht]
      dsimp only
      rw [if_neg c2, cmod_eq hn, ok_bind, e1, ok_bind]
      dsimp only
      rw [if_pos c3]
      subst p1
      rw [e3, ok_bind, e6]
  · refine Or.inr ⟨{ g1 with rc := g1.rc + 1 }, nc + 1, p1, r1,
      ⟨sound_upd ⟨rfl, a2, a3, a4⟩ ⟨rfl, rfl, rfl, rfl, rfl, rfl, rfl, rfl⟩ a3 a4,
        le_of_eq (by rw [es1])⟩, ?_,
      fun fuel => ?_⟩
    · show 21 * g1.s.cost.toNat + (20 - (nc + 1)) < 21 * g.s.cost.toNat + (20 - nc)
      rw [es1]
      omega
    · rw [pr_local_search_loop, if_pos c1, ht]
      dsimp only
      rw [if_neg c2, cmod_eq hn, ok_bind, e1, ok_bind]
      dsimp only
      rw [if_neg c3]

theorem pr_local_search_loop_good (E : env) {q : qap_inst} (hP : NonNeg q) :
    ∀ (fuel : Nat) (g : grasp) (nc p r : Nat), Sound q g →
    Good (pr_local_search_loop E fuel g nc p r) (Sound q) := by
  intro fuel
  induction fuel with
  | zero => intro g nc p r _; exact good_fuel
  | succ k ih =>
    intro g nc p r hs
    rcases pr_round E hP hs nc p r with ⟨g', ⟨h1, _⟩, h2⟩ | ⟨g', nc', p', r', ⟨h1, _⟩, _, h2⟩
    · rw [h2 k]; exact good_ok h1
    · rw [h2 k]; exact ih _ _ _ _ h1

theorem pr_local_search_loop_term (E : env) {q : qap_inst} (hP : NonNeg q) :
    ∀ (m : Nat) (g : grasp) (nc p r : Nat), Sound q g →
    21 * g.s.cost.toNat + (20 - nc) ≤ m →
    ∃ a, ∀ fuel, m + 1 ≤ fuel → pr_local_search_loop E fuel g nc p r = Except.ok a := by
  intro m
  induction m with
  | zero =>
    intro g nc p r hs hm
    rcases pr_round E hP hs nc p r with ⟨g', _, h2⟩ | ⟨g', nc', p', r', _, h3, _⟩
    · refine ⟨g', fun fuel hf => ?_⟩
      obtain ⟨k, rfl⟩ : ∃ k, fuel = k + 1 := ⟨fuel - 1, by omega⟩
      exact h2 k
    · omega
  | succ m ih =>
    intro g nc p r hs hm
    rcases pr_round E hP hs nc p r with ⟨g', _, h2⟩ | ⟨g', nc', p', r', ⟨h1, _⟩, h3, h2⟩
    · refine ⟨g', fun fuel hf => ?_⟩
      obtain ⟨k, rfl⟩ : ∃ k, fuel = k + 1 := ⟨fuel - 1, by omega⟩
      exact h2 k
    · obtain ⟨a, ha⟩ := ih g' nc' p' r' h1 (by omega)
      refine ⟨a, fun fuel hf => ?_⟩
      obtain ⟨k, rfl⟩ : ∃ k, fuel = k + 1 := ⟨fuel - 1, by omega⟩
      rw [h2 k]
      exact ha k (by omega)

theorem pr_local_search_spec (E : env) {T : Prop} {q : qap_inst} {g : grasp} (hP : NonNeg q)
    (hs : Sound q g) :
    Spec T (fun fuel => pr_local_search E fuel g) (Sound q) := by
  refine ⟨fun fuel => pr_local_search_loop_good E hP fuel g 0 0 0 hs, fun _ => ?_⟩
  obtain ⟨a, ha⟩ := pr_local_search_loop_term E hP _ g 0 0 0 hs (le_refl _)
  exact ⟨_, a, ha⟩

/-- On a sound engine the cost of the working solution does not rise in
`pr_local_search`. -/
theorem pr_local_search_loop_cost (E : env) {q : qap_inst} (hP : NonNeg q) :
    ∀ (fuel : Nat) (g : grasp) (nc p r : Nat) (g' : grasp), Sound q g →
    pr_local_search_loop E fuel g nc p r = Except.ok g' → g'.s.cost ≤ g.s.cost := by
  intro fuel
  induction fuel with
  | zero => intro g nc p r g' _ h; cases h
  | succ k ih =>
    intro g nc p r g' hs h
    rcases pr_round E hP hs nc p r with ⟨g1, ⟨_, c1⟩, h2⟩ | ⟨g1, nc', p', r', ⟨h1, c1⟩, _, h2⟩
    · rw [h2 k] at h
      rw [← ok_inj h]
      exact c1
    · rw [h2 k] at h
      exact le_trans (ih _ _ _ _ _ h1 h) c1

theorem update_sound {q : qap_inst} {g : grasp} (hs : Sound q g) :
    ∃ g', update g = Except.ok g' ∧ Sound q g' ∧ g'.s = g.s := by
  obtain ⟨a1, a2, a3, a4⟩ := hs
  rw [update_eq a4.1.shaped a3.1.shaped (by rw [a3.2.1, a4.2.1])]
  by_cases c : g.s.cost < g.best.cost
  · rw [if_pos c]
    exact ⟨_, rfl, sound_upd ⟨a1, a2, a3, a4⟩ ⟨rfl, rfl, rfl, rfl, rfl, rfl, rfl, rfl⟩ a4 a4, rfl⟩
  · rw [if_neg c]
    exact ⟨_, rfl, ⟨a1, a2, a3, a4⟩, rfl⟩

theorem extra_ls_spec (E : env) {q : qap_inst} {g : grasp} (hP : NonNeg q)
    (hs : Sound q g) :
    Spec (Fair E q.n) (fun fuel => extra_ls E fuel g) (Sound q) := by
  unfold extra_ls
  refine spec_for (fun _ g => Sound q g) 10 0 g hs (fun i g1 _ _ h1 => ?_)
  refine spec_bind (pr_local_search_spec E hP h1) (fun g2 h2 => ?_)
  obtain ⟨g3, e3, h3, _⟩ := update_sound h2
  rw [e3]
  simp only [ok_bind]
  refine spec_bind (ls_step_spec E h3) (fun g4 h4 => ?_)
  exact ls_step_spec E h4

/-! ## `execute_pr` -/

theorem qs_new_nat (E : env) (n : Nat) (h : 1 ≤ n) :
    qs_new E n = some ⟨n, List.range n, List.range n, E.junk⟩ := by
  unfold qs_new
  rw [if_neg (by omega)]
  simp

theorem shaped_fresh (n : Nat) (c : Int) : Shaped ⟨n, List.range n, List.range n, c⟩ :=
  ⟨by simp, by simp⟩

theorem deref_exact {q : qap_inst} {s2 : Option qap_sol} {g : grasp} (hs : Sound q g)
    (h2 : ∀ x, s2 = some x → Tracked q x) : Tracked q (deref s2 g) := by
  cases s2 with
  | none => exact hs.2.2.2
  | some x => exact h2 x rfl

theorem execute_pr_step_spec (E : env) {T : Prop} {q : qap_inst} {s2 : Option qap_sol}
    {st : pr_state} {i : Nat} (hP : NonNeg q) (hw : WalkInv q s2 st)
    (hi : i < q.n) :
    Spec T (fun fuel => execute_pr_step E fuel s2 i st) (WalkInv q s2) := by
  obtain ⟨w1, w2, w3, w4, w5, w6, w7, w8, w9⟩ := hw
  have hq : st.g.q = q := w1.1
  subst hq
  have hwf : WF st.g.q := w1.2.1.1
  have hd := deref_exact w1 w9
  have l1 : i < st.s.p.length := by rw [w2.1.1, w2.2.1]; exact hi
  have l2 : i < (deref s2 st.g).p.length := by rw [hd.1.1, hd.2.1]; exact hi
  unfold execute_pr_step
  rw [rd_eq l1, rd_eq l2]
  simp only [ok_bind]
  by_cases c : sel st.s.p i ≠ sel (deref s2 st.g).p i
  swap
  · simp only [if_neg c]
    exact spec_pure ⟨w1, w2, w3, w4, w5, w6, w7, w8, w9⟩
  simp only [if_pos c]
  have ei : sel (deref s2 st.g).p i < st.s.n := by
    rw [w2.2.1, ← hd.2.1]; exact hd.1.2.2.1 i (by rw [hd.2.1]; exact hi)
  have hj : sel st.s.rev (sel (deref s2 st.g).p i) < st.g.q.n := by
    rw [← w2.2.1]; exact w2.1.rev_lt _ ei
  have hij : i ≠ sel st.s.rev (sel (deref s2 st.g).p i) := by
    intro e
    have := w2.1.p_rev _ ei
    rw [← e] at this
    exact c this
  obtain ⟨cst, s1, sn, e1, e2, _, _, e5, ex, _⟩ := swap_step hwf w2 hi hj hij
  rw [qs_copy_eq w4 w2.1.shaped (by rw [w5, w2.2.1]),
    rd_eq (by rw [w2.1.2.1]; exact ei)]
  simp only [ok_bind, e1, e2]
  subst e5
  refine spec_bind (P := fun (r : grasp × qap_sol) => Sound st.g.q r.1 ∧ Tracked st.g.q r.2) ?_ ?_
  · refine spec_ite (fun _ => ?_) (fun _ => spec_pure ⟨w1, w3⟩)
    rw [qs_copy_eq w1.2.2.2.1.shaped ex.1.shaped (by rw [w1.2.2.2.2.1, ex.2.1])]
    simp only [ok_bind]
    refine spec_bind (pr_local_search_spec E hP
      (sound_upd w1 ⟨rfl, rfl, rfl, rfl, rfl, rfl, rfl, rfl⟩ w1.2.2.1 ex)) (fun g1 h1 => ?_)
    rw [qs_copy_eq w3.1.shaped h1.2.2.2.1.shaped (by rw [w3.2.1, h1.2.2.2.2.1])]
    exact spec_pure ⟨h1, h1.2.2.2⟩
  · rintro ⟨g1, sb⟩ ⟨h1, h2⟩
    dsimp only at h1 h2 ⊢
    by_cases d : st.cp ≠ -1 ∧ st.s.cost < st.cp ∧ st.s.cost < isub s1.cost cst ∧
        (st.lopt.cost = -1 ∨ st.s.cost < st.lopt.cost)
    · simp only [if_pos d]
      rw [qs_copy_eq w6 w2.1.shaped (by rw [w7, w2.2.1])]
      exact spec_pure ⟨h1, ex, h2, w2.1.shaped, w2.2.1, w2.1.shaped, w2.2.1, fun _ => w2, w9⟩
    · simp only [if_neg d]
      exact spec_pure ⟨h1, ex, h2, w2.1.shaped, w2.2.1, w6, w7, w8, w9⟩

theorem execute_pr_spec (E : env) {T : Prop} {q : qap_inst} {s1 : qap_sol} {s2 : Option qap_sol}
    {g : grasp} (hP : NonNeg q) (hs : Sound q g) (h1 : Tracked q s1)
    (h2 : ∀ x, s2 = some x → Tracked q x) :
    Spec T (fun fuel => execute_pr E fuel s1 s2 g) (fun r => Sound q r.2) := by
  have hn : 1 ≤ s1.n := by have := hs.2.1.2.1; rw [h1.2.1, ← hs.1]; omega
  unfold execute_pr
  rw [qs_new_nat E s1.n hn]
  dsimp only
  rw [qs_copy_eq (shaped_fresh s1.n _) h1.1.shaped rfl]
  simp only [ok_bind]
  have hw : WalkInv q s2 ⟨g, s1, s1, ⟨s1.n, List.range s1.n, List.range s1.n, E.junk⟩,
      ⟨s1.n, List.range s1.n, List.range s1.n, -1⟩, -1, -1⟩ :=
    ⟨hs, h1, h1, shaped_fresh _ _, h1.2.1, shaped_fresh _ _, h1.2.1,
      fun h => absurd h (lt_irrefl _), h2⟩
  have hgn : g.s.n = q.n := hs.2.2.2.2.1
  have := spec_for (T := T) (b := fun fuel => execute_pr_step E fuel s2)
    (fun _ st => WalkInv q s2 st) g.s.n 0 _ hw
    (fun i st _ hi hI => execute_pr_step_spec E hP hI (by omega))
  refine spec_bind this (fun st hI => ?_)
  obtain ⟨w1, w2, w3, w4, w5, w6, w7, w8, w9⟩ := hI
  have sg := w1.2.2.2
  have d1 : Sound q { st.g with s := st.sbest } :=
    sound_upd w1 ⟨rfl, rfl, rfl, rfl, rfl, rfl, rfl, rfl⟩ w1.2.2.1 w3
  have c1 : qs_copy st.g.s st.sbest = Except.ok st.sbest :=
    qs_copy_eq sg.1.shaped w3.1.shaped (by rw [sg.2.1, w3.2.1])
  by_cases a : st.sbest.cost < (deref s2 st.g).cost
  · simp only [if_pos a, c1, ok_bind]
    exact spec_pure d1
  · simp only [if_neg a]
    by_cases b : st.lopt.cost > -1
    · simp only [if_pos b]
      rw [qs_copy_eq sg.1.shaped w6 (by rw [sg.2.1, w7])]
      simp only [ok_bind]
      exact spec_pure (sound_upd w1 ⟨rfl, rfl, rfl, rfl, rfl, rfl, rfl, rfl⟩ w1.2.2.1 (w8 b))
    · simp only [if_neg b, c1, ok_bind]
      exact spec_pure d1

/-! ## Similarity and the choice of the guiding solution -/

theorem for_loop_count {b : Nat → Nat → Except Err Nat} (f : Nat → Nat) (n : Nat) :
    ∀ (lo : Nat) (a : Nat),
    (∀ i acc, lo ≤ i → i < lo + n → b i acc = Except.ok (acc + f i)) →
    for_loop b lo n a = Except.ok (a + ∑ k in range n, f (lo + k)) := by
  induction n with
  | zero => intro lo a _; simp [for_loop]
  | succ k ih =>
    intro lo a h
    rw [for_loop_succ, h lo a (le_refl _) (by omega), ok_bind,
      ih (lo + 1) _ (fun i acc h1 h2 => h i acc (by omega) (by omega))]
    rw [Finset.sum_range_succ']
    have : ∀ t, lo + 1 + t = lo + (t + 1) := fun t => by omega
    simp only [this]
    congr 1
    simp only [add_zero]
    omega

theorem qs_similarity_eq {s1 s2 : qap_sol} (h1 : s1.p.length = s1.n) (h2 : s1.n ≤ s2.p.length) :
    qs_similarity s1 s2 = Except.ok (simf s1.p s2.p s1.n) := by
  unfold qs_similarity simf
  rw [for_loop_count (fun k => if sel s1.p k ≠ sel s2.p k then 1 else 0)]
  · simp
  · intro i acc _ hi
    rw [rd_eq (by omega), rd_eq (by omega)]
    simp only [ok_bind]
    by_cases c : sel s1.p i ≠ sel s2.p i
    · rw [if_pos c, if_pos c]; rfl
    · rw [if_neg c, if_neg c]; rfl

theorem simf_le (a b : List Nat) (n : Nat) : simf a b n ≤ n := by
  unfold simf
  calc ∑ k in range n, (if sel a k ≠ sel b k then 1 else 0)
      ≤ ∑ _k in range n, 1 := Finset.sum_le_sum (fun k _ => by split_ifs <;> omega)
    _ = n := by simp

theorem simf_eq_zero {a b : List Nat} {n : Nat} (ha : a.length = n) (hb : b.length = n) :
    simf a b n = 0 ↔ a = b := by
  unfold simf
  rw [Finset.sum_eq_zero_iff]
  constructor
  · intro h
    refine ext_sel (by rw [ha, hb]) (fun i hi => ?_)
    have := h i (Finset.mem_range.2 (by omega))
    by_contra c
    rw [if_pos c] at this
    omega
  · intro h k _
    rw [h]
    simp

theorem guiding_scan_ok (diff : List Nat) (r : Nat) : ∀ (count i : Nat),
    i + count = diff.length → (∃ k, i ≤ k ∧ k < diff.length ∧ r ≤ sel diff k) →
    ∃ j, guiding_scan diff r count i = Except.ok j ∧ j < diff.length := by
  intro count
  induction count with
  | zero =>
    intro i h ⟨k, h1, h2, _⟩
    omega
  | succ c ih =>
    intro i h ⟨k, h1, h2, h3⟩
    unfold guiding_scan
    rw [rd_eq (by omega), ok_bind]
    by_cases d : r > sel diff i
    · rw [if_pos d]
      refine ih (i + 1) (by omega) ⟨k, ?_, h2, h3⟩
      by_contra e
      have : k = i := by omega
      subst this
      omega
    · rw [if_neg d]
      exact ⟨i, rfl, by omega⟩

theorem pr_get_guiding_sol_ok (E : env) {q : qap_inst} {e : elite} {sol : qap_sol} (rc : Nat)
    (hp : Pool q e) (hf : e.cur_size = e.size) (hd : Distinct e) (hs : Shaped sol)
    (hn : sol.n = q.n) :
    ∃ i diff, pr_get_guiding_sol E e sol rc = Except.ok (i, { e with diff := diff }, rc + 1) ∧
      i < e.size ∧ diff.length = e.size := by
  obtain ⟨p1, p2, p3, p4, p5, p6, p7, p8⟩ := hp
  unfold pr_get_guiding_sol
  have hsim : ∀ k, k < e.size →
      qs_similarity sol (sel e.sol k) = Except.ok (simf sol.p (sel e.sol k).p sol.n) := by
    intro k hk
    have := p7 k hk
    exact qs_similarity_eq hs.1 (by rw [this.1.1, this.2, hn])
  obtain ⟨⟨diff1, total⟩, e1, h1, h2, h3⟩ := for_loop_tot (b := fun i (st : List Nat × Nat) => do
      let m ← rd e.sol i
      let v ← qs_similarity sol m
      let diff ← wr st.1 i v
      let x ← rd diff i
      pure (diff, st.2 + x))
    (fun i st => st.1.length = e.size ∧
      st.2 = ∑ k in range i, simf sol.p (sel e.sol k).p sol.n ∧
      ∀ k, k < i → sel st.1 k = simf sol.p (sel e.sol k).p sol.n) e.size 0 (e.diff, 0)
    ⟨p2, by simp, fun k hk => absurd hk (Nat.not_lt_zero _)⟩
    (by
      intro i st _ hi ⟨a1, a2, a3⟩
      dsimp only
      rw [rd_eq (by omega), ok_bind, hsim i (by omega), ok_bind, wr_eq (by omega), ok_bind,
        rd_eq (by simp; omega), ok_bind, sel_set_eq _ _ _ (by omega)]
      refine ⟨_, rfl, by simp [a1], ?_, ?_⟩
      · show st.2 + _ = _
        rw [Finset.sum_range_succ, a2]
      · intro k hk
        show sel (st.1.set i _) k = _
        by_cases c : k = i
        · subst c; rw [sel_set_eq _ _ _ (by omega)]
        · rw [sel_set_ne _ _ _ _ c]; exact a3 k (by omega))
  dsimp only at h1 h2 h3
  rw [Nat.zero_add] at h2 h3
  rw [e1, ok_bind]
  dsimp only
  obtain ⟨diff2, e2, g1, g2, g3⟩ := for_loop_tot (b := fun i (diff : List Nat) => do
      let x ← rd diff i
      let y ← rd diff (i - 1)
      wr diff i (x + y))
    (fun i diff => diff.length = e.size ∧
      (∀ k, k < i → sel diff k = ∑ t in range (k + 1), simf sol.p (sel e.sol t).p sol.n) ∧
      ∀ k, i ≤ k → k < e.size → sel diff k = simf sol.p (sel e.sol k).p sol.n)
    (e.size - 1) 1 diff1
    ⟨h1, fun k hk => by
        have : k = 0 := by omega
        subst this
        simp [h3 0 (by omega)], fun k _ hk => h3 k hk⟩
    (by
      intro i diff hi1 hi ⟨a1, a2, a3⟩
      dsimp only
      rw [rd_eq (by omega), ok_bind, rd_eq (by omega), ok_bind, wr_eq (by omega)]
      refine ⟨_, rfl, by simp [a1], ?_, ?_⟩
      · intro k hk
        by_cases c : k = i
        · subst c
          rw [sel_set_eq _ _ _ (by omega), a3 k (le_refl _) (by omega), a2 (k - 1) (by omega),
            show k - 1 + 1 = k by omega, Finset.sum_range_succ _ k]
          omega
        · rw [sel_set_ne _ _ _ _ c]; exact a2 k (by omega)
      · intro k hk1 hk2
        rw [sel_set_ne _ _ _ _ (by omega)]
        exact a3 k (by omega) hk2)
  rw [e2, ok_bind]
  have hlast : sel diff2 (e.size - 1) = total := by
    rw [g2 (e.size - 1) (by omega), show e.size - 1 + 1 = e.size by omega, h2]
  have hpos : 0 < total := by
    rw [h2]
    have hne : (sel e.sol 0).p ≠ (sel e.sol 1).p := by
      intro c
      have := hd 0 1 (by omega) (by omega) c
      omega
    have hk : ∃ k, k < e.size ∧ sol.p ≠ (sel e.sol k).p := by
      by_cases c : sol.p = (sel e.sol 0).p
      · exact ⟨1, by omega, fun c2 => hne (c.symm.trans c2)⟩
      · exact ⟨0, by omega, c⟩
    obtain ⟨k, hk1, hk2⟩ := hk
    have hz : simf sol.p (sel e.sol k).p sol.n ≠ 0 := by
      intro z
      have := p7 k hk1
      exact hk2 ((simf_eq_zero hs.1 (by rw [this.1.1, this.2, hn])).1 z)
    have := Finset.single_le_sum (f := fun k => simf sol.p (sel e.sol k).p sol.n)
      (fun _ _ => Nat.zero_le _) (Finset.mem_range.2 hk1)
    have hz2 := Nat.pos_of_ne_zero hz
    exact lt_of_lt_of_le hz2 this
  rw [cmod_eq hpos, ok_bind]
  obtain ⟨j, e3, hj⟩ := guiding_scan_ok diff2 (E.genrandint rc % total) e.size 0 (by omega)
    ⟨e.size - 1, Nat.zero_le _, by omega, by
      rw [hlast]; exact le_of_lt (Nat.mod_lt _ hpos)⟩
  rw [e3, ok_bind]
  exact ⟨j, diff2, rfl, by omega, g1⟩

/-! ## Filling the pool and relinking -/

theorem pool_set {q : qap_inst} {e : elite} {s : qap_sol} {i c b w : Nat} (hp : Pool q e)
    (hi : i < e.size) (hs : Tracked q s) (hb : b < e.size) (hw : w < e.size) (hc : c ≤ e.size)
    (hm : ∀ k, k < c → k ≠ i → k < e.cur_size) :
    Pool q { e with sol := e.sol.set i s, cur_size := c, best := b, worst := w } := by
  obtain ⟨p1, p2, p3, p4, p5, p6, p7, p8⟩ := hp
  refine ⟨by simp [p1], p2, p3, hc, hb, hw, fun k hk => ?_, fun k hk => ?_⟩
  · show Shaped (sel (e.sol.set i s) k) ∧ (sel (e.sol.set i s) k).n = q.n
    by_cases d : k = i
    · subst d; rw [sel_set_eq _ _ _ (by omega)]; exact ⟨hs.1.shaped, hs.2.1⟩
    · rw [sel_set_ne _ _ _ _ d]; exact p7 k hk
  · show Tracked q (sel (e.sol.set i s) k)
    by_cases d : k = i
    · subst d; rw [sel_set_eq _ _ _ (by omega)]; exact hs
    · rw [sel_set_ne _ _ _ _ d]; exact p8 k (hm k hk d)

theorem distinct_set {e : elite} {s : qap_sol} {i c b w : Nat} (hd : Distinct e)
    (hi : i < e.sol.length) (hm : ∀ k, k < c → k ≠ i → k < e.cur_size)
    (hn : ∀ k, k < e.cur_size → k ≠ i → (sel e.sol k).p ≠ s.p) :
    Distinct { e with sol := e.sol.set i s, cur_size := c, best := b, worst := w } := by
  intro k1 k2 h1 h2 h
  have h1 : k1 < c := h1
  have h2 : k2 < c := h2
  have h : (sel (e.sol.set i s) k1).p = (sel (e.sol.set i s) k2).p := h
  by_cases d1 : k1 = i
  · by_cases d2 : k2 = i
    · rw [d1, d2]
    · rw [d1, sel_set_eq _ _ _ hi, sel_set_ne _ _ _ _ d2] at h
      exact absurd h.symm (hn k2 (hm k2 h2 d2) d2)
  · by_cases d2 : k2 = i
    · rw [d2, sel_set_eq _ _ _ hi, sel_set_ne _ _ _ _ d1] at h
      exact absurd h (hn k1 (hm k1 h1 d1) d1)
    · rw [sel_set_ne _ _ _ _ d1, sel_set_ne _ _ _ _ d2] at h
      exact hd k1 k2 (hm k1 h1 d1) (hm k2 h2 d2) h

theorem pr_insert_sol_ok {q : qap_inst} {e : elite} {g : grasp} (hp : Pool q e)
    (hc : e.cur_size < e.size) (hs : Tracked q g.s) :
    ∃ b w, b < e.size ∧ w < e.size ∧ pr_insert_sol e g = Except.ok
      { e with sol := e.sol.set e.cur_size g.s, cur_size := e.cur_size + 1, best := b,
               worst := w } := by
  obtain ⟨p1, p2, p3, p4, p5, p6, p7, p8⟩ := hp
  have h7 := p7 e.cur_size hc
  unfold pr_insert_sol
  rw [rd_eq (by omega), ok_bind, qs_copy_eq h7.1 hs.1.shaped (by rw [h7.2, hs.2.1]), ok_bind,
    wr_eq (by omega), ok_bind]
  simp only []
  by_cases c : e.cur_size > 0
  · rw [if_pos c, rd_eq (by simp; omega), ok_bind, rd_eq (by simp; omega), ok_bind]
    simp only [apply_ite elite.sol, apply_ite elite.cur_size, apply_ite elite.best,
      apply_ite elite.worst, apply_ite elite.size, apply_ite elite.diff, ite_self]
    rw [rd_eq (by simp; omega), ok_bind, rd_eq (by simp; omega), ok_bind]
    split_ifs <;>
      first
      | exact ⟨_, _, hc, hc, rfl⟩
      | exact ⟨_, _, p5, hc, rfl⟩
      | exact ⟨_, _, hc, p6, rfl⟩
      | exact ⟨_, _, p5, p6, rfl⟩
  · rw [if_neg c]
    exact ⟨_, _, p5, p6, rfl⟩

theorem pr_run_spec (E : env) {T : Prop} {q : qap_inst} {e : elite} {g : grasp}
    (hP : NonNeg q) (hp : Pool q e) (hd : Distinct e) (hs : Sound q g) :
    Spec T (fun fuel => pr_run E fuel e g)
      (fun r => Pool q r.1 ∧ Distinct r.1 ∧ Sound q r.2) := by
  have p := hp
  obtain ⟨p1, p2, p3, p4, p5, p6, p7, p8⟩ := p
  have sx := hs.2.2.2
  unfold pr_run
  by_cases c : e.cur_size < e.size
  · simp only [if_pos c]
    obtain ⟨reject, e1, hrej⟩ := for_loop_tot (b := fun i (reject : Bool) => do
        let m ← rd e.sol i
        let v ← qs_similarity g.s m
        pure (if v < MIN_DIFF then true else reject))
      (fun i reject => reject = false → ∀ k, k < i → (sel e.sol k).p ≠ g.s.p) e.cur_size 0 false
      (fun _ k hk => absurd hk (Nat.not_lt_zero _))
      (by
        intro i rj _ hi hI
        have h7 := p7 i (by omega)
        dsimp only
        rw [rd_eq (by omega), ok_bind,
          qs_similarity_eq sx.1.1 (by rw [h7.1.1, h7.2, sx.2.1]), ok_bind]
        refine ⟨_, rfl, fun hr k hk => ?_⟩
        by_cases d : simf g.s.p (sel e.sol i).p g.s.n < MIN_DIFF
        · rw [if_pos d] at hr; cases hr
        · rw [if_neg d] at hr
          by_cases d2 : k = i
          · subst d2
            intro c2
            rw [c2, (simf_eq_zero sx.1.1 sx.1.1).2 rfl] at d
            exact d (by decide)
          · exact hI hr k (by omega))
    rw [e1]
    simp only [ok_bind]
    cases reject with
    | true => exact spec_pure ⟨hp, hd, hs⟩
    | false =>
      obtain ⟨b, w, hb, hw, e2⟩ := pr_insert_sol_ok hp c sx
      simp only [Bool.not_false, if_true, e2, ok_bind]
      refine spec_pure ⟨pool_set hp c sx hb hw (by omega) (fun k h1 h2 => by omega),
        distinct_set hd (by omega) (fun k h1 h2 => by omega) (fun k h1 _ => ?_), hs⟩
      exact hrej rfl k (by omega)
  · simp only [if_neg c]
    obtain ⟨i, diff, e1, hi, hl⟩ := pr_get_guiding_sol_ok E g.rc hp (by omega) hd sx.1.shaped sx.2.1
    rw [e1]
    simp only [ok_bind]
    rw [rd_eq (by show i < e.sol.length; omega)]
    simp only [ok_bind]
    have hs2 : Sound q { g with rc := g.rc + 1 } :=
      sound_upd hs ⟨rfl, rfl, rfl, rfl, rfl, rfl, rfl, rfl⟩ hs.2.2.1 sx
    have := @execute_pr_spec E T q g.s (some (sel e.sol i)) _ hP hs2 sx
      (fun x hx => by cases hx; exact p8 i (by omega))
    refine spec_bind this ?_
    rintro ⟨x, g1⟩ h1
    exact spec_pure ⟨⟨p1, hl, p3, p4, p5, p6, p7, p8⟩, hd, h1⟩

theorem pr_rev_run_spec (E : env) {T : Prop} {q : qap_inst} {e : elite} {g : grasp}
    (hP : NonNeg q) (hp : Pool q e) (hd : Distinct e) (hs : Sound q g) :
    Spec T (fun fuel => pr_rev_run E fuel e g)
      (fun r => Pool q r.1 ∧ Distinct r.1 ∧ Sound q r.2) := by
  have p := hp
  obtain ⟨p1, p2, p3, p4, p5, p6, p7, p8⟩ := p
  have sx := hs.2.2.2
  unfold pr_rev_run
  by_cases c : e.cur_size = e.size
  swap
  · simp only [if_neg c]
    exact spec_pure ⟨hp, hd, hs⟩
  · simp only [if_pos c]
    obtain ⟨i, diff, e1, hi, hl⟩ := pr_get_guiding_sol_ok E g.rc hp c hd sx.1.shaped sx.2.1
    rw [e1]
    simp only [ok_bind]
    rw [rd_eq (by show i < e.sol.length; omega)]
    simp only [ok_bind]
    have hs2 : Sound q { g with rc := g.rc + 1 } :=
      sound_upd hs ⟨rfl, rfl, rfl, rfl, rfl, rfl, rfl, rfl⟩ hs.2.2.1 sx
    have := @execute_pr_spec E T q (sel e.sol i) none _ hP hs2
      (p8 i (by omega)) (fun x hx => by cases hx)
    refine spec_bind this ?_
    rintro ⟨x, g1⟩ h1
    exact spec_pure ⟨⟨p1, hl, p3, p4, p5, p6, p7, p8⟩, hd, h1⟩

/-! ## Purging the pool: sorting and compaction -/

theorem sel_eq_getElem {α : Type} [Inhabited α] (l : List α) (i : Nat) (h : i < l.length) :
    sel l i = l[i] := by
  simp [sel, List.getElem?_eq_getElem h]

theorem sel_cons_zero {α : Type} [Inhabited α] (a : α) (l : List α) : sel (a :: l) 0 = a := by
  simp [sel]

theorem sel_cons_succ {α : Type} [Inhabited α] (a : α) (l : List α) (k : Nat) :
    sel (a :: l) (k + 1) = sel l k := by
  simp [sel]

theorem mem_iff_sel {α : Type} [Inhabited α] {l : List α} {a : α} :
    a ∈ l ↔ ∃ k, k < l.length ∧ sel l k = a := by
  rw [List.mem_iff_getElem]
  constructor
  · rintro ⟨k, h, e⟩; exact ⟨k, h, by rw [sel_eq_getElem _ _ h]; exact e⟩
  · rintro ⟨k, h, e⟩; exact ⟨k, h, by rw [← sel_eq_getElem _ _ h]; exact e⟩

theorem qsort_insert_perm (x : qap_sol) (l : List qap_sol) :
    (qsort_insert x l).Perm (x :: l) := by
  induction l with
  | nil => exact List.Perm.refl _
  | cons y ys ih =>
    unfold qsort_insert
    split_ifs
    · exact (List.Perm.cons y ih).trans (List.Perm.swap x y ys)
    · exact List.Perm.refl _

theorem qsort_perm (l : List qap_sol) : (qsort l).Perm l := by
  unfold qsort
  induction l with
  | nil => exact List.Perm.refl _
  | cons y ys ih =>
    rw [List.foldr_cons]
    exact (qsort_insert_perm y _).trans (List.Perm.cons y ih)

theorem perm_swap_set (l : List qap_sol) (i j : Nat) (hi : i < l.length) (hj : j < l.length)
    (hij : i ≠ j) : ((l.set i (sel l j)).set j (sel l i)).Perm l := by
  rw [List.perm_iff_count]
  intro a
  rw [List.count_set _ _ _ _ (by simpa using hj), List.count_set _ _ _ _ hi,
    List.getElem_set_ne hij, sel_eq_getElem _ _ hi, sel_eq_getElem _ _ hj]
  have h1 : (if (l[i] == a) = true then 1 else 0) ≤ l.count a := by
    split_ifs with c
    · have : l[i] = a := by simpa using c
      rw [← this]
      exact List.count_pos_iff.2 (List.getElem_mem _)
    · exact Nat.zero_le _
  omega

theorem countP_split (p : qap_sol → Bool) : ∀ (l : List qap_sol) (m : Nat), m ≤ l.length →
    (∀ k, k < m → p (sel l k) = false) → (∀ k, m ≤ k → k < l.length → p (sel l k) = true) →
    l.countP p + m = l.length := by
  intro l
  induction l with
  | nil => intro m hm _ _; simp at hm; simp [hm]
  | cons a t ih =>
    intro m hm h1 h2
    cases m with
    | zero =>
      have : ∀ x ∈ a :: t, p x = true := by
        intro x hx
        obtain ⟨k, hk, e⟩ := mem_iff_sel.1 hx
        rw [← e]; exact h2 k (Nat.zero_le _) hk
      rw [List.countP_eq_length.2 this]
      rfl
    | succ m =>
      have ha : p a = false := by
        have := h1 0 (Nat.succ_pos _)
        rwa [sel_cons_zero] at this
      rw [List.countP_cons_of_neg _ _ (by simp [ha])]
      have := ih m (by simpa using hm)
        (fun k hk => by
          have := h1 (k + 1) (by omega)
          rwa [sel_cons_succ] at this)
        (fun k hk1 hk2 => by
          have := h2 (k + 1) (by omega) (by simpa using hk2)
          rwa [sel_cons_succ] at this)
      simp only [List.length_cons]
      omega

theorem compact_skip_ok (sol : List qap_sol) (i : Nat) : ∀ (fuel j : Nat), j < sol.length →
    i ≤ j → j + 1 ≤ fuel + i →
    ∃ j', compact_skip sol i fuel j = Except.ok j' ∧ i ≤ j' ∧ j' ≤ j ∧
      (∀ k, j' < k → k ≤ j → marked (sel sol k) = true) ∧
      (i < j' → marked (sel sol j') = false) := by
  intro fuel
  induction fuel with
  | zero => intro j _ _ h; omega
  | succ f ih =>
    intro j hj hij hf
    unfold compact_skip
    rw [rd_eq hj, ok_bind]
    by_cases c : (sel sol j).cost = -1 ∧ i < j
    · rw [if_pos c]
      obtain ⟨j', e, h1, h2, h3, h4⟩ := ih (j - 1) (by omega) (by omega) (by omega)
      refine ⟨j', e, h1, by omega, fun k hk1 hk2 => ?_, h4⟩
      by_cases d : k = j
      · subst d; simp [marked, c.1]
      · exact h3 k hk1 (by omega)
    · rw [if_neg c]
      refine ⟨j, rfl, hij, le_refl _, fun k hk1 hk2 => by omega, fun h => ?_⟩
      have : ¬ (sel sol j).cost = -1 := fun e => c ⟨e, h⟩
      simp [marked, this]

theorem compact_loop_ok : ∀ (fuel : Nat) (sol : List qap_sol) (i j : Nat), j < sol.length →
    i ≤ j + 1 → j + 2 ≤ fuel + i →
    (∀ k, k < i → marked (sel sol k) = false) →
    (∀ k, j < k → k < sol.length → marked (sel sol k) = true) →
    ∃ sol' m, compact_loop fuel sol i j = Except.ok sol' ∧ sol'.Perm sol ∧ m ≤ sol.length ∧
      (∀ k, k < m → marked (sel sol' k) = false) ∧
      (∀ k, m ≤ k → k < sol.length → marked (sel sol' k) = true) := by
  intro fuel
  induction fuel with
  | zero => intro sol i j _ _ h; omega
  | succ f ih =>
    intro sol i j hj hij hf h1 h2
    unfold compact_loop
    by_cases c : i < j
    swap
    · rw [if_neg c]
      by_cases d : i = j ∧ marked (sel sol i) = false
      · refine ⟨sol, i + 1, rfl, List.Perm.refl _, by omega, fun k hk => ?_, fun k hk1 hk2 =>
          h2 k (by omega) hk2⟩
        by_cases e : k = i
        · subst e; exact d.2
        · exact h1 k (by omega)
      · refine ⟨sol, i, rfl, List.Perm.refl _, by omega, h1, fun k hk1 hk2 => ?_⟩
        by_cases e : k = i
        · subst e
          by_cases e2 : k = j
          · have : ¬ marked (sel sol k) = false := fun x => d ⟨e2, x⟩
            simpa using this
          · exact h2 k (by omega) hk2
        · exact h2 k (by omega) hk2
    rw [if_pos c, rd_eq (by omega), ok_bind]
    by_cases d : (sel sol i).cost = -1
    swap
    · rw [if_neg d]
      refine ih sol (i + 1) j hj (by omega) (by omega) (fun k hk => ?_) h2
      by_cases e : k = i
      · subst e; simp [marked, d]
      · exact h1 k (by omega)
    rw [if_pos d]
    obtain ⟨j', e1, g1, g2, g3, g4⟩ := compact_skip_ok sol i (j + 1) j hj (by omega) (by omega)
    rw [e1, ok_bind]
    by_cases e : i ≥ j'
    · rw [if_pos e]
      have hj' : j' = i := by omega
      subst hj'
      cases f with
      | zero => omega
      | succ f2 =>
        unfold compact_loop
        rw [if_neg (by omega)]
        refine ⟨sol, j', rfl, List.Perm.refl _, by omega, h1, fun k hk1 hk2 => ?_⟩
        by_cases e3 : k = j'
        · subst e3; simp [marked, d]
        · by_cases e4 : k ≤ j
          · exact g3 k (by omega) e4
          · exact h2 k (by omega) hk2
    · rw [if_neg e]
      simp only [ok_bind]
      rw [rd_eq (by omega : j' < sol.length)]
      simp only [ok_bind]
      rw [wr_eq (by omega : i < sol.length), ok_bind, wr_eq (by simp; omega)]
      have hlen : ((sol.set i (sel sol j')).set j' (sel sol i)).length = sol.length := by simp
      obtain ⟨sol', m, e2, q1, q2, q3, q4⟩ := ih ((sol.set i (sel sol j')).set j' (sel sol i))
        (i + 1) (j' - 1) (by rw [hlen]; omega) (by omega) (by omega)
        (fun k hk => by
          by_cases e3 : k = i
          · subst e3
            rw [sel_set_ne _ _ _ _ (by omega), sel_set_eq _ _ _ (by omega)]
            exact g4 (by omega)
          · rw [sel_set_ne _ _ _ _ (by omega), sel_set_ne _ _ _ _ e3]
            exact h1 k (by omega))
        (fun k hk1 hk2 => by
          rw [hlen] at hk2
          by_cases e3 : k = j'
          · subst e3
            rw [sel_set_eq _ _ _ (by simp; omega)]
            simp [marked, d]
          · rw [sel_set_ne _ _ _ _ e3, sel_set_ne _ _ _ _ (by omega)]
            by_cases e4 : k ≤ j
            · exact g3 k (by omega) e4
            · exact h2 k (by omega) hk2)
      rw [hlen] at q2 q4
      exact ⟨sol', m, e2, q1.trans (perm_swap_set sol i j' (by omega) (by omega) (by omega)),
        q2, q3, q4⟩

/-! ## Purging the pool: marking -/

theorem nodup_iff_sel {α : Type} [Inhabited α] {l : List α} :
    l.Nodup ↔ ∀ i j, i < l.length → j < l.length → sel l i = sel l j → i = j := by
  constructor
  · intro h i j hi hj e
    rw [sel_eq_getElem _ _ hi, sel_eq_getElem _ _ hj] at e
    exact h.getElem_inj_iff.1 e
  · intro h
    rw [List.nodup_iff_injective_get]
    rintro ⟨i, hi⟩ ⟨j, hj⟩ e
    apply Fin.ext
    apply h i j hi hj
    rw [sel_eq_getElem _ _ hi, sel_eq_getElem _ _ hj]
    simpa using e

theorem purge_order {q : qap_inst} {e : elite} (fresh : qap_sol) (hp : Pool q e)
    (hs : Shaped fresh) (hn : fresh.n = q.n) :
    ∃ scp, for_loop (fun i (scp : List qap_sol) => do
        let m ← rd e.sol i
        let c ← qs_copy fresh m
        pure (scp ++ [{ c with n := i }])) 0 e.size [] = Except.ok scp ∧
      (qsort scp).length = e.size ∧ (∀ t, t < e.size → (sel (qsort scp) t).n < e.size) ∧
      (∀ t u, t < e.size → u < e.size → (sel (qsort scp) t).n = (sel (qsort scp) u).n → t = u) := by
  obtain ⟨p1, p2, p3, p4, p5, p6, p7, p8⟩ := hp
  obtain ⟨scp, e1, h1⟩ := for_loop_tot (b := fun i (scp : List qap_sol) => do
        let m ← rd e.sol i
        let c ← qs_copy fresh m
        pure (scp ++ [{ c with n := i }]))
    (fun i scp => scp = (List.range i).map (fun k => { sel e.sol k with n := k })) e.size 0 []
    rfl
    (by
      intro i scp _ hi hI
      have h7 := p7 i (by omega)
      dsimp only
      rw [rd_eq (by omega), ok_bind, qs_copy_eq hs h7.1 (by rw [hn, h7.2]), ok_bind]
      refine ⟨_, rfl, ?_⟩
      rw [List.range_succ, List.map_append, hI]
      rfl)
  dsimp only at h1
  rw [Nat.zero_add] at h1
  have hperm := qsort_perm scp
  have hlen : (qsort scp).length = e.size := by rw [hperm.length_eq, h1]; simp
  have hmem : ∀ t, t < e.size → ∃ k, k < e.size ∧
      sel (qsort scp) t = { sel e.sol k with n := k } := by
    intro t ht
    have hm0 : sel (qsort scp) t ∈ scp :=
      hperm.mem_iff.1 (mem_iff_sel.2 ⟨t, by omega, rfl⟩)
    have hm1 : sel (qsort scp) t ∈
        (List.range e.size).map (fun k => ({ sel e.sol k with n := k } : qap_sol)) := by
      rw [← h1]; exact hm0
    obtain ⟨k, hk1, hk2⟩ := List.mem_map.1 hm1
    exact ⟨k, List.mem_range.1 hk1, hk2.symm⟩
  have hnd : (qsort scp).Nodup := by
    rw [hperm.nodup_iff, h1]
    refine List.Nodup.map_on (fun x _ y _ h => ?_) (List.nodup_range _)
    exact congrArg qap_sol.n h
  refine ⟨scp, e1, hlen, fun t ht => ?_, fun t u ht hu h => ?_⟩
  · obtain ⟨k, hk, ek⟩ := hmem t ht
    rw [ek]; exact hk
  · obtain ⟨k, hk, ek⟩ := hmem t ht
    obtain ⟨k2, hk2, ek2⟩ := hmem u hu
    rw [ek, ek2] at h
    have h : k = k2 := h
    subst h
    exact nodup_iff_sel.1 hnd t u (by omega) (by omega) (ek.trans ek2.symm)

theorem purge_mark {e : elite} (scp : List qap_sol) (hl : e.sol.length = e.size)
    (hf : e.cur_size = e.size) (h0 : scp.length = e.size)
    (h1 : ∀ t, t < e.size → (sel scp t).n < e.size)
    (h2 : ∀ t u, t < e.size → u < e.size → (sel scp t).n = (sel scp u).n → t = u)
    (hc : ∀ i, i < e.size → marked (sel e.sol i) = false) :
    ∃ e1, for_loop (fun i (e : elite) => do
        let c ← rd scp i
        let m ← rd e.sol c.n
        let sol ← wr e.sol c.n { m with cost := -1 }
        pure { e with sol := sol, cur_size := e.cur_size - 1 }) 0 (e.size / 2) e = Except.ok e1 ∧
      e1.size = e.size ∧ e1.diff = e.diff ∧ e1.best = e.best ∧ e1.worst = e.worst ∧
      e1.cur_size = e.size - e.size / 2 ∧ e1.sol.length = e.size ∧
      (∀ k, k < e.size → (sel e1.sol k).p = (sel e.sol k).p ∧
        (sel e1.sol k).rev = (sel e.sol k).rev ∧ (sel e1.sol k).n = (sel e.sol k).n) ∧
      (∀ k, k < e.size → marked (sel e1.sol k) = false → sel e1.sol k = sel e.sol k) ∧
      e1.sol.countP marked = e.size / 2 := by
  obtain ⟨e1, r1, a1, a2, a3, a4, a5, a6, a7, a8, a9, a10⟩ := for_loop_tot
    (b := fun i (e : elite) => do
        let c ← rd scp i
        let m ← rd e.sol c.n
        let sol ← wr e.sol c.n { m with cost := -1 }
        pure { e with sol := sol, cur_size := e.cur_size - 1 })
    (fun i x => x.size = e.size ∧ x.diff = e.diff ∧ x.best = e.best ∧ x.worst = e.worst ∧
      x.cur_size = e.size - i ∧ x.sol.length = e.size ∧
      (∀ k, k < e.size → (sel x.sol k).p = (sel e.sol k).p ∧
        (sel x.sol k).rev = (sel e.sol k).rev ∧ (sel x.sol k).n = (sel e.sol k).n) ∧
      (∀ k, k < e.size → (∀ t, t < i → (sel scp t).n ≠ k) → sel x.sol k = sel e.sol k) ∧
      (∀ k, k < e.size → marked (sel x.sol k) = false → sel x.sol k = sel e.sol k) ∧
      x.sol.countP marked = i) (e.size / 2) 0 e
    ⟨rfl, rfl, rfl, rfl, by simpa using hf, hl, fun k _ => ⟨rfl, rfl, rfl⟩, fun k _ _ => rfl,
      fun k _ _ => rfl, List.countP_eq_zero.2 (fun a ha => by
        obtain ⟨k, hk, ek⟩ := mem_iff_sel.1 ha
        rw [← ek]
        simpa using hc k (by omega))⟩
    (by
      intro i x _ hi ⟨b1, b2, b3, b4, b5, b6, b7, b8, b9, b10⟩
      have hi2 : i < e.size := by omega
      have hidx := h1 i hi2
      have horig : sel x.sol (sel scp i).n = sel e.sol (sel scp i).n :=
        b8 _ hidx (fun t ht c => by have := h2 t i (by omega) hi2 c; omega)
      dsimp only
      rw [rd_eq (by omega), ok_bind, rd_eq (by omega), ok_bind, wr_eq (by omega), ok_bind]
      refine ⟨_, rfl, b1, b2, b3, b4, ?_, by simp [b6], fun k hk => ?_, fun k hk ht => ?_,
        fun k hk hm => ?_, ?_⟩
      · show x.cur_size - 1 = e.size - (i + 1)
        omega
      · show (sel (x.sol.set _ _) k).p = _ ∧ (sel (x.sol.set _ _) k).rev = _ ∧
          (sel (x.sol.set _ _) k).n = _
        by_cases c : k = (sel scp i).n
        · rw [c, sel_set_eq _ _ _ (by omega)]
          exact b7 _ hidx
        · rw [sel_set_ne _ _ _ _ c]
          exact b7 k hk
      · show sel (x.sol.set _ _) k = _
        rw [sel_set_ne _ _ _ _ (fun c => ht i (Nat.lt_succ_self _) c.symm)]
        exact b8 k hk (fun t h => ht t (by omega))
      · have hm : marked (sel (x.sol.set (sel scp i).n
            { sel x.sol (sel scp i).n with cost := -1 }) k) = false := hm
        show sel (x.sol.set _ _) k = _
        by_cases c : k = (sel scp i).n
        · rw [c, sel_set_eq _ _ _ (by omega)] at hm
          simp [marked] at hm
        · rw [sel_set_ne _ _ _ _ c] at hm ⊢
          exact b9 k hk hm
      · show (x.sol.set _ _).countP marked = i + 1
        rw [List.countP_set _ _ _ _ (by omega), b10, ← sel_eq_getElem _ _ (by omega), horig,
          hc _ hidx]
        simp [marked])
  rw [Nat.zero_add] at a5 a8 a10
  exact ⟨e1, r1, a1, a2, a3, a4, a5, a6, a7, a9, a10⟩

theorem purge_rescan (e : elite) (hl : e.cur_size ≤ e.sol.length) (hc : e.cur_size ≤ e.size)
    (hb : e.best < e.size) (hw : e.worst < e.size) :
    ∃ r, for_loop (fun i (st : elite × Int × Int) => do
        let m ← rd st.1.sol i
        let st := if m.cost < st.2.1 then ({ st.1 with best := i }, m.cost, st.2.2) else st
        let m ← rd st.1.sol i
        pure (if m.cost > st.2.2 then ({ st.1 with worst := i }, st.2.1, m.cost) else st))
      0 e.cur_size (e, 999999, 0) = Except.ok r ∧ r.1.sol = e.sol ∧ r.1.size = e.size ∧
      r.1.cur_size = e.cur_size ∧ r.1.diff = e.diff ∧ r.1.best < e.size ∧ r.1.worst < e.size := by
  obtain ⟨r, e1, h⟩ := for_loop_tot (b := fun i (st : elite × Int × Int) => do
        let m ← rd st.1.sol i
        let st := if m.cost < st.2.1 then ({ st.1 with best := i }, m.cost, st.2.2) else st
        let m ← rd st.1.sol i
        pure (if m.cost > st.2.2 then ({ st.1 with worst := i }, st.2.1, m.cost) else st))
    (fun _ r => r.1.sol = e.sol ∧ r.1.size = e.size ∧
      r.1.cur_size = e.cur_size ∧ r.1.diff = e.diff ∧ r.1.best < e.size ∧ r.1.worst < e.size)
    e.cur_size 0 (e, 999999, 0) ⟨rfl, rfl, rfl, rfl, hb, hw⟩
    (by
      intro i st _ hi ⟨b1, b2, b3, b4, b5, b6⟩
      dsimp only
      rw [rd_eq (by rw [b1]; omega), ok_bind]
      by_cases c : (sel st.1.sol i).cost < st.2.1
      · simp only [if_pos c]
        rw [rd_eq (by rw [b1]; omega), ok_bind]
        split_ifs
        · exact ⟨_, rfl, b1, b2, b3, b4, by show i < e.size; omega, by show i < e.size; omega⟩
        · exact ⟨_, rfl, b1, b2, b3, b4, by show i < e.size; omega, b6⟩
      · simp only [if_neg c]
        rw [rd_eq (by rw [b1]; omega), ok_bind]
        split_ifs
        · exact ⟨_, rfl, b1, b2, b3, b4, b5, by show i < e.size; omega⟩
        · exact ⟨_, rfl, b1, b2, b3, b4, b5, b6⟩)
  exact ⟨r, e1, h⟩

theorem mark_half_ok (E : env) {q : qap_inst} {e : elite} {g : grasp} (hP : NonNeg q)
    (hp : Pool q e) (hf : e.cur_size = e.size) (hq : g.q = q) (hn : 1 ≤ q.n) :
    ∃ e', mark_half_set_infinite E e g =
        Except.ok (1, e', { g with last_improv_iter := g.curr_iter }) ∧
      Pool q e' ∧ (Distinct e → Distinct e') ∧ e'.size = e.size := by
  have hp0 := hp
  obtain ⟨p1, p2, p3, p4, p5, p6, p7, p8⟩ := hp
  subst hq
  have hc : ∀ i, i < e.size → marked (sel e.sol i) = false := by
    intro i hi
    have := Tracked.nonneg hP (p8 i (by omega))
    simp only [marked, decide_eq_false_iff_not]
    omega
  unfold mark_half_set_infinite
  generalize hB : (fun i (st : elite × Int × Int) => (do
        let m ← rd st.1.sol i
        let st := if m.cost < st.2.1 then ({ st.1 with best := i }, m.cost, st.2.2) else st
        let m ← rd st.1.sol i
        pure (if m.cost > st.2.2 then ({ st.1 with worst := i }, st.2.1, m.cost) else st) :
        Except Err (elite × Int × Int))) = B
  rw [qs_new_nat E _ hn]
  simp only [Option.isNone_some, Bool.false_eq_true, and_false, if_false, Option.getD_some]
  obtain ⟨scp, e1, o1, o2, o3⟩ := purge_order (q := g.q) (e := e)
    ⟨g.q.n, List.range g.q.n, List.range g.q.n, E.junk⟩ hp0 (shaped_fresh _ _) rfl
  rw [e1]
  simp only [ok_bind]
  obtain ⟨em, e2, m1, m2, m3, m4, m5, m6, m7, m8, m9⟩ := purge_mark (qsort scp) p1 hf o1 o2 o3 hc
  rw [e2]
  simp only [ok_bind]
  obtain ⟨sol', m, e3, c1, c2, c3, c4⟩ := compact_loop_ok (em.size + 1) em.sol 0 (em.size - 1)
    (by omega) (by omega) (by omega) (fun k hk => absurd hk (Nat.not_lt_zero _))
    (fun k hk1 hk2 => by omega)
  rw [e3]
  simp only [ok_bind]
  have hlen : sol'.length = e.size := by rw [c1.length_eq, m6]
  have hm : m = e.size - e.size / 2 := by
    have h1 := countP_split marked sol' m (by omega) c3 (fun k hk1 hk2 => c4 k hk1 (by omega))
    rw [c1.countP_eq, m9] at h1
    omega
  have hsrc : ∀ k, k < e.size → ∃ t, t < e.size ∧ sel sol' k = sel em.sol t := by
    intro k hk
    have : sel sol' k ∈ em.sol := c1.mem_iff.1 (mem_iff_sel.2 ⟨k, by omega, rfl⟩)
    obtain ⟨t, ht, et⟩ := mem_iff_sel.1 this
    exact ⟨t, by omega, et.symm⟩
  obtain ⟨r, e4, r1, r2, r3, r4, r5, r6⟩ := purge_rescan { em with sol := sol' }
    (by show em.cur_size ≤ sol'.length; omega) (by show em.cur_size ≤ em.size; omega)
    (by show em.best < em.size; omega) (by show em.worst < em.size; omega)
  rw [hB] at e4
  have e4' : for_loop B 0 em.cur_size
      (({ em with sol := sol' } : elite), (999999 : Int), (0 : Int)) = Except.ok r := e4
  rw [e4']
  simp only [ok_bind]
  have r1 : r.1.sol = sol' := r1
  have r2 : r.1.size = e.size := r2.trans m1
  have r3 : r.1.cur_size = e.size - e.size / 2 := r3.trans m5
  have r4 : r.1.diff = e.diff := r4.trans m2
  have r5 : r.1.best < e.size := by have : r.1.best < em.size := r5; omega
  have r6 : r.1.worst < e.size := by have : r.1.worst < em.size := r6; omega
  refine ⟨r.1, rfl, ⟨by rw [r1, r2]; exact hlen, by rw [r4, r2]; exact p2, by rw [r2]; exact p3,
    by rw [r2, r3]; omega, by rw [r2]; exact r5, by rw [r2]; exact r6, fun k hk => ?_,
    fun k hk => ?_⟩, fun hd k1 k2 hk1 hk2 hpe => ?_, r2⟩
  · rw [r2] at hk
    rw [r1]
    obtain ⟨t, ht, et⟩ := hsrc k hk
    obtain ⟨x1, x2, x3⟩ := m7 t ht
    have h7 := p7 t ht
    rw [et]
    refine ⟨⟨?_, ?_⟩, ?_⟩
    · rw [x1, x3]; exact h7.1.1
    · rw [x2, x3]; exact h7.1.2
    · rw [x3]; exact h7.2
  · rw [r3] at hk
    rw [r1]
    obtain ⟨t, ht, et⟩ := hsrc k (by omega)
    have hu := c3 k (by omega)
    rw [et] at hu ⊢
    rw [m8 t ht hu]
    exact p8 t (by omega)
  · rw [r3] at hk1 hk2
    rw [r1] at hpe
    obtain ⟨t1, ht1, et1⟩ := hsrc k1 (by omega)
    obtain ⟨t2, ht2, et2⟩ := hsrc k2 (by omega)
    have hu1 := c3 k1 (by omega)
    have hu2 := c3 k2 (by omega)
    rw [et1] at hu1
    rw [et2] at hu2
    have hnd : sol'.Nodup := by
      rw [c1.nodup_iff, nodup_iff_sel]
      intro a b ha hb hab
      have := congrArg qap_sol.p hab
      rw [(m7 a (by omega)).1, (m7 b (by omega)).1] at this
      exact hd a b (by omega) (by omega) this
    apply nodup_iff_sel.1 hnd k1 k2 (by omega) (by omega)
    rw [et1, et2] at hpe ⊢
    rw [m8 t1 ht1 hu1, m8 t2 ht2 hu2] at hpe ⊢
    rw [hd t1 t2 (by omega) (by omega) hpe]

/-! ## `pr_update` and `call_pr` -/

theorem pr_sol_in_e_ok {q : qap_inst} {e : elite} {s : qap_sol} (hp : Pool q e)
    (hs : Shaped s) (hn : s.n = q.n) : ∃ b, pr_sol_in_e e s = Except.ok b := by
  obtain ⟨p1, p2, p3, p4, p5, p6, p7, p8⟩ := hp
  unfold pr_sol_in_e
  obtain ⟨b, e1, _⟩ := for_loop_tot (b := fun i (found : Bool) =>
      if found then pure true
      else do
        let m ← rd e.sol i
        if m.cost = s.cost then pure true
        else do
          let v ← qs_similarity m s
          pure (decide (v < MIN_DIFF)))
    (fun _ _ => True) e.size 0 false trivial
    (by
      intro i found _ hi _
      have h7 := p7 i (by omega)
      dsimp only
      by_cases c : found = true
      · rw [if_pos c]; exact ⟨_, rfl, trivial⟩
      · rw [if_neg c, rd_eq (by omega), ok_bind]
        by_cases d : (sel e.sol i).cost = s.cost
        · rw [if_pos d]; exact ⟨_, rfl, trivial⟩
        · rw [if_neg d, qs_similarity_eq h7.1.1 (by rw [h7.2, hs.1, hn]), ok_bind]
          exact ⟨_, rfl, trivial⟩)
  exact ⟨b, e1⟩

theorem pr_update_position_ok (E : env) {q : qap_inst} {e : elite} {g : grasp} (hp : Pool q e)
    (hs : Shaped g.s) (hn : g.s.n = q.n) :
    ∃ r, pr_update_position E e g = Except.ok r ∧ r.2.1 < e.size ∧
      (∀ k, k < e.size → (sel e.sol k).cost ≥ g.s.cost → (sel e.sol k).p = g.s.p →
        (sel e.sol r.2.1).p = g.s.p) := by
  obtain ⟨p1, p2, p3, p4, p5, p6, p7, p8⟩ := hp
  unfold pr_update_position
  have hsim : ∀ k, k < e.size →
      qs_similarity (sel e.sol k) g.s = Except.ok (simf (sel e.sol k).p g.s.p q.n) := by
    intro k hk
    have h7 := p7 k hk
    rw [qs_similarity_eq h7.1.1 (by rw [h7.2, hs.1, hn]), h7.2]
  obtain ⟨r, e1, h1, h2, h3⟩ := for_loop_tot (b := fun i (st : Nat × Nat × Nat) => do
      let m ← rd e.sol i
      if m.cost ≥ g.s.cost then do
        let sim ← qs_similarity m g.s
        let st := if st.1 > sim then (sim, i, st.2.2) else st
        if st.1 = sim then do
          let c ← cmod (E.genrandint st.2.2) 2
          pure (if c = 0 then (st.1, i, st.2.2 + 1) else (st.1, st.2.1, st.2.2 + 1))
        else pure st
      else pure st)
    (fun i st => st.2.1 < e.size ∧
      (∀ k, k < i → (sel e.sol k).cost ≥ g.s.cost → st.1 ≤ simf (sel e.sol k).p g.s.p q.n) ∧
      (st.1 ≤ q.n → simf (sel e.sol st.2.1).p g.s.p q.n = st.1)) e.size 0 (g.s.n + 1, 0, g.rc)
    ⟨by show 0 < e.size; omega, fun k hk => absurd hk (Nat.not_lt_zero _), fun h => by
      have h : g.s.n + 1 ≤ q.n := h
      omega⟩
    (by
      intro i st _ hi ⟨a1, a2, a3⟩
      dsimp only
      rw [rd_eq (by omega), ok_bind]
      by_cases c : (sel e.sol i).cost ≥ g.s.cost
      swap
      · rw [if_neg c]
        exact ⟨_, rfl, a1, fun k hk hc => by
          by_cases d : k = i
          · subst d; exact absurd hc c
          · exact a2 k (by omega) hc, a3⟩
      rw [if_pos c, hsim i (by omega), ok_bind]
      have hle := simf_le (sel e.sol i).p g.s.p q.n
      by_cases d : st.1 > simf (sel e.sol i).p g.s.p q.n
      · simp only [if_pos d, if_true]
        rw [cmod_eq (by decide), ok_bind]
        have key : ∀ k, k < i + 1 → (sel e.sol k).cost ≥ g.s.cost →
            simf (sel e.sol i).p g.s.p q.n ≤ simf (sel e.sol k).p g.s.p q.n := by
          intro k hk hc
          by_cases d2 : k = i
          · subst d2; exact le_refl _
          · exact le_trans (le_of_lt d) (a2 k (by omega) hc)
        split_ifs
        · exact ⟨_, rfl, by show i < e.size; omega, key, fun _ => rfl⟩
        · exact ⟨_, rfl, by show i < e.size; omega, key, fun _ => rfl⟩
      · simp only [if_neg d]
        have key : ∀ k, k < i + 1 → (sel e.sol k).cost ≥ g.s.cost →
            st.1 ≤ simf (sel e.sol k).p g.s.p q.n := by
          intro k hk hc
          by_cases d2 : k = i
          · subst d2; omega
          · exact a2 k (by omega) hc
        by_cases d3 : st.1 = simf (sel e.sol i).p g.s.p q.n
        · rw [if_pos d3, cmod_eq (by decide), ok_bind]
          split_ifs
          · exact ⟨_, rfl, by show i < e.size; omega, key, fun _ => d3.symm⟩
          · exact ⟨_, rfl, a1, key, a3⟩
        · rw [if_neg d3]
          exact ⟨_, rfl, a1, key, a3⟩)
  rw [Nat.zero_add] at h2
  refine ⟨r, e1, h1, fun k hk hc hpk => ?_⟩
  have h7 := p7 k hk
  have h7r := p7 r.2.1 h1
  have z : simf (sel e.sol k).p g.s.p q.n = 0 :=
    (simf_eq_zero (by rw [h7.1.1, h7.2]) (by rw [hs.1, hn])).2 hpk
  have := h2 k hk hc
  rw [z] at this
  have r0 : r.1 = 0 := by omega
  have := h3 (by omega)
  rw [r0] at this
  exact (simf_eq_zero (by rw [h7r.1.1, h7r.2]) (by rw [hs.1, hn])).1 this

theorem pr_update_ok (E : env) {q : qap_inst} {e : elite} {g : grasp} (hP : NonNeg q)
    (hp : Pool q e) (hs : Sound q g) :
    ∃ r, pr_update E e g = Except.ok r ∧ Pool q r.1 ∧ Sound q r.2 ∧
      (Neutral q → Distinct e → Distinct r.1) ∧ r.1.size = e.size := by
  have hp0 := hp
  obtain ⟨p1, p2, p3, p4, p5, p6, p7, p8⟩ := hp
  have sx := hs.2.2.2
  unfold pr_update
  by_cases c : e.cur_size ≠ e.size
  · rw [if_pos c]
    exact ⟨_, rfl, hp0, hs, fun _ h => h, rfl⟩
  rw [if_neg c]
  have hf : e.cur_size = e.size := by omega
  rw [rd_eq (by omega), ok_bind]
  dsimp only
  have hadm : ∃ a, (if decide (g.s.cost < (sel e.sol e.best).cost) = true then
        (pure true : Except Err Bool)
      else do
        let w ← rd e.sol e.worst
        if g.s.cost < w.cost then do
          let within ← pr_sol_in_e e g.s
          pure (!within)
        else pure false) = Except.ok a := by
    split_ifs
    · exact ⟨_, rfl⟩
    · rw [rd_eq (by omega), ok_bind]
      split_ifs
      · obtain ⟨b, eb⟩ := pr_sol_in_e_ok hp0 sx.1.shaped sx.2.1
        rw [eb, ok_bind]
        exact ⟨_, rfl⟩
      · exact ⟨_, rfl⟩
  obtain ⟨a, ea⟩ := hadm
  rw [ea, ok_bind]
  by_cases ca : a = true
  · rw [if_pos ca]
    obtain ⟨⟨d, pos, rc⟩, e1, h1, h2⟩ := pr_update_position_ok E hp0 sx.1.shaped sx.2.1
    dsimp only at h1 h2
    have h7 := p7 pos h1
    rw [e1, ok_bind]
    dsimp only
    rw [rd_eq (by omega), ok_bind, qs_copy_eq h7.1 sx.1.shaped (by rw [h7.2, sx.2.1]), ok_bind,
      wr_eq (by omega), ok_bind]
    rw [rd_eq (by simp; omega), ok_bind]
    simp only [apply_ite elite.sol, apply_ite elite.worst, apply_ite elite.best,
      apply_ite elite.size, apply_ite elite.cur_size, apply_ite elite.diff, ite_self]
    rw [rd_eq (by simp; omega), ok_bind]
    have hs2 : Sound q { g with rc := rc } :=
      sound_upd hs ⟨rfl, rfl, rfl, rfl, rfl, rfl, rfl, rfl⟩ hs.2.2.1 sx
    have hdist : Neutral q → Distinct e →
        ∀ k, k < e.cur_size → k ≠ pos → (sel e.sol k).p ≠ g.s.p := by
      intro hN hd k hk hne hpk
      have ek := p8 k hk
      have hc : (sel e.sol k).cost ≥ g.s.cost := by
        rw [ek.2.2.2.1 hN, sx.2.2.2.1 hN, hpk]
      have := h2 k (by omega) hc hpk
      exact hne (hd k pos hk (by omega) (hpk.trans this.symm))
    split_ifs <;>
      first
      | exact ⟨_, rfl, pool_set hp0 h1 sx h1 h1 (by omega) (fun k a b => by omega), hs2,
          fun hN hd => distinct_set hd (by omega) (fun k a b => by omega) (hdist hN hd), rfl⟩
      | exact ⟨_, rfl, pool_set hp0 h1 sx h1 p6 (by omega) (fun k a b => by omega), hs2,
          fun hN hd => distinct_set hd (by omega) (fun k a b => by omega) (hdist hN hd), rfl⟩
      | exact ⟨_, rfl, pool_set hp0 h1 sx p5 h1 (by omega) (fun k a b => by omega), hs2,
          fun hN hd => distinct_set hd (by omega) (fun k a b => by omega) (hdist hN hd), rfl⟩
      | exact ⟨_, rfl, pool_set hp0 h1 sx p5 p6 (by omega) (fun k a b => by omega), hs2,
          fun hN hd => distinct_set hd (by omega) (fun k a b => by omega) (hdist hN hd), rfl⟩
  · rw [if_neg ca]
    by_cases cm : g.curr_iter - g.last_improv_iter ≥ MAX_ITER_NO_IMPROV
    · rw [if_pos cm]
      have hn : 1 ≤ q.n := by have := hs.2.1.2.1; rw [hs.1] at this; omega
      obtain ⟨e', e1, h1, h2, h3⟩ := mark_half_ok E hP hp0 hf hs.1 hn
      rw [e1, ok_bind]
      exact ⟨_, rfl, h1, sound_upd hs ⟨rfl, rfl, rfl, rfl, rfl, rfl, rfl, rfl⟩ hs.2.2.1 sx,
        fun _ => h2, h3⟩
    · rw [if_neg cm]
      exact ⟨_, rfl, hp0, hs, fun _ h => h, rfl⟩

theorem call_pr_spec (E : env) {T : Prop} {q : qap_inst} {s1 s2 : qap_sol} {e : elite}
    {g : grasp} (hP : NonNeg q) (hp : Pool q e) (hs : Sound q g)
    (h1 : Tracked q s1) (h2 : Tracked q s2) :
    Spec T (fun fuel => call_pr E fuel s1 s2 e g)
      (fun r => Pool q r.1 ∧ Sound q r.2 ∧ r.1.size = e.size) := by
  unfold call_pr
  refine spec_bind (execute_pr_spec E hP hs h1 (fun x hx => by cases hx; exact h2)) ?_
  rintro ⟨x, g1⟩ hg
  dsimp only at hg ⊢
  by_cases c : e.cur_size < e.size
  · simp only [if_pos c]
    obtain ⟨b, w, hb, hw, e1⟩ := pr_insert_sol_ok hp c hg.2.2.2
    rw [e1]
    simp only [ok_bind]
    exact spec_pure ⟨pool_set hp c hg.2.2.2 hb hw (by omega) (fun k a b => by omega), hg, rfl⟩
  · simp only [if_neg c]
    obtain ⟨⟨e', g2⟩, e1, a1, a2, _, a4⟩ := pr_update_ok E hP hp hg
    rw [e1]
    simp only [ok_bind]
    obtain ⟨g3, e3, a3, _⟩ := update_sound a2
    rw [e3]
    simp only [ok_bind]
    exact spec_pure ⟨a1, a3, a4⟩

/-! ## `pr_post_optimization` -/

theorem pr_copy_ok {q : qap_inst} {ecp e : elite} (hp : Pool q e)
    (hc : Slots q e.size ecp.sol) (hx : e.cur_size = e.size ∨ AllTracked q e.size ecp.sol) :
    ∃ sol, pr_copy ecp e = Except.ok ⟨e.size, e.cur_size, e.worst, e.best, sol, ecp.diff⟩ ∧
      AllTracked q e.size sol := by
  obtain ⟨p1, p2, p3, p4, p5, p6, p7, p8⟩ := hp
  unfold pr_copy
  obtain ⟨sol, e1, h1, h2, h3⟩ := for_loop_tot (b := fun i (sol : List qap_sol) => do
      let dst ← rd sol i
      let src ← rd e.sol i
      let c ← qs_copy dst src
      wr sol i c)
    (fun i sol => sol.length = e.size ∧ (∀ k, k < i → sel sol k = sel e.sol k) ∧
      (∀ k, i ≤ k → sel sol k = sel ecp.sol k)) e.cur_size 0 ecp.sol
    ⟨hc.1, fun k hk => absurd hk (Nat.not_lt_zero _), fun k _ => rfl⟩
    (by
      intro i sol _ hi ⟨a1, a2, a3⟩
      have h7 := p7 i (by omega)
      have hd := hc.2 i (by omega)
      dsimp only
      rw [rd_eq (by omega), ok_bind, rd_eq (by omega), ok_bind, a3 i (le_refl _),
        qs_copy_eq hd.1 h7.1 (by rw [hd.2, h7.2]), ok_bind, wr_eq (by omega)]
      refine ⟨_, rfl, by simp [a1], fun k hk => ?_, fun k hk => ?_⟩
      · by_cases c : k = i
        · subst c; rw [sel_set_eq _ _ _ (by omega)]
        · rw [sel_set_ne _ _ _ _ c]; exact a2 k (by omega)
      · rw [sel_set_ne _ _ _ _ (by omega)]; exact a3 k (by omega))
  rw [Nat.zero_add] at h2 h3
  rw [e1, ok_bind]
  refine ⟨sol, rfl, h1, fun i hi => ?_⟩
  by_cases c : i < e.cur_size
  · rw [h2 i c]; exact p8 i c
  · rw [h3 i (by omega)]
    rcases hx with hx | hx
    · omega
    · exact hx.2 i hi

theorem post_sweep_spec (E : env) {T : Prop} {q : qap_inst} {ecp e : elite} {g : grasp}
    (hP : NonNeg q) (hp : Pool q e) (hs : Sound q g)
    (hx : AllTracked q e.size ecp.sol) :
    Spec T (fun fuel => post_sweep E fuel ecp e g)
      (fun r => Pool q r.1 ∧ Sound q r.2 ∧ r.1.size = e.size) := by
  unfold post_sweep
  have := spec_for (T := T) (b := fun fuel i st => for_loop (fun j (st : elite × grasp) =>
      if i = j then pure st
      else do
        let a ← rd ecp.sol i
        let b ← rd ecp.sol j
        let st ← call_pr E fuel a b st.1 st.2
        let b ← rd ecp.sol j
        let a ← rd ecp.sol i
        call_pr E fuel b a st.1 st.2) 0 e.size st)
    (fun _ (r : elite × grasp) => Pool q r.1 ∧ Sound q r.2 ∧ r.1.size = e.size) e.size 0 (e, g)
    ⟨hp, hs, rfl⟩
    (fun i st _ hi hI => by
      have := spec_for (T := T) (b := fun fuel j (st : elite × grasp) =>
          if i = j then pure st
          else do
            let a ← rd ecp.sol i
            let b ← rd ecp.sol j
            let st ← call_pr E fuel a b st.1 st.2
            let b ← rd ecp.sol j
            let a ← rd ecp.sol i
            call_pr E fuel b a st.1 st.2)
        (fun _ (r : elite × grasp) => Pool q r.1 ∧ Sound q r.2 ∧ r.1.size = e.size) e.size 0 st hI
        (fun j st2 _ hj hI2 => by
          dsimp only
          by_cases c : i = j
          · simp only [if_pos c]; exact spec_pure hI2
          · simp only [if_neg c]
            rw [rd_eq (by rw [hx.1]; omega), rd_eq (by rw [hx.1]; omega)]
            simp only [ok_bind]
            refine spec_bind (call_pr_spec E hP hI2.1 hI2.2.1 (hx.2 i (by omega))
              (hx.2 j (by omega))) (fun st3 hI3 => ?_)
            refine spec_mono (call_pr_spec E hP hI3.1 hI3.2.1 (hx.2 j (by omega))
              (hx.2 i (by omega))) (fun r hr => ⟨hr.1, hr.2.1, ?_⟩)
            rw [hr.2.2, hI3.2.2, hI2.2.2])
      exact this)
  exact this

theorem pool_emptied {q : qap_inst} {e : elite} (hp : Pool q e) :
    Pool q { e with cur_size := 0 } := by
  obtain ⟨p1, p2, p3, p4, p5, p6, p7, p8⟩ := hp
  exact ⟨p1, p2, p3, Nat.zero_le _, p5, p6, p7, fun i hi => absurd hi (Nat.not_lt_zero _)⟩

theorem AllTracked.slots {q : qap_inst} {size : Nat} {sol : List qap_sol}
    (h : AllTracked q size sol) : Slots q size sol :=
  ⟨h.1, fun i hi => ⟨(h.2 i hi).1.shaped, (h.2 i hi).2.1⟩⟩

theorem post_round (E : env) {T : Prop} {q : qap_inst} {ecp e : elite} {g : grasp}
    (hP : NonNeg q) (hp : Pool q e) (hs : Sound q g)
    (hc : Slots q e.size ecp.sol) (hx : e.cur_size = e.size ∨ AllTracked q e.size ecp.sol) :
    ∃ ecp', AllTracked q e.size ecp'.sol ∧
      Spec T (fun fuel => post_sweep E fuel ecp' { e with cur_size := 0 } g)
        (fun r => Pool q r.1 ∧ Sound q r.2 ∧ r.1.size = e.size) ∧
      ∀ fuel k, post_loop E fuel (k + 1) ecp e g =
        (post_sweep E fuel ecp' { e with cur_size := 0 } g >>= fun r =>
          if r.2.best.cost < g.best.cost then post_loop E fuel k ecp' r.1 r.2
          else pure (ecp', r.1, r.2)) := by
  obtain ⟨sol, e1, h1⟩ := pr_copy_ok hp hc hx
  refine ⟨⟨e.size, e.cur_size, e.worst, e.best, sol, ecp.diff⟩, h1,
    post_sweep_spec E hP (pool_emptied hp) hs h1, fun fuel k => ?_⟩
  rw [post_loop, e1, ok_bind]

theorem post_loop_good (E : env) {T : Prop} {q : qap_inst} (hP : NonNeg q)
    (fuel : Nat) : ∀ (k : Nat) (ecp e : elite) (g : grasp), Pool q e → Sound q g →
    Slots q e.size ecp.sol → (e.cur_size = e.size ∨ AllTracked q e.size ecp.sol) →
    Good (post_loop E fuel k ecp e g) (fun r => Sound q r.2.2) := by
  intro k
  induction k with
  | zero => intro ecp e g _ _ _ _; exact good_fuel
  | succ k ih =>
    intro ecp e g hp hs hc hx
    obtain ⟨ecp', h1, h2, h3⟩ := post_round E (T := T) hP hp hs hc hx
    rw [h3]
    refine good_bind (h2.1 fuel) (fun r hr => ?_)
    dsimp only
    by_cases c : r.2.best.cost < g.best.cost
    · rw [if_pos c]
      have hsz := hr.2.2
      exact ih ecp' r.1 r.2 hr.1 hr.2.1 (by rw [hsz]; exact h1.slots)
        (Or.inr (by rw [hsz]; exact h1))
    · rw [if_neg c]
      exact good_pure hr.2.1

theorem post_loop_term (E : env) {T : Prop} {q : qap_inst} (hP : NonNeg q)
    (t : T) : ∀ (m : Nat) (ecp e : elite) (g : grasp), Pool q e → Sound q g →
    Slots q e.size ecp.sol → (e.cur_size = e.size ∨ AllTracked q e.size ecp.sol) →
    g.best.cost.toNat ≤ m →
    ∃ N a, ∀ fuel k, N ≤ fuel → N ≤ k → post_loop E fuel k ecp e g = Except.ok a := by
  intro m
  induction m using Nat.strong_induction_on with
  | _ m ih =>
    intro ecp e g hp hs hc hx hm
    obtain ⟨ecp', h1, h2, h3⟩ := post_round E (T := T) hP hp hs hc hx
    obtain ⟨N1, r, hr, hN1⟩ := h2.tot t
    by_cases c : r.2.best.cost < g.best.cost
    · have hsz := hr.2.2
      have n1 := Tracked.nonneg hP hr.2.1.2.2.1
      obtain ⟨N2, a, hN2⟩ := ih (r.2.best.cost.toNat) (by omega) ecp' r.1 r.2 hr.1 hr.2.1
        (by rw [hsz]; exact h1.slots) (Or.inr (by rw [hsz]; exact h1)) (le_refl _)
      refine ⟨max N1 (N2 + 1), a, fun fuel k hf hk => ?_⟩
      obtain ⟨k', rfl⟩ : ∃ k', k = k' + 1 := ⟨k - 1, by omega⟩
      rw [h3, hN1 fuel (by omega), ok_bind, if_pos c]
      exact hN2 fuel k' (by omega) (by omega)
    · refine ⟨max N1 1, (ecp', r.1, r.2), fun fuel k hf hk => ?_⟩
      obtain ⟨k', rfl⟩ : ∃ k', k = k' + 1 := ⟨k - 1, by omega⟩
      rw [h3, hN1 fuel (by omega), ok_bind, if_neg c]
      rfl

theorem post_loop_spec (E : env) {T : Prop} {q : qap_inst} {ecp e : elite} {g : grasp}
    (hP : NonNeg q) (hp : Pool q e) (hs : Sound q g)
    (hc : Slots q e.size ecp.sol) (hx : e.cur_size = e.size ∨ AllTracked q e.size ecp.sol) :
    Spec T (fun fuel => post_loop E fuel fuel ecp e g) (fun r => Sound q r.2.2) := by
  refine ⟨fun fuel => post_loop_good E (T := T) hP fuel fuel ecp e g hp hs hc hx, fun t => ?_⟩
  obtain ⟨N, a, h⟩ := post_loop_term E hP t _ ecp e g hp hs hc hx (le_refl _)
  exact ⟨N, a, fun fuel hf => h fuel fuel hf hf⟩

theorem sel_replicate {α : Type} [Inhabited α] (k : Nat) (x : α) (i : Nat) (h : i < k) :
    sel (List.replicate k x) i = x := by
  simp [sel, h]

theorem pr_new_some (E : env) (g : grasp) (z : Int) (hz : 1 ≤ z) (hn : 1 ≤ g.q.n) :
    pr_new E g z = some ⟨z.toNat, 0, 0, 0,
      List.replicate z.toNat ⟨g.q.n, List.range g.q.n, List.range g.q.n, E.junk⟩,
      List.replicate z.toNat 0⟩ := by
  unfold pr_new
  rw [if_neg (by omega), if_neg (by omega), qs_new_nat E _ hn]

theorem pr_post_optimization_spec (E : env) {T : Prop} {q : qap_inst} {e : elite} {g : grasp}
    (hP : NonNeg q) (hp : Pool q e) (hr : Ready q g)
    (hs : e.cur_size = e.size → Sound q g) :
    Spec T (fun fuel => pr_post_optimization E fuel e g)
      (fun r => Ready q r.2.2 ∧ (Sound q g → Sound q r.2.2)) := by
  have hn : 1 ≤ g.q.n := by have := hr.2.1.2.1; omega
  have hsz := hp.2.2.1
  unfold pr_post_optimization
  rw [pr_new_some E g e.size (by omega) hn]
  dsimp only
  by_cases c : e.cur_size < e.size
  · simp only [if_pos c]
    exact spec_pure ⟨hr, fun h => h⟩
  · simp only [if_neg c]
    have hf : e.cur_size = e.size := by have := hp.2.2.2.1; omega
    have hs := hs hf
    have hc : Slots q e.size (List.replicate ((e.size : Int).toNat)
        (⟨g.q.n, List.range g.q.n, List.range g.q.n, E.junk⟩ : qap_sol)) := by
      rw [Int.toNat_ofNat]
      refine ⟨by simp, fun i hi => ?_⟩
      rw [sel_replicate _ _ _ hi]
      exact ⟨shaped_fresh _ _, congrArg qap_inst.n hr.1⟩
    refine spec_bind (post_loop_spec E hP hp hs hc (Or.inl hf)) ?_
    rintro ⟨x, e', g'⟩ h
    exact spec_pure ⟨⟨h.1, h.2.1, h.2.2.1, h.2.2.2.1⟩, fun _ => h⟩

/-! ## The main loop and `run_grasp_pr` -/

theorem ready_upd {q : qap_inst} {g g' : grasp} (h : Ready q g) (hs : SameBuf g g')
    (hb : g'.best = g.best) (he : g'.s = g.s) : Ready q g' := by
  obtain ⟨a1, a2, a3, a4⟩ := h
  refine ⟨hs.1.trans a1, buffers_same a2 hs (by rw [he]; exact a2.2.2.1), by rw [hb]; exact a3,
    by rw [he]; exact a4⟩

theorem Sound.ready {q : qap_inst} {g : grasp} (h : Sound q g) : Ready q g :=
  ⟨h.1, h.2.1, h.2.2.1, h.2.2.2.1⟩

theorem constructor_sound (E : env) {q : qap_inst} {g : grasp} (hP : NonNeg q)
    (h : Ready q g) : ∃ g', constructor E g = Except.ok g' ∧ Sound q g' := by
  obtain ⟨a1, a2, a3, a4⟩ := h
  obtain ⟨g', e1, b1, _, b3, _, b5, b6, _⟩ := constructor_ok E a2 a4
  refine ⟨g', e1, b6.1.trans a1, b1, by rw [b6.2.1]; exact a3, ?_⟩
  have hp : IsPerm g'.s.p q.n := by
    have := b3.isPerm
    rwa [b1.2.2.1, b6.1, a1] at this
  have ob := abs_le.1 (objective_bound q g'.s.p hp.2.1)
  have hF := a3.fits
  unfold Fits at hF
  refine tracked_of_objective hP a3.fits b3 (by rw [b1.2.2.1, b6.1, a1]) ?_
  rw [b5, a1, wrap_id (by linarith [ob.1]) (by linarith [ob.2])]

theorem timed_out_ready (E : env) {q : qap_inst} {g : grasp} (hr : Ready q g) :
    Ready q (timed_out E g).2 ∧ (Sound q g → Sound q (timed_out E g).2) ∧
      (timed_out E g).2.best = g.best ∧ (g.max_time ≤ 0 → (timed_out E g).1 = false) := by
  unfold timed_out
  split_ifs with c
  · exact ⟨ready_upd hr ⟨rfl, rfl, rfl, rfl, rfl, rfl, rfl, rfl⟩ rfl rfl,
      fun h => sound_upd h ⟨rfl, rfl, rfl, rfl, rfl, rfl, rfl, rfl⟩ h.2.2.1 h.2.2.2, rfl,
      fun h => by omega⟩
  · exact ⟨hr, fun h => h, rfl, fun _ => rfl⟩

theorem main_loop_spec (E : env) {q : qap_inst} (hP : NonNeg q) (hN : Neutral q) :
    ∀ (count : Nat) (e : elite) (g : grasp), Pool q e → Distinct e → Ready q g →
    (Sound q g ∨ e.cur_size < e.size) →
    Spec (Fair E q.n) (fun fuel => main_loop E fuel count e g)
      (fun r => Pool q r.1 ∧ Ready q r.2 ∧ (Sound q r.2 ∨ r.1.cur_size < r.1.size) ∧
        (Sound q g → Sound q r.2) ∧
        (0 < count → ¬ (g.l4 ≥ 0 ∧ g.l4 < g.best.cost) → g.max_time ≤ 0 → Sound q r.2)) := by
  intro count
  induction count with
  | zero =>
    intro e g hp _ hr hs
    unfold main_loop
    exact spec_pure ⟨hp, hr, hs, fun h => h, fun h => absurd h (lt_irrefl _)⟩
  | succ k ih =>
    intro e g hp hd hr hs
    unfold main_loop
    have hr1 : Ready q { g with curr_iter := g.curr_iter + 1 } :=
      ready_upd hr ⟨rfl, rfl, rfl, rfl, rfl, rfl, rfl, rfl⟩ rfl rfl
    have hs1 : Sound q g → Sound q { g with curr_iter := g.curr_iter + 1 } :=
      fun h => sound_upd h ⟨rfl, rfl, rfl, rfl, rfl, rfl, rfl, rfl⟩ h.2.2.1 h.2.2.2
    dsimp only
    by_cases c : g.l4 ≥ 0 ∧ g.l4 < g.best.cost
    · simp only [if_pos c]
      exact spec_pure ⟨hp, hr1, hs.imp hs1 id, hs1, fun _ h => absurd c h⟩
    simp only [if_neg c]
    obtain ⟨t1, t2, t3, t4⟩ := timed_out_ready E hr1
    rcases ht : timed_out E { g with curr_iter := g.curr_iter + 1 } with ⟨t, g2⟩
    rw [ht] at t1 t2 t3 t4
    dsimp only at t1 t2 t3 t4 ⊢
    by_cases c2 : t = true
    · simp only [if_pos c2]
      refine spec_pure ⟨hp, t1, hs.imp (fun h => t2 (hs1 h)) id, fun h => t2 (hs1 h),
        fun _ _ h => ?_⟩
      have := t4 h
      rw [this] at c2
      cases c2
    simp only [if_neg c2]
    obtain ⟨g3, e3, h3⟩ := constructor_sound E hP t1
    rw [e3]
    simp only [ok_bind]
    refine spec_bind (extra_ls_spec E hP h3) (fun g4 h4 => ?_)
    refine spec_bind (pr_run_spec E hP hp hd h4) ?_
    rintro ⟨e5, g5⟩ ⟨p5, d5, h5⟩
    refine spec_bind (pr_rev_run_spec E hP p5 d5 h5) ?_
    rintro ⟨e6, g6⟩ ⟨p6, d6, h6⟩
    obtain ⟨⟨e7, g7⟩, e7', p7, h7, d7, _⟩ := pr_update_ok E hP p6 h6
    dsimp only
    rw [e7']
    simp only [ok_bind]
    obtain ⟨g8, e8, h8, _⟩ := update_sound h7
    rw [e8]
    simp only [ok_bind]
    refine spec_mono (ih e7 g8 p7 (d7 hN d6) h8.ready (Or.inl h8)) (fun r hr => ?_)
    exact ⟨hr.1, hr.2.1, hr.2.2.1, fun _ => hr.2.2.2.1 h8, fun _ _ _ => hr.2.2.2.1 h8⟩

theorem objective_range (q : qap_inst) :
    objective q (List.range q.n) = ∑ i in range q.n, ∑ j in range q.n, Dv q i j * Fv q i j := by
  unfold objective objf
  refine Finset.sum_congr rfl (fun i hi => Finset.sum_congr rfl (fun j hj => ?_))
  have hi := Finset.mem_range.1 hi
  have hj := Finset.mem_range.1 hj
  simp [sel, List.getElem?_range hi, List.getElem?_range hj]

theorem run_grasp_pr_spec (E : env) {q : qap_inst} {g : grasp} (max_itr : Int) (hP : NonNeg q)
    (hN : Neutral q) (hF : Fits q) (hq : g.q = q) (hb : Buffers g) (hvs : Valid g.s)
    (hvb : Valid g.best) (hbn : g.best.n = q.n) (he : 2 ≤ g.elite_size) :
    Spec (Fair E q.n) (fun fuel => run_grasp_pr E fuel g max_itr)
      (fun r => r.1 = r.2.best.cost ∧ Valid r.2.best ∧ r.2.best.n = q.n ∧
        (0 < max_itr → ¬ (g.l4 ≥ 0 ∧ g.l4 < objective q g.best.p) → g.max_time ≤ 0 →
          r.1 = objective q r.2.best.p)) := by
  subst hq
  have hn : 1 ≤ g.q.n := by have := hb.2.1; omega
  unfold run_grasp_pr
  rw [pr_new_some E g g.elite_size (by omega) hn]
  dsimp only
  have hperm : IsPerm g.best.p g.q.n := by rw [← hbn]; exact hvb.isPerm
  rw [qs_objective_eq hb.1 hperm hF]
  simp only [ok_bind]
  have hr0 : Ready g.q { g with curr_iter := 0, best := { g.best with cost := objective g.q g.best.p } } :=
    ⟨rfl, buffers_same hb ⟨rfl, rfl, rfl, rfl, rfl, rfl, rfl, rfl⟩ hb.2.2.1,
      tracked_of_objective hP hF hvb hbn rfl, hvs⟩
  have hsz : 2 ≤ g.elite_size.toNat := by omega
  have hp0 : Pool g.q ⟨g.elite_size.toNat, 0, 0, 0,
      List.replicate g.elite_size.toNat ⟨g.q.n, List.range g.q.n, List.range g.q.n, E.junk⟩,
      List.replicate g.elite_size.toNat 0⟩ :=
    ⟨by simp, by simp, hsz, Nat.zero_le _, by show 0 < g.elite_size.toNat; omega,
      by show 0 < g.elite_size.toNat; omega,
      fun i hi => by
        have hi : i < g.elite_size.toNat := hi
        show Shaped (sel (List.replicate g.elite_size.toNat
            (⟨g.q.n, List.range g.q.n, List.range g.q.n, E.junk⟩ : qap_sol)) i) ∧
          (sel (List.replicate g.elite_size.toNat
            (⟨g.q.n, List.range g.q.n, List.range g.q.n, E.junk⟩ : qap_sol)) i).n = g.q.n
        rw [sel_replicate _ _ _ hi]
        exact ⟨shaped_fresh _ _, rfl⟩,
      fun i hi => absurd hi (Nat.not_lt_zero _)⟩
  have hd0 : Distinct ⟨g.elite_size.toNat, 0, 0, 0,
      List.replicate g.elite_size.toNat ⟨g.q.n, List.range g.q.n, List.range g.q.n, E.junk⟩,
      List.replicate g.elite_size.toNat 0⟩ :=
    fun i j hi _ _ => absurd hi (Nat.not_lt_zero _)
  refine spec_bind (main_loop_spec E hP hN max_itr.toNat _ _ hp0 hd0 hr0
    (Or.inr (by show 0 < g.elite_size.toNat; omega))) ?_
  rintro ⟨e1, g1⟩ ⟨p1, r1, s1, _, x1⟩
  dsimp only at p1 r1 s1 x1 ⊢
  refine spec_bind (pr_post_optimization_spec E hP p1 r1 (fun hf => ?_)) ?_
  · rcases s1 with s1 | s1
    · exact s1
    · omega
  rintro ⟨y, e2, g2⟩ ⟨r2, s2⟩
  dsimp only at r2 s2 ⊢
  rw [update_eq r2.2.2.2.shaped r2.2.2.1.1.shaped (by rw [r2.2.2.1.2.1, r2.2.1.2.2.1, r2.1])]
  simp only [ok_bind]
  refine spec_pure ⟨rfl, ?_, ?_, fun h1 h2 h3 => ?_⟩
  · show Valid (if _ then _ else _ : grasp).best
    split_ifs
    · exact r2.2.2.2
    · exact r2.2.2.1.1
  · show (if _ then _ else _ : grasp).best.n = g.q.n
    split_ifs
    · show g2.s.n = g.q.n
      rw [r2.2.1.2.2.1, r2.1]
    · exact r2.2.2.1.2.1
  · have hs1 : Sound g.q g1 := x1 (by omega) h2 h3
    have hs2 := s2 hs1
    show (if _ then _ else _ : grasp).best.cost = objective g.q (if _ then _ else _ : grasp).best.p
    split_ifs
    · exact hs2.2.2.2.2.2.2.1 hN
    · exact hs2.2.2.1.2.2.2.1 hN

/-! ## The whole run -/

theorem run_op_best {E : env} {op : engine_op} {st st' : elite × grasp}
    (h : run_op E op st = Except.ok st') : st'.2.best.cost ≤ st.2.best.cost := by
  cases op with
  | construct =>
    refine par_bind h (fun g hg h => ?_)
    rw [← pure_inj h]; exact le_of_best_eq (constructor_best hg)
  | search fuel =>
    refine par_bind h (fun g hg h => ?_)
    rw [← pure_inj h]; exact le_of_best_eq (local_search_best _ _ _ hg)
  | improve =>
    refine par_bind h (fun g hg h => ?_)
    rw [← pure_inj h]; exact update_best hg
  | step fuel =>
    refine par_bind h (fun g hg h => ?_)
    rw [← pure_inj h]; exact le_of_best_eq (ls_step_best hg)
  | pr_search fuel =>
    refine par_bind h (fun g hg h => ?_)
    rw [← pure_inj h]; exact le_of_best_eq (pr_local_search_best hg)
  | extra fuel =>
    refine par_bind h (fun g hg h => ?_)
    rw [← pure_inj h]; exact extra_ls_best hg
  | relink fuel s1 s2 =>
    refine par_bind h (fun r hr h => ?_)
    rw [← pure_inj h]; exact le_of_eq (congrArg qap_sol.cost (execute_pr_best hr))
  | run fuel => exact le_of_eq (congrArg qap_sol.cost (pr_run_best h))
  | rev_run fuel => exact le_of_eq (congrArg qap_sol.cost (pr_rev_run_best h))
  | pool_update => exact le_of_eq (congrArg qap_sol.cost (pr_update_best h))
  | call fuel s1 s2 => exact call_pr_best h
  | post fuel =>
    refine par_bind h (fun r hr h => ?_)
    rw [← pure_inj h]; exact pr_post_optimization_best hr

theorem run_ops_best {E : env} : ∀ (ops : List engine_op) (st st' : elite × grasp),
    run_ops E ops st = Except.ok st' → st'.2.best.cost ≤ st.2.best.cost := by
  intro ops
  induction ops with
  | nil => intro st st' h; rw [← pure_inj h]
  | cons op ops ih =>
    intro st st' h
    refine par_bind h (fun st1 h1 h => ?_)
    exact le_trans (ih _ _ h) (run_op_best h1)

theorem isPerm_range (n : Nat) : IsPerm (List.range n) n := by
  have sr : ∀ i, i < n → sel (List.range n) i = i := by
    intro i hi
    simp [sel, List.getElem?_range hi]
  refine ⟨by simp, fun i hi => by rw [sr i hi]; exact hi, fun i hi j hj e => ?_⟩
  rwa [sr i hi, sr j hj] at e

theorem run_grasp_pr_le {E : env} {fuel : Nat} {g : grasp} {max_itr : Int} {r : Int × grasp}
    (h : run_grasp_pr E fuel g max_itr = Except.ok r) (he : 1 ≤ g.elite_size) (hn : 1 ≤ g.q.n)
    (hq : WF g.q) (hp : IsPerm g.best.p g.q.n) : r.1 ≤ wrap (objective g.q g.best.p) := by
  unfold run_grasp_pr at h
  rw [pr_new_some E g g.elite_size he hn] at h
  dsimp only at h
  rw [qs_objective_wrap hq hp] at h
  simp only [ok_bind] at h
  refine par_bind h (fun x hx h => ?_)
  have e1 := main_loop_best _ _ _ _ hx
  obtain ⟨e1', g1⟩ := x
  dsimp only at h e1
  refine par_bind h (fun y hy h => ?_)
  have e2 := pr_post_optimization_best hy
  obtain ⟨y1, e2', g2⟩ := y
  dsimp only at h e2
  refine par_bind h (fun g3 h3 h => ?_)
  have e3 := update_best h3
  rw [← pure_inj h]
  exact le_trans e3 (le_trans e2 e1)

theorem fair_env_id (n : Nat) (hn : 2 ≤ n) : Fair env_id n := by
  intro c p
  by_cases h : c % n = p
  · refine ⟨1, ?_⟩
    show (c + 1) % n ≠ p
    intro h2
    rw [← h] at h2
    have h3 : (c + 1) % n = (c % n + 1) % n := by rw [Nat.add_mod, Nat.mod_eq_of_lt (by omega : 1 < n)]
    rw [h3] at h2
    have hlt := Nat.mod_lt c (by omega : 0 < n)
    by_cases h4 : c % n + 1 < n
    · rw [Nat.mod_eq_of_lt h4] at h2; omega
    · have : c % n + 1 = n := by omega
      rw [this, Nat.mod_self] at h2
      omega
  · exact ⟨0, h⟩

theorem fits_inst3 : Fits inst3 := by
  refine fits_of_cells inst3 6 6 (fun a b ha hb => ?_) (fun a b ha hb => ?_) (by decide)
  · have ha : a < 3 := ha
    have hb : b < 3 := hb
    interval_cases a <;> interval_cases b <;> simp [Dv, sel, inst3]
  · have ha : a < 3 := ha
    have hb : b < 3 := hb
    interval_cases a <;> interval_cases b <;> simp [Fv, sel, inst3]

theorem nonneg_inst3 : NonNeg inst3 := by
  intro i j hi hj
  have hi : i < 3 := hi
  have hj : j < 3 := hj
  interval_cases i <;> interval_cases j <;> simp [Fv, Dv, sel, inst3]

theorem neutral_inst3 : Neutral inst3 := by
  refine Or.inr (fun i j hi hj => ?_)
  have hi : i < 3 := hi
  have hj : j < 3 := hj
  interval_cases i <;> interval_cases j <;> rfl

theorem simf_comm (a b : List Nat) (n : Nat) : simf a b n = simf b a n := by
  unfold simf
  refine Finset.sum_congr rfl (fun k _ => ?_)
  by_cases h : sel a k = sel b k
  · simp [h]
  · have h2 : ¬ sel b k = sel a k := fun x => h x.symm
    simp [h, h2]

theorem simf_self (a : List Nat) (n : Nat) : simf a a n = 0 := by
  unfold simf
  simp

theorem simf_card (a b : List Nat) (n : Nat) :
    simf a b n = ((range n).filter (fun i => sel a i ≠ sel b i)).card := by
  unfold simf
  rw [Finset.card_filter]

theorem simf_pos {a b : List Nat} {n : Nat} :
    0 < simf a b n ↔ ∃ i, i < n ∧ sel a i ≠ sel b i := by
  rw [simf_card, Finset.card_pos]
  constructor
  · rintro ⟨i, hi⟩
    rw [Finset.mem_filter, Finset.mem_range] at hi
    exact ⟨i, hi⟩
  · rintro ⟨i, hi⟩
    exact ⟨i, by rw [Finset.mem_filter, Finset.mem_range]; exact hi⟩

theorem Pool.shape {q : qap_inst} {e : elite} (hp : Pool q e) : Shape q.n e :=
  ⟨hp.1, hp.2.2.2.1, hp.2.2.2.2.1, hp.2.2.2.2.2.1, hp.2.2.2.2.2.2.1⟩

theorem pr_sol_in_e_eq {n : Nat} {e : elite} {s : qap_sol} (hp : Shape n e)
    (hs : Shaped s) (hn : s.n = n) :
    ∃ b, pr_sol_in_e e s = Except.ok b ∧ (b = true ↔ Near e s) := by
  obtain ⟨p1, p4, p5, p6, p7⟩ := hp
  unfold pr_sol_in_e Near
  obtain ⟨b, e1, h1⟩ := for_loop_tot (b := fun i (found : Bool) =>
      if found then pure true
      else do
        let m ← rd e.sol i
        if m.cost = s.cost then pure true
        else do
          let v ← qs_similarity m s
          pure (decide (v < MIN_DIFF)))
    (fun i found => found = true ↔ ∃ k, k < i ∧
      ((sel e.sol k).cost = s.cost ∨ simf (sel e.sol k).p s.p s.n < MIN_DIFF)) e.size 0 false
    ⟨fun h => (by cases h), fun ⟨k, hk, _⟩ => absurd hk (Nat.not_lt_zero _)⟩
    (by
      intro i found _ hi hI
      have h7 := p7 i (by omega)
      dsimp only
      by_cases c : found = true
      · rw [if_pos c]
        obtain ⟨k, hk, hc⟩ := hI.1 c
        exact ⟨_, rfl, fun _ => ⟨k, by omega, hc⟩, fun _ => rfl⟩
      · have hno : ∀ k, k < i →
            ¬ ((sel e.sol k).cost = s.cost ∨ simf (sel e.sol k).p s.p s.n < MIN_DIFF) :=
          fun k hk hc => c (hI.2 ⟨k, hk, hc⟩)
        rw [if_neg c, rd_eq (by omega), ok_bind]
        by_cases d : (sel e.sol i).cost = s.cost
        · rw [if_pos d]
          exact ⟨_, rfl, fun _ => ⟨i, by omega, Or.inl d⟩, fun _ => rfl⟩
        · rw [if_neg d, qs_similarity_eq h7.1.1 (by rw [h7.2, hs.1, hn]), ok_bind, h7.2, ← hn]
          refine ⟨_, rfl, fun h => ⟨i, by omega, Or.inr (of_decide_eq_true h)⟩, ?_⟩
          rintro ⟨k, hk, hc⟩
          by_cases d2 : k = i
          · subst d2
            rcases hc with hc | hc
            · exact absurd hc d
            · exact decide_eq_true hc
          · exact absurd hc (hno k (by omega)))
  rw [Nat.zero_add] at h1
  exact ⟨b, e1, h1⟩

theorem pr_update_position_min (E : env) {n : Nat} {e : elite} {g : grasp} (hp : Shape n e)
    (hs : Shaped g.s) (hn : g.s.n = n) :
    ∃ r, pr_update_position E e g = Except.ok r ∧ r.2.1 < e.size ∧
      ((∃ k, k < e.size ∧ (sel e.sol k).cost ≥ g.s.cost) →
        (sel e.sol r.2.1).cost ≥ g.s.cost ∧
        ∀ k, k < e.size → (sel e.sol k).cost ≥ g.s.cost →
          simf (sel e.sol r.2.1).p g.s.p n ≤ simf (sel e.sol k).p g.s.p n) := by
  obtain ⟨p1, p4, p5, p6, p7⟩ := hp
  unfold pr_update_position
  have hsim : ∀ k, k < e.size →
      qs_similarity (sel e.sol k) g.s = Except.ok (simf (sel e.sol k).p g.s.p n) := by
    intro k hk
    have h7 := p7 k hk
    rw [qs_similarity_eq h7.1.1 (by rw [h7.2, hs.1, hn]), h7.2]
  obtain ⟨r, e1, h1, h2, h3⟩ := for_loop_tot (b := fun i (st : Nat × Nat × Nat) => do
      let m ← rd e.sol i
      if m.cost ≥ g.s.cost then do
        let sim ← qs_similarity m g.s
        let st := if st.1 > sim then (sim, i, st.2.2) else st
        if st.1 = sim then do
          let c ← cmod (E.genrandint st.2.2) 2
          pure (if c = 0 then (st.1, i, st.2.2 + 1) else (st.1, st.2.1, st.2.2 + 1))
        else pure st
      else pure st)
    (fun i st => st.2.1 < e.size ∧
      (∀ k, k < i → (sel e.sol k).cost ≥ g.s.cost → st.1 ≤ simf (sel e.sol k).p g.s.p n) ∧
      (st.1 ≤ n → (sel e.sol st.2.1).cost ≥ g.s.cost ∧
        simf (sel e.sol st.2.1).p g.s.p n = st.1)) e.size 0 (g.s.n + 1, 0, g.rc)
    ⟨by show 0 < e.size; omega, fun k hk => absurd hk (Nat.not_lt_zero _), fun h => by
      have h : g.s.n + 1 ≤ n := h
      omega⟩
    (by
      intro i st _ hi ⟨a1, a2, a3⟩
      dsimp only
      rw [rd_eq (by omega), ok_bind]
      by_cases c : (sel e.sol i).cost ≥ g.s.cost
      swap
      · rw [if_neg c]
        exact ⟨_, rfl, a1, fun k hk hc => by
          by_cases d : k = i
          · subst d; exact absurd hc c
          · exact a2 k (by omega) hc, a3⟩
      rw [if_pos c, hsim i (by omega), ok_bind]
      have hle := simf_le (sel e.sol i).p g.s.p n
      by_cases d : st.1 > simf (sel e.sol i).p g.s.p n
      · simp only [if_pos d, if_true]
        rw [cmod_eq (by decide), ok_bind]
        have key : ∀ k, k < i + 1 → (sel e.sol k).cost ≥ g.s.cost →
            simf (sel e.sol i).p g.s.p n ≤ simf (sel e.sol k).p g.s.p n := by
          intro k hk hc
          by_cases d2 : k = i
          · subst d2; exact le_refl _
          · exact le_trans (le_of_lt d) (a2 k (by omega) hc)
        split_ifs
        · exact ⟨_, rfl, by show i < e.size; omega, key, fun _ => ⟨c, rfl⟩⟩
        · exact ⟨_, rfl, by show i < e.size; omega, key, fun _ => ⟨c, rfl⟩⟩
      · simp only [if_neg d]
        have key : ∀ k, k < i + 1 → (sel e.sol k).cost ≥ g.s.cost →
            st.1 ≤ simf (sel e.sol k).p g.s.p n := by
          intro k hk hc
          by_cases d2 : k = i
          · subst d2; omega
          · exact a2 k (by omega) hc
        by_cases d3 : st.1 = simf (sel e.sol i).p g.s.p n
        · rw [if_pos d3, cmod_eq (by decide), ok_bind]
          split_ifs
          · exact ⟨_, rfl, by show i < e.size; omega, key, fun _ => ⟨c, d3.symm⟩⟩
          · exact ⟨_, rfl, a1, key, a3⟩
        · rw [if_neg d3]
          exact ⟨_, rfl, a1, key, a3⟩)
  rw [Nat.zero_add] at h2
  refine ⟨r, e1, h1, ?_⟩
  rintro ⟨k, hk, hc⟩
  have hk2 := h2 k hk hc
  have hle := simf_le (sel e.sol k).p g.s.p n
  obtain ⟨b1, b2⟩ := h3 (by omega)
  refine ⟨b1, fun j hj hcj => ?_⟩
  rw [b2]
  exact h2 j hj hcj

theorem admitted_candidate {e : elite} {s : qap_sol} (hb : e.best < e.size)
    (hw : e.worst < e.size) (h : Admitted e s) :
    ∃ k, k < e.size ∧ (sel e.sol k).cost ≥ s.cost := by
  rcases h with h | h
  · exact ⟨e.best, hb, le_of_lt h⟩
  · exact ⟨e.worst, hw, le_of_lt h.1⟩

theorem pr_update_admit (E : env) {n : Nat} {e : elite} {g : grasp} (hp : Shape n e)
    (hf : e.cur_size = e.size) (hs : Shaped g.s) (hn : g.s.n = n) (ha : Admitted e g.s) :
    ∃ pos rc b w, pos < e.size ∧ b < e.size ∧ w < e.size ∧
      pr_update E e g = Except.ok
        (⟨e.size, e.cur_size, w, b, e.sol.set pos g.s, e.diff⟩, { g with rc := rc }) ∧
      (sel e.sol pos).cost ≥ g.s.cost ∧
      ∀ k, k < e.size → (sel e.sol k).cost ≥ g.s.cost →
        simf (sel e.sol pos).p g.s.p n ≤ simf (sel e.sol k).p g.s.p n := by
  have hp0 := hp
  obtain ⟨p1, p4, p5, p6, p7⟩ := hp
  unfold pr_update
  rw [if_neg (by omega), rd_eq (by omega), ok_bind]
  dsimp only
  have hadm : (if decide (g.s.cost < (sel e.sol e.best).cost) = true then
        (pure true : Except Err Bool)
      else do
        let w ← rd e.sol e.worst
        if g.s.cost < w.cost then do
          let within ← pr_sol_in_e e g.s
          pure (!within)
        else pure false) = Except.ok true := by
    by_cases c : g.s.cost < (sel e.sol e.best).cost
    · rw [if_pos (decide_eq_true c)]; rfl
    · rw [if_neg (by simpa using c), rd_eq (by omega), ok_bind]
      rcases ha with ha | ha
      · exact absurd ha c
      · rw [if_pos ha.1]
        obtain ⟨b, eb, hb⟩ := pr_sol_in_e_eq hp0 hs hn
        rw [eb, ok_bind]
        have : b = false := by
          cases b
          · rfl
          · exact absurd (hb.1 rfl) ha.2
        rw [this]; rfl
  rw [hadm, ok_bind, if_pos rfl]
  obtain ⟨⟨d, pos, rc⟩, e1, h1, h2⟩ := pr_update_position_min E hp0 hs hn
  dsimp only at h1 h2
  obtain ⟨h3, h4⟩ := h2 (admitted_candidate p5 p6 ha)
  have h7 := p7 pos h1
  rw [e1, ok_bind]
  dsimp only
  rw [rd_eq (by omega), ok_bind, qs_copy_eq h7.1 hs (by rw [h7.2, hn]), ok_bind,
    wr_eq (by omega), ok_bind]
  rw [rd_eq (by simp; omega), ok_bind]
  simp only [apply_ite elite.sol, apply_ite elite.worst, apply_ite elite.best,
    apply_ite elite.size, apply_ite elite.cur_size, apply_ite elite.diff, ite_self]
  rw [rd_eq (by simp; omega), ok_bind]
  split_ifs <;>
    first
    | exact ⟨pos, rc, _, _, h1, h1, h1, rfl, h3, h4⟩
    | exact ⟨pos, rc, _, _, h1, h1, p6, rfl, h3, h4⟩
    | exact ⟨pos, rc, _, _, h1, p5, h1, rfl, h3, h4⟩
    | exact ⟨pos, rc, _, _, h1, p5, p6, rfl, h3, h4⟩

theorem pr_update_reject (E : env) {n : Nat} {e : elite} {g : grasp} (hp : Shape n e)
    (hf : e.cur_size = e.size) (hs : Shaped g.s) (hn : g.s.n = n) (ha : ¬ Admitted e g.s) :
    pr_update E e g =
      if g.curr_iter - g.last_improv_iter ≥ MAX_ITER_NO_IMPROV then
        mark_half_set_infinite E e g >>= fun r => pure (r.2.1, r.2.2)
      else pure (e, g) := by
  have hp0 := hp
  obtain ⟨p1, p4, p5, p6, p7⟩ := hp
  unfold pr_update
  rw [if_neg (by omega), rd_eq (by omega), ok_bind]
  dsimp only
  have hadm : (if decide (g.s.cost < (sel e.sol e.best).cost) = true then
        (pure true : Except Err Bool)
      else do
        let w ← rd e.sol e.worst
        if g.s.cost < w.cost then do
          let within ← pr_sol_in_e e g.s
          pure (!within)
        else pure false) = Except.ok false := by
    by_cases c : g.s.cost < (sel e.sol e.best).cost
    · exact absurd (Or.inl c) ha
    · rw [if_neg (by simpa using c), rd_eq (by omega), ok_bind]
      by_cases c2 : g.s.cost < (sel e.sol e.worst).cost
      · rw [if_pos c2]
        obtain ⟨b, eb, hb⟩ := pr_sol_in_e_eq hp0 hs hn
        rw [eb, ok_bind]
        have : b = true := by
          cases b
          · exact absurd (Or.inr ⟨c2, fun h => by cases hb.2 h⟩) ha
          · rfl
        rw [this]; rfl
      · rw [if_neg c2]; rfl
  rw [hadm, ok_bind, if_neg (by simp)]

theorem minDiff_set {n : Nat} {e : elite} {s : qap_sol} {i c b w : Nat} (hm : MinDiff n e)
    (hi : i < e.sol.length) (hc : ∀ k, k < c → k ≠ i → k < e.cur_size)
    (hs : ∀ k, k < c → k ≠ i → MIN_DIFF ≤ simf (sel e.sol k).p s.p n) :
    MinDiff n ⟨e.size, c, w, b, e.sol.set i s, e.diff⟩ := by
  intro a d ha hd hne
  show MIN_DIFF ≤ simf (sel (e.sol.set i s) a).p (sel (e.sol.set i s) d).p n
  have ha : a < c := ha
  have hd : d < c := hd
  by_cases a1 : a = i
  · subst a1
    rw [sel_set_eq _ _ _ hi, sel_set_ne _ _ _ _ (fun h => hne h.symm), simf_comm]
    exact hs d hd (fun h => hne h.symm)
  · rw [sel_set_ne _ _ _ _ a1]
    by_cases d1 : d = i
    · subst d1
      rw [sel_set_eq _ _ _ hi]
      exact hs a ha a1
    · rw [sel_set_ne _ _ _ _ d1]
      exact hm a d (hc a ha a1) (hc d hd d1) hne

theorem pr_insert_sol_eq {n : Nat} {e : elite} {g : grasp} (hp : Shape n e)
    (hc : e.cur_size < e.size) (hs : Shaped g.s) (hn : g.s.n = n) :
    ∃ b w, b < e.size ∧ w < e.size ∧ pr_insert_sol e g = Except.ok
      ⟨e.size, e.cur_size + 1, w, b, e.sol.set e.cur_size g.s, e.diff⟩ := by
  obtain ⟨p1, p4, p5, p6, p7⟩ := hp
  have h7 := p7 e.cur_size hc
  unfold pr_insert_sol
  rw [rd_eq (by omega), ok_bind, qs_copy_eq h7.1 hs (by rw [h7.2, hn]), ok_bind,
    wr_eq (by omega), ok_bind]
  simp only []
  by_cases c : e.cur_size > 0
  · rw [if_pos c, rd_eq (by simp; omega), ok_bind, rd_eq (by simp; omega), ok_bind]
    simp only [apply_ite elite.sol, apply_ite elite.cur_size, apply_ite elite.best,
      apply_ite elite.worst, apply_ite elite.size, apply_ite elite.diff, ite_self]
    rw [rd_eq (by simp; omega), ok_bind, rd_eq (by simp; omega), ok_bind]
    split_ifs <;>
      first
      | exact ⟨_, _, hc, hc, rfl⟩
      | exact ⟨_, _, p5, hc, rfl⟩
      | exact ⟨_, _, hc, p6, rfl⟩
      | exact ⟨_, _, p5, p6, rfl⟩
  · rw [if_neg c]
    exact ⟨_, _, p5, p6, rfl⟩

theorem pr_run_minDiff (E : env) (fuel : Nat) {n : Nat} {e : elite} {g : grasp}
    (hp : Shape n e) (hc : e.cur_size < e.size) (hs : Shaped g.s) (hn : g.s.n = n)
    (hm : MinDiff n e) :
    ∃ e', pr_run E fuel e g = Except.ok (e', g) ∧ MinDiff n e' := by
  have hp0 := hp
  obtain ⟨p1, p4, p5, p6, p7⟩ := hp
  unfold pr_run
  simp only [if_pos hc]
  obtain ⟨reject, e1, hrej⟩ := for_loop_tot (b := fun i (reject : Bool) => do
      let m ← rd e.sol i
      let v ← qs_similarity g.s m
      pure (if v < MIN_DIFF then true else reject))
    (fun i reject => reject = false →
      ∀ k, k < i → MIN_DIFF ≤ simf (sel e.sol k).p g.s.p n) e.cur_size 0 false
    (fun _ k hk => absurd hk (Nat.not_lt_zero _))
    (by
      intro i rj _ hi hI
      have h7 := p7 i (by omega)
      dsimp only
      rw [rd_eq (by omega), ok_bind,
        qs_similarity_eq hs.1 (by rw [h7.1.1, h7.2, hn]), ok_bind]
      refine ⟨_, rfl, fun hr k hk => ?_⟩
      by_cases d : simf g.s.p (sel e.sol i).p g.s.n < MIN_DIFF
      · rw [if_pos d] at hr; cases hr
      · rw [if_neg d] at hr
        by_cases d2 : k = i
        · subst d2
          rw [simf_comm, ← hn]
          omega
        · exact hI hr k (by omega))
  rw [Nat.zero_add] at hrej
  rw [e1, ok_bind]
  cases reject with
  | true => exact ⟨e, rfl, hm⟩
  | false =>
    obtain ⟨b, w, _, _, e2⟩ := pr_insert_sol_eq hp0 hc hs hn
    simp only [Bool.not_false, if_true]
    rw [e2, ok_bind]
    refine ⟨_, rfl, minDiff_set hm (by omega) (fun k a b => by omega) (fun k a _ => ?_)⟩
    by_cases d : k = e.cur_size
    · subst d; omega
    · exact hrej rfl k (by omega)

theorem pr_new_minDiff {E : env} {g : grasp} {size : Int} {e : elite} (n : Nat)
    (h : pr_new E g size = some e) : MinDiff n e := by
  have hc : e.cur_size = 0 := by
    unfold pr_new at h
    split_ifs at h
    · cases h; rfl
    · split at h
      · cases h; rfl
      · cases h
  intro i j hi
  rw [hc] at hi
  exact absurd hi (Nat.not_lt_zero _)

/-! ## Purging the pool: which members are kept -/

theorem pr_compar_le (y x : qap_sol) : pr_compar y x ≤ 0 ↔ y.cost ≥ x.cost := by
  unfold pr_compar
  split_ifs <;> constructor <;> intro h <;> omega

theorem qsort_insert_sorted (x : qap_sol) (l : List qap_sol)
    (h : l.Pairwise (fun a b => a.cost ≥ b.cost)) :
    (qsort_insert x l).Pairwise (fun a b => a.cost ≥ b.cost) := by
  induction l with
  | nil => simp [qsort_insert]
  | cons y ys ih =>
    rw [List.pairwise_cons] at h
    unfold qsort_insert
    split_ifs with c
    · rw [List.pairwise_cons]
      refine ⟨fun a ha => ?_, ih h.2⟩
      rcases List.mem_cons.1 ((qsort_insert_perm x ys).mem_iff.1 ha) with r | r
      · rw [r]; exact (pr_compar_le y x).1 c
      · exact h.1 a r
    · have c2 : x.cost > y.cost := by
        have := (pr_compar_le y x).not.1 c
        omega
      rw [List.pairwise_cons]
      refine ⟨fun a ha => ?_, List.pairwise_cons.2 h⟩
      rcases List.mem_cons.1 ha with r | r
      · rw [r]; omega
      · have := h.1 a r
        omega

theorem qsort_sorted (l : List qap_sol) :
    (qsort l).Pairwise (fun a b => a.cost ≥ b.cost) := by
  unfold qsort
  induction l with
  | nil => exact List.Pairwise.nil
  | cons y ys ih =>
    rw [List.foldr_cons]
    exact qsort_insert_sorted y _ ih

theorem filter_take_of_split (p : qap_sol → Bool) : ∀ (l : List qap_sol) (m : Nat),
    m ≤ l.length → (∀ k, k < m → p (sel l k) = false) →
    (∀ k, m ≤ k → k < l.length → p (sel l k) = true) →
    l.filter (fun x => !p x) = l.take m := by
  intro l
  induction l with
  | nil => intro m _ _ _; simp
  | cons a t ih =>
    intro m hm h1 h2
    cases m with
    | zero =>
      rw [List.take_zero, List.filter_eq_nil_iff]
      intro x hx
      obtain ⟨k, hk, e⟩ := mem_iff_sel.1 hx
      rw [← e, h2 k (Nat.zero_le _) hk]
      simp
    | succ m =>
      have ha : p a = false := by
        have := h1 0 (Nat.succ_pos _)
        rwa [sel_cons_zero] at this
      rw [List.take_succ_cons, List.filter_cons_of_pos (by simp [ha])]
      congr 1
      exact ih m (by simpa using hm)
        (fun k hk => by
          have := h1 (k + 1) (by omega)
          rwa [sel_cons_succ] at this)
        (fun k hk1 hk2 => by
          have := h2 (k + 1) (by omega) (by simpa using hk2)
          rwa [sel_cons_succ] at this)

theorem sel_map_range {α : Type} [Inhabited α] (f : Nat → α) (n k : Nat) (h : k < n) :
    sel ((List.range n).map f) k = f k := by
  rw [sel_eq_getElem _ _ (by simpa using h)]
  simp

theorem map_sel_range {α : Type} [Inhabited α] (l : List α) :
    (List.range l.length).map (sel l) = l := by
  refine ext_sel (by simp) (fun i hi => ?_)
  rw [sel_map_range _ _ _ (by simpa using hi)]

theorem sel_take {α : Type} [Inhabited α] (l : List α) (m k : Nat) (h : k < m) :
    sel (l.take m) k = sel l k := by
  unfold sel
  rw [List.getElem?_take_of_lt h]

theorem purge_tag {n : Nat} {e : elite} (fresh : qap_sol) (hp : Shape n e)
    (hs : Shaped fresh) (hn : fresh.n = n) :
    for_loop (fun i (scp : List qap_sol) => do
        let m ← rd e.sol i
        let c ← qs_copy fresh m
        pure (scp ++ [{ c with n := i }])) 0 e.size [] =
      Except.ok ((List.range e.size).map (fun k => { sel e.sol k with n := k })) := by
  obtain ⟨p1, p4, p5, p6, p7⟩ := hp
  obtain ⟨scp, e1, h1⟩ := for_loop_tot (b := fun i (scp : List qap_sol) => do
        let m ← rd e.sol i
        let c ← qs_copy fresh m
        pure (scp ++ [{ c with n := i }]))
    (fun i scp => scp = (List.range i).map (fun k => { sel e.sol k with n := k })) e.size 0 []
    rfl
    (by
      intro i scp _ hi hI
      have h7 := p7 i (by omega)
      dsimp only
      rw [rd_eq (by omega), ok_bind, qs_copy_eq hs h7.1 (by rw [hn, h7.2]), ok_bind]
      refine ⟨_, rfl, ?_⟩
      rw [List.range_succ, List.map_append, hI]
      rfl)
  dsimp only at h1
  rw [Nat.zero_add] at h1
  rw [e1, h1]

theorem purge_mark_char {e : elite} (scp : List qap_sol) (hl : e.sol.length = e.size)
    (h0 : e.size / 2 ≤ scp.length) (h1 : ∀ t, t < e.size / 2 → (sel scp t).n < e.size) :
    ∃ e1, for_loop (fun i (e : elite) => do
        let c ← rd scp i
        let m ← rd e.sol c.n
        let sol ← wr e.sol c.n { m with cost := -1 }
        pure { e with sol := sol, cur_size := e.cur_size - 1 }) 0 (e.size / 2) e = Except.ok e1 ∧
      ∀ k, k < e.size →
        ((∃ t, t < e.size / 2 ∧ (sel scp t).n = k) →
          sel e1.sol k = { sel e.sol k with cost := -1 }) ∧
        ((∀ t, t < e.size / 2 → (sel scp t).n ≠ k) → sel e1.sol k = sel e.sol k) := by
  obtain ⟨e1, r1, a1, a2⟩ := for_loop_tot
    (b := fun i (e : elite) => do
        let c ← rd scp i
        let m ← rd e.sol c.n
        let sol ← wr e.sol c.n { m with cost := -1 }
        pure { e with sol := sol, cur_size := e.cur_size - 1 })
    (fun i x => x.sol.length = e.size ∧ ∀ k, k < e.size →
        ((∃ t, t < i ∧ (sel scp t).n = k) → sel x.sol k = { sel e.sol k with cost := -1 }) ∧
        ((∀ t, t < i → (sel scp t).n ≠ k) → sel x.sol k = sel e.sol k)) (e.size / 2) 0 e
    ⟨hl, fun k _ => ⟨fun ⟨t, ht, _⟩ => absurd ht (Nat.not_lt_zero _), fun _ => rfl⟩⟩
    (by
      intro i x _ hi ⟨b1, b2⟩
      have hidx := h1 i (by omega)
      dsimp only
      rw [rd_eq (by omega), ok_bind, rd_eq (by omega), ok_bind, wr_eq (by omega), ok_bind]
      refine ⟨_, rfl, by simp [b1], fun k hk => ⟨?_, ?_⟩⟩
      · rintro ⟨t, ht, et⟩
        show sel (x.sol.set _ _) k = _
        by_cases c : k = (sel scp i).n
        · rw [c, sel_set_eq _ _ _ (by omega)]
          by_cases d : ∃ t, t < i ∧ (sel scp t).n = (sel scp i).n
          · rw [(b2 _ hidx).1 d]
          · rw [(b2 _ hidx).2 (fun t ht e => d ⟨t, ht, e⟩)]
        · rw [sel_set_ne _ _ _ _ c]
          refine (b2 k hk).1 ⟨t, ?_, et⟩
          by_cases d : t = i
          · subst d; exact absurd et.symm c
          · omega
      · intro hno
        show sel (x.sol.set _ _) k = _
        rw [sel_set_ne _ _ _ _ (fun c => hno i (Nat.lt_succ_self _) c.symm)]
        exact (b2 k hk).2 (fun t ht => hno t (by omega)))
  rw [Nat.zero_add] at a2
  exact ⟨e1, r1, a2⟩

theorem mark_half_purge (E : env) {e : elite} {g : grasp} (hp : Shape g.q.n e)
    (hn : 1 ≤ g.q.n) (hf : e.cur_size = e.size)
    (hc : ∀ i, i < e.size → 0 ≤ (sel e.sol i).cost) :
    ∃ e' removed, mark_half_set_infinite E e g =
        Except.ok (1, e', { g with last_improv_iter := g.curr_iter }) ∧
      e'.size = e.size ∧ e'.cur_size = e.size - e.size / 2 ∧ e'.sol.length = e.size ∧
      (∀ k, k < e'.cur_size → (sel e'.sol k).cost ≠ -1) ∧
      (∀ k, e'.cur_size ≤ k → k < e.size → (sel e'.sol k).cost = -1) ∧
      removed.length = e.size / 2 ∧
      (e'.sol.take e'.cur_size ++ removed).Perm e.sol ∧
      ∀ a, a ∈ e'.sol.take e'.cur_size → ∀ b, b ∈ removed → a.cost ≤ b.cost := by
  have hp0 := hp
  obtain ⟨p1, p4, p5, p6, p7⟩ := hp
  have hum : ∀ i, i < e.size → marked (sel e.sol i) = false := by
    intro i hi
    have := hc i hi
    simp only [marked, decide_eq_false_iff_not]
    omega
  unfold mark_half_set_infinite
  generalize hB : (fun i (st : elite × Int × Int) => (do
        let m ← rd st.1.sol i
        let st := if m.cost < st.2.1 then ({ st.1 with best := i }, m.cost, st.2.2) else st
        let m ← rd st.1.sol i
        pure (if m.cost > st.2.2 then ({ st.1 with worst := i }, st.2.1, m.cost) else st) :
        Except Err (elite × Int × Int))) = B
  rw [qs_new_nat E _ hn]
  simp only [Option.isNone_some, Bool.false_eq_true, and_false, if_false, Option.getD_some]
  rw [purge_tag ⟨g.q.n, List.range g.q.n, List.range g.q.n, E.junk⟩ hp0 (shaped_fresh _ _) rfl]
  simp only [ok_bind]
  generalize hL : (List.range e.size).map (fun k => ({ sel e.sol k with n := k } : qap_sol)) = L
  have hperm := qsort_perm L
  have hsorted := qsort_sorted L
  have hLlen : L.length = e.size := by rw [← hL]; simp
  have hlenS : (qsort L).length = e.size := by rw [hperm.length_eq, hLlen]
  have hmemL : ∀ c, c ∈ qsort L → c.n < e.size ∧ c.cost = (sel e.sol c.n).cost := by
    intro c hc
    have : c ∈ L := hperm.mem_iff.1 hc
    rw [← hL] at this
    obtain ⟨k, hk1, hk2⟩ := List.mem_map.1 this
    rw [← hk2]
    exact ⟨List.mem_range.1 hk1, rfl⟩
  have hmapn : ((qsort L).map qap_sol.n).Perm (List.range e.size) := by
    have := hperm.map qap_sol.n
    have e2 : L.map qap_sol.n = List.range e.size := by
      rw [← hL, List.map_map]
      exact (List.map_congr_left (fun k _ => rfl)).trans (List.map_id _)
    rw [e2] at this
    exact this
  have hidx : ∀ t, t < e.size → (sel (qsort L) t).n < e.size :=
    fun t ht => (hmemL _ (mem_iff_sel.2 ⟨t, by omega, rfl⟩)).1
  have hinj : ∀ t u, t < e.size → u < e.size →
      (sel (qsort L) t).n = (sel (qsort L) u).n → t = u := by
    intro t u ht hu h
    have hnd : ((qsort L).map qap_sol.n).Nodup := hmapn.nodup_iff.2 (List.nodup_range _)
    have l1 : t < ((qsort L).map qap_sol.n).length := by rw [List.length_map]; omega
    have l2 : u < ((qsort L).map qap_sol.n).length := by rw [List.length_map]; omega
    apply nodup_iff_sel.1 hnd t u l1 l2
    rw [sel_eq_getElem _ _ l1, sel_eq_getElem _ _ l2]
    simp only [List.getElem_map]
    rw [← sel_eq_getElem _ _ (by omega), ← sel_eq_getElem _ _ (by omega)]
    exact h
  obtain ⟨em, e2, m1, m2, m3, m4, m5, m6, m7, m8, m9⟩ :=
    purge_mark (qsort L) p1 hf hlenS hidx hinj hum
  obtain ⟨em2, e2b, mc⟩ := purge_mark_char (qsort L) p1 (by rw [hlenS]; omega)
    (fun t ht => hidx t (by omega))
  have : em2 = em := ok_inj (e2b.symm.trans e2)
  subst this
  rw [e2]
  simp only [ok_bind]
  obtain ⟨sol', m, e3, c1, c2, c3, c4⟩ := compact_loop_ok (em2.size + 1) em2.sol 0 (em2.size - 1)
    (by omega) (by omega) (by omega) (fun k hk => absurd hk (Nat.not_lt_zero _))
    (fun k hk1 hk2 => by omega)
  rw [e3]
  simp only [ok_bind]
  have hlen : sol'.length = e.size := by rw [c1.length_eq, m6]
  have hm : m = e.size - e.size / 2 := by
    have h1 := countP_split marked sol' m (by omega) c3 (fun k hk1 hk2 => c4 k hk1 (by omega))
    rw [c1.countP_eq, m9] at h1
    omega
  obtain ⟨r, e4, r1, r2, r3, r4, r5, r6⟩ := purge_rescan { em2 with sol := sol' }
    (by show em2.cur_size ≤ sol'.length; omega) (by show em2.cur_size ≤ em2.size; omega)
    (by show em2.best < em2.size; omega) (by show em2.worst < em2.size; omega)
  rw [hB] at e4
  have e4' : for_loop B 0 em2.cur_size
      (({ em2 with sol := sol' } : elite), (999999 : Int), (0 : Int)) = Except.ok r := e4
  rw [e4']
  simp only [ok_bind]
  have r1 : r.1.sol = sol' := r1
  have r2 : r.1.size = e.size := r2.trans m1
  have r3 : r.1.cur_size = e.size - e.size / 2 := r3.trans m5
  -- the slots marked are those named by the first half of the sorted copies
  let A := ((qsort L).take (e.size / 2)).map qap_sol.n
  let Bl := ((qsort L).drop (e.size / 2)).map qap_sol.n
  have hAB : (A ++ Bl).Perm (List.range e.size) := by
    show (((qsort L).take (e.size / 2)).map qap_sol.n ++
      ((qsort L).drop (e.size / 2)).map qap_sol.n).Perm _
    rw [← List.map_append, List.take_append_drop]
    exact hmapn
  have hABnd : (A ++ Bl).Nodup := hAB.nodup_iff.2 (List.nodup_range _)
  have hAmem : ∀ k, k ∈ A ↔ ∃ t, t < e.size / 2 ∧ (sel (qsort L) t).n = k := by
    intro k
    show k ∈ ((qsort L).take (e.size / 2)).map qap_sol.n ↔ _
    rw [List.mem_map]
    constructor
    · rintro ⟨c, hc1, hc2⟩
      obtain ⟨t, ht, et⟩ := mem_iff_sel.1 hc1
      have ht2 : t < e.size / 2 := by
        rw [List.length_take] at ht
        omega
      rw [sel_take _ _ _ ht2] at et
      exact ⟨t, ht2, by rw [et]; exact hc2⟩
    · rintro ⟨t, ht, et⟩
      refine ⟨sel (qsort L) t, mem_iff_sel.2 ⟨t, ?_, sel_take _ _ _ ht⟩, et⟩
      rw [List.length_take]
      omega
  have hfil : ((List.range e.size).filter (fun k => decide (k ∉ A)) ++ A).Perm
      (List.range e.size) := by
    have h1 : ((A ++ Bl).filter (fun k => decide (k ∉ A))).Perm
        ((List.range e.size).filter (fun k => decide (k ∉ A))) := hAB.filter _
    have h2 : (A ++ Bl).filter (fun k => decide (k ∉ A)) = Bl := by
      rw [List.filter_append]
      have x1 : A.filter (fun k => decide (k ∉ A)) = [] := by
        rw [List.filter_eq_nil_iff]
        intro a ha
        simp [ha]
      have x2 : Bl.filter (fun k => decide (k ∉ A)) = Bl := by
        rw [List.filter_eq_self]
        intro a ha
        have := (List.nodup_append.1 hABnd).2.2
        simp only [decide_eq_true_eq]
        exact fun h => this h ha
      rw [x1, x2, List.nil_append]
    rw [h2] at h1
    exact (h1.symm.append_right A).trans (List.perm_append_comm.trans hAB)
  have hemsol : em2.sol = (List.range e.size).map
      (fun k => if k ∈ A then ({ sel e.sol k with cost := -1 } : qap_sol) else sel e.sol k) := by
    refine ext_sel (by simp [m6]) (fun k hk => ?_)
    rw [m6] at hk
    rw [sel_map_range _ _ _ hk]
    by_cases c : k ∈ A
    · rw [if_pos c]
      exact (mc k hk).1 ((hAmem k).1 c)
    · rw [if_neg c]
      exact (mc k hk).2 (fun t ht et => c ((hAmem k).2 ⟨t, ht, et⟩))
  have hkeep : em2.sol.filter (fun x => !marked x) =
      ((List.range e.size).filter (fun k => decide (k ∉ A))).map (sel e.sol) := by
    rw [hemsol, List.filter_map]
    have f1 : (List.range e.size).filter ((fun x => !marked x) ∘
        (fun k => if k ∈ A then ({ sel e.sol k with cost := -1 } : qap_sol) else sel e.sol k)) =
        (List.range e.size).filter (fun k => decide (k ∉ A)) := by
      apply List.filter_congr
      intro k hk
      have hk : k < e.size := List.mem_range.1 hk
      by_cases c : k ∈ A
      · simp [c, marked]
      · simp [c, hum k hk]
    rw [f1]
    apply List.map_congr_left
    intro k hk
    have := (List.mem_filter.1 hk).2
    simp only [decide_eq_true_eq] at this
    rw [if_neg this]
  have htake : sol'.take m = sol'.filter (fun x => !marked x) :=
    (filter_take_of_split marked sol' m (by omega) c3
      (fun k hk1 hk2 => c4 k hk1 (by omega))).symm
  have hkept : (sol'.take m).Perm
      (((List.range e.size).filter (fun k => decide (k ∉ A))).map (sel e.sol)) := by
    rw [htake, ← hkeep]
    exact c1.filter _
  refine ⟨r.1, ((qsort L).take (e.size / 2)).map (fun c => sel e.sol c.n), rfl, r2, r3,
    by rw [r1]; exact hlen, fun k hk => ?_, fun k hk1 hk2 => ?_, ?_, ?_, ?_⟩
  · rw [r1]
    have := c3 k (by rw [r3] at hk; omega)
    simpa [marked] using this
  · rw [r1]
    have := c4 k (by rw [r3] at hk1; omega) (by omega)
    simpa [marked] using this
  · rw [List.length_map, List.length_take]
    omega
  · rw [r1, r3, ← hm]
    have hrem : ((qsort L).take (e.size / 2)).map (fun c => sel e.sol c.n) =
        A.map (sel e.sol) := by
      show _ = (((qsort L).take (e.size / 2)).map qap_sol.n).map (sel e.sol)
      rw [List.map_map]
      rfl
    rw [hrem]
    refine (hkept.append_right _).trans ?_
    rw [← List.map_append]
    have := hfil.map (sel e.sol)
    rw [← p1, map_sel_range] at this
    rw [← p1]
    exact this
  · intro a ha b hb
    rw [r1, r3, ← hm] at ha
    have ha2 := hkept.mem_iff.1 ha
    obtain ⟨k, hk1, hk2⟩ := List.mem_map.1 ha2
    have hkA : k ∉ A := by
      have := (List.mem_filter.1 hk1).2
      simpa using this
    have hk : k < e.size := List.mem_range.1 (List.mem_filter.1 hk1).1
    have hkB : k ∈ Bl := by
      have : k ∈ A ++ Bl := hAB.mem_iff.2 (List.mem_range.2 hk)
      rcases List.mem_append.1 this with h | h
      · exact absurd h hkA
      · exact h
    obtain ⟨c', hc1, hc2⟩ := List.mem_map.1 hkB
    obtain ⟨c, hd1, hd2⟩ := List.mem_map.1 hb
    have hpw : ∀ x, x ∈ (qsort L).take (e.size / 2) → ∀ y, y ∈ (qsort L).drop (e.size / 2) →
        x.cost ≥ y.cost := by
      have := hsorted
      rw [← List.take_append_drop (e.size / 2) (qsort L), List.pairwise_append] at this
      exact this.2.2
    have h1 := hpw c hd1 c' hc1
    have h2 := (hmemL c (List.mem_of_mem_take hd1)).2
    have h3 := (hmemL c' (List.mem_of_mem_drop hc1)).2
    rw [← hk2, ← hd2]
    rw [hc2] at h3
    omega

/-! ## The number of sweeps of the post-optimization -/

theorem post_loop_sweeps (E : env) {q : qap_inst} (hP : NonNeg q) :
    ∀ (m : Nat) (ecp e : elite) (g : grasp), Pool q e → Sound q g →
    Slots q e.size ecp.sol → (e.cur_size = e.size ∨ AllTracked q e.size ecp.sol) →
    g.best.cost.toNat ≤ m →
    ∃ N a, ∀ fuel k, N ≤ fuel → m + 1 ≤ k →
      post_loop E fuel k ecp e g = Except.ok a ∧ a.2.2.best.cost ≤ g.best.cost := by
  intro m
  induction m using Nat.strong_induction_on with
  | _ m ih =>
    intro ecp e g hp hs hc hx hm
    obtain ⟨ecp', h1, h2, h3⟩ := post_round E (T := True) hP hp hs hc hx
    obtain ⟨N1, r, hr, hN1⟩ := h2.tot trivial
    have hle : r.2.best.cost ≤ g.best.cost := post_sweep_best (hN1 N1 (le_refl _))
    by_cases c : r.2.best.cost < g.best.cost
    · have hsz := hr.2.2
      have n1 := Tracked.nonneg hP hr.2.1.2.2.1
      obtain ⟨N2, a, hN2⟩ := ih (r.2.best.cost.toNat) (by omega) ecp' r.1 r.2 hr.1 hr.2.1
        (by rw [hsz]; exact h1.slots) (Or.inr (by rw [hsz]; exact h1)) (le_refl _)
      refine ⟨max N1 N2, a, fun fuel k hf hk => ?_⟩
      obtain ⟨k', rfl⟩ : ∃ k', k = k' + 1 := ⟨k - 1, by omega⟩
      rw [h3, hN1 fuel (le_trans (le_max_left _ _) hf), ok_bind, if_pos c]
      have := hN2 fuel k' (le_trans (le_max_right _ _) hf) (by omega)
      exact ⟨this.1, le_trans this.2 hle⟩
    · refine ⟨N1, (ecp', r.1, r.2), fun fuel k hf hk => ?_⟩
      obtain ⟨k', rfl⟩ : ∃ k', k = k' + 1 := ⟨k - 1, by omega⟩
      rw [h3, hN1 fuel hf, ok_bind, if_neg c]
      exact ⟨rfl, hle⟩

theorem post_loop_single (E : env) {n : Nat} {ecp e : elite} {g : grasp} (hp : Shape n e)
    (h1 : e.size = 1) (hf : e.cur_size = e.size) (hl : ecp.sol.length = 1)
    (hc : Shaped (sel ecp.sol 0) ∧ (sel ecp.sol 0).n = n) :
    ∃ a, ∀ fuel k, post_loop E fuel (k + 1) ecp e g = Except.ok a ∧ a.2.2 = g := by
  obtain ⟨p1, p4, p5, p6, p7⟩ := hp
  have h7 := p7 0 (by omega)
  obtain ⟨size, cur, w, b, sol, diff⟩ := e
  have h1 : size = 1 := h1
  have hf : cur = size := hf
  have p1 : sol.length = size := p1
  have h7 : Shaped (sel sol 0) ∧ (sel sol 0).n = n := h7
  subst hf
  subst h1
  refine ⟨(⟨1, 1, w, b, ecp.sol.set 0 (sel sol 0), ecp.diff⟩, ⟨1, 0, w, b, sol, diff⟩, g),
    fun fuel k => ?_⟩
  rw [post_loop]
  unfold pr_copy
  simp only [for_loop, Nat.zero_add]
  rw [rd_eq (by omega), ok_bind, rd_eq (by omega), ok_bind,
    qs_copy_eq hc.1 h7.1 (by rw [hc.2, h7.2]), ok_bind, wr_eq (by omega)]
  simp only [ok_bind, post_sweep, for_loop, pure_eq_ok, if_true, lt_irrefl, if_false]
  exact ⟨trivial, trivial⟩

theorem post_loop_eq (E : env) (fuel k : Nat) (ecp e : elite) (g : grasp) :
    post_loop E fuel (k + 1) ecp e g =
      (pr_copy ecp e >>= fun ecp' =>
        post_sweep E fuel ecp' { e with cur_size := 0 } g >>= fun r =>
          if r.2.best.cost < g.best.cost then post_loop E fuel k ecp' r.1 r.2
          else pure (ecp', r.1, r.2)) := by
  rw [post_loop]

theorem pr_post_optimization_returns (E : env) (q : qap_inst) (e : elite) (g : grasp)
    (hP : NonNeg q) (hp : Shape q.n e) (hd : e.diff.length = e.size)
    (hf : e.cur_size = e.size) (ht : ∀ i, i < e.size → Tracked q (sel e.sol i))
    (hs : Sound q g) :
    ∃ ecp, pr_new E g e.size = some ecp ∧
      ∃ N a, a.2.2.best.cost ≤ g.best.cost ∧
        ∀ fuel k, N ≤ fuel → g.best.cost.toNat + 1 ≤ k →
          post_loop E fuel k ecp e g = Except.ok a := by
  have hq : g.q = q := hs.1
  have hn : 1 ≤ g.q.n := by have := hs.2.1.2.1; omega
  have hsz : 1 ≤ e.size := by have := hp.2.2.1; omega
  obtain ⟨ecp, hecp, hsol⟩ : ∃ ecp, pr_new E g e.size = some ecp ∧ ecp.sol =
      List.replicate ((e.size : Int).toNat)
        (⟨g.q.n, List.range g.q.n, List.range g.q.n, E.junk⟩ : qap_sol) :=
    ⟨_, pr_new_some E g e.size (by omega) hn, rfl⟩
  refine ⟨ecp, hecp, ?_⟩
  have hc : Slots q e.size ecp.sol := by
    rw [hsol, Int.toNat_ofNat]
    refine ⟨by simp, fun i hi => ?_⟩
    rw [sel_replicate _ _ _ hi]
    exact ⟨shaped_fresh _ _, congrArg qap_inst.n hq⟩
  by_cases h2 : 2 ≤ e.size
  · have hpool : Pool q e :=
      ⟨hp.1, hd, h2, hp.2.1, hp.2.2.1, hp.2.2.2.1, hp.2.2.2.2, fun i hi => ht i (by omega)⟩
    obtain ⟨N, a, h⟩ := post_loop_sweeps E hP g.best.cost.toNat ecp e g hpool hs hc (Or.inl hf)
      (le_refl _)
    exact ⟨N, a, (h N (g.best.cost.toNat + 1) (le_refl _) (le_refl _)).2,
      fun fuel k hf hk => (h fuel k hf hk).1⟩
  · have h1 : e.size = 1 := by omega
    obtain ⟨a, h⟩ := post_loop_single E (g := g) hp h1 hf (hc.1.trans h1) (hc.2 0 (by omega))
    refine ⟨0, a, by rw [(h 0 0).2], fun fuel k _ hk => ?_⟩
    obtain ⟨k', rfl⟩ : ∃ k', k = k' + 1 := ⟨k - 1, by omega⟩
    exact (h fuel k').1

/-! ## Heap sort: the result is sorted and a rearrangement -/

theorem rearr_refl {β : Type} (g : Nat → β) (n : Nat) : Rearr g g n :=
  ⟨fun _ _ => rfl, fun _ => rfl⟩

theorem rearr_trans {β : Type} {g g' g'' : Nat → β} {n : Nat} (h1 : Rearr g g' n)
    (h2 : Rearr g' g'' n) : Rearr g g'' n :=
  ⟨fun i hi => (h2.1 i hi).trans (h1.1 i hi), fun f => (h2.2 f).trans (h1.2 f)⟩

theorem rearr_mono {β : Type} {g g' : Nat → β} {m n : Nat} (hmn : m ≤ n)
    (h : Rearr g g' m) : Rearr g g' n := by
  refine ⟨fun i hi => h.1 i (by omega), fun f => ?_⟩
  rw [← Finset.sum_Ioc_consecutive (fun i => f (g' i)) (Nat.zero_le m) hmn,
    ← Finset.sum_Ioc_consecutive (fun i => f (g i)) (Nat.zero_le m) hmn, h.2 f]
  congr 1
  refine Finset.sum_congr rfl (fun i hi => ?_)
  rw [Finset.mem_Ioc] at hi
  rw [h.1 i (Or.inr hi.1)]

theorem rearr_swap {β : Type} {g g' : Nat → β} {n p q : Nat} (hp1 : 1 ≤ p) (hp : p ≤ n)
    (hq1 : 1 ≤ q) (hq : q ≤ n)
    (h : ∀ i, g' i = if i = p then g q else if i = q then g p else g i) : Rearr g g' n := by
  refine ⟨fun i hi => ?_, fun f => ?_⟩
  · rw [h i, if_neg (by omega), if_neg (by omega)]
  · refine Finset.sum_equiv (Equiv.swap p q) (fun i => ?_) (fun i _ => ?_)
    · rw [Finset.mem_Ioc, Finset.mem_Ioc, Equiv.swap_apply_def]
      split_ifs <;> omega
    · rw [h i, Equiv.swap_apply_def]
      split_ifs <;> rfl

theorem rearr_all {β : Type} {g g' : Nat → β} {n : Nat} (h : Rearr g g' n) (P : β → Prop)
    (hP : ∀ i, 1 ≤ i → i ≤ n → P (g i)) : ∀ i, 1 ≤ i → i ≤ n → P (g' i) := by
  classical
  intro i h1 h2
  have e := h.2 (fun x => if P x then 0 else 1)
  have z : ∑ i in Ioc 0 n, (fun x => if P x then 0 else 1) (g i) = 0 := by
    refine Finset.sum_eq_zero (fun k hk => ?_)
    rw [Finset.mem_Ioc] at hk
    simp only
    rw [if_pos (hP k (by omega) hk.2)]
  rw [z, Finset.sum_eq_zero_iff] at e
  have := e i (Finset.mem_Ioc.2 ⟨by omega, h2⟩)
  by_contra hn
  simp only [if_neg hn] at this
  omega

theorem isHeap_root (K : Nat → Int) (h : Nat) (hh : IsHeap K h) :
    ∀ i, 1 ≤ i → i ≤ h → K i ≤ K 1 := by
  intro i
  induction i using Nat.strong_induction_on with
  | _ i ih =>
    intro h1 h2
    by_cases c : i = 1
    · subst c; exact le_refl _
    · exact le_trans (hh i (by omega) h2) (ih (i / 2) (by omega) (by omega) (by omega))

theorem up_step (K : Nat → Int) (m h : Nat) (hm : 2 ≤ m) (hmh : m ≤ h) (hI : UpInv K m h)
    (d : K (m / 2) < K m) :
    UpInv (fun i => K (if i = m / 2 then m else if i = m then m / 2 else i)) (m / 2) h := by
  obtain ⟨i1, i2⟩ := hI
  refine ⟨fun x y hx hxh hne hy => ?_, fun x y hx hxh hpar h2 hy => ?_⟩
  · show K (if x = m / 2 then m else if x = m then m / 2 else x) ≤
      K (if y = m / 2 then m else if y = m then m / 2 else y)
    rw [if_neg hne]
    by_cases c1 : x = m
    · rw [if_pos c1, if_pos (by omega)]
      exact le_of_lt d
    · rw [if_neg c1]
      by_cases c2 : y = m / 2
      · rw [if_pos c2]
        exact le_trans (i1 x (m / 2) hx hxh c1 (by omega)) (le_of_lt d)
      · rw [if_neg c2]
        by_cases c3 : y = m
        · rw [if_pos c3]
          exact i2 x (m / 2) hx hxh (by omega) hm rfl
        · rw [if_neg c3]
          exact i1 x y hx hxh c1 hy
  · show K (if x = m / 2 then m else if x = m then m / 2 else x) ≤
      K (if y = m / 2 then m else if y = m then m / 2 else y)
    rw [if_neg (by omega : ¬ x = m / 2), if_neg (by omega : ¬ y = m / 2),
      if_neg (by omega : ¬ y = m)]
    by_cases c1 : x = m
    · rw [if_pos c1]
      exact i1 (m / 2) y (by omega) (by omega) (by omega) (by omega)
    · rw [if_neg c1]
      exact le_trans (i1 x (m / 2) hx hxh c1 (by omega))
        (i1 (m / 2) y (by omega) (by omega) (by omega) (by omega))

theorem up_exit (K : Nat → Int) (m h : Nat) (hI : UpInv K m h)
    (d : m ≤ 1 ∨ ¬ K m > K (m / 2)) : IsHeap K h := by
  intro x hx hxh
  by_cases c : x = m
  · subst c
    rcases d with d | d
    · omega
    · omega
  · exact hI.1 x (x / 2) hx hxh c rfl

theorem down_step (K : Nat → Int) (m j h : Nat) (_hm : 1 ≤ m) (hj : j / 2 = m) (hj2 : 2 ≤ j)
    (hjh : j ≤ h) (hI : DownInv K m h)
    (hmax : ∀ x, 2 ≤ x → x ≤ h → x / 2 = m → K x ≤ K j) (d : K m ≤ K j) :
    DownInv (fun i => K (if i = m then j else if i = j then m else i)) j h := by
  obtain ⟨i1, i2⟩ := hI
  refine ⟨fun x y hx hxh hne hy => ?_, fun x y hx hxh hpar h2 hy => ?_⟩
  · show K (if x = m then j else if x = j then m else x) ≤
      K (if y = m then j else if y = j then m else y)
    rw [if_neg (by omega : ¬ y = j)]
    by_cases c1 : x = m
    · rw [if_pos c1, if_neg (by omega)]
      exact i2 j y hj2 hjh hj (by omega) (by omega)
    · rw [if_neg c1]
      by_cases c2 : x = j
      · rw [if_pos c2, if_pos (by omega)]
        exact d
      · rw [if_neg c2]
        by_cases c3 : y = m
        · rw [if_pos c3]
          exact hmax x hx hxh (by omega)
        · rw [if_neg c3]
          exact i1 x y hx hxh (by omega) hy
  · show K (if x = m then j else if x = j then m else x) ≤
      K (if y = m then j else if y = j then m else y)
    rw [if_neg (by omega : ¬ x = m), if_neg (by omega : ¬ x = j), if_pos (by omega : y = m)]
    exact i1 x j hx hxh (by omega) (by omega)

theorem down_exit (K : Nat → Int) (m h : Nat) (hI : DownInv K m h)
    (d : h / 2 < m ∨ ∃ j, K j < K m ∧ ∀ x, 2 ≤ x → x ≤ h → x / 2 = m → K x ≤ K j) :
    IsHeap K h := by
  intro x hx hxh
  by_cases c : x / 2 = m
  · rcases d with d | ⟨j, d1, d2⟩
    · omega
    · rw [c]
      exact le_trans (d2 x hx hxh c) (le_of_lt d1)
  · exact hI.1 x (x / 2) hx hxh c rfl

theorem sort_step (K K1 K2 : Nat → Int) (m n : Nat) (hm : 2 ≤ m) (hmn : m ≤ n)
    (hS : SortInv K m n)
    (h1 : ∀ i, K1 i = K (if i = 1 then m else if i = m then 1 else i))
    (hH : IsHeap K2 (m - 1)) (hF : ∀ i, i = 0 ∨ m - 1 < i → K2 i = K1 i)
    (hA : ∀ c, (∀ i, 1 ≤ i → i ≤ m - 1 → K1 i ≤ c) → ∀ i, 1 ≤ i → i ≤ m - 1 → K2 i ≤ c) :
    SortInv K2 (m - 1) n := by
  obtain ⟨s1, s2, s3⟩ := hS
  have hroot := isHeap_root K m s1
  have e1 : ∀ i, m < i → K2 i = K i := by
    intro i hi
    rw [hF i (Or.inr (by omega)), h1 i, if_neg (by omega), if_neg (by omega)]
  have e2 : K2 m = K 1 := by
    rw [hF m (Or.inr (by omega)), h1 m, if_neg (by omega), if_pos rfl]
  have hb : ∀ i, 1 ≤ i → i ≤ m - 1 → K1 i ≤ K 1 := by
    intro i hi1 hi2
    rw [h1 i]
    by_cases c : i = 1
    · rw [if_pos c]; exact hroot m (by omega) (le_refl _)
    · rw [if_neg c, if_neg (by omega)]; exact hroot i hi1 (by omega)
  refine ⟨hH, fun i j hi hij hj => ?_, fun i j hi1 hi2 hj1 hj2 => ?_⟩
  · by_cases c : i = m
    · subst c
      by_cases c2 : j = i
      · subst c2; exact le_refl _
      · rw [e2, e1 j (by omega)]
        exact s3 1 j (le_refl _) (by omega) (by omega) hj
    · rw [e1 i (by omega), e1 j (by omega)]
      exact s2 i j (by omega) hij hj
  · by_cases c : j = m
    · subst c
      rw [e2]
      exact hA (K 1) hb i hi1 hi2
    · rw [e1 j (by omega)]
      refine hA (K j) (fun x hx1 hx2 => ?_) i hi1 hi2
      exact le_trans (hb x hx1 hx2) (s3 1 j (le_refl _) (by omega) (by omega) hj2)

theorem upheap_loop_heap {σ β : Type} {H : heap_ops σ} {inv : σ → Prop} {get : σ → Nat → β}
    {key : β → Int} {B : Nat} (hm : HeapModel H inv get key B) (h : Nat) (hB : h ≤ B) :
    ∀ (fuel : Nat) (a : σ) (m : Nat), inv a → m ≤ h → m < fuel →
    UpInv (fun i => key (get a i)) m h →
    ∃ a', upheap_loop H fuel a m = Except.ok a' ∧ inv a' ∧
      IsHeap (fun i => key (get a' i)) h ∧ Rearr (get a) (get a') h := by
  intro fuel
  induction fuel with
  | zero => intro a m _ _ hf; omega
  | succ k ih =>
    intro a m ha hmh hf hI
    unfold upheap_loop
    by_cases c : m > 1
    · rw [if_pos c, hm.1 a m (m / 2) ha (by omega) (by omega), ok_bind]
      by_cases d : key (get a m) > key (get a (m / 2))
      · rw [decide_eq_true d]
        obtain ⟨a1, e1, i1, g1⟩ := hm.2 a (m / 2) m ha (by omega) (by omega)
        simp only [if_true, e1, ok_bind]
        have hI1 : UpInv (fun i => key (get a1 i)) (m / 2) h := by
          have e : (fun i => key (get a1 i)) = fun i =>
              (fun i => key (get a i)) (if i = m / 2 then m else if i = m then m / 2 else i) := by
            funext i
            rw [g1 i]
            split_ifs <;> rfl
          rw [e]
          exact up_step _ m h c hmh hI d
        obtain ⟨a', e2, i2, h2, r2⟩ := ih a1 (m / 2) i1 (by omega) (by omega) hI1
        exact ⟨a', e2, i2, h2,
          rearr_trans (rearr_swap (by omega) (by omega) (by omega) hmh g1) r2⟩
      · rw [decide_eq_false d]
        exact ⟨a, rfl, ha, up_exit _ m h hI (Or.inr d), rearr_refl _ _⟩
    · rw [if_neg c]
      exact ⟨a, rfl, ha, up_exit _ m h hI (Or.inl (by omega)), rearr_refl _ _⟩

theorem heapfy_loop_heap {σ β : Type} {H : heap_ops σ} {inv : σ → Prop} {get : σ → Nat → β}
    {key : β → Int} {B : Nat} (hm : HeapModel H inv get key B) (h : Nat) (hB : h ≤ B) :
    ∀ (fuel : Nat) (a : σ) (m : Nat), inv a → 1 ≤ m → 1 ≤ fuel → h + 1 ≤ fuel + m →
    DownInv (fun i => key (get a i)) m h →
    ∃ a', heapfy_loop H fuel a m h = Except.ok a' ∧ inv a' ∧
      IsHeap (fun i => key (get a' i)) h ∧ Rearr (get a) (get a') h := by
  intro fuel
  induction fuel with
  | zero => intro a m _ _ hf; omega
  | succ k ih =>
    intro a m ha hm1 _ hf hI
    unfold heapfy_loop
    by_cases c : m ≤ h / 2
    swap
    · rw [if_neg c]
      exact ⟨a, rfl, ha, down_exit _ m h hI (Or.inl (by omega)), rearr_refl _ _⟩
    rw [if_pos c]
    have hc : (if 2 * m < h then H.heap_compare a (2 * m + 1) (2 * m) else pure false)
        = Except.ok (decide (2 * m < h ∧ key (get a (2 * m + 1)) > key (get a (2 * m)))) := by
      by_cases c2 : 2 * m < h
      · rw [if_pos c2, hm.1 a _ _ ha (by omega) (by omega)]
        simp [c2]
      · rw [if_neg c2]
        simp [c2]
    simp only [hc, ok_bind, decide_eq_true_eq]
    generalize hj : (if 2 * m < h ∧ key (get a (2 * m + 1)) > key (get a (2 * m)) then 2 * m + 1
      else 2 * m) = j
    have hj1 : j / 2 = m ∧ 2 ≤ j ∧ j ≤ h := by
      rw [← hj]
      split_ifs with c2 <;> omega
    have hmax : ∀ x, 2 ≤ x → x ≤ h → x / 2 = m →
        (fun i => key (get a i)) x ≤ (fun i => key (get a i)) j := by
      intro x hx hxh hp
      show key (get a x) ≤ key (get a j)
      have hx2 : x = 2 * m ∨ x = 2 * m + 1 := by omega
      rw [← hj]
      split_ifs with c2
      · rcases hx2 with r | r
        · rw [r]; omega
        · rw [r]
      · rcases hx2 with r | r
        · rw [r]
        · rw [r]
          have : ¬ key (get a (2 * m + 1)) > key (get a (2 * m)) := fun x => c2 ⟨by omega, x⟩
          omega
    rw [hm.1 a m j ha (by omega) (by omega), ok_bind]
    by_cases d : key (get a m) > key (get a j)
    · rw [decide_eq_true d]
      simp only [if_true]
      exact ⟨a, rfl, ha, down_exit _ m h hI (Or.inr ⟨j, d, hmax⟩), rearr_refl _ _⟩
    · rw [decide_eq_false d]
      obtain ⟨a1, e1, i1, g1⟩ := hm.2 a m j ha (by omega) (by omega)
      simp only [Bool.false_eq_true, if_false, e1, ok_bind]
      have hI1 : DownInv (fun i => key (get a1 i)) j h := by
        have e : (fun i => key (get a1 i)) = fun i =>
            (fun i => key (get a i)) (if i = m then j else if i = j then m else i) := by
          funext i
          rw [g1 i]
          split_ifs <;> rfl
        rw [e]
        exact down_step _ m j h hm1 hj1.1 hj1.2.1 hj1.2.2 hI hmax (by
          show key (get a m) ≤ key (get a j)
          omega)
      obtain ⟨a', e2, i2, h2, r2⟩ := ih a1 j i1 (by omega) (by omega) (by omega) hI1
      exact ⟨a', e2, i2, h2,
        rearr_trans (rearr_swap hm1 (by omega) (by omega) hj1.2.2 g1) r2⟩

theorem heap_sort_sorted {σ β : Type} {H : heap_ops σ} {inv : σ → Prop} {get : σ → Nat → β}
    {key : β → Int} {B : Nat} (hm : HeapModel H inv get key B) (a : σ) (n : Nat)
    (ha : inv a) (hn : n ≤ B) :
    ∃ a', heap_sort H a n = Except.ok a' ∧ inv a' ∧
      (∀ i j, 1 ≤ i → i ≤ j → j ≤ n → key (get a' i) ≤ key (get a' j)) ∧
      Rearr (get a) (get a') n := by
  unfold heap_sort
  obtain ⟨a1, e1, i1, h1, r1⟩ := for_loop_tot (b := fun i a => upheap H a i)
    (fun i a' => inv a' ∧ IsHeap (fun x => key (get a' x)) (i - 1) ∧ Rearr (get a) (get a') n)
    (n - 1) 2 a ⟨ha, fun x hx hx2 => by omega, rearr_refl _ _⟩ (by
      intro i s _ hi ⟨s1, s2, s3⟩
      obtain ⟨s', e, t1, t2, t3⟩ := upheap_loop_heap hm i (by omega) (i + 1) s i s1 (le_refl _)
        (by omega) ⟨fun x y hx hxh hne hy => by rw [hy]; exact s2 x hx (by omega),
          fun x y hx hxh hp => by omega⟩
      exact ⟨s', e, t1, t2, rearr_trans s3 (rearr_mono (by omega) t3)⟩)
  rw [e1, ok_bind]
  have h1' : IsHeap (fun x => key (get a1 x)) n := fun x hx hxn => h1 x hx (by omega)
  obtain ⟨a2, e2, i2, h2, r2⟩ := for_loop_tot (b := fun t a => (do
      let a ← H.heap_swap a 1 (n - t)
      heapfy H a 1 (n - t - 1) : Except Err σ))
    (fun t a' => inv a' ∧ SortInv (fun x => key (get a' x)) (n - t) n ∧
      Rearr (get a) (get a') n)
    (n - 1) 0 a1 ⟨i1, ⟨h1', fun i j hi hij hj => by omega, fun i j _ hi hj hj2 => by omega⟩, r1⟩
    (by
      intro t s _ ht ⟨s1, s2, s3⟩
      dsimp only
      obtain ⟨b1, f1, j1, g1⟩ := hm.2 s 1 (n - t) s1 (by omega) (by omega)
      rw [f1, ok_bind]
      obtain ⟨b2, f2, j2, k2, l2⟩ := heapfy_loop_heap hm (n - t - 1) (by omega)
        (n - t - 1 + 1) b1 1 j1 (le_refl _) (by omega) (by omega)
        ⟨fun x y hx hxh hne hy => by
          show key (get b1 x) ≤ key (get b1 y)
          rw [g1 x, g1 y, if_neg (by omega), if_neg (by omega), if_neg (by omega),
            if_neg (by omega), hy]
          exact s2.1 x hx (by omega), fun x y hx hxh hp h2 => by omega⟩
      refine ⟨b2, f2, j2, ?_, rearr_trans s3 (rearr_trans
        (rearr_swap (le_refl _) (by omega) (by omega) (by omega) g1)
        (rearr_mono (by omega) l2))⟩
      have : n - (t + 1) = n - t - 1 := by omega
      rw [this]
      refine sort_step (fun x => key (get s x)) (fun x => key (get b1 x))
        (fun x => key (get b2 x)) (n - t) n (by omega) (by omega) s2 (fun i => ?_) k2
        (fun i hi => by show key (get b2 i) = key (get b1 i); rw [l2.1 i hi])
        (fun c hc i hi1 hi2 => rearr_all l2 (fun x => key x ≤ c) hc i hi1 hi2)
      show key (get b1 i) = _
      rw [g1 i]
      split_ifs <;> rfl)
  refine ⟨a2, e2, i2, fun i j hi hij hj => ?_, r2⟩
  obtain ⟨_, q2, q3⟩ := h2
  by_cases c : i = 1
  · by_cases c2 : j = 1
    · rw [c, c2]
    · exact q3 i j hi (by omega) (by omega) hj
  · exact q2 i j (by omega) hij hj

/-! ## `sort_vector`: sorted and complete -/

theorem pair_swap_get (a : List pair) (p q : Nat) (hp : p < a.length) (hq : q < a.length) :
    (do
      let x ← rd a p
      let y ← rd a q
      let a ← wr a p y
      wr a q x : Except Err (List pair)) = Except.ok ((a.set p (sel a q)).set q (sel a p)) ∧
    ∀ i, sel ((a.set p (sel a q)).set q (sel a p)) i =
      if i = p then sel a q else if i = q then sel a p else sel a i := by
  constructor
  · rw [rd_eq hp, ok_bind, rd_eq hq, ok_bind, wr_eq hp, ok_bind, wr_eq (by simpa using hq)]
  · intro i
    rw [sel_set, sel_set]
    by_cases c1 : i = q
    · subst c1
      by_cases c2 : i = p
      · subst c2; simp [hp]
      · simp [c2, hq]
    · by_cases c2 : i = p
      · subst c2; simp [c1, hp]
      · simp [c1, c2]

theorem heapModel_pairinc (len : Nat) (hl : 1 ≤ len) :
    HeapModel pairinc (fun a => a.length = len) sel (fun x => x.cost) (len - 1) := by
  constructor
  · intro a p q ha hp hq
    have ha : a.length = len := ha
    simp only [pairinc]
    rw [rd_eq (by omega), ok_bind, rd_eq (by omega), ok_bind]
    rfl
  · intro a p q ha hp hq
    have ha : a.length = len := ha
    obtain ⟨e1, e2⟩ := pair_swap_get a p q (by omega) (by omega)
    exact ⟨_, e1, by simpa using ha, e2⟩

theorem heapModel_pairdec (len : Nat) (hl : 1 ≤ len) :
    HeapModel pairdec (fun a => a.length = len) sel (fun x => -x.cost) (len - 1) := by
  constructor
  · intro a p q ha hp hq
    have ha : a.length = len := ha
    simp only [pairdec]
    rw [rd_eq (by omega), ok_bind, rd_eq (by omega), ok_bind]
    show Except.ok _ = Except.ok _
    congr 1
    exact decide_eq_decide.2 ⟨fun h => by omega, fun h => by omega⟩
  · intro a p q ha hp hq
    have ha : a.length = len := ha
    obtain ⟨e1, e2⟩ := pair_swap_get a p q (by omega) (by omega)
    exact ⟨_, e1, by simpa using ha, e2⟩

theorem cell_at (s : List (List Int)) (n i j : Nat) (hi : i < n) (hj : j < n) (hij : i ≠ j) :
    cell s n (i * (n - 1) + (if i < j then j - 1 else j)) = ⟨sel (sel s i) j, i, j⟩ := by
  have hpos : (if i < j then j - 1 else j) < n - 1 := by split_ifs <;> omega
  have hn : 0 < n - 1 := by omega
  have e1 : (i * (n - 1) + (if i < j then j - 1 else j)) / (n - 1) = i := by
    rw [Nat.add_comm, Nat.add_mul_div_right _ _ hn, Nat.div_eq_of_lt hpos, Nat.zero_add]
  have e2 : (i * (n - 1) + (if i < j then j - 1 else j)) % (n - 1) =
      (if i < j then j - 1 else j) := by
    rw [Nat.add_comm, Nat.add_mul_mod_self_right, Nat.mod_eq_of_lt hpos]
  have e3 : (if (if i < j then j - 1 else j) < i then (if i < j then j - 1 else j)
      else (if i < j then j - 1 else j) + 1) = j := by
    split_ifs <;> omega
  unfold cell
  rw [e1, e2, e3]

theorem cell_inj (s : List (List Int)) (n t i j : Nat) (hn : 2 ≤ n)
    (h : cell s n t = ⟨sel (sel s i) j, i, j⟩) :
    t = i * (n - 1) + (if i < j then j - 1 else j) := by
  unfold cell at h
  injection h with _ h2 h3
  have hm := Nat.div_add_mod t (n - 1)
  have hr : t % (n - 1) < n - 1 := Nat.mod_lt _ (by omega)
  rw [h2] at hm h3
  have : t % (n - 1) = (if i < j then j - 1 else j) := by
    split_ifs at h3 ⊢ <;> omega
  rw [← hm, this, Nat.mul_comm]

theorem cell_count (s : List (List Int)) (n i j : Nat) (hn : 2 ≤ n) (hi : i < n) (hj : j < n)
    (hij : i ≠ j) :
    ((range (n * n - n)).filter (fun t => cell s n t = ⟨sel (sel s i) j, i, j⟩)).card = 1 := by
  rw [Finset.card_eq_one]
  refine ⟨i * (n - 1) + (if i < j then j - 1 else j), ?_⟩
  ext t
  rw [Finset.mem_filter, Finset.mem_range, Finset.mem_singleton]
  constructor
  · rintro ⟨_, h⟩
    exact cell_inj s n t i j hn h
  · intro h
    subst h
    refine ⟨?_, cell_at s n i j hi hj hij⟩
    rw [← mul_pred_eq]
    have hpos : (if i < j then j - 1 else j) < n - 1 := by split_ifs <;> omega
    calc i * (n - 1) + (if i < j then j - 1 else j) < i * (n - 1) + (n - 1) := by omega
      _ = (i + 1) * (n - 1) := by ring
      _ ≤ n * (n - 1) := Nat.mul_le_mul_right _ (by omega)

theorem sort_vector_fill_eq (d : List pair) (m : List (List Int)) (n : Nat) (hn : 2 ≤ n)
    (hm : Square n m) (hd : d.length = n * n - n + 1) :
    ∃ d', for_loop (fun i st => for_loop (fun j (st : List pair × Nat) =>
        if i ≠ j then (do
          let c ← rdm m i j
          let d ← wr st.1 st.2 ⟨c, i, j⟩
          pure (d, st.2 + 1) : Except Err (List pair × Nat))
        else pure st) 0 n st) 0 n (d, 0) = Except.ok (d', n * n - n) ∧
      d'.length = d.length ∧ ∀ t, t < n * n - n → sel d' t = cell m n t := by
  have hN := mul_pred_eq n
  obtain ⟨st, h1, h2⟩ := for_loop_tot
    (b := fun i st => for_loop (fun j (st : List pair × Nat) =>
        if i ≠ j then (do
          let c ← rdm m i j
          let d ← wr st.1 st.2 ⟨c, i, j⟩
          pure (d, st.2 + 1) : Except Err (List pair × Nat))
        else pure st) 0 n st)
    (fun i st => st.2 = i * (n - 1) ∧ st.1.length = d.length ∧
      ∀ t, t < st.2 → sel st.1 t = cell m n t)
    n 0 (d, 0) ⟨by simp, rfl, fun t ht => absurd ht (Nat.not_lt_zero _)⟩
    (by
      intro i st _ hi ⟨hk, hl, hP⟩
      have hi : i < n := by omega
      have e1 : (i + 1) * (n - 1) = i * (n - 1) + (n - 1) := by ring
      have e2 : (i + 1) * (n - 1) ≤ n * (n - 1) := Nat.mul_le_mul_right _ (by omega)
      obtain ⟨st', g1, g2⟩ := for_loop_tot
        (b := fun j (st : List pair × Nat) =>
          if i ≠ j then (do
            let c ← rdm m i j
            let d ← wr st.1 st.2 ⟨c, i, j⟩
            pure (d, st.2 + 1) : Except Err (List pair × Nat))
          else pure st)
        (fun j st => st.2 = i * (n - 1) + (if i < j then j - 1 else j) ∧
          st.1.length = d.length ∧ ∀ t, t < st.2 → sel st.1 t = cell m n t)
        n 0 st ⟨by simp [hk], hl, hP⟩
        (by
          intro j t _ hj ⟨tk, tl, tP⟩
          have hj : j < n := by omega
          dsimp only
          by_cases c : i ≠ j
          · rw [if_pos c, rdm_eq (by rw [hm.1]; exact hi) (by rw [hm.2 i hi]; exact hj), ok_bind]
            have hb : t.2 < t.1.length := by
              rw [tl, hd, tk]
              split_ifs <;> omega
            rw [wr_eq hb]
            refine ⟨_, rfl, ?_, by simpa using tl, ?_⟩
            · simp only [tk]
              split_ifs <;> omega
            · intro k hk2
              simp only at hk2 ⊢
              rw [sel_set]
              by_cases e : k = t.2
              · simp only [e, hb, and_self, if_true]
                rw [tk, cell_at m n i j hi hj c]
              · simp only [e, false_and, if_false]
                exact tP k (by omega)
          · rw [if_neg c]
            refine ⟨t, rfl, ?_, tl, tP⟩
            have : i = j := by omega
            subst this
            simp only [tk]
            split_ifs <;> omega)
      refine ⟨st', g1, ?_, g2.2.1, g2.2.2⟩
      rw [g2.1, e1]
      simp only [Nat.zero_add]
      rw [if_pos hi])
  obtain ⟨d', k⟩ := st
  obtain ⟨ek, el, eP⟩ := h2
  simp only [Nat.zero_add] at ek el eP
  rw [hN] at ek
  subst ek
  exact ⟨d', h1, el, eP⟩

theorem sum_Ioc_eq_range (F : Nat → Nat) (k : Nat) :
    ∑ i in Ioc 0 k, F i = ∑ t in range k, F (t + 1) := by
  induction k with
  | zero => simp
  | succ k ih => rw [Finset.sum_Ioc_succ_top (Nat.zero_le k), Finset.sum_range_succ, ih]

theorem sort_vector_sorted (d : List pair) (s : List (List Int)) (n : Nat) (inc : Bool)
    (hn : 2 ≤ n) (hs : Square n s) (hd : d.length = n * n - n + 1) :
    ∃ d', sort_vector d s n inc = Except.ok d' ∧ d'.length = d.length ∧
      (∀ f : pair → Nat, ∑ t in range (n * n - n), f (sel d' t) =
        ∑ t in range (n * n - n), f (cell s n t)) ∧
      (∀ t u, t ≤ u → u < n * n - n →
        if inc = true then (sel d' t).cost ≤ (sel d' u).cost
        else (sel d' u).cost ≤ (sel d' t).cost) := by
  unfold sort_vector
  obtain ⟨d1, h1, l1, p1⟩ := sort_vector_fill_eq d s n hn hs hd
  have hN := (two_le_cells n hn).2
  rw [h1]
  simp only [ok_bind]
  rw [rd_eq (by omega), ok_bind, wr_eq (by omega), ok_bind]
  generalize hk : n * n - n = k at *
  have hlen : (d1.set k (sel d1 0)).length = k + 1 := by simp [l1, hd]
  have hsrt : ∃ d2, (if inc = true then heap_sort pairinc (d1.set k (sel d1 0)) k
      else heap_sort pairdec (d1.set k (sel d1 0)) k) = Except.ok d2 ∧ d2.length = k + 1 ∧
      (∀ i j, 1 ≤ i → i ≤ j → j ≤ k →
        if inc = true then (sel d2 i).cost ≤ (sel d2 j).cost
        else (sel d2 j).cost ≤ (sel d2 i).cost) ∧
      Rearr (sel (d1.set k (sel d1 0))) (sel d2) k := by
    by_cases c : inc = true
    · rw [if_pos c]
      obtain ⟨d2, e2, q1, q2, q3⟩ := heap_sort_sorted (heapModel_pairinc (k + 1) (by omega))
        (d1.set k (sel d1 0)) k hlen (by omega)
      refine ⟨d2, e2, q1, fun i j hi hij hj => ?_, q3⟩
      rw [if_pos c]
      exact q2 i j hi hij hj
    · rw [if_neg c]
      obtain ⟨d2, e2, q1, q2, q3⟩ := heap_sort_sorted (heapModel_pairdec (k + 1) (by omega))
        (d1.set k (sel d1 0)) k hlen (by omega)
      refine ⟨d2, e2, q1, fun i j hi hij hj => ?_, q3⟩
      rw [if_neg c]
      have := q2 i j hi hij hj
      simp only at this
      omega
  obtain ⟨d2, e2, l2, s2, r2⟩ := hsrt
  rw [e2, ok_bind]
  obtain ⟨d3, e3, l3, q3⟩ := for_loop_tot
    (b := fun i (d : List pair) => (do
      let x ← rd d (i + 1)
      wr d i x : Except Err (List pair)))
    (fun i d' => d'.length = k + 1 ∧
      ∀ t, sel d' t = if t < i then sel d2 (t + 1) else sel d2 t)
    k 0 d2 ⟨l2, fun t => by rw [if_neg (Nat.not_lt_zero _)]⟩
    (by
      intro i t _ hi ⟨tl, tP⟩
      dsimp only
      rw [rd_eq (by omega), ok_bind, wr_eq (by omega)]
      refine ⟨_, rfl, by simpa using tl, fun u => ?_⟩
      rw [sel_set]
      by_cases c : u = i
      · subst c
        rw [if_pos ⟨rfl, by omega⟩, if_pos (by omega), tP (u + 1), if_neg (by omega)]
      · rw [if_neg (fun h => c h.1), tP u]
        by_cases c2 : u < i
        · rw [if_pos c2, if_pos (by omega)]
        · rw [if_neg c2, if_neg (by omega)])
  rw [Nat.zero_add] at q3
  have hsh : ∀ t, t < k → sel d3 t = sel d2 (t + 1) := fun t ht => by rw [q3 t, if_pos ht]
  refine ⟨d3, e3, by rw [l3, hd], fun f => ?_, fun t u htu hu => ?_⟩
  · have a1 : ∑ t in range k, f (sel d3 t) = ∑ t in range k, f (sel d2 (t + 1)) :=
      Finset.sum_congr rfl (fun t ht => by rw [hsh t (Finset.mem_range.1 ht)])
    rw [a1, ← sum_Ioc_eq_range (fun i => f (sel d2 i)), r2.2 f]
    obtain ⟨k', rfl⟩ : ∃ k', k = k' + 1 := ⟨k - 1, by omega⟩
    rw [Finset.sum_Ioc_succ_top (Nat.zero_le k'), Finset.sum_range_succ', sum_Ioc_eq_range]
    congr 1
    · refine Finset.sum_congr rfl (fun t ht => ?_)
      have ht : t < k' := Finset.mem_range.1 ht
      rw [sel_set_ne _ _ _ _ (by omega), p1 (t + 1) (by omega)]
    · rw [sel_set_eq _ _ _ (by omega), p1 0 (by omega)]
  · have := s2 (t + 1) (u + 1) (by omega) (by omega) (by omega)
    rw [hsh t (by omega), hsh u hu]
    exact this

theorem heapModel_doublepair (len : Nat) (hl : 1 ≤ len) :
    HeapModel doublepair (fun st => st.1.length = len ∧ st.2.length = len)
      (fun st i => (sel st.1 i, sel st.2 i)) (fun x => -(imul x.1.cost x.2.cost)) (len - 1) := by
  constructor
  · intro a p q ha hp hq
    have ha1 : a.1.length = len := ha.1
    have ha2 : a.2.length = len := ha.2
    simp only [doublepair]
    rw [rd_eq (by omega), ok_bind, rd_eq (by omega), ok_bind,
      rd_eq (by omega), ok_bind, rd_eq (by omega), ok_bind]
    show Except.ok _ = Except.ok _
    congr 1
    exact decide_eq_decide.2 ⟨fun h => by omega, fun h => by omega⟩
  · intro a p q ha hp hq
    have ha1 : a.1.length = len := ha.1
    have ha2 : a.2.length = len := ha.2
    obtain ⟨_, e2⟩ := pair_swap_get a.1 p q (by omega) (by omega)
    obtain ⟨_, f2⟩ := pair_swap_get a.2 p q (by omega) (by omega)
    simp only [doublepair]
    rw [rd_eq (by omega), ok_bind, rd_eq (by omega), ok_bind,
      rd_eq (by omega), ok_bind, wr_eq (by omega), ok_bind,
      wr_eq (by simp; omega), ok_bind,
      rd_eq (by omega), ok_bind, wr_eq (by omega), ok_bind,
      wr_eq (by simp; omega), ok_bind]
    refine ⟨_, rfl, ⟨by simpa using ha1, by simpa using ha2⟩, fun i => ?_⟩
    show (sel ((a.1.set p (sel a.1 q)).set q (sel a.1 p)) i,
      sel ((a.2.set p (sel a.2 q)).set q (sel a.2 p)) i) = _
    rw [e2 i, f2 i]
    split_ifs <;> rfl

theorem heap_sortn_full {σ : Type} (H : heap_ops σ) (a : σ) (n : Nat) :
    heap_sortn H a n n = heap_sort H a n := rfl

theorem gainf_split (n : Nat) (d f : Nat → Nat → Int) (p : Nat → Nat) (i j : Nat) :
    gainf n d f p i j = delta_closed_form n d f p i j + delta_row_part n d f p i j := by
  unfold gainf delta_closed_form delta_row_part
  have : ∀ k, (if k ≠ i ∧ k ≠ j then
      (d k i - d k j) * (f (p k) (p i) - f (p k) (p j)) +
      (d i k - d j k) * (f (p i) (p k) - f (p j) (p k)) else 0) =
      (if k ≠ i ∧ k ≠ j then (d k i - d k j) * (f (p k) (p i) - f (p k) (p j)) else 0) +
      (if k ≠ i ∧ k ≠ j then (d i k - d j k) * (f (p i) (p k) - f (p j) (p k)) else 0) := by
    intro k
    split_ifs <;> simp
  simp only [this, Finset.sum_add_distrib]
  ring

/-! ## The first iteration bounds the returned cost -/

theorem qs_swap_cost {s s' : qap_sol} {a b : Nat} (h : qs_swap s a b = Except.ok s') :
    s'.cost = s.cost := by
  unfold qs_swap at h
  refine par_bind h (fun _ _ h => ?_)
  refine par_bind h (fun _ _ h => ?_)
  refine par_bind h (fun _ _ h => ?_)
  refine par_bind h (fun _ _ h => ?_)
  refine par_bind h (fun _ _ h => ?_)
  refine par_bind h (fun _ _ h => ?_)
  refine par_bind h (fun _ _ h => ?_)
  refine par_bind h (fun _ _ h => ?_)
  rw [← pure_inj h]

theorem qs_copy_cost {s ns c : qap_sol} (h : qs_copy s ns = Except.ok c) : c.cost = ns.cost := by
  unfold qs_copy at h
  refine par_bind h (fun st _ h => ?_)
  rw [← pure_inj h]

theorem timed_out_s (E : env) (g : grasp) : (timed_out E g).2.s = g.s := by
  unfold timed_out
  split_ifs <;> rfl

theorem update_le {g g' : grasp} (h : update g = Except.ok g') :
    g'.best.cost ≤ g.s.cost := by
  unfold update at h
  refine par_ite h (fun c h => ?_) (fun c h => ?_)
  · refine par_bind h (fun b hb h => ?_)
    rw [← pure_inj h]
    exact le_of_eq (qs_copy_cost hb)
  · rw [← pure_inj h]
    omega

theorem extra_ls_le {E : env} {fuel : Nat} {q : qap_inst} {g g' : grasp} (hP : NonNeg q)
    (hs : Sound q g) (h : extra_ls E fuel g = Except.ok g') :
    g'.best.cost ≤ g.s.cost := by
  unfold extra_ls at h
  have := for_loop_par (fun i (x : grasp) => Sound q x ∧ ((i = 0 ∧ x.s.cost ≤ g.s.cost) ∨
      x.best.cost ≤ g.s.cost)) 10 0 g ⟨hs, Or.inl ⟨rfl, le_refl _⟩⟩
    (fun i x x' _ _ hI h => by
      obtain ⟨sx, hI⟩ := hI
      refine par_bind h (fun g1 h1 h => ?_)
      refine par_bind h (fun g2 h2 h => ?_)
      refine par_bind h (fun g3 h3 h => ?_)
      have s1 : Sound q g1 := good_elim ((pr_local_search_spec E (T := True) hP sx).1 fuel) h1
      obtain ⟨g2', e2, s2, _⟩ := update_sound s1
      rw [e2] at h2
      rw [ok_inj h2] at s2
      have s3 : Sound q g3 := good_elim ((ls_step_spec E s2).1 fuel) h3
      have s4 : Sound q x' := good_elim ((ls_step_spec E s3).1 fuel) h
      refine ⟨s4, Or.inr ?_⟩
      rw [ls_step_best h, ls_step_best h3]
      rcases hI with ⟨_, hI⟩ | hI
      · exact le_trans (update_le (by rw [e2, ok_inj h2]))
          (le_trans (pr_local_search_loop_cost E hP _ _ _ _ _ _ sx h1) hI)
      · exact le_trans (update_best (by rw [e2, ok_inj h2]))
          (le_trans (le_of_best_eq (pr_local_search_best h1)) hI))
    g' h
  rcases this.2 with ⟨c, _⟩ | c
  · omega
  · exact c

theorem main_loop_first {E : env} {fuel : Nat} {q : qap_inst} (hP : NonNeg q) (count : Nat)
    (e : elite) (g : grasp) (hr : Ready q g)
    (r : elite × grasp) (h : main_loop E fuel (count + 1) e g = Except.ok r)
    (hl : ¬ (g.l4 ≥ 0 ∧ g.l4 < g.best.cost)) (ht : g.max_time ≤ 0) :
    ∃ gc, constructor E { g with curr_iter := g.curr_iter + 1 } = Except.ok gc ∧
      r.2.best.cost ≤ gc.s.cost := by
  unfold main_loop at h
  dsimp only at h
  rw [if_neg hl] at h
  have tb : timed_out E { g with curr_iter := g.curr_iter + 1 } =
      (false, { g with curr_iter := g.curr_iter + 1 }) := by
    unfold timed_out
    rw [if_neg (by show ¬ g.max_time > 0; omega)]
  rw [tb] at h
  dsimp only at h
  refine par_bind h (fun g1 h1 h => ?_)
  refine ⟨g1, h1, ?_⟩
  refine par_bind h (fun g2 h2 h => ?_)
  refine par_bind h (fun x3 h3 h => ?_)
  have e3 := pr_run_best h3
  obtain ⟨e3', g3⟩ := x3
  dsimp only at h e3
  refine par_bind h (fun x4 h4 h => ?_)
  have e4 := pr_rev_run_best h4
  obtain ⟨e4', g4⟩ := x4
  dsimp only at h e4
  refine par_bind h (fun x5 h5 h => ?_)
  have e5 := pr_update_best h5
  obtain ⟨e5', g5⟩ := x5
  dsimp only at h e5
  refine par_bind h (fun g6 h6 h => ?_)
  have e6 := update_best h6
  have sc : Sound q g1 := by
    have hr1 : Ready q { g with curr_iter := g.curr_iter + 1 } :=
      ready_upd hr ⟨rfl, rfl, rfl, rfl, rfl, rfl, rfl, rfl⟩ rfl rfl
    obtain ⟨gc, ec, sc⟩ := constructor_sound E hP hr1
    rw [ec] at h1
    rw [← ok_inj h1]
    exact sc
  have e2 := extra_ls_le hP sc h2
  have := main_loop_best _ _ _ _ h
  rw [e5, e4, e3] at e6
  exact le_trans this (le_trans e6 e2)

theorem run_grasp_pr_first {E : env} {fuel : Nat} {g : grasp} {max_itr : Int} {r : Int × grasp}
    (h : run_grasp_pr E fuel g max_itr = Except.ok r) (he : 1 ≤ g.elite_size)
    (hP : NonNeg g.q) (hF : Fits g.q) (hb : Buffers g) (hvs : Valid g.s) (hvb : Valid g.best)
    (hbn : g.best.n = g.q.n) (hi : 1 ≤ max_itr)
    (hl : ¬ (g.l4 ≥ 0 ∧ g.l4 < objective g.q g.best.p)) (ht : g.max_time ≤ 0) :
    ∃ gc, constructor E { { g with best := { g.best with cost := objective g.q g.best.p } } with
        curr_iter := 0 + 1 } = Except.ok gc ∧
      r.1 ≤ gc.s.cost := by
  have hn : 1 ≤ g.q.n := by have := hb.2.1; omega
  have hq : WF g.q := hb.1
  have hp : IsPerm g.best.p g.q.n := by rw [← hbn]; exact hvb.isPerm
  unfold run_grasp_pr at h
  rw [pr_new_some E g g.elite_size he hn] at h
  dsimp only at h
  rw [qs_objective_eq hq hp hF] at h
  simp only [ok_bind] at h
  refine par_bind h (fun x hx h => ?_)
  obtain ⟨k, hk⟩ : ∃ k, max_itr.toNat = k + 1 := ⟨max_itr.toNat - 1, by omega⟩
  rw [hk] at hx
  have hr0 : Ready g.q { g with curr_iter := 0, best := { g.best with cost := objective g.q g.best.p } } :=
    ⟨rfl, buffers_same hb ⟨rfl, rfl, rfl, rfl, rfl, rfl, rfl, rfl⟩ hb.2.2.1,
      tracked_of_objective hP hF hvb hbn rfl, hvs⟩
  obtain ⟨gc, hc, e1⟩ := main_loop_first hP k _ _ hr0 _ hx hl ht
  refine ⟨gc, hc, ?_⟩
  obtain ⟨e1', g1⟩ := x
  dsimp only at h e1
  refine par_bind h (fun y hy h => ?_)
  have e2 := pr_post_optimization_best hy
  obtain ⟨y1, e2', g2⟩ := y
  dsimp only at h e2
  refine par_bind h (fun g3 h3 h => ?_)
  have e3 := update_best h3
  rw [← pure_inj h]
  exact le_trans e3 (le_trans e2 e1)

theorem sel_map_of_lt {α β : Type} [Inhabited α] [Inhabited β] (f : α → β) (l : List α) (i : Nat)
    (h : i < l.length) : sel (l.map f) i = f (sel l i) := by
  simp [sel, List.getElem?_eq_getElem h]

theorem copy_out_eq (p : List Nat) (sol : List Int) (n : Nat) (hp : p.length = n)
    (hs : sol.length = n) :
    for_loop (fun i s => do
        let v ← rd p i
        wr s i (v : Int)) 0 n sol = Except.ok (p.map Int.ofNat) := by
  obtain ⟨s', e, h1, h2⟩ := for_loop_tot (b := fun i s => do
        let v ← rd p i
        wr s i (v : Int))
    (fun i s => s.length = n ∧ ∀ k, k < i → sel s k = ((sel p k : Nat) : Int)) n 0 sol
    ⟨hs, fun k hk => absurd hk (Nat.not_lt_zero _)⟩
    (by
      intro i s _ hi ⟨a1, a2⟩
      dsimp only
      rw [rd_eq (by omega), ok_bind, wr_eq (by omega)]
      refine ⟨_, rfl, by simp [a1], fun k hk => ?_⟩
      by_cases c : k = i
      · subst c; rw [sel_set_eq _ _ _ (by omega)]
      · rw [sel_set_ne _ _ _ _ c]; exact a2 k (by omega))
  rw [e]
  congr 1
  refine ext_sel (by simp [h1, hp]) (fun i hi => ?_)
  rw [h2 i (by omega), sel_map_of_lt _ _ _ (by omega)]
  rfl

theorem nonneg_abs4 : NonNeg inst_abs4 := by
  intro i j hi hj
  have hi : i < 4 := hi
  have hj : j < 4 := hj
  interval_cases i <;> interval_cases j <;> simp [Fv, Dv, sel, inst_abs4]

theorem fits_abs4 : Fits inst_abs4 := by
  refine fits_of_cells inst_abs4 3 3 (fun a b ha hb => ?_) (fun a b ha hb => ?_) (by decide)
  · have ha : a < 4 := ha
    have hb : b < 4 := hb
    interval_cases a <;> interval_cases b <;> simp [Dv, sel, inst_abs4, abs4]
  · have ha : a < 4 := ha
    have hb : b < 4 := hb
    interval_cases a <;> interval_cases b <;> simp [Fv, sel, inst_abs4, abs4]

theorem neutral_abs4 : Neutral inst_abs4 := by
  refine Or.inr (fun i j hi hj => ?_)
  have hi : i < 4 := hi
  have hj : j < 4 := hj
  interval_cases i <;> interval_cases j <;> rfl

theorem objective_abs4 : objective inst_abs4 [0, 1, 2, 3] = 40 := by
  simp [objective, objf, Finset.sum_range_succ, sel, Dv, Fv, inst_abs4]

theorem buffers_engine21 (E : env) : Buffers (engine21 E) :=
  ⟨(by decide : WF inst_abs4), (by decide : 2 ≤ 4), rfl, rfl, rfl, rfl, rfl, rfl,
    fun k => Nat.div_le_self k 4, fun k => Nat.div_le_self k 2⟩

theorem valid_ident4 (c : Int) : Valid ⟨4, [0, 1, 2, 3], [0, 1, 2, 3], c⟩ := by
  refine ⟨rfl, rfl, fun i hi => ?_, fun i hi j hj => ?_, fun i hi => ?_⟩
  · have hi : i < 4 := hi
    interval_cases i <;> simp [sel]
  · have hi : i < 4 := hi
    have hj : j < 4 := hj
    interval_cases i <;> interval_cases j <;> simp [sel]
  · have hi : i < 4 := hi
    interval_cases i <;> rfl

theorem abs4_entry (E : env) (fuel : Nat) :
    qap_grasppr E fuel 4 abs4 abs4 [0, 0, 0, 0] quarter half 1 10 (-1) 10 0 [270001, 0] =
      (run_grasp_pr E fuel (engine21 E) 10 >>= fun r =>
        for_loop (fun i s => do
            let v ← rd r.2.best.p i
            wr s i (v : Int)) 0 4 [0, 0, 0, 0] >>= fun s =>
          wr [270001, 0] 1 r.2.curr_iter >>= fun io => pure ⟨r.1, s, io⟩) := by
  unfold qap_grasppr
  rw [if_neg (by decide)]
  have e1 : rd ([270001, 0] : List Int) 0 = Except.ok 270001 := rfl
  have e2 : qi_new (4 : Int).toNat abs4 abs4 = Except.ok inst_abs4 := rfl
  have e3 : g_new E inst_abs4 =
      some { { engine21 E with alpha := ⟨fun k => k / 10⟩ } with curr_prog_iter := 0 } := rfl
  simp only [e1, e2, e3, ok_bind]
  rfl

theorem abs4_constructor :
    (constructor env_id { { engine21 env_id with best := ⟨4, [0, 1, 2, 3], [0, 1, 2, 3], 40⟩ } with
        curr_iter := 1 }).toOption.map (fun g => (g.s.p, g.s.cost)) = some ([1, 0, 2, 3], 36) := by
  decide!

theorem run_grasp_pr_exact (E : env) (g : grasp) (max_itr : Int) (hb : Buffers g)
    (hP : NonNeg g.q) (hN : Neutral g.q) (hF : Fits g.q) (hvs : Valid g.s) (hvb : Valid g.best)
    (hbn : g.best.n = g.q.n) (he : 2 ≤ g.elite_size) :
    (∀ fuel x, run_grasp_pr E fuel g max_itr = Except.ok x →
      Valid x.2.best ∧ x.2.best.n = g.q.n ∧
      (0 < max_itr → ¬ (g.l4 ≥ 0 ∧ g.l4 < objective g.q g.best.p) → g.max_time ≤ 0 →
        x.1 = objective g.q x.2.best.p)) ∧
    (Fair E g.q.n → ∃ N x, Valid x.2.best ∧ x.2.best.n = g.q.n ∧
      ∀ fuel, N ≤ fuel → run_grasp_pr E fuel g max_itr = Except.ok x) := by
  have sp := run_grasp_pr_spec E max_itr hP hN hF rfl hb hvs hvb hbn he
  constructor
  · intro fuel x hx
    have gd : Good (run_grasp_pr E fuel g max_itr) _ := sp.1 fuel
    rw [hx] at gd
    exact gd.2
  · intro hf
    obtain ⟨N, x, px, hx⟩ := sp.tot hf
    exact ⟨N, x, px.2.1, px.2.2.1, hx⟩

/-- What the run of scenario 3 returns, for any stream: a cost of at most 40
that is the objective of the returned permutation; and it returns for every
sufficiently large fuel when the stream is fair. -/
theorem abs4_run (E : env) :
    (∀ fuel r, qap_grasppr E fuel 4 abs4 abs4 [0, 0, 0, 0] quarter half 1 10 (-1) 10 0
        [270001, 0] = Except.ok r →
      r.ret ≤ 40 ∧ (∃ p, IsPerm p 4 ∧ r.sol = p.map Int.ofNat ∧
        r.ret = objective inst_abs4 p) ∧
      ∃ x, run_grasp_pr E fuel (engine21 E) 10 = Except.ok x ∧ r.ret = x.1) ∧
    (Fair E 4 → ∃ N r, ∀ fuel, N ≤ fuel →
      qap_grasppr E fuel 4 abs4 abs4 [0, 0, 0, 0] quarter half 1 10 (-1) 10 0 [270001, 0] =
        Except.ok r) := by
  have hb := buffers_engine21 E
  have sp := run_grasp_pr_exact E (engine21 E) 10 hb nonneg_abs4 neutral_abs4 fits_abs4
    (valid_ident4 _) (valid_ident4 _) rfl (by decide : (2 : Int) ≤ 10)
  have post : ∀ x : Int × grasp, Valid x.2.best → x.2.best.n = 4 →
      (for_loop (fun i s => do
            let v ← rd x.2.best.p i
            wr s i (v : Int)) 0 4 [0, 0, 0, 0] >>= fun s =>
          wr [270001, 0] 1 x.2.curr_iter >>= fun io =>
            (pure ⟨x.1, s, io⟩ : Except Err jni_result)) =
        Except.ok ⟨x.1, x.2.best.p.map Int.ofNat, [270001, x.2.curr_iter]⟩ := by
    intro x hv hn
    rw [copy_out_eq x.2.best.p [0, 0, 0, 0] 4 (by rw [hv.1, hn]) rfl, ok_bind,
      wr_eq (by decide), ok_bind]
    rfl
  constructor
  · intro fuel r h
    rw [abs4_entry] at h
    refine par_bind h (fun x hx h => ?_)
    obtain ⟨g1, g2, g3⟩ := sp.1 fuel x hx
    have g2 : x.2.best.n = 4 := g2
    have g3 : x.1 = objective inst_abs4 x.2.best.p :=
      g3 (by decide) (fun c => absurd c.1 (by decide : ¬ (-1 : Int) ≥ 0))
        (by decide : (0 : Int) ≤ 0)
    have hr := ok_inj ((post x g1 g2).symm.trans h)
    have le := run_grasp_pr_le hx (by decide : (1 : Int) ≤ 10) (by decide : 1 ≤ 4) hb.1
      (valid_ident4 _).isPerm
    have le : x.1 ≤ wrap (objective inst_abs4 [0, 1, 2, 3]) := le
    rw [objective_abs4] at le
    have le : x.1 ≤ 40 := le
    rw [← hr]
    refine ⟨le, ⟨x.2.best.p, ?_, rfl, g3⟩, x, hx, rfl⟩
    have := g1.isPerm
    rwa [g2] at this
  · intro hf
    obtain ⟨N, x, p1, p2, hx⟩ := sp.2 hf
    refine ⟨N, ⟨x.1, x.2.best.p.map Int.ofNat, [270001, x.2.curr_iter]⟩,
      fun fuel hfu => ?_⟩
    rw [abs4_entry, hx fuel hfu, ok_bind]
    exact post x p1 p2

/-- With the stream `env_id` the run of scenario 3 returns a cost of at most 36. -/
theorem abs4_run_id (fuel : Nat) (x : Int × grasp)
    (h : run_grasp_pr env_id fuel (engine21 env_id) 10 = Except.ok x) : x.1 ≤ 36 := by
  obtain ⟨gc, hc, le⟩ := run_grasp_pr_first h (by decide : (1 : Int) ≤ 10)
    nonneg_abs4 fits_abs4 (buffers_engine21 _) (valid_ident4 _) (valid_ident4 _) rfl (by decide)
    (fun c => absurd c.1 (by decide : ¬ (-1 : Int) ≥ 0)) (by decide : (0 : Int) ≤ 0)
  have hc : constructor env_id { { engine21 env_id with best := ⟨4, [0, 1, 2, 3], [0, 1, 2, 3],
      objective inst_abs4 [0, 1, 2, 3]⟩ } with curr_iter := 1 } = Except.ok gc := hc
  rw [objective_abs4] at hc
  have e := abs4_constructor
  rw [hc] at e
  have e : some (gc.s.p, gc.s.cost) = some ([1, 0, 2, 3], 36) := e
  have e : gc.s.cost = 36 := congrArg Prod.snd (Option.some.inj e)
  omega

/-! ## The walk of `execute_pr` -/

theorem walk_loop {E : env} {N n : Nat} {t : qap_sol} {st : pr_state} {tr : Nat → pr_state}
    (h : IsWalk E N t n st tr) (fuel : Nat) (hf : N ≤ fuel) :
    for_loop (execute_pr_step E fuel (some t)) 0 n st = Except.ok (tr n) := by
  obtain ⟨s', e, hs⟩ := for_loop_tot (b := execute_pr_step E fuel (some t))
    (fun i s => s = tr i) n 0 st h.1.symm
    (fun i s _ hi hI => ⟨tr (i + 1), by rw [hI]; exact h.2 fuel hf i (by omega), rfl⟩)
  rw [e, hs, Nat.zero_add]

theorem simf_swap_lt (p t : List Nat) (n i j : Nat) (hi : i < n) (hj : j < n)
    (hlen : p.length = n) (hdi : sel p i ≠ sel t i) (hpj : sel p j = sel t i) (hij : i ≠ j)
    (ht : ∀ a, a < n → ∀ b, b < n → sel t a = sel t b → a = b) :
    simf (swp p i j) t n < simf p t n ∧ 2 ≤ simf p t n := by
  have hdj : sel p j ≠ sel t j := by
    rw [hpj]
    intro e
    exact hij (ht i hi j hj e)
  constructor
  · unfold simf
    refine Finset.sum_lt_sum (fun k hk => ?_) ⟨i, Finset.mem_range.2 hi, ?_⟩
    · rw [sel_swp _ _ _ _ (by omega) (by omega)]
      by_cases c1 : k = j
      · rw [if_pos c1, c1, if_pos hdj]
        split_ifs <;> omega
      · rw [if_neg c1]
        by_cases c2 : k = i
        · rw [if_pos c2, c2, if_pos hdi]
          split_ifs <;> omega
        · rw [if_neg c2]
    · rw [sel_swp _ _ _ _ (by omega) (by omega), if_neg hij, if_pos rfl, if_pos hdi,
        if_neg (by rw [hpj]; exact fun h => h rfl)]
      omega
  · rw [simf_card]
    have : 1 < ((range n).filter (fun k => sel p k ≠ sel t k)).card :=
      Finset.one_lt_card.2 ⟨i, by rw [Finset.mem_filter, Finset.mem_range]; exact ⟨hi, hdi⟩,
        j, by rw [Finset.mem_filter, Finset.mem_range]; exact ⟨hj, hdj⟩, hij⟩
    omega

theorem swaps_succ (tr : Nat → pr_state) (t : List Nat) (i : Nat) :
    (swaps tr t (i + 1)).card =
      (swaps tr t i).card + if sel (tr i).s.p i ≠ sel t i then 1 else 0 := by
  unfold swaps
  rw [Finset.range_succ, Finset.filter_insert]
  by_cases c : sel (tr i).s.p i ≠ sel t i
  · rw [if_pos c, if_pos c, Finset.card_insert_of_not_mem]
    rw [Finset.mem_filter, Finset.mem_range]
    omega
  · rw [if_neg c, if_neg c]; rfl

theorem spec_lopt_mem : ∀ (l : List qap_sol) (x : qap_sol), spec_lopt l = some x → x ∈ l := by
  intro l
  induction l with
  | nil => intro x h; simp [spec_lopt] at h
  | cons c l ih =>
    intro x h
    match l, ih with
    | [], _ => simp [spec_lopt] at h
    | [b], _ => simp [spec_lopt] at h
    | b :: a :: rest, ih =>
      rw [spec_lopt] at h
      by_cases c1 : b.cost < a.cost ∧ b.cost < c.cost
      · rw [if_pos c1] at h
        cases hr : spec_lopt (b :: a :: rest) with
        | none =>
          rw [hr] at h
          have : b = x := Option.some.inj h
          rw [← this]
          simp
        | some y =>
          rw [hr] at h
          dsimp only at h
          by_cases c2 : b.cost < y.cost
          · rw [if_pos c2] at h
            have : b = x := Option.some.inj h
            rw [← this]
            simp
          · rw [if_neg c2] at h
            rw [← Option.some.inj h]
            exact List.mem_cons_of_mem _ (ih y hr)
      · rw [if_neg c1] at h
        exact List.mem_cons_of_mem _ (ih x h)

theorem sound_engine20 : Sound inst3 engine20 :=
  ⟨rfl, ⟨by decide, by decide, by decide, by decide, by decide, by decide, by decide,
      by decide, fun k => Nat.div_le_self k 4, fun k => Nat.div_le_self k 2⟩,
    tracked_of_objective nonneg_inst3 fits_inst3 (by decide) rfl (by
      simp [objective, objf, Finset.sum_range_succ, sel, Dv, Fv, inst3, engine20]),
    tracked_of_objective nonneg_inst3 fits_inst3 (by decide) rfl (by
      simp [objective, objf, Finset.sum_range_succ, sel, Dv, Fv, inst3, engine20])⟩

theorem tracked_pool20 : Tracked inst3 ⟨3, [0, 1, 2], [0, 1, 2], 21⟩ ∧
    Tracked inst3 ⟨3, [1, 2, 0], [2, 0, 1], 16⟩ :=
  ⟨tracked_of_objective nonneg_inst3 fits_inst3 (by decide) rfl (by
      simp [objective, objf, Finset.sum_range_succ, sel, Dv, Fv, inst3]),
    tracked_of_objective nonneg_inst3 fits_inst3 (by decide) rfl (by
      simp [objective, objf, Finset.sum_range_succ, sel, Dv, Fv, inst3])⟩

/-! ## A round of `phase2`: which pair is assigned -/

theorem exch_exch (p : Nat → Nat) (i j : Nat) : exch (exch p i j) i j = p := by
  funext k
  unfold exch
  by_cases c1 : k = j
  · subst c1
    by_cases c2 : i = k
    · simp [c2]
    · simp [c2]
  · by_cases c2 : k = i
    · subst c2
      simp [c1]
    · simp [c1, c2]

theorem gainf_comm (n : Nat) (d f : Nat → Nat → Int) (p : Nat → Nat) (i j : Nat) :
    gainf n d f p i j = gainf n d f p j i := by
  unfold gainf
  have : ∀ k, (if k ≠ i ∧ k ≠ j then
      (d k i - d k j) * (f (p k) (p i) - f (p k) (p j)) +
      (d i k - d j k) * (f (p i) (p k) - f (p j) (p k)) else 0) =
      (if k ≠ j ∧ k ≠ i then
      (d k j - d k i) * (f (p k) (p j) - f (p k) (p i)) +
      (d j k - d i k) * (f (p j) (p k) - f (p i) (p k)) else 0) := by
    intro k
    by_cases c : k ≠ i ∧ k ≠ j
    · rw [if_pos c, if_pos ⟨c.2, c.1⟩]; ring
    · rw [if_neg c, if_neg (fun h => c ⟨h.2, h.1⟩)]
  simp only [this]
  ring

theorem gainf_exch (n : Nat) (d f : Nat → Nat → Int) (p : Nat → Nat) (i j : Nat)
    (hi : i < n) (hj : j < n) : gainf n d f (exch p i j) i j = - gainf n d f p i j := by
  by_cases hij : i = j
  · subst hij
    rw [gainf_self, gainf_self]; rfl
  · have a := off_exch n d f p i j hi hj hij
    have b := off_exch n d f (exch p i j) i j hi hj hij
    rw [exch_exch] at b
    linarith

theorem swp_self (p : List Nat) (i : Nat) (hi : i < p.length) : swp p i i = p := by
  refine ext_sel (length_swp _ _ _) (fun k _ => ?_)
  rw [sel_swp _ _ _ _ hi hi]
  by_cases c : k = i
  · rw [if_pos c, c]
  · rw [if_neg c, if_neg c]

/-- The sum `gainf` of the terms of `g_improvement` on a valid solution, against
the two objectives. -/
theorem gainf_exact {q : qap_inst} {s : qap_sol} {i j : Nat}
    (hs : Valid s) (hn : s.n = q.n) (hi : i < q.n) (hj : j < q.n) :
    gainf q.n (Dv q) (Fv q) (sel s.p) i j = offobj q s.p - offobj q (swp s.p i j) ∧
    objective q s.p - objective q (swp s.p i j) - gainf q.n (Dv q) (Fv q) (sel s.p) i j =
      (Dv q i i - Dv q j j) * (Fv q (sel s.p i) (sel s.p i) - Fv q (sel s.p j) (sel s.p j)) := by
  have hp : IsPerm s.p q.n := by rw [← hn]; exact hs.isPerm
  have li : i < s.p.length := by rw [hp.1]; exact hi
  have lj : j < s.p.length := by rw [hp.1]; exact hj
  refine ⟨?_, ?_⟩
  · by_cases hij : i = j
    · subst hij
      rw [gainf_self, swp_self _ _ li, sub_self]
    · unfold offobj
      rw [sel_swp_exch _ _ _ li lj]
      exact (off_exch q.n (Dv q) (Fv q) (sel s.p) i j hi hj hij).symm
  · by_cases hij : i = j
    · subst hij
      rw [gainf_self, swp_self _ _ li]
      ring
    · unfold objective
      rw [sel_swp_exch _ _ _ li lj]
      have := objf_exch q.n (Dv q) (Fv q) (sel s.p) i j hi hj hij
      linarith

/-- What `g_improvement` returns on a valid solution of an instance whose costs
fit in an `int`, against the two objectives. -/
theorem g_improvement_exact {q : qap_inst} {s : qap_sol} {i j : Nat} (hq : WF q)
    (hs : Valid s) (hn : s.n = q.n) (hi : i < q.n) (hj : j < q.n) (hF : Fits q) :
    g_improvement s q i j = Except.ok (gainf q.n (Dv q) (Fv q) (sel s.p) i j) ∧
    gainf q.n (Dv q) (Fv q) (sel s.p) i j = offobj q s.p - offobj q (swp s.p i j) ∧
    objective q s.p - objective q (swp s.p i j) - gainf q.n (Dv q) (Fv q) (sel s.p) i j =
      (Dv q i i - Dv q j j) * (Fv q (sel s.p i) (sel s.p i) - Fv q (sel s.p j) (sel s.p j)) :=
  ⟨g_improvement_eq hq (by rw [← hn]; exact hs.isPerm) hi hj hF, gainf_exact hs hn hi hj⟩

/-! ## Post-optimization on a pool that is not full -/

theorem pr_post_optimization_skip (E : env) (fuel : Nat) (e : elite) (g : grasp)
    (h : e.cur_size < e.size) : pr_post_optimization E fuel e g = Except.ok (0, e, g) := by
  unfold pr_post_optimization
  split
  · rfl
  · rw [if_pos h]; rfl

theorem update_post {g g' : grasp} (h : update g = Except.ok g') :
    g'.best.cost ≤ g'.s.cost ∧ g'.s = g.s := by
  unfold update at h
  refine par_ite h (fun c h => ?_) (fun c h => ?_)
  · refine par_bind h (fun b hb h => ?_)
    rw [← pure_inj h]
    exact ⟨le_of_eq (qs_copy_cost hb), rfl⟩
  · rw [← pure_inj h]
    exact ⟨by omega, rfl⟩

theorem update_skip {g : grasp} (h : g.best.cost ≤ g.s.cost) : update g = Except.ok g := by
  unfold update
  rw [if_neg (by omega)]
  rfl

theorem main_loop_ends {E : env} {fuel : Nat} : ∀ (count : Nat) (e : elite) (g : grasp)
    (r : elite × grasp), main_loop E fuel count e g = Except.ok r →
    r.2.best.cost ≤ r.2.s.cost ∨ (r.2.best = g.best ∧ r.2.s = g.s ∧ r.1 = e) := by
  intro count
  induction count with
  | zero => intro e g r h; rw [← pure_inj h]; exact Or.inr ⟨rfl, rfl, rfl⟩
  | succ k ih =>
    intro e g r h
    unfold main_loop at h
    dsimp only at h
    refine par_ite h (fun _ h => ?_) (fun _ h => ?_)
    · rw [← pure_inj h]; exact Or.inr ⟨rfl, rfl, rfl⟩
    · have tb := timed_out_best E { g with curr_iter := g.curr_iter + 1 }
      have ts := timed_out_s E { g with curr_iter := g.curr_iter + 1 }
      generalize timed_out E { g with curr_iter := g.curr_iter + 1 } = tg at h tb ts
      obtain ⟨t, g0⟩ := tg
      dsimp only at h tb ts
      refine par_ite h (fun _ h => ?_) (fun _ h => ?_)
      · rw [← pure_inj h]; exact Or.inr ⟨tb, ts, rfl⟩
      · refine par_bind h (fun g1 h1 h => ?_)
        refine par_bind h (fun g2 h2 h => ?_)
        refine par_bind h (fun x3 h3 h => ?_)
        obtain ⟨e3', g3⟩ := x3
        dsimp only at h
        refine par_bind h (fun x4 h4 h => ?_)
        obtain ⟨e4', g4⟩ := x4
        dsimp only at h
        refine par_bind h (fun x5 h5 h => ?_)
        obtain ⟨e5', g5⟩ := x5
        dsimp only at h
        refine par_bind h (fun g6 h6 h => ?_)
        have e6 := update_post h6
        rcases ih _ _ _ h with c | ⟨c1, c2, _⟩
        · exact Or.inl c
        · refine Or.inl ?_
          rw [c1, c2]
          exact e6.1

theorem run_grasp_pr_not_full {E : env} {fuel : Nat} {g : grasp} {max_itr : Int} {ecp e' : elite}
    {best : qap_sol} {g' : grasp} (h1 : pr_new E g g.elite_size = some ecp)
    (h2 : qs_objective g.best g.q = Except.ok best)
    (h3 : main_loop E fuel max_itr.toNat ecp { { g with curr_iter := 0 } with best := best } =
      Except.ok (e', g'))
    (h4 : e'.cur_size < e'.size) :
    run_grasp_pr E fuel g max_itr = (update g' >>= fun g2 => pure (g2.best.cost, g2)) ∧
    (g'.best.cost ≤ g'.s.cost → run_grasp_pr E fuel g max_itr = Except.ok (g'.best.cost, g')) := by
  have e : run_grasp_pr E fuel g max_itr = (update g' >>= fun g2 => pure (g2.best.cost, g2)) := by
    unfold run_grasp_pr
    rw [h1]
    dsimp only
    rw [h2, ok_bind, h3, ok_bind]
    dsimp only
    rw [pr_post_optimization_skip E fuel e' g' h4, ok_bind]
  refine ⟨e, fun h => ?_⟩
  rw [e, update_skip h, ok_bind]
  rfl

/-! ## The bookkeeping of a construction -/

theorem assignInv_of_marks {g : grasp} (hn : g.s.n = g.q.n) (hm : Marks g) (hb : Bits g) :
    AssignInv g := by
  obtain ⟨hv, hk, h3, h4, h5, h6⟩ := hm
  have d1 : ∀ a, a < g.q.n → (sel g.done a = 1 ↔ sel g.done a ≠ 0) := by
    intro a ha
    have := hb.1 a ha
    omega
  have l1 : ∀ v, v < g.q.n → (sel g.ldone v = 1 ↔ sel g.ldone v ≠ 0) := by
    intro v hv'
    have := hb.2 v hv'
    omega
  refine ⟨hv, hk, h3, h4, fun a ha => ?_, fun v hv' => ?_, fun a ha => ?_, fun a ha => ?_⟩
  · have := hb.1 a ha
    omega
  · have := hb.2 v hv'
    omega
  · rw [d1 a ha]; exact h5 a ha
  · have pa : sel g.s.p a < g.q.n := by rw [← hn]; exact hv.2.2.1 a (by omega)
    rw [d1 a ha, l1 _ pa, h5 a ha, h6 _ pa]
    constructor
    · rintro ⟨t, ht, e⟩
      exact ⟨t, ht, by rw [e]⟩
    · rintro ⟨t, ht, e⟩
      refine ⟨t, ht, ?_⟩
      exact hv.2.2.2.1 _ (by rw [hn]; exact h3 t ht) _ (by rw [hn]; exact ha) e

theorem marks_of_assignInv {g : grasp} (hn : g.s.n = g.q.n) (h : AssignInv g) :
    Marks g ∧ Bits g := by
  obtain ⟨hv, hk, h3, h4, b1, b2, h5, h6⟩ := h
  have hb : Bits g := ⟨fun a ha => by have := b1 a ha; omega, fun v hv' => by
    have := b2 v hv'; omega⟩
  refine ⟨⟨hv, hk, h3, h4, fun a ha => ?_, fun v hv' => ?_⟩, hb⟩
  · rw [← h5 a ha]
    have := b1 a ha
    omega
  · obtain ⟨a, ha, e⟩ := hv.surj v (by rw [hn]; exact hv')
    have ha' : a < g.q.n := by rw [← hn]; exact ha
    have hl : sel g.ldone v ≠ 0 ↔ sel g.ldone v = 1 := by
      have := b2 v hv'
      omega
    rw [hl, ← e, ← h6 a ha', h5 a ha']
    constructor
    · rintro ⟨t, ht, e'⟩
      exact ⟨t, ht, by rw [e']⟩
    · rintro ⟨t, ht, e'⟩
      exact ⟨t, ht, hv.2.2.2.1 _ (by rw [hn]; exact h3 t ht) _ ha e'⟩

theorem bits_set {g : grasp} {p q : Nat} (hb : Bits g) (d l : List Nat)
    (hd : d = g.done.set p 1) (hl : l = g.ldone.set q 1) :
    (∀ a, a < g.q.n → sel d a ≤ 1) ∧ (∀ v, v < g.q.n → sel l v ≤ 1) := by
  subst hd
  subst hl
  constructor
  · intro a ha
    rw [sel_set]
    split_ifs
    · exact le_refl _
    · exact hb.1 a ha
  · intro v hv
    rw [sel_set]
    split_ifs
    · exact le_refl _
    · exact hb.2 v hv

theorem g_assign_bits {g g' : grasp} {p q : Nat} (h : g_assign g p q = Except.ok g') :
    g'.q = g.q ∧ (Bits g → Bits g') := by
  unfold g_assign at h
  refine par_bind h (fun s _ h => ?_)
  refine par_bind h (fun a _ h => ?_)
  refine par_bind h (fun l hl h => ?_)
  refine par_bind h (fun d hd h => ?_)
  rw [← ok_inj h]
  exact ⟨rfl, fun hb => bits_set hb d l (wr_eq_ok.1 hd).2.symm (wr_eq_ok.1 hl).2.symm⟩

theorem sparse_loop_bits {E : env} : ∀ (count : Nat) (st st' : sparse_state),
    sparse_loop E count st = Except.ok st' → st'.g.q = st.g.q ∧ (Bits st.g → Bits st'.g) := by
  intro count
  induction count with
  | zero => intro st st' h; rw [← pure_inj h]; exact ⟨rfl, id⟩
  | succ k ih =>
    intro st st' h
    unfold sparse_loop at h
    refine par_bind h (fun nl _ h => ?_)
    obtain ⟨ndelta, l⟩ := nl
    dsimp only at h
    refine par_ite h (fun _ h => ?_) (fun _ h => ?_)
    · rw [← pure_inj h]; exact ⟨rfl, id⟩
    · refine par_bind h (fun r _ h => ?_)
      refine par_bind h (fun last _ h => ?_)
      refine par_bind h (fun g1 h1 h => ?_)
      have e1 := g_assign_bits h1
      have e2 := ih _ _ h
      exact ⟨e2.1.trans e1.1, fun hb => e2.2 (e1.2 hb)⟩

theorem sparse_phase2_bits {E : env} {g g' : grasp} (h : sparse_phase2 E g = Except.ok g') :
    g'.q = g.q ∧ (Bits g → Bits g') := by
  unfold sparse_phase2 at h
  refine par_bind h (fun dl _ h => ?_)
  obtain ⟨d, l⟩ := dl
  dsimp only at h
  refine par_ite h (fun _ h => ?_) (fun _ h => ?_)
  · rw [← pure_inj h]; exact ⟨rfl, id⟩
  · refine par_bind h (fun r _ h => ?_)
    refine par_bind h (fun last _ h => ?_)
    refine par_bind h (fun g1 h1 h => ?_)
    refine par_bind h (fun st h2 h => ?_)
    have e1 := g_assign_bits h1
    have e2 := sparse_loop_bits _ _ _ h2
    refine par_ite h (fun _ h => ?_) (fun _ h => ?_)
    · rw [← pure_inj h]; exact ⟨e2.1.trans e1.1, fun hb => e2.2 (e1.2 hb)⟩
    · rw [← pure_inj h]; exact ⟨e2.1.trans e1.1, fun hb => e2.2 (e1.2 hb)⟩

theorem phase2_round_bits {E : env} {g g' : grasp} (h : phase2_round E g = Except.ok g') :
    g'.q = g.q ∧ (Bits g → Bits g') := by
  unfold phase2_round at h
  refine par_bind h (fun fl _ h => ?_)
  obtain ⟨f, l⟩ := fl
  dsimp only at h
  refine par_bind h (fun f0 _ h => ?_)
  refine par_bind h (fun f1 _ h => ?_)
  refine par_bind h (fun f2 _ h => ?_)
  refine par_bind h (fun pos _ h => ?_)
  refine par_bind h (fun fp _ h => ?_)
  have e1 := g_assign_bits h
  exact ⟨e1.1, fun hb => e1.2 hb⟩

theorem phase2_bits {E : env} {g g' : grasp} (h : phase2 E g = Except.ok g') :
    g'.q = g.q ∧ (Bits g → Bits g') := by
  unfold phase2 at h
  refine par_bind h (fun i _ h => ?_)
  refine par_bind h (fun j _ h => ?_)
  refine par_bind h (fun k _ h => ?_)
  refine par_bind h (fun l _ h => ?_)
  refine par_bind h (fun x _ h => ?_)
  refine par_bind h (fun y _ h => ?_)
  refine par_bind h (fun g1 h1 h => ?_)
  have e1 : g1.q = g.q ∧ (Bits g → Bits g1) := by
    refine par_ite h1 (fun _ h => sparse_phase2_bits h) (fun _ h => ?_)
    rw [← pure_inj h]; exact ⟨rfl, id⟩
  have e2 := for_loop_frame (fun (a b : grasp) => b.q = a.q ∧ (Bits a → Bits b))
    (fun _ => ⟨rfl, id⟩) (fun _ _ _ h1 h2 => ⟨h2.1.trans h1.1, fun hb => h2.2 (h1.2 hb)⟩)
    (fun _ _ _ h => phase2_round_bits h) _ _ _ _ h
  exact ⟨e2.1.trans e1.1, fun hb => e2.2 (e1.2 hb)⟩

theorem phase1_bits {E : env} {g g' : grasp} (hb : Buffers g)
    (h : phase1 E g = Except.ok g') : Bits g' := by
  have hdl : g.done.length = g.q.n := hb.2.2.2.2.2.2.1
  have hll : g.ldone.length = g.q.n := hb.2.2.2.2.2.2.2.1
  unfold phase1 at h
  refine par_bind h (fun d _ h => ?_)
  refine par_bind h (fun f _ h => ?_)
  refine par_bind h (fun pos _ h => ?_)
  refine par_bind h (fun f0 _ h => ?_)
  refine par_bind h (fun f1 _ h => ?_)
  refine par_bind h (fun d0 _ h => ?_)
  refine par_bind h (fun d1 _ h => ?_)
  refine par_bind h (fun fd _ h => ?_)
  refine par_bind h (fun pos _ h => ?_)
  refine par_bind h (fun dn hdn h => ?_)
  refine par_bind h (fun ld hld h => ?_)
  refine par_bind h (fun fp _ h => ?_)
  refine par_bind h (fun dp _ h => ?_)
  refine par_bind h (fun g1 h1 h => ?_)
  refine par_bind h (fun fp2 _ h => ?_)
  refine par_bind h (fun dp2 _ h => ?_)
  obtain ⟨dn', e1, _, z1⟩ := zero_loop_ok g.done g.q.n (by omega)
  obtain ⟨ld', e2, _, z2⟩ := zero_loop_ok g.ldone g.q.n (by omega)
  rw [e1] at hdn
  rw [e2] at hld
  have ed := ok_inj hdn
  have el := ok_inj hld
  have a1 := g_assign_bits h1
  have a2 := g_assign_bits h
  refine a2.2 (a1.2 ⟨fun a ha => ?_, fun v hv => ?_⟩)
  · show sel dn a ≤ 1
    rw [← ed, z1 a ha]; omega
  · show sel ld v ≤ 1
    rw [← el, z2 v hv]; omega

theorem g_assign_inv {g : grasp} (hb : Buffers g) (hi : AssignInv g) {p q : Nat}
    (hp : p < g.q.n) (hq : q < g.q.n) (dp : sel g.done p = 0) (dq : sel g.ldone q = 0) :
    ∃ g', g_assign g p q = Except.ok g' ∧ Buffers g' ∧ AssignInv g' ∧
      AssignStep g p q g' := by
  obtain ⟨hm, hbit⟩ := marks_of_assignInv hb.2.2.1 hi
  obtain ⟨g', e, b', m', _, n1, n2, _, _, _, _, _, _, _, pl⟩ := g_assign_spec hb hm hp hq dp dq
  obtain ⟨s', e0, _, _, _, _, keep⟩ := g_assign_ok hb hm hp hq dp dq
  rw [e] at e0
  have eg := ok_inj e0
  have hlt := hm.free_lt hp dp
  have hal : g.assigned.length = g.q.n := hb.2.2.2.2.2.1
  refine ⟨g', e, b', assignInv_of_marks b'.2.2.1 m' ((g_assign_bits e).2 hbit), pl, n1, ?_,
    fun t ht => ⟨?_, ?_⟩⟩
  · rw [eg]
    show sel (g.assigned.set g.n_assigned p) g.n_assigned = p
    rw [sel_set_eq _ _ _ (by omega)]
  · rw [eg]
    show sel (g.assigned.set g.n_assigned p) t = sel g.assigned t
    rw [sel_set_ne _ _ _ _ (by omega)]
  · rw [eg]
    exact keep t ht

theorem constructor_bits {E : env} {g g' : grasp} (hb : Buffers g)
    (h : constructor E g = Except.ok g') : Bits g' := by
  unfold constructor at h
  refine par_bind h (fun g1 h1 h => ?_)
  refine par_bind h (fun g2 h2 h => ?_)
  refine par_bind h (fun s _ h => ?_)
  rw [← pure_inj h]
  exact (phase2_bits h2).2 (phase1_bits hb h1)

/-! ## The searches on an arbitrary instance -/

theorem timed_out_off (E : env) {g : grasp} (h : g.max_time ≤ 0) :
    timed_out E g = (false, g) := by
  unfold timed_out
  rw [if_neg (by omega)]

/-- A stored cost within `span` of the off-diagonal objective, less a delta that
leads to the off-diagonal objective of another permutation, is computed without
overflow, and the new cost is again within `span`. -/
theorem isub_ranged {q : qap_inst} {s : qap_sol} {p' : List Nat} {c : Int} (hF : Fits q)
    (hr : Ranged q s) (hp' : ∀ i, i < q.n → sel p' i < q.n)
    (ho : offobj q p' = offobj q s.p - c) : isub s.cost c = s.cost - c := by
  have b := abs_le.1 (offobj_bound q p' hp')
  unfold Fits at hF
  obtain ⟨r1, r2⟩ := hr
  exact isub_id (by linarith [b.1]) (by linarith [b.2])

theorem Valid.range {q : qap_inst} {s : qap_sol} (hv : Valid s) (hn : s.n = q.n) :
    ∀ i, i < q.n → sel s.p i < q.n := by
  intro i hi
  have := hv.2.2.1 i (by rw [hn]; exact hi)
  rwa [hn] at this

/-- A swap of two positions of a valid solution: what `qs_swap` returns and what
it does to the off-diagonal objective. -/
theorem swap_feas {q : qap_inst} {s : qap_sol} {i j : Nat} (hq : WF q) (hs : Valid s)
    (hn : s.n = q.n) (hi : i < q.n) (hj : j < q.n) :
    ∃ s1, qs_swap s i j = Except.ok s1 ∧ Valid s1 ∧ s1.n = s.n ∧ s1.cost = s.cost ∧
      s1.p = swp s.p i j ∧
      offobj q s1.p = offobj q s.p - gainf q.n (Dv q) (Fv q) (sel s.p) i j := by
  have e := qs_swap_eq hs.1 hs.2.1 hs.2.2.1 (by rw [hn]; exact hi) (by rw [hn]; exact hj)
  have v := valid_swap hs (by rw [hn]; exact hi) (by rw [hn]; exact hj)
  have x := (gainf_exact hs hn hi hj).1
  refine ⟨_, e, v, rfl, rfl, rfl, ?_⟩
  show offobj q (swp s.p i j) = _
  linarith

theorem pr_scan_feas {q : qap_inst} {s : qap_sol} (hq : WF q) (hs : Valid s) (hn : s.n = q.n)
    (hF : Fits q) (i p0 q0 : Nat) (hi : i < q.n) :
    ∃ r, for_loop (fun j (st : Int × Nat × Nat) =>
            if j ≠ i then do
              let cost ← g_improvement s q i j
              if cost > st.1 then pure (cost, i, j) else pure st
            else pure st) 0 q.n (0, p0, q0) = Except.ok r ∧ 0 ≤ r.1 ∧
      (0 < r.1 → r.2.1 = i ∧ r.2.2 < q.n ∧ r.2.2 ≠ i ∧
        r.1 = gainf q.n (Dv q) (Fv q) (sel s.p) i r.2.2) ∧
      ∀ j, j < q.n → gainf q.n (Dv q) (Fv q) (sel s.p) i j ≤ r.1 := by
  have hp : IsPerm s.p q.n := by rw [← hn]; exact hs.isPerm
  have := for_loop_tot (b := fun j (st : Int × Nat × Nat) =>
            if j ≠ i then do
              let cost ← g_improvement s q i j
              if cost > st.1 then pure (cost, i, j) else pure st
            else pure st)
    (fun k (r : Int × Nat × Nat) => 0 ≤ r.1 ∧ (0 < r.1 → r.2.1 = i ∧ r.2.2 < q.n ∧ r.2.2 ≠ i ∧
        r.1 = gainf q.n (Dv q) (Fv q) (sel s.p) i r.2.2) ∧
        ∀ j, j < k → gainf q.n (Dv q) (Fv q) (sel s.p) i j ≤ r.1) q.n 0 (0, p0, q0)
    ⟨le_refl _, fun h => absurd h (lt_irrefl _), fun j hj => absurd hj (Nat.not_lt_zero _)⟩
    (by
      intro j st _ hj hI
      dsimp only
      by_cases c : j ≠ i
      · rw [if_pos c, g_improvement_eq hq hp hi (by omega) hF, ok_bind]
        by_cases d : gainf q.n (Dv q) (Fv q) (sel s.p) i j > st.1
        · rw [if_pos d]
          refine ⟨_, rfl, le_trans hI.1 (le_of_lt d),
            fun _ => ⟨rfl, by show j < q.n; omega, c, rfl⟩, fun k hk => ?_⟩
          show gainf q.n (Dv q) (Fv q) (sel s.p) i k ≤ gainf q.n (Dv q) (Fv q) (sel s.p) i j
          rcases Nat.lt_succ_iff_lt_or_eq.1 hk with h | h
          · exact le_trans (hI.2.2 k h) (le_of_lt d)
          · rw [h]
        · rw [if_neg d]
          refine ⟨_, rfl, hI.1, hI.2.1, fun k hk => ?_⟩
          rcases Nat.lt_succ_iff_lt_or_eq.1 hk with h | h
          · exact hI.2.2 k h
          · rw [h]; exact not_lt.1 d
      · rw [if_neg c]
        refine ⟨_, rfl, hI.1, hI.2.1, fun k hk => ?_⟩
        rcases Nat.lt_succ_iff_lt_or_eq.1 hk with h | h
        · exact hI.2.2 k h
        · rw [h, not_not.1 c, gainf_self]; exact hI.1)
  obtain ⟨r, e, h⟩ := this
  exact ⟨r, e, h.1, h.2.1, fun j hj => h.2.2 j (by omega)⟩
theorem lead_calm : ∀ (h : List (Nat × Bool)), Calm h → lead h < 20
  | [], _ => by decide
  | _ :: _, c => c.1

theorem calm_length : ∀ (h : List (Nat × Bool)), Calm h →
    h.length ≤ 20 * swaps_of h + lead h
  | [], _ => by simp [swaps_of, lead]
  | (i, false) :: t, c => by
    have ih := calm_length t c.2
    have e1 : swaps_of ((i, false) :: t) = swaps_of t := by simp [swaps_of]
    have e2 : lead ((i, false) :: t) = lead t + 1 := rfl
    rw [e1, e2, List.length_cons]
    omega
  | (i, true) :: t, c => by
    have ih := calm_length t c.2
    have l := lead_calm t c.2
    have e1 : swaps_of ((i, true) :: t) = swaps_of t + 1 := by simp [swaps_of]
    have e2 : lead ((i, true) :: t) = 0 := rfl
    rw [e1, e2, List.length_cons]
    omega

theorem stall_length (h : List (Nat × Bool)) (hl : lead h = 20) (hc : Calm h.tail) :
    h.length ≤ 20 * (swaps_of h + 1) := by
  match h, hl, hc with
  | [], hl, _ => simp [lead] at hl
  | (i, true) :: t, hl, _ => simp [lead] at hl
  | (i, false) :: t, hl, hc =>
    have ih := calm_length t hc
    have e1 : swaps_of ((i, false) :: t) = swaps_of t := by simp [swaps_of]
    have e2 : lead ((i, false) :: t) = lead t + 1 := rfl
    rw [e1, List.length_cons]
    rw [e2] at hl
    omega

/-- One round of the `while` loop of `pr_local_search` on a valid solution with
the timer off. -/
theorem pr_round_hist (E : env) {g : grasp} (hq : WF g.q) (hn : 0 < g.q.n) (hv : Valid g.s)
    (hsn : g.s.n = g.q.n) (hmt : g.max_time ≤ 0) (hF : Fits g.q) (hr : Ranged g.q g.s)
    (nc p r : Nat) (hist : List (Nat × Bool)) (c1 : nc < 20) :
    ∃ g' nc' p' r' b,
      (∀ fuel, pr_local_search_hist E (fuel + 1) g nc p r hist =
        pr_local_search_hist E fuel g' nc' p' r' ((E.genrandint g.rc % g.q.n, b) :: hist)) ∧
      g'.q = g.q ∧ g'.max_time = g.max_time ∧ Valid g'.s ∧ g'.s.n = g.s.n ∧
      g'.rc = g.rc + 1 ∧ g'.best = g.best ∧
      (b = true → nc' = 0 ∧ ∃ c : Int, 0 < c ∧ g'.s.cost = g.s.cost - c ∧
        offobj g.q g'.s.p = offobj g.q g.s.p - c) ∧
      (b = false → nc' = nc + 1 ∧ g'.s = g.s ∧
        ∀ j, j < g.q.n →
          gainf g.q.n (Dv g.q) (Fv g.q) (sel g.s.p) (E.genrandint g.rc % g.q.n) j ≤ 0) := by
  have ht := timed_out_off E hmt
  have hi : E.genrandint g.rc % g.q.n < g.q.n := Nat.mod_lt _ hn
  obtain ⟨⟨best, p1, r1⟩, e1, h1, h2, h3⟩ := pr_scan_feas hq hv hsn hF _ p r hi
  dsimp only at h1 h2 h3
  by_cases c3 : best > 0
  · obtain ⟨h4, h5, h6, h7⟩ := h2 c3
    obtain ⟨s1, e3, v1, n1, k1, _, o1⟩ := swap_feas hq hv hsn hi h5
    have ie : isub s1.cost best = g.s.cost - best := by
      rw [k1]
      exact isub_ranged hF hr (v1.range (n1.trans hsn)) (by rw [o1, h7])
    refine ⟨{ g with rc := g.rc + 1, s := { s1 with cost := isub s1.cost best } }, 0, p1, r1, true,
      fun fuel => ?_, rfl, rfl, v1, n1, rfl, rfl,
      fun _ => ⟨rfl, best, c3, ie, ?_⟩,
      fun h => absurd h (by decide)⟩
    · rw [pr_local_search_hist, if_pos c1, ht]
      dsimp only
      rw [if_neg (by decide), cmod_eq hn, ok_bind, e1, ok_bind]
      dsimp only
      rw [if_pos c3]
      subst h4
      rw [e3, ok_bind]
    · show offobj g.q s1.p = _
      rw [o1, h7]
  · refine ⟨{ g with rc := g.rc + 1 }, nc + 1, p1, r1, false,
      fun fuel => ?_, rfl, rfl, hv, rfl, rfl, rfl, fun h => absurd h (by decide),
      fun _ => ⟨rfl, rfl, fun j hj => le_trans (h3 j hj) (not_lt.1 c3)⟩⟩
    rw [pr_local_search_hist, if_pos c1, ht]
    dsimp only
    rw [if_neg (by decide), cmod_eq hn, ok_bind, e1, ok_bind]
    dsimp only
    rw [if_neg c3]

/-- The `while` loop of `pr_local_search` on a valid solution with the timer
off: it returns, having used one unit of fuel per test of its condition, and the
record of its rounds ends in 20 rounds without a swap, the first such point. -/
theorem pr_hist_run (E : env) : ∀ (m : Nat) (g : grasp) (nc p r : Nat)
    (hist : List (Nat × Bool)), WF g.q → 0 < g.q.n → Valid g.s → g.s.n = g.q.n →
    g.max_time ≤ 0 → Fits g.q → Ranged g.q g.s →
    nc ≤ 20 → lead hist = nc → (nc < 20 → Calm hist) → Calm hist.tail →
    (∀ x, x ∈ hist.take nc → ∀ j, j < g.q.n →
      gainf g.q.n (Dv g.q) (Fv g.q) (sel g.s.p) x.1 j ≤ 0) →
    21 * (offobj g.q g.s.p + span g.q).toNat + (20 - nc) ≤ m →
    ∃ g' ext,
      (∀ fuel, ext.length + 1 ≤ fuel →
        pr_local_search_hist E fuel g nc p r hist = Except.ok (g', ext ++ hist)) ∧
      (∀ fuel, fuel ≤ ext.length →
        pr_local_search_hist E fuel g nc p r hist = Except.error Err.fuel) ∧
      g'.q = g.q ∧ Valid g'.s ∧ g'.s.n = g.s.n ∧ g'.best = g.best ∧
      g'.rc = g.rc + ext.length ∧
      lead (ext ++ hist) = 20 ∧ Calm (ext ++ hist).tail ∧
      (∀ x, x ∈ (ext ++ hist).take 20 → ∀ j, j < g.q.n →
        gainf g.q.n (Dv g.q) (Fv g.q) (sel g'.s.p) x.1 j ≤ 0) ∧
      offobj g.q g'.s.p + swaps_of ext ≤ offobj g.q g.s.p ∧
      g'.s.cost - g.s.cost = offobj g.q g'.s.p - offobj g.q g.s.p ∧
      ∀ x, x ∈ ext → x.1 < g.q.n := by
  intro m
  induction m with
  | zero =>
    intro g nc p r hist _ _ _ _ _ _ _ h20 hl _ hc ho hm
    have e : nc = 20 := by omega
    subst e
    refine ⟨g, [], fun fuel hf => ?_, fun fuel hf => ?_, rfl, ‹Valid g.s›, rfl, rfl, rfl, hl, hc,
      ho, by simp [swaps_of], by simp, fun x hx => by simp at hx⟩
    · obtain ⟨k, rfl⟩ : ∃ k, fuel = k + 1 := ⟨fuel - 1, by simp at hf; omega⟩
      rw [pr_local_search_hist, if_neg (by omega)]; rfl
    · have : fuel = 0 := by simpa using hf
      subst this; rfl
  | succ k ih =>
    intro g nc p r hist hq hn hv hsn hmt hF hr h20 hl hcalm hc ho hm
    by_cases c1 : nc < 20
    swap
    · have e : nc = 20 := by omega
      subst e
      refine ⟨g, [], fun fuel hf => ?_, fun fuel hf => ?_, rfl, hv, rfl, rfl, rfl, hl, hc,
        ho, by simp [swaps_of], by simp, fun x hx => by simp at hx⟩
      · obtain ⟨k, rfl⟩ : ∃ k, fuel = k + 1 := ⟨fuel - 1, by simp at hf; omega⟩
        rw [pr_local_search_hist, if_neg (by omega)]; rfl
      · have : fuel = 0 := by simpa using hf
        subst this; rfl
    obtain ⟨g1, nc1, p1, r1, b, step, q1, mt1, v1, n1, rc1, bs1, ht, hf⟩ :=
      pr_round_hist E hq hn hv hsn hmt hF hr nc p r hist c1
    have low1 : -span g.q ≤ offobj g.q g1.s.p :=
      offobj_lower g.q g1.s.p (fun i hi => by
        have := v1.2.2.1 i (by rw [n1, hsn]; exact hi)
        rwa [n1, hsn] at this)
    have low0 : -span g.q ≤ offobj g.q g.s.p :=
      offobj_lower g.q g.s.p (fun i hi => by
        have := hv.2.2.1 i (by rw [hsn]; exact hi)
        rwa [hsn] at this)
    have main : ∀ (hnc : nc1 ≤ 20) (hl1 : lead ((E.genrandint g.rc % g.q.n, b) :: hist) = nc1)
        (hcalm1 : nc1 < 20 → Calm ((E.genrandint g.rc % g.q.n, b) :: hist))
        (ho1 : ∀ x, x ∈ ((E.genrandint g.rc % g.q.n, b) :: hist).take nc1 → ∀ j, j < g.q.n →
          gainf g.q.n (Dv g.q) (Fv g.q) (sel g1.s.p) x.1 j ≤ 0)
        (hm1 : 21 * (offobj g.q g1.s.p + span g.q).toNat + (20 - nc1) ≤ k)
        (hsw : offobj g.q g1.s.p + swaps_of [(E.genrandint g.rc % g.q.n, b)] ≤
          offobj g.q g.s.p)
        (hcost : g1.s.cost - g.s.cost = offobj g.q g1.s.p - offobj g.q g.s.p),
        ∃ g' ext,
          (∀ fuel, ext.length + 1 ≤ fuel →
            pr_local_search_hist E fuel g nc p r hist = Except.ok (g', ext ++ hist)) ∧
          (∀ fuel, fuel ≤ ext.length →
            pr_local_search_hist E fuel g nc p r hist = Except.error Err.fuel) ∧
          g'.q = g.q ∧ Valid g'.s ∧ g'.s.n = g.s.n ∧ g'.best = g.best ∧
          g'.rc = g.rc + ext.length ∧
          lead (ext ++ hist) = 20 ∧ Calm (ext ++ hist).tail ∧
          (∀ x, x ∈ (ext ++ hist).take 20 → ∀ j, j < g.q.n →
            gainf g.q.n (Dv g.q) (Fv g.q) (sel g'.s.p) x.1 j ≤ 0) ∧
          offobj g.q g'.s.p + swaps_of ext ≤ offobj g.q g.s.p ∧
          g'.s.cost - g.s.cost = offobj g.q g'.s.p - offobj g.q g.s.p ∧
          ∀ x, x ∈ ext → x.1 < g.q.n := by
      intro hnc hl1 hcalm1 ho1 hm1 hsw hcost
      have hc1 : Calm ((E.genrandint g.rc % g.q.n, b) :: hist).tail := hcalm c1
      have hr1 : Ranged g.q g1.s := by
        obtain ⟨x1, x2⟩ := hr
        constructor <;> linarith
      obtain ⟨g', ext, r1', r2', a1, a2, a3, a4, a5, a6, a7, a8, a9, a10, a11⟩ :=
        ih g1 nc1 p1 r1 ((E.genrandint g.rc % g.q.n, b) :: hist) (by rw [q1]; exact hq)
          (by rw [q1]; exact hn) v1 (by rw [n1, hsn, q1]) (by rw [mt1]; exact hmt)
          (by rw [q1]; exact hF) (by rw [q1]; exact hr1) hnc hl1
          hcalm1 hc1 (by rw [q1]; exact ho1) (by rw [q1]; exact hm1)
      rw [q1] at a8 a9 a10 a11
      have ea : (ext ++ [(E.genrandint g.rc % g.q.n, b)]) ++ hist =
          ext ++ (E.genrandint g.rc % g.q.n, b) :: hist := by simp
      have el : (ext ++ [(E.genrandint g.rc % g.q.n, b)]).length = ext.length + 1 := by simp
      have es : swaps_of (ext ++ [(E.genrandint g.rc % g.q.n, b)]) =
          swaps_of ext + swaps_of [(E.genrandint g.rc % g.q.n, b)] := by
        simp [swaps_of, List.countP_append]
      refine ⟨g', ext ++ [(E.genrandint g.rc % g.q.n, b)], fun fuel hfu => ?_,
        fun fuel hfu => ?_, a1.trans q1, a2, a3.trans n1, a4.trans bs1, ?_, ?_, ?_, ?_, ?_,
        ?_, fun x hx => ?_⟩
      · obtain ⟨f, rfl⟩ : ∃ f, fuel = f + 1 := ⟨fuel - 1, by omega⟩
        rw [step f, ea]
        exact r1' f (by omega)
      · rcases fuel with _ | f
        · rfl
        · rw [step f]
          exact r2' f (by omega)
      · rw [a5, rc1, el]; omega
      · rw [ea]; exact a6
      · rw [ea]; exact a7
      · rw [ea]; exact a8
      · rw [es]; push_cast; linarith
      · linarith
      · rw [List.mem_append, List.mem_singleton] at hx
        rcases hx with hx | hx
        · exact a11 x hx
        · rw [hx]; exact Nat.mod_lt _ hn
    cases b with
    | true =>
      obtain ⟨e0, c, cpos, ec, eo⟩ := ht rfl
      subst e0
      refine main (by omega) rfl (fun _ => ⟨Nat.zero_lt_succ 19, hcalm c1⟩)
        (fun x hx => by simp at hx) ?_ ?_ ?_
      · have : (offobj g.q g1.s.p + span g.q).toNat < (offobj g.q g.s.p + span g.q).toNat := by
          rw [eo]; omega
        omega
      · rw [eo]
        have : swaps_of [(E.genrandint g.rc % g.q.n, true)] = 1 := by simp [swaps_of]
        rw [this]; push_cast; omega
      · rw [ec, eo]; ring
    | false =>
      obtain ⟨e0, es, eg⟩ := hf rfl
      subst e0
      have hl2 : lead ((E.genrandint g.rc % g.q.n, false) :: hist) = nc + 1 := by
        show lead hist + 1 = nc + 1
        rw [hl]
      refine main (by omega) hl2 (fun h => ⟨by rw [hl2]; exact h, hcalm c1⟩)
        (fun x hx j hj => ?_) ?_ ?_ ?_
      · rw [es]
        rw [List.take_succ_cons, List.mem_cons] at hx
        rcases hx with hx | hx
        · rw [hx]; exact eg j hj
        · exact ho x hx j hj
      · rw [es]; omega
      · rw [es]
        have : swaps_of [(E.genrandint g.rc % g.q.n, false)] = 0 := by simp [swaps_of]
        rw [this]; simp
      · rw [es]; ring

theorem pr_local_search_hist_fst (E : env) : ∀ (fuel : Nat) (g : grasp) (nc p r : Nat)
    (hist : List (Nat × Bool)),
    (pr_local_search_hist E fuel g nc p r hist).map Prod.fst =
      pr_local_search_loop E fuel g nc p r := by
  intro fuel
  induction fuel with
  | zero => intro g nc p r hist; rfl
  | succ k ih =>
    intro g nc p r hist
    rw [pr_local_search_hist, pr_local_search_loop]
    by_cases c1 : nc < 20
    swap
    · rw [if_neg c1, if_neg c1]; rfl
    rw [if_pos c1, if_pos c1]
    rcases timed_out E g with ⟨t, g1⟩
    dsimp only
    by_cases c2 : t = true
    · rw [if_pos c2, if_pos c2]; rfl
    rw [if_neg c2, if_neg c2]
    rcases cmod (E.genrandint g1.rc) g1.q.n with e | i
    · rfl
    simp only [ok_bind]
    rcases for_loop (fun j (st : Int × Nat × Nat) =>
            if j ≠ i then do
              let cost ← g_improvement g1.s g1.q i j
              if cost > st.1 then pure (cost, i, j) else pure st
            else pure st) 0 g1.q.n (0, p, r) with e | ⟨best, p1, r1⟩
    · rfl
    simp only [ok_bind]
    by_cases c3 : best > 0
    · rw [if_pos c3, if_pos c3]
      rcases qs_swap g1.s p1 r1 with e | s1
      · rfl
      simp only [ok_bind]
      exact ih _ _ _ _ _
    · rw [if_neg c3, if_neg c3]
      exact ih _ _ _ _ _

theorem for_loop_erase {σ τ : Type} (π : τ → σ) {b : Nat → σ → Except Err σ}
    {c : Nat → τ → Except Err τ} (h : ∀ i t, (c i t).map π = b i (π t)) :
    ∀ (n lo : Nat) (t : τ), (for_loop c lo n t).map π = for_loop b lo n (π t) := by
  intro n
  induction n with
  | zero => intro lo t; rfl
  | succ k ih =>
    intro lo t
    rw [for_loop_succ, for_loop_succ, ← h lo t]
    rcases c lo t with e | t1
    · rfl
    · exact ih (lo + 1) t1

theorem for_loop_post {σ : Type} {b : Nat → σ → Except Err σ} (I : Nat → σ → Prop)
    {n : Nat} {s : σ} {Q : σ → Prop} (h0 : I 0 s)
    (hstep : ∀ i s, i < n → I i s → ∃ s', b i s = Except.ok s' ∧ I (i + 1) s')
    (hq : ∀ s', I n s' → Q s') : ∃ s', for_loop b 0 n s = Except.ok s' ∧ Q s' := by
  obtain ⟨s', e, h⟩ := for_loop_tot I n 0 s h0 (fun i t _ hi hI => hstep i t (by omega) hI)
  exact ⟨s', e, hq s' (by simpa using h)⟩

theorem local_search_pass_log_fst (E : env) (g : grasp) (log : List Int) :
    (local_search_pass_log E g log).map Prod.fst = local_search_pass E g := by
  unfold local_search_pass_log local_search_pass
  refine for_loop_erase Prod.fst (fun i st => ?_) _ _ _
  dsimp only
  by_cases c1 : st.1.2.2 = true
  · rw [if_pos c1, if_pos c1]; rfl
  rw [if_neg c1, if_neg c1]
  rcases timed_out E st.1.1 with ⟨t, g1⟩
  dsimp only
  by_cases c2 : t = true
  · rw [if_pos c2, if_pos c2]; rfl
  rw [if_neg c2, if_neg c2]
  refine for_loop_erase Prod.fst (fun t st => ?_) _ _ _
  dsimp only
  rcases g_improvement st.1.1.s st.1.1.q i (i + 1 + t) with e | cost
  · rfl
  simp only [ok_bind]
  by_cases c3 : cost > 0
  · rw [if_pos c3, if_pos c3]
    rcases qs_swap st.1.1.s i (i + 1 + t) with e | s1
    · rfl
    · rfl
  · rw [if_neg c3, if_neg c3]; rfl

theorem local_search_log_fst (E : env) : ∀ (fuel : Nat) (g : grasp) (log : List Int),
    (local_search_log E fuel g log).map Prod.fst = local_search E fuel g := by
  intro fuel
  induction fuel with
  | zero => intro g log; rfl
  | succ k ih =>
    intro g log
    rw [local_search_log, local_search, ← local_search_pass_log_fst E g log]
    rcases local_search_pass_log E g log with e | ⟨⟨g1, ch, ret⟩, log1⟩
    · rfl
    show (if ret = true then pure (g1, log1)
        else if ch = true then local_search_log E k g1 log1 else pure (g1, log1)).map Prod.fst =
      (if ret = true then pure g1 else if ch = true then local_search E k g1 else pure g1)
    by_cases c1 : ret = true
    · rw [if_pos c1, if_pos c1]; rfl
    rw [if_neg c1, if_neg c1]
    by_cases c2 : ch = true
    · rw [if_pos c2, if_pos c2]; exact ih g1 log1
    · rw [if_neg c2, if_neg c2]; rfl
theorem sum_pos_of_pos : ∀ (l : List Int), l ≠ [] → (∀ x, x ∈ l → 0 < x) → 0 < l.sum
  | [], h, _ => absurd rfl h
  | [x], _, hp => by simpa using hp x (List.mem_singleton.2 rfl)
  | x :: y :: l, _, hp => by
    have ih := sum_pos_of_pos (y :: l) (List.cons_ne_nil _ _)
      (fun z hz => hp z (List.mem_cons_of_mem _ hz))
    have hx := hp x (List.mem_cons_self _ _)
    rw [List.sum_cons]
    omega

theorem lsInv_mono {g : grasp} {log : List Int} {k1 k2 m1 m2 : Nat}
    {st : (grasp × Bool × Bool) × List Int} (h : LsInv g log k1 k2 st)
    (hk : ∀ a b, a < b → b < g.q.n → (a < m1 ∨ (a = m1 ∧ b < m2)) →
      (a < k1 ∨ (a = k1 ∧ b < k2))) : LsInv g log m1 m2 st := by
  obtain ⟨h1, h2, h3, h4, h5, ext, h6, h7, h8, h9, h10, h11⟩ := h
  refine ⟨h1, h2, h3, h4, h5, ext, h6, h7, h8, h9, h10, fun c => ?_⟩
  obtain ⟨e1, e2, e3⟩ := h11 c
  exact ⟨e1, e2, fun a b hab hb hm => e3 a b hab hb (hk a b hab hb hm)⟩

/-- One step of the inner loop of `local_search` on the pair `(i, j)`. -/
theorem ls_inner_step {g : grasp} (hq : WF g.q) (hsn : g.s.n = g.q.n) (hF : Fits g.q)
    (hr : Ranged g.q g.s) (log : List Int)
    (i j : Nat) (hij : i < j) (hj : j < g.q.n) (st : (grasp × Bool × Bool) × List Int)
    (h : LsInv g log i j st) :
    ∃ st', (do
        let cost ← g_improvement st.1.1.s st.1.1.q i j
        if cost > 0 then do
          let s ← qs_swap st.1.1.s i j
          pure (({ st.1.1 with s := { s with cost := isub s.cost cost } }, true, st.1.2.2),
            cost :: st.2)
        else pure st) = Except.ok st' ∧ LsInv g log i (j + 1) st' := by
  obtain ⟨h1, h2, h3, h4, h5, ext, h6, h7, h8, h9, h10, h11⟩ := h
  have hn : st.1.1.s.n = st.1.1.q.n := by rw [h4, hsn, h1]
  have hq1 : WF st.1.1.q := by rw [h1]; exact hq
  have hi1 : i < st.1.1.q.n := by rw [h1]; omega
  have hj1 : j < st.1.1.q.n := by rw [h1]; omega
  have hp : IsPerm st.1.1.s.p st.1.1.q.n := by rw [← hn]; exact h3.isPerm
  rw [g_improvement_eq hq1 hp hi1 hj1 (by rw [h1]; exact hF), ok_bind]
  by_cases c : gainf st.1.1.q.n (Dv st.1.1.q) (Fv st.1.1.q) (sel st.1.1.s.p) i j > 0
  · rw [if_pos c]
    obtain ⟨s1, e3, v1, n1, k1, _, o1⟩ := swap_feas hq1 h3 hn hi1 hj1
    rw [e3, ok_bind]
    have hr1 : Ranged st.1.1.q st.1.1.s := by
      rw [h1]
      obtain ⟨x1, x2⟩ := hr
      constructor <;> linarith
    have ie : isub s1.cost (gainf st.1.1.q.n (Dv st.1.1.q) (Fv st.1.1.q) (sel st.1.1.s.p) i j) =
        st.1.1.s.cost - gainf st.1.1.q.n (Dv st.1.1.q) (Fv st.1.1.q) (sel st.1.1.s.p) i j := by
      rw [k1]
      exact isub_ranged (by rw [h1]; exact hF) hr1 (v1.range (n1.trans hn)) o1
    refine ⟨_, rfl, h1, h2, v1, n1.trans h4, h5,
      gainf st.1.1.q.n (Dv st.1.1.q) (Fv st.1.1.q) (sel st.1.1.s.p) i j :: ext, ?_, ?_, ?_, ?_,
      fun _ => List.cons_ne_nil _ _, fun x => Bool.noConfusion (x : true = false)⟩
    · show _ :: st.2 = _
      rw [h6]; rfl
    · intro x hx
      rcases List.mem_cons.1 hx with hx | hx
      · rw [hx]; exact c
      · exact h7 x hx
    · show isub s1.cost _ = _
      rw [ie, h8, List.sum_cons]; ring
    · show offobj g.q s1.p = _
      rw [h1] at o1
      rw [o1, h9, List.sum_cons, h1]; ring
  · rw [if_neg c]
    refine ⟨st, rfl, h1, h2, h3, h4, h5, ext, h6, h7, h8, h9, h10, fun x => ?_⟩
    obtain ⟨e1, e2, e3⟩ := h11 x
    refine ⟨e1, e2, fun a b hab hb hm => ?_⟩
    by_cases d : a = i ∧ b = j
    · rw [d.1, d.2]
      rw [e1] at c
      exact not_lt.1 c
    · refine e3 a b hab hb ?_
      rcases hm with hm | hm
      · exact Or.inl hm
      · refine Or.inr ⟨hm.1, ?_⟩
        rcases Nat.lt_succ_iff_lt_or_eq.1 hm.2 with h | h
        · exact h
        · exact absurd ⟨hm.1, h⟩ d

/-- One pass of `local_search` on a valid solution with the timer off. -/
theorem local_search_pass_log_ok (E : env) {g : grasp} (hq : WF g.q) (hv : Valid g.s)
    (hsn : g.s.n = g.q.n) (hmt : g.max_time ≤ 0) (hF : Fits g.q) (hr : Ranged g.q g.s)
    (log : List Int) :
    ∃ st, local_search_pass_log E g log = Except.ok st ∧ LsInv g log (g.q.n - 1) 0 st := by
  unfold local_search_pass_log
  have h0 : LsInv g log 0 0 ((g, false, false), log) :=
    ⟨rfl, rfl, hv, rfl, rfl, [], rfl, fun x hx => by simp at hx, by simp, by simp,
      fun x => Bool.noConfusion (x : false = true),
      fun _ => ⟨rfl, rfl, fun a b _ _ hm => by omega⟩⟩
  refine for_loop_post (fun i st => LsInv g log i 0 st) h0 ?_ (fun _ h => h)
  intro i st hi hI
  have hI' := hI
  obtain ⟨h1, h2, h3, h4, h5, _⟩ := hI
  dsimp only
  rw [if_neg (by rw [h5]; decide), timed_out_off E (by rw [h2]; exact hmt)]
  dsimp only
  rw [if_neg (by decide)]
  have hs : LsInv g log i (i + 1 + 0) ((st.1.1, st.1.2.1, false), st.2) := by
    obtain ⟨_, _, _, _, _, ext, h6, h7, h8, h9, h10, h11⟩ := hI'
    refine ⟨h1, h2, h3, h4, rfl, ext, h6, h7, h8, h9, h10, fun x => ?_⟩
    obtain ⟨e1, e2, e3⟩ := h11 x
    exact ⟨e1, e2, fun a b hab hb hm => e3 a b hab hb (by omega)⟩
  refine for_loop_post (fun t st => LsInv g log i (i + 1 + t) st) hs ?_ ?_
  · intro t st2 ht hK
    rw [h1] at ht
    exact ls_inner_step hq hsn hF hr log i (i + 1 + t) (by omega) (by omega) st2 hK
  · intro st' hI2
    refine lsInv_mono hI2 (fun a b hab hb hm => ?_)
    rw [h1]
    omega

/-- The function `local_search` on a valid solution with the timer off: it
returns after finitely many passes, with a valid solution on which no exchange
has a positive improvement, and with the stored cost and the off-diagonal
objective lowered by the sum of the recorded improvements. -/
theorem local_search_log_run (E : env) : ∀ (m : Nat) (g : grasp) (log : List Int),
    WF g.q → Valid g.s → g.s.n = g.q.n → g.max_time ≤ 0 → Fits g.q → Ranged g.q g.s →
    (offobj g.q g.s.p + span g.q).toNat ≤ m →
    ∃ g' ext passes, 0 < passes ∧
      (∀ fuel, passes ≤ fuel → local_search_log E fuel g log = Except.ok (g', ext ++ log)) ∧
      (∀ fuel, fuel < passes → local_search_log E fuel g log = Except.error Err.fuel) ∧
      g'.q = g.q ∧ Valid g'.s ∧ g'.s.n = g.s.n ∧ (∀ x, x ∈ ext → 0 < x) ∧
      g'.s.cost = g.s.cost - ext.sum ∧
      offobj g.q g'.s.p = offobj g.q g.s.p - ext.sum ∧
      ∀ a b, a < b → b < g.q.n → gainf g.q.n (Dv g.q) (Fv g.q) (sel g'.s.p) a b ≤ 0 := by
  intro m
  induction m using Nat.strong_induction_on with
  | _ m ih =>
    intro g log hq hv hsn hmt hF hr hm
    obtain ⟨⟨⟨g1, ch, ret⟩, log1⟩, e, h1, h2, h3, h4, h5, ext, h6, h7, h8, h9, h10, h11⟩ :=
      local_search_pass_log_ok E hq hv hsn hmt hF hr log
    dsimp only at h1 h2 h3 h4 h5 h6 h7 h8 h9 h10 h11
    have step : ∀ fuel, local_search_log E (fuel + 1) g log =
        if ch = true then local_search_log E fuel g1 log1 else pure (g1, log1) := by
      intro fuel
      rw [local_search_log, e, ok_bind]
      show (if ret = true then _ else _) = _
      rw [if_neg (by rw [h5]; decide)]
    by_cases c : ch = true
    · have hne := h10 c
      have hpos := sum_pos_of_pos ext hne h7
      have low1 : -span g.q ≤ offobj g.q g1.s.p :=
        offobj_lower g.q g1.s.p (fun i hi => by
          have := h3.2.2.1 i (by rw [h4, hsn]; exact hi)
          rwa [h4, hsn] at this)
      have hlt : (offobj g.q g1.s.p + span g.q).toNat < m := by
        rw [h9] at low1 ⊢
        omega
      have hr1 : Ranged g.q g1.s := by
        obtain ⟨x1, x2⟩ := hr
        constructor <;> linarith
      obtain ⟨g', ext2, passes, p0, r1, r2, a1, a2, a3, a4, a5, a6, a7⟩ :=
        ih _ hlt g1 log1 (by rw [h1]; exact hq) h3 (by rw [h4, hsn, h1])
          (by rw [h2]; exact hmt) (by rw [h1]; exact hF) (by rw [h1]; exact hr1) (by rw [h1])
      rw [h1] at a6 a7
      refine ⟨g', ext2 ++ ext, passes + 1, by omega, fun fuel hf => ?_, fun fuel hf => ?_,
        a1.trans h1, a2, a3.trans h4, fun x hx => ?_, ?_, ?_, a7⟩
      · obtain ⟨f, rfl⟩ : ∃ f, fuel = f + 1 := ⟨fuel - 1, by omega⟩
        rw [step f, if_pos c, r1 f (by omega), h6, List.append_assoc]
      · rcases fuel with _ | f
        · rfl
        · rw [step f, if_pos c]
          exact r2 f (by omega)
      · rcases List.mem_append.1 hx with hx | hx
        · exact a4 x hx
        · exact h7 x hx
      · rw [a5, h8, List.sum_append]; ring
      · rw [a6, h9, List.sum_append]; ring
    · have c' : ch = false := by simpa using c
      obtain ⟨e1, e2, e3⟩ := h11 c'
      subst e1
      subst e2
      refine ⟨g1, [], 1, by omega, fun fuel hf => ?_, fun fuel hf => ?_, rfl, hv, rfl,
        fun x hx => by simp at hx, by simp, by simp, fun a b hab hb => ?_⟩
      · obtain ⟨f, rfl⟩ : ∃ f, fuel = f + 1 := ⟨fuel - 1, by omega⟩
        rw [step f, if_neg c, h6]; rfl
      · have : fuel = 0 := by omega
        subst this; rfl
      · exact e3 a b hab hb (by omega)

theorem objective_wide : objective inst_wide [0, 1] = 3000000000 ∧
    objective inst_wide [1, 0] = 2000000000 := by
  constructor <;> simp [objective, objf, Finset.sum_range_succ, sel, Dv, Fv, inst_wide]

theorem objective_deep : objective inst_deep [0, 1] = 10000000000 ∧
    objective inst_deep [1, 0] = 0 := by
  constructor <;> simp [objective, objf, Finset.sum_range_succ, sel, Dv, Fv, inst_deep]

theorem objective_big (p : List Nat) (h : p = [0, 1] ∨ p = [1, 0]) :
    objective inst_big p = 20000000000 := by
  rcases h with h | h <;> subst h <;>
    simp [objective, objf, Finset.sum_range_succ, sel, Dv, Fv, inst_big]

/-! ## A run on a constant stream -/

theorem wrap_le {x : Int} (h : -2147483648 ≤ x) : wrap x ≤ x := by
  unfold wrap
  omega

theorem ls_step_draw_stuck (E : env) (h : ∀ k, E.genrandint k = 0) (n : Nat) :
    ∀ (fuel rc : Nat), ∃ e, ls_step_draw E n 0 fuel rc = Except.error e := by
  intro fuel
  induction fuel with
  | zero => intro rc; exact ⟨_, rfl⟩
  | succ k ih =>
    intro rc
    unfold ls_step_draw
    unfold cmod
    by_cases c : n = 0
    · rw [if_pos c]; exact ⟨_, rfl⟩
    · rw [if_neg c, ok_bind, h rc, Nat.zero_mod, if_pos rfl]
      exact ih _

/-- On the stream of zeros `ls_step` never returns: its loop draws `q` until
`q != p`. -/
theorem ls_step_stuck (E : env) (h : ∀ k, E.genrandint k = 0) (fuel : Nat) (g : grasp) :
    ∃ e, ls_step E fuel g = Except.error e := by
  unfold ls_step
  dsimp only
  unfold cmod
  by_cases c : g.q.n = 0
  · rw [if_pos c]; exact ⟨_, rfl⟩
  · rw [if_neg c, ok_bind, h g.rc, Nat.zero_mod]
    obtain ⟨e, he⟩ := ls_step_draw_stuck E h g.q.n fuel (g.rc + 1)
    rw [he]
    exact ⟨e, rfl⟩

theorem bind_error {α β : Type} {x : Except Err α} {f : α → Except Err β}
    (h : ∀ a, x = Except.ok a → ∃ e, f a = Except.error e) :
    ∃ e, (x >>= f) = Except.error e := by
  cases x with
  | error e => exact ⟨e, rfl⟩
  | ok a => exact h a rfl

theorem extra_ls_stuck (E : env) (h : ∀ k, E.genrandint k = 0) (fuel : Nat) (g : grasp) :
    ∃ e, extra_ls E fuel g = Except.error e := by
  unfold extra_ls
  rw [show (10 : Nat) = 9 + 1 from rfl, for_loop_succ]
  refine bind_error (fun g1 h1 => ?_)
  exfalso
  refine par_bind h1 (fun a _ h1 => ?_)
  refine par_bind h1 (fun b _ h1 => ?_)
  refine par_bind h1 (fun c hc _ => ?_)
  obtain ⟨e, he⟩ := ls_step_stuck E h fuel b
  rw [he] at hc
  cases hc

theorem main_loop_stuck (E : env) (h : ∀ k, E.genrandint k = 0) (fuel count : Nat) (e : elite)
    (g : grasp) (hl : g.l4 < 0) (ht : g.max_time ≤ 0) :
    ∃ x, main_loop E fuel (count + 1) e g = Except.error x := by
  unfold main_loop
  dsimp only
  rw [if_neg (by intro c; omega)]
  have tb : timed_out E { g with curr_iter := g.curr_iter + 1 } =
      (false, { g with curr_iter := g.curr_iter + 1 }) := by
    unfold timed_out
    rw [if_neg (by show ¬ g.max_time > 0; omega)]
  rw [tb]
  dsimp only
  rw [if_neg (by decide)]
  refine bind_error (fun g1 _ => bind_error (fun g2 h2 => ?_))
  obtain ⟨x, hx⟩ := extra_ls_stuck E h fuel g1
  rw [hx] at h2
  cases h2

/-- On the stream of zeros a run with `max_itr >= 1`, negative `look4` and
`max_time = 0` never returns. -/
theorem run_grasp_pr_stuck (E : env) (h : ∀ k, E.genrandint k = 0) (fuel : Nat) (g : grasp)
    (max_itr : Int) (he : 1 ≤ g.elite_size) (hn : 1 ≤ g.q.n) (hi : 1 ≤ max_itr) (hl : g.l4 < 0)
    (ht : g.max_time ≤ 0) : ∃ x, run_grasp_pr E fuel g max_itr = Except.error x := by
  unfold run_grasp_pr
  rw [pr_new_some E g g.elite_size he hn]
  dsimp only
  obtain ⟨k, hk⟩ : ∃ k, max_itr.toNat = k + 1 := ⟨max_itr.toNat - 1, by omega⟩
  rw [hk]
  refine bind_error (fun b _ => bind_error (fun x hx => ?_))
  obtain ⟨y, hy⟩ := main_loop_stuck E h fuel k _ { g with curr_iter := 0, best := b } hl ht
  rw [hy] at hx
  cases hx

theorem c_off_deep : c_off inst_deep [0, 1] = 10000000000 ∧ c_off inst_deep [1, 0] = 0 := by
  constructor <;> simp [c_off, Finset.sum_range_succ, sel, Dv, Fv, inst_deep]

/-! ## The walk of `execute_pr` on an arbitrary instance -/

theorem pr_scan_any {q : qap_inst} {s : qap_sol} (hq : WF q) (hs : Valid s) (hn : s.n = q.n)
    (i p0 q0 : Nat) (hi : i < q.n) :
    ∃ r, for_loop (fun j (st : Int × Nat × Nat) =>
            if j ≠ i then do
              let cost ← g_improvement s q i j
              if cost > st.1 then pure (cost, i, j) else pure st
            else pure st) 0 q.n (0, p0, q0) = Except.ok r ∧
      (0 < r.1 → r.2.1 = i ∧ r.2.2 < q.n ∧
        r.1 = wrap (gainf q.n (Dv q) (Fv q) (sel s.p) i r.2.2)) := by
  have hp : IsPerm s.p q.n := by rw [← hn]; exact hs.isPerm
  have := for_loop_tot (b := fun j (st : Int × Nat × Nat) =>
            if j ≠ i then do
              let cost ← g_improvement s q i j
              if cost > st.1 then pure (cost, i, j) else pure st
            else pure st)
    (fun _ (r : Int × Nat × Nat) => 0 ≤ r.1 ∧ (0 < r.1 → r.2.1 = i ∧ r.2.2 < q.n ∧
        r.1 = wrap (gainf q.n (Dv q) (Fv q) (sel s.p) i r.2.2))) q.n 0 (0, p0, q0)
    ⟨le_refl _, fun h => absurd h (lt_irrefl _)⟩
    (by
      intro j st _ hj hI
      dsimp only
      by_cases c : j ≠ i
      · rw [if_pos c, g_improvement_wrap hq hp hi (by omega), ok_bind]
        by_cases d : wrap (gainf q.n (Dv q) (Fv q) (sel s.p) i j) > st.1
        · rw [if_pos d]
          exact ⟨_, rfl, le_trans hI.1 (le_of_lt d),
            fun _ => ⟨rfl, by show j < q.n; omega, rfl⟩⟩
        · rw [if_neg d]
          exact ⟨_, rfl, hI⟩
      · rw [if_neg c]
        exact ⟨_, rfl, hI⟩)
  obtain ⟨r, e, h⟩ := this
  exact ⟨r, e, h.2⟩

/-- One round of the `while` loop of `pr_local_search` on a valid working
solution: the loop returns, or goes on with a valid working solution; when the
costs of the instance fit in an `int`, a measure decreases. -/
theorem pr_round_any (E : env) {g : grasp} (hq : WF g.q) (hn : 0 < g.q.n) (hv : Valid g.s)
    (hsn : g.s.n = g.q.n) (nc p r : Nat) :
    (∃ g', (g'.q = g.q ∧ Valid g'.s ∧ g'.s.n = g.s.n) ∧
      ∀ fuel, pr_local_search_loop E (fuel + 1) g nc p r = Except.ok g') ∨
    (∃ g' nc' p' r', (g'.q = g.q ∧ Valid g'.s ∧ g'.s.n = g.s.n) ∧
      (Fits g.q → 21 * (offobj g.q g'.s.p + span g.q).toNat + (20 - nc') <
        21 * (offobj g.q g.s.p + span g.q).toNat + (20 - nc)) ∧
      ∀ fuel, pr_local_search_loop E (fuel + 1) g nc p r =
        pr_local_search_loop E fuel g' nc' p' r') := by
  by_cases c1 : nc < 20
  swap
  · exact Or.inl ⟨g, ⟨rfl, hv, rfl⟩, fun fuel => by rw [pr_local_search_loop, if_neg c1]; rfl⟩
  have hq1 : (timed_out E g).2.q = g.q := by
    rcases timed_out_cases E g with h | h <;> rw [h]
  have hs1 : (timed_out E g).2.s = g.s := timed_out_s E g
  rcases ht : timed_out E g with ⟨t, g1⟩
  rw [ht] at hq1 hs1
  dsimp only at hq1 hs1
  by_cases c2 : t = true
  · exact Or.inl ⟨g1, ⟨hq1, by rw [hs1]; exact hv, by rw [hs1]⟩, fun fuel => by
      rw [pr_local_search_loop, if_pos c1, ht]; dsimp only; rw [if_pos c2]; rfl⟩
  have hq' : WF g1.q := by rw [hq1]; exact hq
  have hn' : 0 < g1.q.n := by rw [hq1]; exact hn
  have hv' : Valid g1.s := by rw [hs1]; exact hv
  have hsn' : g1.s.n = g1.q.n := by rw [hs1, hq1]; exact hsn
  have hi : E.genrandint g1.rc % g1.q.n < g1.q.n := Nat.mod_lt _ hn'
  obtain ⟨⟨best, p1, r1⟩, e1, h2⟩ := pr_scan_any hq' hv' hsn' _ p r hi
  dsimp only at h2
  by_cases c3 : best > 0
  · obtain ⟨h3, h4, h5⟩ := h2 c3
    obtain ⟨s1, e3, v1, n1, k1, ep, o1⟩ := swap_feas hq' hv' hsn' hi h4
    refine Or.inr ⟨{ g1 with rc := g1.rc + 1, s := { s1 with cost := isub s1.cost best } }, 0,
      p1, r1, ⟨hq1, v1, by rw [← hs1]; exact n1⟩, fun hF => ?_, fun fuel => ?_⟩
    · have hp : IsPerm g1.s.p g1.q.n := by rw [← hsn']; exact hv'.isPerm
      have b := abs_le.1 (gainf_bound hp hi h4)
      have hF' : Fits g1.q := by rw [hq1]; exact hF
      unfold Fits at hF'
      rw [wrap_id (by linarith [b.1]) (by linarith [b.2])] at h5
      have low1 : -span g1.q ≤ offobj g1.q s1.p := offobj_lower g1.q s1.p (v1.range (n1.trans hsn'))
      show 21 * (offobj g.q s1.p + span g.q).toNat + (20 - 0) <
        21 * (offobj g.q g.s.p + span g.q).toNat + (20 - nc)
      rw [← hq1, ← hs1, o1, ← h5]
      rw [o1, ← h5] at low1
      omega
    · rw [pr_local_search_loop, if_pos c1, ht]
      dsimp only
      rw [if_neg c2, cmod_eq hn', ok_bind, e1, ok_bind]
      dsimp only
      rw [if_pos c3]
      subst h3
      rw [e3, ok_bind]
  · refine Or.inr ⟨{ g1 with rc := g1.rc + 1 }, nc + 1, p1, r1,
      ⟨hq1, hv', by rw [hs1]⟩, fun _ => ?_, fun fuel => ?_⟩
    · show 21 * (offobj g.q g1.s.p + span g.q).toNat + (20 - (nc + 1)) <
        21 * (offobj g.q g.s.p + span g.q).toNat + (20 - nc)
      rw [hs1]
      omega
    · rw [pr_local_search_loop, if_pos c1, ht]
      dsimp only
      rw [if_neg c2, cmod_eq hn', ok_bind, e1, ok_bind]
      dsimp only
      rw [if_neg c3]

theorem pr_loop_any_good (E : env) {q : qap_inst} (hq : WF q) (hn : 0 < q.n) :
    ∀ (fuel : Nat) (g : grasp) (nc p r : Nat), g.q = q → Valid g.s → g.s.n = q.n →
    Good (pr_local_search_loop E fuel g nc p r)
      (fun g' => g'.q = q ∧ Valid g'.s ∧ g'.s.n = q.n) := by
  intro fuel
  induction fuel with
  | zero => intro g nc p r _ _ _; exact good_fuel
  | succ k ih =>
    intro g nc p r hg hv hsn
    subst hg
    rcases pr_round_any E hq hn hv hsn nc p r with
      ⟨g', ⟨h1, h2, h3⟩, h4⟩ | ⟨g', nc', p', r', ⟨h1, h2, h3⟩, _, h4⟩
    · rw [h4 k]; exact good_ok ⟨h1, h2, h3.trans hsn⟩
    · rw [h4 k]; exact ih _ _ _ _ h1 h2 (h3.trans hsn)

theorem pr_loop_any_term (E : env) {q : qap_inst} (hq : WF q) (hn : 0 < q.n) (hF : Fits q) :
    ∀ (m : Nat) (g : grasp) (nc p r : Nat), g.q = q → Valid g.s → g.s.n = q.n →
    21 * (offobj q g.s.p + span q).toNat + (20 - nc) ≤ m →
    ∃ a, ∀ fuel, m + 1 ≤ fuel → pr_local_search_loop E fuel g nc p r = Except.ok a := by
  intro m
  induction m using Nat.strong_induction_on with
  | _ m ih =>
    intro g nc p r hg hv hsn hm
    subst hg
    rcases pr_round_any E hq hn hv hsn nc p r with
      ⟨g', _, h2⟩ | ⟨g', nc', p', r', ⟨h1, h2, h3⟩, h4, h5⟩
    · refine ⟨g', fun fuel hf => ?_⟩
      obtain ⟨k, rfl⟩ : ∃ k, fuel = k + 1 := ⟨fuel - 1, by omega⟩
      exact h2 k
    · have h4 := h4 hF
      obtain ⟨a, ha⟩ := ih (21 * (offobj g.q g'.s.p + span g.q).toNat + (20 - nc')) (by omega)
        g' nc' p' r' h1 h2 (h3.trans hsn) (le_refl _)
      refine ⟨a, fun fuel hf => ?_⟩
      obtain ⟨k, rfl⟩ : ∃ k, fuel = k + 1 := ⟨fuel - 1, by omega⟩
      rw [h5 k]
      exact ha k (by omega)

/-- On a valid working solution `pr_local_search` never goes wrong and leaves a
valid working solution; it returns when the costs of the instance fit in an
`int`. -/
theorem pr_local_search_any (E : env) {g : grasp} (hq : WF g.q) (hn : 0 < g.q.n)
    (hv : Valid g.s) (hsn : g.s.n = g.q.n) :
    Spec (Fits g.q) (fun fuel => pr_local_search E fuel g)
      (fun g' => g'.q = g.q ∧ Valid g'.s ∧ g'.s.n = g.q.n) := by
  refine ⟨fun fuel => pr_loop_any_good E hq hn fuel g 0 0 0 rfl hv hsn, fun hF => ?_⟩
  obtain ⟨a, ha⟩ := pr_loop_any_term E hq hn hF _ g 0 0 0 rfl hv hsn (le_refl _)
  exact ⟨_, a, ha⟩

theorem walkShape_init (E : env) {q : qap_inst} {s1 : qap_sol} {g : grasp} (hg : g.q = q)
    (hgs : Shaped g.s) (hgn : g.s.n = q.n) (h1 : Valid s1) (h1n : s1.n = q.n) :
    WalkShape q (walk_init E s1 g) :=
  ⟨hg, hgs, hgn, h1, h1n, h1.shaped, h1n, shaped_fresh _ _, h1n, shaped_fresh _ _, h1n⟩

/-- The body of the walk of `execute_pr` on a state in shape: it never goes
wrong and leaves a state in shape; it returns when the costs of the instance fit
in an `int`. -/
theorem execute_pr_step_any (E : env) {q : qap_inst} {t : qap_sol} {st : pr_state} {i : Nat}
    (hq : WF q) (ht : Valid t) (htn : t.n = q.n) (hw : WalkShape q st) (hi : i < q.n) :
    Spec (Fits q) (fun fuel => execute_pr_step E fuel (some t) i st) (WalkShape q) := by
  obtain ⟨w1, w2, w3, w4, w5, w6, w7, w8, w9, w10, w11⟩ := hw
  subst w1
  have l1 : i < st.s.p.length := by rw [w4.1, w5]; exact hi
  have l2 : i < t.p.length := by rw [ht.1, htn]; exact hi
  unfold execute_pr_step
  simp only [deref]
  rw [rd_eq l1, rd_eq l2]
  simp only [ok_bind]
  by_cases c : sel st.s.p i ≠ sel t.p i
  swap
  · simp only [if_neg c]
    exact spec_pure ⟨rfl, w2, w3, w4, w5, w6, w7, w8, w9, w10, w11⟩
  simp only [if_pos c]
  have ei : sel t.p i < st.s.n := by
    rw [w5, ← htn]; exact ht.2.2.1 i (by rw [htn]; exact hi)
  have hj : sel st.s.rev (sel t.p i) < st.g.q.n := by
    rw [← w5]; exact w4.rev_lt _ ei
  obtain ⟨s1, e2, v1, n1, _, _, _⟩ := swap_feas hq w4 w5 hi hj
  have hp : IsPerm st.s.p st.g.q.n := by rw [← w5]; exact w4.isPerm
  rw [qs_copy_eq w8 w4.shaped (by rw [w9, w5]), rd_eq (by rw [w4.2.1]; exact ei)]
  simp only [ok_bind, g_improvement_wrap hq hp hi hj, e2]
  have v2 : ∀ c, Valid { s1 with cost := c } := fun _ => v1
  generalize isub s1.cost (wrap (gainf st.g.q.n (Dv st.g.q) (Fv st.g.q) (sel st.s.p) i
    (sel st.s.rev (sel t.p i)))) = c0
  refine spec_bind (P := fun (r : grasp × qap_sol) => r.1.q = st.g.q ∧ Shaped r.1.s ∧
    r.1.s.n = st.g.q.n ∧ Shaped r.2 ∧ r.2.n = st.g.q.n) ?_ ?_
  · refine spec_ite (fun _ => ?_) (fun _ => spec_pure ⟨rfl, w2, w3, w6, w7⟩)
    rw [qs_copy_eq w2 (v2 c0).shaped (by rw [w3]; exact (n1.trans w5).symm)]
    simp only [ok_bind]
    refine spec_bind (pr_local_search_any E (g := { st.g with s := { s1 with cost := c0 } })
      hq (Nat.lt_of_le_of_lt (Nat.zero_le _) hi) (v2 c0) (n1.trans w5)) (fun g1 h1 => ?_)
    rw [qs_copy_eq w6 h1.2.1.shaped (by rw [w7]; exact h1.2.2.symm)]
    exact spec_pure ⟨h1.1, h1.2.1.shaped, h1.2.2, h1.2.1.shaped, h1.2.2⟩
  · rintro ⟨g1, sb⟩ ⟨h1, h2, h3, h4, h5⟩
    dsimp only at h1 h2 h3 h4 h5 ⊢
    by_cases d : st.cp ≠ -1 ∧ st.s.cost < st.cp ∧ st.s.cost < c0 ∧
        (st.lopt.cost = -1 ∨ st.s.cost < st.lopt.cost)
    · simp only [if_pos d]
      rw [qs_copy_eq w10 w4.shaped (by rw [w11, w5])]
      exact spec_pure ⟨h1, h2, h3, v2 c0, n1.trans w5, h4, h5, w4.shaped, w5, w4.shaped, w5⟩
    · simp only [if_neg d]
      exact spec_pure ⟨h1, h2, h3, v2 c0, n1.trans w5, h4, h5, w4.shaped, w5, w10, w11⟩

/-- What the body of the walk of `execute_pr` does to a state in shape. -/
theorem execute_pr_step_form (E : env) {q : qap_inst} {t : qap_sol} {st st' : pr_state}
    {i fuel : Nat} (hq : WF q) (ht : Valid t) (htn : t.n = q.n) (hw : WalkShape q st)
    (hi : i < q.n) (h : execute_pr_step E fuel (some t) i st = Except.ok st') :
    (sel st.s.p i = sel t.p i → st' = st) ∧
    (sel st.s.p i ≠ sel t.p i →
      st'.s = ⟨st.s.n, swp st.s.p i (sel st.s.rev (sel t.p i)),
        (st.s.rev.set (sel st.s.p i) (sel st.s.rev (sel t.p i))).set
          (sel st.s.p (sel st.s.rev (sel t.p i))) i,
        isub st.s.cost
          (wrap (gainf q.n (Dv q) (Fv q) (sel st.s.p) i (sel st.s.rev (sel t.p i))))⟩ ∧
      st'.prev = st.s ∧ st'.cpp = st.cp ∧ st'.cp = st.s.cost ∧
      (st'.s.cost < st.sbest.cost →
        pr_local_search E fuel { st.g with s := st'.s } = Except.ok st'.g ∧
        st'.sbest = st'.g.s) ∧
      (¬ st'.s.cost < st.sbest.cost → st'.g = st.g ∧ st'.sbest = st.sbest) ∧
      st'.lopt = if st.cp ≠ -1 ∧ st.s.cost < st.cp ∧ st.s.cost < st'.s.cost ∧
          (st.lopt.cost = -1 ∨ st.s.cost < st.lopt.cost) then st.s else st.lopt) := by
  obtain ⟨w1, w2, w3, w4, w5, w6, w7, w8, w9, w10, w11⟩ := hw
  subst w1
  have l1 : i < st.s.p.length := by rw [w4.1, w5]; exact hi
  have l2 : i < t.p.length := by rw [ht.1, htn]; exact hi
  unfold execute_pr_step at h
  simp only [deref] at h
  rw [rd_eq l1, rd_eq l2] at h
  simp only [ok_bind] at h
  by_cases c : sel st.s.p i ≠ sel t.p i
  swap
  · simp only [if_neg c] at h
    exact ⟨fun _ => (pure_inj h).symm, fun c' => absurd c' c⟩
  refine ⟨fun c' => absurd c' c, fun _ => ?_⟩
  simp only [if_pos c] at h
  have ei : sel t.p i < st.s.n := by
    rw [w5, ← htn]; exact ht.2.2.1 i (by rw [htn]; exact hi)
  have hj : sel st.s.rev (sel t.p i) < st.g.q.n := by
    rw [← w5]; exact w4.rev_lt _ ei
  have hp : IsPerm st.s.p st.g.q.n := by rw [← w5]; exact w4.isPerm
  have e2 := qs_swap_eq w4.1 w4.2.1 w4.2.2.1 (by rw [w5]; exact hi)
    (by rw [w5]; exact hj) (a := i) (b := sel st.s.rev (sel t.p i))
  have v1 := valid_swap w4 (by rw [w5]; exact hi) (by rw [w5]; exact hj)
    (a := i) (b := sel st.s.rev (sel t.p i))
  rw [qs_copy_eq w8 w4.shaped (by rw [w9, w5]),
    rd_eq (by rw [w4.2.1]; exact ei)] at h
  simp only [ok_bind, g_improvement_wrap hq hp hi hj, e2] at h
  refine par_bind h (fun gs hgs h => ?_)
  obtain ⟨g1, sb⟩ := gs
  dsimp only at h hgs
  have hlopt : ∀ (cnd : Prop) [Decidable cnd],
      (if cnd then qs_copy st.lopt st.s else pure st.lopt) =
        Except.ok (if cnd then st.s else st.lopt) := by
    intro cnd _
    by_cases d : cnd
    · rw [if_pos d, if_pos d]
      exact qs_copy_eq w10 w4.shaped (by rw [w11, w5])
    · rw [if_neg d, if_neg d]; rfl
  rw [hlopt] at h
  simp only [ok_bind] at h
  have h := pure_inj h
  subst h
  dsimp only
  have v3 : ∀ c, Valid ⟨st.s.n, swp st.s.p i (sel st.s.rev (sel t.p i)),
      (st.s.rev.set (sel st.s.p i) (sel st.s.rev (sel t.p i))).set
        (sel st.s.p (sel st.s.rev (sel t.p i))) i, c⟩ := fun _ => v1
  refine ⟨rfl, rfl, rfl, rfl, fun d => ?_, fun d => ?_, rfl⟩
  · rw [if_pos d, qs_copy_eq w2 (v3 _).shaped (by rw [w3]; exact w5.symm)] at hgs
    simp only [ok_bind] at hgs
    refine par_bind hgs (fun g2 hg2 hgs => ?_)
    have hsp : ∀ s : qap_sol, Valid s → s.n = st.g.q.n → ∀ g2,
        pr_local_search E fuel { st.g with s := s } = Except.ok g2 →
        g2.q = st.g.q ∧ Valid g2.s ∧ g2.s.n = st.g.q.n :=
      fun s hv hn g2 hg2 => by
        have sp := (pr_local_search_any E (g := { st.g with s := s }) hq
          (Nat.lt_of_le_of_lt (Nat.zero_le _) hi) hv hn).1 fuel
        have r := good_elim sp hg2
        exact r
    have sd := hsp _ (v3 _) w5 g2 hg2
    rw [qs_copy_eq w6 sd.2.1.shaped (by rw [w7]; exact sd.2.2.symm)] at hgs
    have := ok_inj hgs
    have a1 : g2 = g1 := congrArg Prod.fst this
    have a2 : g2.s = sb := congrArg Prod.snd this
    subst a1
    exact ⟨hg2, a2.symm⟩
  · rw [if_neg d] at hgs
    have := pure_inj hgs
    exact ⟨(congrArg Prod.fst this).symm, (congrArg Prod.snd this).symm⟩

/-- A loop that returns has a trace of its states. -/
theorem for_loop_trace {σ : Type} {b : Nat → σ → Except Err σ} :
    ∀ (n lo : Nat) (s s' : σ), for_loop b lo n s = Except.ok s' →
    ∃ tr : Nat → σ, tr 0 = s ∧ tr n = s' ∧
      ∀ i, i < n → b (lo + i) (tr i) = Except.ok (tr (i + 1)) := by
  intro n
  induction n with
  | zero =>
    intro lo s s' h
    cases h
    exact ⟨fun _ => s, rfl, rfl, fun i hi => absurd hi (Nat.not_lt_zero _)⟩
  | succ k ih =>
    intro lo s s' h
    rw [for_loop_succ, bind_eq_ok] at h
    obtain ⟨s1, h1, h2⟩ := h
    obtain ⟨tr, t0, tn, ts⟩ := ih (lo + 1) s1 s' h2
    refine ⟨fun i => match i with
      | 0 => s
      | j + 1 => tr j, rfl, tn, fun i hi => ?_⟩
    cases i with
    | zero =>
      show b (lo + 0) s = Except.ok (tr 0)
      rw [t0]; exact h1
    | succ j =>
      show b (lo + (j + 1)) (tr j) = Except.ok (tr (j + 1))
      have := ts j (by omega)
      rw [show lo + (j + 1) = lo + 1 + j by omega]
      exact this

/-- The swap of the walk at a position where the walker differs from the guide:
the partner lies above the position, and the swap brings the walker closer. -/
theorem swap_toward {q : qap_inst} {s t : qap_sol} {i : Nat} (hs : Valid s) (hsn : s.n = q.n)
    (ht : Valid t) (htn : t.n = q.n) (hi : i < q.n)
    (ha : ∀ k, k < i → sel s.p k = sel t.p k) (c : sel s.p i ≠ sel t.p i) :
    i < sel s.rev (sel t.p i) ∧ sel s.rev (sel t.p i) < q.n ∧
    sel (swp s.p i (sel s.rev (sel t.p i))) i = sel t.p i ∧
    (∀ k, k < i → sel (swp s.p i (sel s.rev (sel t.p i))) k = sel s.p k) ∧
    simf (swp s.p i (sel s.rev (sel t.p i))) t.p q.n < simf s.p t.p q.n ∧
    2 ≤ simf s.p t.p q.n := by
  have ei : sel t.p i < s.n := by
    rw [hsn, ← htn]; exact ht.2.2.1 i (by rw [htn]; exact hi)
  have hj : sel s.rev (sel t.p i) < q.n := by
    rw [← hsn]; exact hs.rev_lt _ ei
  have hpj : sel s.p (sel s.rev (sel t.p i)) = sel t.p i := hs.p_rev _ ei
  have tinj : ∀ a, a < q.n → ∀ b, b < q.n → sel t.p a = sel t.p b → a = b := by
    intro a ha b hb
    exact ht.2.2.2.1 a (by rw [htn]; exact ha) b (by rw [htn]; exact hb)
  have hij : i < sel s.rev (sel t.p i) := by
    by_contra hn
    have hle : sel s.rev (sel t.p i) ≤ i := by omega
    by_cases d : sel s.rev (sel t.p i) = i
    · rw [d] at hpj; exact c hpj
    · have := ha _ (by omega : sel s.rev (sel t.p i) < i)
      rw [hpj] at this
      exact d (tinj _ hj _ hi this.symm)
  have hlen : s.p.length = q.n := by rw [hs.1, hsn]
  have hsi : sel (swp s.p i (sel s.rev (sel t.p i))) i = sel t.p i := by
    rw [sel_swp _ _ _ _ (by omega) (by omega), if_neg (by omega), if_pos rfl, hpj]
  have hlow : ∀ k, k < i → sel (swp s.p i (sel s.rev (sel t.p i))) k = sel s.p k := by
    intro k hk
    rw [sel_swp _ _ _ _ (by omega) (by omega), if_neg (by omega), if_neg (by omega)]
  have hsim := simf_swap_lt s.p t.p q.n i _ hi hj hlen c hpj (by omega) tinj
  exact ⟨hij, hj, hsi, hlow, hsim.1, hsim.2⟩

/-- Every state of a walk of `execute_pr` from a state in shape is in shape and
agrees with the guide below its position. -/
theorem walk_any_shape (E : env) {q : qap_inst} {t : qap_sol} {tr : Nat → pr_state}
    (hq : WF q) (ht : Valid t) (htn : t.n = q.n) (h0 : WalkShape q (tr 0))
    (hs : ∀ i, i < q.n →
      ∃ fuel, execute_pr_step E fuel (some t) i (tr i) = Except.ok (tr (i + 1))) :
    ∀ i, i ≤ q.n → WalkShape q (tr i) ∧ ∀ k, k < i → sel (tr i).s.p k = sel t.p k := by
  intro i
  induction i with
  | zero => intro _; exact ⟨h0, fun k hk => absurd hk (Nat.not_lt_zero _)⟩
  | succ i ih =>
    intro hi
    obtain ⟨w, ag⟩ := ih (by omega)
    obtain ⟨fuel, h⟩ := hs i (by omega)
    have w' : WalkShape q (tr (i + 1)) := by
      have sp := (execute_pr_step_any E hq ht htn w (by omega : i < q.n)).1 fuel
      have r := good_elim sp h
      exact r
    refine ⟨w', fun k hk => ?_⟩
    obtain ⟨c1, c2⟩ := execute_pr_step_form E hq ht htn w (by omega) h
    by_cases c : sel (tr i).s.p i = sel t.p i
    · rw [c1 c]
      by_cases d : k = i
      · rw [d]; exact c
      · exact ag k (by omega)
    · obtain ⟨e1, _⟩ := c2 c
      obtain ⟨_, _, b3, b4, _, _⟩ := swap_toward w.2.2.2.1 w.2.2.2.2.1 ht htn (by omega) ag c
      have ep : (tr (i + 1)).s.p = swp (tr i).s.p i (sel (tr i).s.rev (sel t.p i)) := by
        rw [e1]
      rw [ep]
      by_cases d : k = i
      · rw [d]; exact b3
      · rw [b4 k (by omega)]; exact ag k (by omega)

theorem walk_prefix_any (E : env) {q : qap_inst} {t : qap_sol} {st : pr_state} (hq : WF q)
    (hF : Fits q) (ht : Valid t) (htn : t.n = q.n) (hw : WalkShape q st) :
    ∀ m, m ≤ q.n → ∃ N tr, IsWalk E N t m st tr ∧ ∀ i, i ≤ m → WalkShape q (tr i) := by
  intro m
  induction m with
  | zero =>
    intro _
    exact ⟨0, fun _ => st, ⟨rfl, fun _ _ i hi => absurd hi (Nat.not_lt_zero _)⟩, fun i _ => hw⟩
  | succ m ih =>
    intro hm
    obtain ⟨N, tr, ⟨h0, hs⟩, hI⟩ := ih (by omega)
    obtain ⟨N', a, pa, ha⟩ :=
      (execute_pr_step_any E (i := m) hq ht htn (hI m (le_refl _)) (by omega)).tot hF
    refine ⟨max N N', fun i => if i ≤ m then tr i else a, ⟨?_, ?_⟩, ?_⟩
    · simp only [if_pos (Nat.zero_le m)]
      exact h0
    · intro fuel hf i hi
      by_cases c : i < m
      · simp only [if_pos (by omega : i ≤ m), if_pos (by omega : i + 1 ≤ m)]
        exact hs fuel (le_trans (le_max_left _ _) hf) i c
      · have : i = m := by omega
        subst this
        simp only [if_pos (le_refl _), if_neg (by omega : ¬ i + 1 ≤ i)]
        exact ha fuel (le_trans (le_max_right _ _) hf)
    · intro i hi
      by_cases c : i ≤ m
      · simp only [if_pos c]; exact hI i c
      · simp only [if_neg c]; exact pa

/-- What holds along every walk of `execute_pr` from `s1` toward `t`. -/
theorem walk_any_facts (E : env) {q : qap_inst} {g : grasp} {s1 t : qap_sol}
    {tr : Nat → pr_state} (hq : WF q) (hg : g.q = q) (hgs : Shaped g.s) (hgn : g.s.n = q.n)
    (h1 : Valid s1) (h1n : s1.n = q.n) (h2 : Valid t) (h2n : t.n = q.n)
    (h0 : tr 0 = walk_init E s1 g)
    (hs : ∀ i, i < q.n →
      ∃ fuel, execute_pr_step E fuel (some t) i (tr i) = Except.ok (tr (i + 1))) :
    (∀ i, i < q.n →
      (∀ k, k < i → sel (tr i).s.p k = sel t.p k) ∧ Valid (tr i).s ∧
      (sel (tr i).s.p i = sel t.p i → tr (i + 1) = tr i) ∧
      (sel (tr i).s.p i ≠ sel t.p i →
        i < sel (tr i).s.rev (sel t.p i) ∧ sel (tr i).s.rev (sel t.p i) < q.n ∧
        (tr (i + 1)).s.p = swp (tr i).s.p i (sel (tr i).s.rev (sel t.p i)) ∧
        sel (tr (i + 1)).s.p i = sel t.p i ∧
        (∀ k, k < i → sel (tr (i + 1)).s.p k = sel (tr i).s.p k) ∧
        ∃ a b, qs_similarity (tr (i + 1)).s t = Except.ok a ∧
          qs_similarity (tr i).s t = Except.ok b ∧ a < b)) ∧
    (s1.p ≠ t.p → ∃ d, qs_similarity s1 t = Except.ok d ∧
      (swaps tr t.p q.n).card + 1 ≤ d) ∧
    (tr q.n).s.p = t.p := by
  have hw0 : WalkShape q (tr 0) := by rw [h0]; exact walkShape_init E hg hgs hgn h1 h1n
  have hI := walk_any_shape E hq h2 h2n hw0 hs
  have hsim : ∀ i, i ≤ q.n →
      qs_similarity (tr i).s t = Except.ok (simf (tr i).s.p t.p q.n) := by
    intro i hi
    have w := (hI i hi).1
    have : qs_similarity (tr i).s t = Except.ok (simf (tr i).s.p t.p (tr i).s.n) :=
      qs_similarity_eq w.2.2.2.1.1 (by rw [w.2.2.2.2.1, h2.1, h2n])
    rw [w.2.2.2.2.1] at this
    exact this
  have hstep : ∀ i, i < q.n →
      (sel (tr i).s.p i = sel t.p i → tr (i + 1) = tr i) ∧
      (sel (tr i).s.p i ≠ sel t.p i →
        (tr (i + 1)).s.p = swp (tr i).s.p i (sel (tr i).s.rev (sel t.p i))) := by
    intro i hi
    obtain ⟨fuel, h⟩ := hs i hi
    obtain ⟨c1, c2⟩ := execute_pr_step_form E hq h2 h2n (hI i (by omega)).1 hi h
    exact ⟨c1, fun c => by rw [(c2 c).1]⟩
  have hcount : ∀ i, i ≤ q.n →
      (swaps tr t.p i).card + simf (tr i).s.p t.p q.n ≤ simf (tr 0).s.p t.p q.n ∧
      (0 < (swaps tr t.p i).card → (swaps tr t.p i).card + 1 ≤ simf (tr 0).s.p t.p q.n) := by
    intro i
    induction i with
    | zero =>
      intro _
      simp [swaps]
    | succ i ih =>
      intro hi
      obtain ⟨a1, a2⟩ := ih (by omega)
      obtain ⟨b2, b3⟩ := hstep i (by omega)
      rw [swaps_succ]
      by_cases c : sel (tr i).s.p i ≠ sel t.p i
      · rw [if_pos c]
        have w := (hI i (by omega)).1
        obtain ⟨_, _, _, _, d1, d2⟩ := swap_toward w.2.2.2.1 w.2.2.2.2.1 h2 h2n
          (by omega : i < q.n) (hI i (by omega)).2 c
        rw [b3 c]
        constructor
        · omega
        · intro _; omega
      · rw [if_neg c, b2 (not_not.1 c)]
        exact ⟨a1, a2⟩
  refine ⟨fun i hi => ?_, fun hne => ?_, ?_⟩
  · obtain ⟨w, ag⟩ := hI i (by omega)
    obtain ⟨b2, b3⟩ := hstep i hi
    refine ⟨ag, w.2.2.2.1, b2, fun c => ?_⟩
    obtain ⟨d1, d2, d3, d4, d5, _⟩ := swap_toward w.2.2.2.1 w.2.2.2.2.1 h2 h2n hi ag c
    have ep := b3 c
    refine ⟨d1, d2, ep, by rw [ep]; exact d3, fun k hk => by rw [ep]; exact d4 k hk, _, _,
      hsim (i + 1) (by omega), hsim i (by omega), by rw [ep]; exact d5⟩
  · have e0 := hsim 0 (Nat.zero_le _)
    rw [h0] at e0
    have e0 : qs_similarity s1 t = Except.ok (simf s1.p t.p q.n) := e0
    refine ⟨_, e0, ?_⟩
    obtain ⟨c1, c2⟩ := hcount q.n (le_refl _)
    rw [h0] at c1 c2
    have c1 : (swaps tr t.p q.n).card + simf (tr q.n).s.p t.p q.n ≤ simf s1.p t.p q.n := c1
    have c2 : 0 < (swaps tr t.p q.n).card → (swaps tr t.p q.n).card + 1 ≤ simf s1.p t.p q.n := c2
    by_cases z : 0 < (swaps tr t.p q.n).card
    · exact c2 z
    · have : 0 < simf s1.p t.p q.n := by
        rw [Nat.pos_iff_ne_zero]
        intro h0
        exact hne ((simf_eq_zero (by rw [h1.1, h1n]) (by rw [h2.1, h2n])).1 h0)
      omega
  · obtain ⟨w, ag⟩ := hI q.n (le_refl _)
    refine ext_sel (by rw [w.2.2.2.1.1, w.2.2.2.2.1, h2.1, h2n]) (fun k hk => ?_)
    exact ag k (by rw [w.2.2.2.1.1, w.2.2.2.2.1] at hk; exact hk)

/-- Along a walk of `execute_pr` over a non-negative instance whose costs fit in
an `int`, from a solution whose stored cost is at least the off-diagonal part of
its objective and exceeds it by `span` at most, every walker has such a cost,
and the cost of a swap is subtracted exactly. -/
theorem walk_any_cost (E : env) {q : qap_inst} {t : qap_sol} {tr : Nat → pr_state}
    (hq : WF q) (hF : Fits q) (ht : Valid t) (htn : t.n = q.n) (h0 : WalkShape q (tr 0))
    (hc1 : offobj q (tr 0).s.p ≤ (tr 0).s.cost)
    (hc2 : (tr 0).s.cost ≤ offobj q (tr 0).s.p + span q)
    (hs : ∀ i, i < q.n →
      ∃ fuel, execute_pr_step E fuel (some t) i (tr i) = Except.ok (tr (i + 1))) :
    ∀ i, i ≤ q.n → offobj q (tr i).s.p ≤ (tr i).s.cost ∧
      (tr i).s.cost ≤ offobj q (tr i).s.p + span q := by
  have hI := walk_any_shape E hq ht htn h0 hs
  intro i
  induction i with
  | zero => intro _; exact ⟨hc1, hc2⟩
  | succ i ih =>
    intro hi
    obtain ⟨a1, a2⟩ := ih (by omega)
    obtain ⟨w, _⟩ := hI i (by omega)
    obtain ⟨fuel, h⟩ := hs i (by omega)
    obtain ⟨c1, c2⟩ := execute_pr_step_form E hq ht htn w (by omega) h
    by_cases c : sel (tr i).s.p i = sel t.p i
    · rw [c1 c]; exact ⟨a1, a2⟩
    · obtain ⟨e1, _⟩ := c2 c
      have hv := w.2.2.2.1
      have hn := w.2.2.2.2.1
      have ei : sel t.p i < (tr i).s.n := by
        rw [hn, ← htn]; exact ht.2.2.1 i (by rw [htn]; omega)
      have hj : sel (tr i).s.rev (sel t.p i) < q.n := by
        rw [← hn]; exact hv.rev_lt _ ei
      have hp : IsPerm (tr i).s.p q.n := by rw [← hn]; exact hv.isPerm
      have b := abs_le.1 (gainf_bound hp (by omega : i < q.n) hj)
      have hF' := hF
      unfold Fits at hF'
      have ew := wrap_id (x := gainf q.n (Dv q) (Fv q) (sel (tr i).s.p) i
        (sel (tr i).s.rev (sel t.p i))) (by linarith [b.1]) (by linarith [b.2])
      have eo := (gainf_exact hv hn (by omega : i < q.n) hj).1
      have hp' := isPerm_swp hp (by omega : i < q.n) hj
      have sn := span_nonneg q
      have hr : Ranged q (tr i).s := ⟨by linarith, a2⟩
      have ho : offobj q (swp (tr i).s.p i (sel (tr i).s.rev (sel t.p i))) =
          offobj q (tr i).s.p -
            gainf q.n (Dv q) (Fv q) (sel (tr i).s.p) i (sel (tr i).s.rev (sel t.p i)) := by
        linarith
      have ie := isub_ranged hF hr hp'.2.1 ho
      rw [e1]
      dsimp only
      rw [ew, ie]
      constructor <;> linarith

/-- The local optimum the walk of `execute_pr` records is the one the
specification describes, when no visited walker has a negative cost. -/
theorem walk_any_lopt (E : env) {q : qap_inst} {t : qap_sol} {tr : Nat → pr_state}
    (hq : WF q) (ht : Valid t) (htn : t.n = q.n) (h0 : WalkShape q (tr 0))
    (hs : ∀ i, i < q.n →
      ∃ fuel, execute_pr_step E fuel (some t) i (tr i) = Except.ok (tr (i + 1)))
    (hpos : ∀ i, i ≤ q.n → 0 ≤ (tr i).s.cost)
    (hcp : (tr 0).cp = -1) (hl : (tr 0).lopt.cost = -1) :
    ∀ i, i ≤ q.n →
      (∃ rest, visited tr t.p i = (tr i).s :: rest) ∧
      (visited tr t.p i = [(tr i).s] → (tr i).cp = -1) ∧
      (∀ b rest, visited tr t.p i = (tr i).s :: b :: rest → (tr i).cp = b.cost) ∧
      (spec_lopt (visited tr t.p i) = none → (tr i).lopt.cost = -1) ∧
      (∀ x, spec_lopt (visited tr t.p i) = some x → (tr i).lopt = x) ∧
      ∀ x, x ∈ visited tr t.p i → 0 ≤ x.cost := by
  have hI := walk_any_shape E hq ht htn h0 hs
  intro i
  induction i with
  | zero =>
    intro _
    refine ⟨⟨[], rfl⟩, fun _ => hcp, fun b rest h => ?_,
      fun _ => hl, fun x h => ?_, fun x hx => ?_⟩
    · simp [visited] at h
    · simp [visited, spec_lopt] at h
    · simp only [visited, List.mem_singleton] at hx
      rw [hx]
      exact hpos 0 (Nat.zero_le _)
  | succ i ih =>
    intro hi
    obtain ⟨⟨rest, a1⟩, a2, a3, a4, a5, a6⟩ := ih (by omega)
    obtain ⟨fuel, hst⟩ := hs i (by omega)
    obtain ⟨c1, c2⟩ := execute_pr_step_form E hq ht htn (hI i (by omega)).1 (by omega) hst
    by_cases c : sel (tr i).s.p i ≠ sel t.p i
    swap
    · have e := c1 (not_not.1 c)
      have ev : visited tr t.p (i + 1) = visited tr t.p i := by
        rw [visited, if_neg c]
      rw [ev, e]
      exact ⟨⟨rest, a1⟩, a2, a3, a4, a5, a6⟩
    · obtain ⟨_, _, _, d4, _, _, d7⟩ := c2 c
      have ev : visited tr t.p (i + 1) = (tr (i + 1)).s :: (tr i).s :: rest := by
        rw [visited, if_pos c, a1]
      have n1 : 0 ≤ (tr (i + 1)).s.cost := hpos (i + 1) hi
      rw [ev]
      refine ⟨⟨_, rfl⟩, fun h => ?_, fun b r h => ?_, ?_, ?_, fun x hx => ?_⟩
      · simp at h
      · rw [d4]
        have := List.cons.inj (List.cons.inj h).2
        rw [this.1]
      · intro hn
        rw [d7]
        cases rest with
        | nil =>
          rw [if_neg (fun h => h.1 (a2 a1))]
          exact a4 (by rw [a1]; simp [spec_lopt])
        | cons a r =>
          rw [spec_lopt] at hn
          by_cases k : (tr i).s.cost < a.cost ∧ (tr i).s.cost < (tr (i + 1)).s.cost
          · rw [if_pos k] at hn
            cases hr : spec_lopt ((tr i).s :: a :: r) with
            | none => rw [hr] at hn; simp at hn
            | some y =>
              rw [hr] at hn
              dsimp only at hn
              split_ifs at hn
          · rw [if_neg k] at hn
            rw [if_neg (fun h => k ⟨by rw [← a3 a r a1]; exact h.2.1, h.2.2.1⟩)]
            exact a4 (by rw [a1]; exact hn)
      · intro x hx
        rw [d7]
        cases rest with
        | nil => simp [spec_lopt] at hx
        | cons a r =>
          have hcp : (tr i).cp = a.cost := a3 a r a1
          have ha0 : 0 ≤ a.cost := a6 a (by rw [a1]; simp)
          rw [spec_lopt] at hx
          by_cases k : (tr i).s.cost < a.cost ∧ (tr i).s.cost < (tr (i + 1)).s.cost
          · rw [if_pos k] at hx
            cases hr : spec_lopt ((tr i).s :: a :: r) with
            | none =>
              rw [hr] at hx
              have hl := a4 (by rw [a1]; exact hr)
              rw [if_pos ⟨by rw [hcp]; omega, by rw [hcp]; exact k.1, k.2, Or.inl hl⟩]
              exact Option.some.inj hx
            | some y =>
              rw [hr] at hx
              dsimp only at hx
              have hl := a5 y (by rw [a1]; exact hr)
              have hy0 : 0 ≤ y.cost := a6 y (by rw [a1]; exact spec_lopt_mem _ _ hr)
              by_cases k2 : (tr i).s.cost < y.cost
              · rw [if_pos k2] at hx
                rw [if_pos ⟨by rw [hcp]; omega, by rw [hcp]; exact k.1, k.2,
                  Or.inr (by rw [hl]; exact k2)⟩]
                exact Option.some.inj hx
              · rw [if_neg k2] at hx
                rw [if_neg (fun h => by
                  rcases h.2.2.2 with h3 | h3
                  · rw [hl] at h3; omega
                  · rw [hl] at h3; exact k2 h3)]
                rw [hl]
                exact Option.some.inj hx
          · rw [if_neg k] at hx
            rw [if_neg (fun h => k ⟨by rw [← hcp]; exact h.2.1, h.2.2.1⟩)]
            exact a5 x (by rw [a1]; exact hx)
      · rcases List.mem_cons.1 hx with h | h
        · rw [h]; exact n1
        · exact a6 x (by rw [a1]; exact h)

theorem execute_pr_any_walk (E : env) {q : qap_inst} {s1 t : qap_sol} {g : grasp} {N : Nat}
    {tr : Nat → pr_state} (hn : 1 ≤ q.n) (hgn : g.s.n = q.n) (h1 : Valid s1) (h1n : s1.n = q.n)
    (hw : IsWalk E N t q.n (walk_init E s1 g) tr)
    (hI : WalkShape q (tr q.n)) (fuel : Nat) (hf : N ≤ fuel) :
    execute_pr E fuel s1 (some t) g = Except.ok (1, { (tr q.n).g with s :=
      if (tr q.n).sbest.cost < t.cost then (tr q.n).sbest
      else if (tr q.n).lopt.cost > -1 then (tr q.n).lopt else (tr q.n).sbest }) := by
  have hn1 : 1 ≤ s1.n := by rw [h1n]; exact hn
  have hl := walk_loop hw fuel hf
  unfold walk_init at hl
  unfold execute_pr
  rw [qs_new_nat E s1.n hn1]
  dsimp only
  rw [qs_copy_eq (shaped_fresh s1.n _) h1.shaped rfl]
  simp only [ok_bind]
  rw [hgn, hl]
  simp only [ok_bind, deref]
  obtain ⟨w1, w2, w3, w4, w5, w6, w7, w8, w9, w10, w11⟩ := hI
  have c1 : qs_copy (tr q.n).g.s (tr q.n).sbest = Except.ok (tr q.n).sbest :=
    qs_copy_eq w2 w6 (by rw [w3, w7])
  have c2 : qs_copy (tr q.n).g.s (tr q.n).lopt = Except.ok (tr q.n).lopt :=
    qs_copy_eq w2 w10 (by rw [w3, w11])
  by_cases a : (tr q.n).sbest.cost < t.cost
  · simp only [if_pos a, c1, ok_bind]
    rfl
  · simp only [if_neg a]
    by_cases b : (tr q.n).lopt.cost > -1
    · simp only [if_pos b, c2, ok_bind]
      rfl
    · simp only [if_neg b, c1, ok_bind]
      rfl

/-! ## Main results -/

/-- C4: the predicate `Valid` (array sizes `n`, `0 <= p[i] < n`, `p` injective,
`rev[p[i]] = i`) is established by `qs_new(n)` for `n >= 1` and preserved by
`qs_swap` (any in-range `a`, `b`, also `a = b`), by `qs_assign` (in-range `pos`,
`val`), by `qs_random` (for every stream of `genrandint` values) and by
`qs_copy` into a solution object of the same `n` from a valid source; each of them returns without
leaving its arrays. -/
theorem C4_valid_preserved :
    (∀ (E : env) (n : Int), 1 ≤ n → ∃ s, qs_new E n = some s ∧ Valid s ∧ (s.n : Int) = n) ∧
    (∀ (s : qap_sol) (a b : Nat), Valid s → a < s.n → b < s.n →
      ∃ s', qs_swap s a b = Except.ok s' ∧ Valid s' ∧ s'.n = s.n) ∧
    (∀ (s : qap_sol) (pos val : Nat), Valid s → pos < s.n → val < s.n →
      ∃ s', qs_assign s pos val = Except.ok s' ∧ Valid s' ∧ s'.n = s.n) ∧
    (∀ (E : env) (s : qap_sol) (rc : Nat), Valid s →
      ∃ s' rc', qs_random E s rc = Except.ok (s', rc') ∧ Valid s' ∧ s'.n = s.n) ∧
    (∀ (dst src : qap_sol), Shaped dst → Valid src → dst.n = src.n →
      ∃ s', qs_copy dst src = Except.ok s' ∧ Valid s' ∧ s'.n = src.n) := by
  refine ⟨?_, ?_, ?_, ?_, ?_⟩
  · intro E n h
    obtain ⟨s, h1, h2, h3, _⟩ := valid_qs_new E n h
    exact ⟨s, h1, h2, h3⟩
  · intro s a b h ha hb
    exact ⟨_, qs_swap_eq h.1 h.2.1 h.2.2.1 ha hb, valid_swap h ha hb, rfl⟩
  · intro s pos val h hp hv
    exact ⟨_, qs_assign_eq h hp hv, valid_swap h hp (h.rev_lt val hv), rfl⟩
  · intro E s rc h
    obtain ⟨s', h1, h2, h3, _⟩ := qs_random_valid E s rc h.shaped
    exact ⟨s', _, h1, h2, h3⟩
  · intro dst src hd hs e
    exact ⟨src, qs_copy_eq hd hs.shaped e, hs, rfl⟩

/-- C4, instance: the swap of positions 0 and 2 in the valid solution with
`p = (2,0,1)`. -/
theorem C4_valid_preserved_witness :
    ∃ s', qs_swap ⟨3, [2, 0, 1], [1, 2, 0], 7⟩ 0 2 = Except.ok s' ∧ Valid s' ∧ s'.n = 3 :=
  C4_valid_preserved.2.1 ⟨3, [2, 0, 1], [1, 2, 0], 7⟩ 0 2 (by decide) (by decide) (by decide)

/-- C10: on a valid solution and in-range `pos`, `val`, `qs_assign(s, pos, val)`
returns with `p[pos] = val`; the value that was at `pos` now sits at the
position `rev[val]` that held `val` before, and `p` is unchanged elsewhere. -/
theorem C10_qs_assign_places (s : qap_sol) (pos val : Nat) (h : Valid s)
    (hp : pos < s.n) (hv : val < s.n) :
    ∃ s', qs_assign s pos val = Except.ok s' ∧
      sel s.p (sel s.rev val) = val ∧
      sel s'.p pos = val ∧
      sel s'.p (sel s.rev val) = sel s.p pos ∧
      ∀ i, i ≠ pos → i ≠ sel s.rev val → sel s'.p i = sel s.p i := by
  have hr := h.rev_lt val hv
  have hpr := h.p_rev val hv
  refine ⟨_, qs_assign_eq h hp hv, hpr, ?_, ?_, ?_⟩
  · simp only
    rw [sel_swp _ _ _ _ (by rw [h.1]; exact hp) (by rw [h.1]; exact hr)]
    by_cases e : pos = sel s.rev val
    · rw [if_pos e, e, hpr]
    · rw [if_neg e, if_pos rfl, hpr]
  · simp only
    rw [sel_swp _ _ _ _ (by rw [h.1]; exact hp) (by rw [h.1]; exact hr), if_pos rfl]
  · intro i h1 h2
    simp only
    rw [sel_swp _ _ _ _ (by rw [h.1]; exact hp) (by rw [h.1]; exact hr), if_neg h2, if_neg h1]

/-- C10, instance: assigning value 1 to position 0 of `p = (2,0,1)`. -/
theorem C10_qs_assign_places_witness :
    ∃ s', qs_assign ⟨3, [2, 0, 1], [1, 2, 0], 7⟩ 0 1 = Except.ok s' ∧
      sel [2, 0, 1] (sel [1, 2, 0] 1) = 1 ∧
      sel s'.p 0 = 1 ∧
      sel s'.p (sel [1, 2, 0] 1) = sel [2, 0, 1] 0 ∧
      ∀ i, i ≠ 0 → i ≠ sel [1, 2, 0] 1 → sel s'.p i = sel [2, 0, 1] i :=
  C10_qs_assign_places ⟨3, [2, 0, 1], [1, 2, 0], 7⟩ 0 1 (by decide) (by decide) (by decide)

/-- C3, as amended: for a well-formed instance, a valid solution of the same
`n` and distinct in-range positions `i`, `j`, `g_improvement(s,q,i,j)` returns
`C(s.p) - C(s.p with i and j exchanged)` minus the diagonal term
`(D[i][i]-D[j][j]) * (F[p[i]][p[i]]-F[p[j]][p[j]])`, reduced to 32 bits, and
`qs_objective` stores `C` reduced to 32 bits; when the costs of the instance fit
in an `int` (`Fits`) nothing is reduced and the three values are exact.  Hence,
when the diagonal term is zero, the step
`s.cost -= g_improvement(s,q,i,j); qs_swap(s,i,j)` turns a solution whose cost
is the one `qs_objective` computes into one that `qs_objective` leaves
unchanged. -/
theorem C3_delta_update (q : qap_inst) (s : qap_sol) (i j : Nat) (hq : WF q) (hs : Valid s)
    (hn : s.n = q.n) (hi : i < q.n) (hj : j < q.n) (hij : i ≠ j) :
    ∃ gain s', g_improvement s q i j = Except.ok gain ∧ qs_swap s i j = Except.ok s' ∧
      Valid s' ∧
      qs_objective s q = Except.ok { s with cost := wrap (objective q s.p) } ∧
      qs_objective s' q = Except.ok { s' with cost := wrap (objective q s'.p) } ∧
      gain = wrap (objective q s.p - objective q s'.p -
        (Dv q i i - Dv q j j) *
          (Fv q (sel s.p i) (sel s.p i) - Fv q (sel s.p j) (sel s.p j))) ∧
      (Fits q → wrap (objective q s.p) = objective q s.p ∧
        wrap (objective q s'.p) = objective q s'.p ∧
        gain = objective q s.p - objective q s'.p -
          (Dv q i i - Dv q j j) *
            (Fv q (sel s.p i) (sel s.p i) - Fv q (sel s.p j) (sel s.p j))) ∧
      ((Dv q i i - Dv q j j) *
          (Fv q (sel s.p i) (sel s.p i) - Fv q (sel s.p j) (sel s.p j)) = 0 →
        s.cost = wrap (objective q s.p) →
        ∃ t, qs_swap { s with cost := isub s.cost gain } i j = Except.ok t ∧
          qs_objective t q = Except.ok t) := by
  have hp : IsPerm s.p q.n := hn ▸ hs.isPerm
  have hi' : i < s.n := hn ▸ hi
  have hj' : j < s.n := hn ▸ hj
  have hp' : IsPerm (swp s.p i j) q.n := isPerm_swp hp hi hj
  have key := objf_exch q.n (Dv q) (Fv q) (sel s.p) i j hi hj hij
  rw [← sel_swp_exch s.p i j (by rw [hp.1]; exact hi) (by rw [hp.1]; exact hj)] at key
  have eg : gainf q.n (Dv q) (Fv q) (sel s.p) i j =
      objective q s.p - objective q (swp s.p i j) -
        (Dv q i i - Dv q j j) *
          (Fv q (sel s.p i) (sel s.p i) - Fv q (sel s.p j) (sel s.p j)) := by
    simp only [objective]
    linarith [key]
  refine ⟨_, _, g_improvement_wrap hq hp hi hj, qs_swap_eq hs.1 hs.2.1 hs.2.2.1 hi' hj',
    valid_swap hs hi' hj', qs_objective_wrap hq hp, qs_objective_wrap hq hp', ?_, ?_, ?_⟩
  · exact congrArg wrap eg
  · intro hF
    have b1 := abs_le.1 (objective_bound q s.p hp.2.1)
    have b2 := abs_le.1 (objective_bound q (swp s.p i j) hp'.2.1)
    have b3 := abs_le.1 (gainf_bound hp hi hj)
    unfold Fits at hF
    refine ⟨wrap_id (by linarith [b1.1]) (by linarith [b1.2]),
      wrap_id (by linarith [b2.1]) (by linarith [b2.2]), ?_⟩
    show wrap _ = _
    rw [← eg]
    exact wrap_id (by linarith [b3.1]) (by linarith [b3.2])
  · intro hz hc
    have hs2 : ∀ c : Int, Valid { s with cost := c } :=
      fun _ => ⟨hs.1, hs.2.1, hs.2.2.1, hs.2.2.2.1, hs.2.2.2.2⟩
    refine ⟨_, qs_swap_eq (hs2 _).1 (hs2 _).2.1 (hs2 _).2.2.1 hi' hj', ?_⟩
    have e : wrap (objective q (swp s.p i j)) =
        isub s.cost (wrap (gainf q.n (Dv q) (Fv q) (sel s.p) i j)) := by
      rw [hc]
      refine wrap_congr ?_
      rw [eg, hz, sub_zero]
      have : objective q (swp s.p i j) =
          objective q s.p - (objective q s.p - objective q (swp s.p i j)) := by ring
      rw [this]
      exact ((wrap_modEq _).sub (wrap_modEq _)).symm.trans (by ring_nf; rfl)
    rw [qs_objective_wrap hq hp']
    dsimp only
    rw [e]

/-- C3, instance of the amended claim: `n = 3`, positions 0 and 2. -/
theorem C3_delta_update_witness :
    ∃ gain s', g_improvement sol3 inst3 0 2 = Except.ok gain ∧
      qs_swap sol3 0 2 = Except.ok s' ∧
      Valid s' ∧
      qs_objective sol3 inst3 = Except.ok { sol3 with cost := wrap (objective inst3 sol3.p) } ∧
      qs_objective s' inst3 = Except.ok { s' with cost := wrap (objective inst3 s'.p) } ∧
      gain = wrap (objective inst3 sol3.p - objective inst3 s'.p -
        (Dv inst3 0 0 - Dv inst3 2 2) *
          (Fv inst3 (sel sol3.p 0) (sel sol3.p 0) - Fv inst3 (sel sol3.p 2) (sel sol3.p 2))) ∧
      (Fits inst3 → wrap (objective inst3 sol3.p) = objective inst3 sol3.p ∧
        wrap (objective inst3 s'.p) = objective inst3 s'.p ∧
        gain = objective inst3 sol3.p - objective inst3 s'.p -
          (Dv inst3 0 0 - Dv inst3 2 2) *
            (Fv inst3 (sel sol3.p 0) (sel sol3.p 0) - Fv inst3 (sel sol3.p 2) (sel sol3.p 2))) ∧
      ((Dv inst3 0 0 - Dv inst3 2 2) *
          (Fv inst3 (sel sol3.p 0) (sel sol3.p 0) - Fv inst3 (sel sol3.p 2) (sel sol3.p 2)) = 0 →
        sol3.cost = wrap (objective inst3 sol3.p) →
        ∃ t, qs_swap { sol3 with cost := isub sol3.cost gain } 0 2 = Except.ok t ∧
          qs_objective t inst3 = Except.ok t) :=
  C3_delta_update inst3 sol3 0 2 (by decide) (by decide) (by decide) (by decide) (by decide)
    (by decide)

/-- C3 as stated fails in two ways.  When both diagonals are not constant: for
`n = 2`, `F = D = ((1,0),(0,0))` and the identity, `g_improvement(s,q,0,1)` is 0
while the objective drops from 1 to 0 under the exchange.  When the costs leave
the range of `int`: for `F = D = ((0,100000),(0,0))` (zero diagonals) and the
identity, `g_improvement(s,q,0,1)` is 1410065408 while the objective drops from
`10^10` to 0, and `qs_objective` stores 1410065408 for the identity. -/
theorem C3_counterexample :
    (g_improvement ⟨2, [0, 1], [0, 1], 1⟩ ⟨2, [[1, 0], [0, 0]], [[1, 0], [0, 0]]⟩ 0 1 =
      Except.ok 0 ∧
    qs_objective ⟨2, [0, 1], [0, 1], 1⟩ ⟨2, [[1, 0], [0, 0]], [[1, 0], [0, 0]]⟩ =
      Except.ok ⟨2, [0, 1], [0, 1], 1⟩ ∧
    qs_swap ⟨2, [0, 1], [0, 1], 1⟩ 0 1 = Except.ok ⟨2, [1, 0], [1, 0], 1⟩ ∧
    qs_objective ⟨2, [1, 0], [1, 0], 1⟩ ⟨2, [[1, 0], [0, 0]], [[1, 0], [0, 0]]⟩ =
      Except.ok ⟨2, [1, 0], [1, 0], 0⟩ ∧
    (0 : Int) ≠ 1 - 0) ∧
    (g_improvement ⟨2, [0, 1], [0, 1], 0⟩ inst_deep 0 1 = Except.ok 1410065408 ∧
    qs_swap ⟨2, [0, 1], [0, 1], 0⟩ 0 1 = Except.ok ⟨2, [1, 0], [1, 0], 0⟩ ∧
    objective inst_deep [0, 1] - objective inst_deep [1, 0] = 10000000000 ∧
    qs_objective ⟨2, [0, 1], [0, 1], 0⟩ inst_deep = Except.ok ⟨2, [0, 1], [0, 1], 1410065408⟩) :=
  ⟨⟨rfl, rfl, rfl, rfl, by decide⟩, rfl, rfl, by
    rw [objective_deep.1, objective_deep.2]; decide, rfl⟩

/-- C5: for `n < 2` (also `n <= 0`) the GRASP+PR entry point returns the error
code `-1` at once; the result does not depend on the arrays `flow`, `dist`,
`sol`, `in_out` (it is produced even when they are empty, so none is read) and
`sol`, `in_out` are handed back unchanged.  The two Fortran trampolines make the
same test before anything else. -/
theorem C5_dimension_check (n : Int) (hn : n < 2) :
    (∀ (E : env) (fuel : Nat) (flow dist sol : List Int) (alpha beta : cfloat)
        (runs max_itr look4 elite_size max_time : Int) (in_out : List Int),
      qap_grasppr E fuel n flow dist sol alpha beta runs max_itr look4 elite_size max_time in_out
        = Except.ok ⟨-1, sol, in_out⟩) ∧
    (∀ gqapd (niter : Int) (alpha beta : cfloat) (look4 : Int) (dist flow sol in_out : List Int),
      qap_graspd gqapd n niter alpha beta look4 dist flow sol in_out
        = Except.ok ⟨-1, sol, in_out⟩) ∧
    (∀ gqaps (niter : Int) (alpha beta : cfloat) (look4 : Int) (dist flow sol in_out : List Int),
      qap_grasps gqaps n niter alpha beta look4 dist flow sol in_out
        = Except.ok ⟨-1, sol, in_out⟩) := by
  refine ⟨?_, ?_, ?_⟩
  · intros
    simp [qap_grasppr, MIN_DIMENSION, ERROR_CODE, hn]
  · intros
    simp [qap_graspd, MIN_DIMENSION, ERROR_CODE, hn]
  · intros
    simp [qap_grasps, MIN_DIMENSION, ERROR_CODE, hn]

/-- C5, instance: `n = 1` with empty arrays. -/
theorem C5_dimension_check_witness :
    qap_grasppr env_id 0 1 [] [] [] quarter half 1 10 (-1) 10 0 [] = Except.ok ⟨-1, [], []⟩ :=
  (C5_dimension_check 1 (by decide)).1 env_id 0 [] [] [] quarter half 1 10 (-1) 10 0 []

/-- C6, evaluation of the code: for `n = 2`, `F = D = ((0,1),(1,0))` the identity
costs 2.  With `look4 = 1` (target not reached) and `max_itr = 10` the loop
breaks in its first iteration (`in_out[1] = 1`); with `look4 = 2` (target
reached from the start) and `max_itr = 2` it does not break and runs both
iterations (`in_out[1] = 2`).  The test in the code is `l4 >= 0 && l4 < best.cost`. -/
theorem C6_break_when_target_missed :
    qap_grasppr env_id 0 2 [0, 1, 1, 0] [0, 1, 1, 0] [0, 0] quarter half 1 10 1 10 0 [270001, 0]
      = Except.ok ⟨2, [0, 1], [270001, 1]⟩ ∧
    qap_grasppr env_id 21 2 [0, 1, 1, 0] [0, 1, 1, 0] [0, 0] quarter half 1 2 2 10 0 [270001, 0]
      = Except.ok ⟨2, [0, 1], [270001, 2]⟩ := by
  constructor
  · rfl
  · set_option maxRecDepth 100000 in rfl

/-- Claim C7, as amended: for an engine over a well-formed instance with
`n >= 2`, buffers of the allocated sizes, `alpha` and `beta` at most 1 and a valid working solution, for
every stream of `genrandint` values `constructor(g)` returns (no access outside
an array, no division by zero) with a working solution that is valid (`p` a
permutation of `0..n-1`, `rev` its inverse) and whose cost is `C(g.s.p)` reduced
to 32 bits, the value `qs_objective` recomputes; it is `C(g.s.p)` itself when
the costs of the instance fit in an `int`. -/
theorem C7_constructor_feasible (E : env) (g : grasp) (hb : Buffers g) (hv : Valid g.s) :
    ∃ g', constructor E g = Except.ok g' ∧ Valid g'.s ∧ g'.s.n = g.q.n ∧ g'.q = g.q ∧
      g'.s.cost = wrap (objective g.q g'.s.p) ∧ qs_objective g'.s g.q = Except.ok g'.s ∧
      (Fits g.q → g'.s.cost = objective g.q g'.s.p) := by
  obtain ⟨g', e, b, _, v, n, c, k, _⟩ := constructor_ok E hb hv
  have hq : g'.q = g.q := k.1
  have hp : IsPerm g'.s.p g.q.n := by
    have := v.isPerm
    rwa [b.2.2.1, hq] at this
  refine ⟨g', e, v, by rw [n]; exact hb.2.2.1, hq, c, ?_, fun hF => ?_⟩
  · rw [qs_objective_wrap hb.1 hp, ← c]
  · have ob := abs_le.1 (objective_bound g.q g'.s.p hp.2.1)
    unfold Fits at hF
    rw [c, wrap_id (by linarith [ob.1]) (by linarith [ob.2])]

/-- C7, instance: the engine `engine3` over `inst3` with the stream `env_id`. -/
theorem C7_constructor_feasible_witness :
    ∃ g', constructor env_id engine3 = Except.ok g' ∧ Valid g'.s ∧ g'.s.n = engine3.q.n ∧
      g'.q = engine3.q ∧ g'.s.cost = wrap (objective engine3.q g'.s.p) ∧
      qs_objective g'.s engine3.q = Except.ok g'.s ∧
      (Fits engine3.q → g'.s.cost = objective engine3.q g'.s.p) :=
  C7_constructor_feasible env_id engine3
    ⟨by decide, by decide, by decide, by decide, by decide, by decide, by decide, by decide,
      fun k => Nat.div_le_self k 4, fun k => Nat.div_le_self k 2⟩ (by decide)

/-- C7 as stated fails when the costs leave the range of `int`: over
`F = D = ((0,100000),(100000,0))`, with the stream `0, 1, 2, ..`, `constructor`
builds the identity with the stored cost -1474836480, while
`C(identity) = 2 * 10^10`. -/
theorem C7_counterexample :
    (constructor env_id (engine2 inst_big)).toOption.map (fun g => (g.s.p, g.s.cost)) =
      some ([0, 1], -1474836480) ∧
    objective inst_big [0, 1] = 20000000000 :=
  ⟨by decide!, objective_big _ (Or.inl rfl)⟩

/-- C8: if `F` is all-zero or `D` is all-zero then, for every stream of
`genrandint` values, `constructor` returns (no access outside an array): after
`phase1` has made the two seed assignments, `phase2` takes the sparse path and
is `sparse_phase2` alone (no completion round is left), which ends with
`n_assigned = n`; the constructed solution is valid and its cost is 0. -/
theorem C8_sparse_all_zero (E : env) (g : grasp) (hb : Buffers g) (hv : Valid g.s)
    (hz : ZeroInst g.q) :
    ∃ g1 g2 g', phase1 E g = Except.ok g1 ∧ g1.n_assigned = 2 ∧
      sparse_phase2 E g1 = Except.ok g2 ∧ phase2 E g1 = Except.ok g2 ∧
      g2.n_assigned = g.q.n ∧
      constructor E g = Except.ok g' ∧ g'.n_assigned = g.q.n ∧ Valid g'.s ∧
      g'.s.cost = 0 := by
  obtain ⟨g1, e1, b1, m1, n1, k1, s1, _, t1, _, _⟩ := phase1_ok E g hb hv
  have hq1 : g1.q = g.q := k1.1
  obtain ⟨g2, e2, e3, n2⟩ := phase2_zero E b1 m1 n1 (hq1 ▸ hz)
  obtain ⟨g2', e2', b2, m2, k2, s2, t2, _⟩ := phase2_ok E b1 m1 n1
  have eg : g2' = g2 := by
    rw [e3] at e2'
    exact (Except.ok.inj e2').symm
  subst eg
  have hq : g2'.q = g.q := (Kept.trans k1 k2).1
  have hp : IsPerm g2'.s.p g2'.q.n := by
    have := m2.1.isPerm
    rwa [b2.2.2.1] at this
  refine ⟨g1, g2', { g2' with s := { g2'.s with cost := wrap (objective g2'.q g2'.s.p) } }, e1, n1,
    e2, e3, by rw [n2, hq1], ?_, by simp only; rw [n2, hq1], ?_, ?_⟩
  · unfold constructor
    rw [e1, ok_bind, e3, ok_bind, qs_objective_wrap b2.1 hp, ok_bind]
    rfl
  · obtain ⟨v1, v2, v3, v4, v5⟩ := m2.1
    exact ⟨v1, v2, v3, v4, v5⟩
  · simp only
    rw [objective_zero (hq ▸ hz) hp, wrap_zero]

/-- C8, instance: the engine `engine3z` over the instance `inst3z` whose flow
matrix is zero. -/
theorem C8_sparse_all_zero_witness :
    ∃ g1 g2 g', phase1 env_id engine3z = Except.ok g1 ∧ g1.n_assigned = 2 ∧
      sparse_phase2 env_id g1 = Except.ok g2 ∧ phase2 env_id g1 = Except.ok g2 ∧
      g2.n_assigned = engine3z.q.n ∧
      constructor env_id engine3z = Except.ok g' ∧ g'.n_assigned = engine3z.q.n ∧
      Valid g'.s ∧ g'.s.cost = 0 :=
  C8_sparse_all_zero env_id engine3z
    ⟨by decide, by decide, by decide, by decide, by decide, by decide, by decide, by decide,
      fun k => Nat.div_le_self k 4, fun k => Nat.div_le_self k 2⟩ (by decide)
    (Or.inl (fun i j hi hj => by
      have hi : i < 3 := hi
      have hj : j < 3 := hj
      interval_cases i <;> interval_cases j <;> rfl))

/-- C9: on an engine whose working and best solution have arrays of the same
dimension, `update(g)` returns with `g.s` unchanged and the new `best.cost`
equal to `min(old best.cost, g.s.cost)`: if `g.s.cost < g.best.cost` the new
best has the `p`, `rev` and `cost` of `g.s` and `last_improv_iter = curr_iter`,
otherwise `best` and `last_improv_iter` are unchanged.  And over any sequence of
engine operations (`constructor`, `local_search`, `update`, `ls_step`,
`pr_local_search`, `extra_ls`, `execute_pr`, `pr_run`, `pr_rev_run`, `pr_update`,
`call_pr`, `pr_post_optimization`) that returns, `best.cost` does not increase. -/
theorem C9_update_keeps_running_best (E : env) (g : grasp) (hs : Shaped g.s)
    (hb : Shaped g.best) (hn : g.best.n = g.s.n) :
    (∃ g', update g = Except.ok g' ∧ g'.s = g.s ∧
      g'.best.cost = min g.best.cost g.s.cost ∧
      (g.s.cost < g.best.cost → g'.best.p = g.s.p ∧ g'.best.rev = g.s.rev ∧
        g'.best.cost = g.s.cost ∧ g'.last_improv_iter = g.curr_iter) ∧
      (¬ g.s.cost < g.best.cost → g'.best = g.best ∧
        g'.last_improv_iter = g.last_improv_iter)) ∧
    (∀ ops st st', run_ops E ops st = Except.ok st' → st'.2.best.cost ≤ st.2.best.cost) := by
  refine ⟨?_, run_ops_best⟩
  rw [update_eq hs hb hn]
  by_cases c : g.s.cost < g.best.cost
  · rw [if_pos c]
    refine ⟨_, rfl, rfl, ?_, fun _ => ⟨rfl, rfl, rfl, rfl⟩, fun h => absurd c h⟩
    show g.s.cost = min g.best.cost g.s.cost
    rw [min_eq_right (le_of_lt c)]
  · rw [if_neg c]
    refine ⟨_, rfl, rfl, ?_, fun h => absurd h c, fun _ => ⟨rfl, rfl⟩⟩
    rw [min_eq_left (not_lt.1 c)]

/-- C9, instance: the engine `engine3` with `sol3` (cost 7) as its best and a
working solution of cost 2. -/
theorem C9_update_keeps_running_best_witness :
    (∃ g', update { engine3 with best := sol3 } = Except.ok g' ∧ g'.s = engine3.s ∧
      g'.best.cost = min sol3.cost engine3.s.cost ∧
      (engine3.s.cost < sol3.cost → g'.best.p = engine3.s.p ∧ g'.best.rev = engine3.s.rev ∧
        g'.best.cost = engine3.s.cost ∧ g'.last_improv_iter = engine3.curr_iter) ∧
      (¬ engine3.s.cost < sol3.cost → g'.best = sol3 ∧
        g'.last_improv_iter = engine3.last_improv_iter)) ∧
    (∀ ops st st', run_ops env_id ops st = Except.ok st' →
      st'.2.best.cost ≤ st.2.best.cost) :=
  C9_update_keeps_running_best env_id { engine3 with best := sol3 } (by decide) (by decide)
    (by decide)

/-- Claim C2, as amended: for an engine over a well-formed instance with `n >= 2`
whose `best` holds the identity permutation, `elite_size >= 2`, any `max_itr`,
`look4`, `max_time`, any stream of `genrandint` values and any fuel: whenever
`run_grasp_pr` returns, the returned cost is at most the `int` computed for the
identity permutation into `engine.best` before the main loop, the sum of
`D[i][j] * F[i][j]` reduced to 32 bits, and hence at most the sum itself when
that is at least `-2^31` (as it is for non-negative matrices).  And the run does
return, with such a cost, for every sufficiently large fuel, when the matrices
are non-negative with costs that fit in an `int`, one of them has a constant
diagonal, the two solutions of the engine are valid and the stream never stays
on one residue modulo `n` forever. -/
theorem C2_never_worse_than_identity (E : env) (g : grasp) (max_itr : Int) (hb : Buffers g)
    (hid : g.best.p = List.range g.q.n) (he : 2 ≤ g.elite_size) :
    (∀ fuel ret g', run_grasp_pr E fuel g max_itr = Except.ok (ret, g') →
      ret ≤ wrap (∑ i in range g.q.n, ∑ j in range g.q.n, Dv g.q i j * Fv g.q i j) ∧
      (-2147483648 ≤ ∑ i in range g.q.n, ∑ j in range g.q.n, Dv g.q i j * Fv g.q i j →
        ret ≤ ∑ i in range g.q.n, ∑ j in range g.q.n, Dv g.q i j * Fv g.q i j)) ∧
    (NonNeg g.q → Neutral g.q → Fits g.q → Valid g.s → Valid g.best → g.best.n = g.q.n →
      Fair E g.q.n →
      ∃ N ret g', (∀ fuel, N ≤ fuel → run_grasp_pr E fuel g max_itr = Except.ok (ret, g')) ∧
        ret ≤ ∑ i in range g.q.n, ∑ j in range g.q.n, Dv g.q i j * Fv g.q i j) := by
  have key : ∀ fuel ret g', run_grasp_pr E fuel g max_itr = Except.ok (ret, g') →
      ret ≤ wrap (∑ i in range g.q.n, ∑ j in range g.q.n, Dv g.q i j * Fv g.q i j) := by
    intro fuel ret g' h
    have := run_grasp_pr_le h (by omega) (by have := hb.2.1; omega) hb.1
      (by rw [hid]; exact isPerm_range _)
    rw [hid, objective_range] at this
    exact this
  constructor
  · intro fuel ret g' h
    exact ⟨key fuel ret g' h, fun hlow => le_trans (key fuel ret g' h) (wrap_le hlow)⟩
  · intro hP hN hF hvs hvb hbn hf
    obtain ⟨N, ⟨ret, g'⟩, _, h⟩ :=
      (run_grasp_pr_spec E max_itr hP hN hF rfl hb hvs hvb hbn he).tot hf
    refine ⟨N, ret, g', h, le_trans (key N ret g' (h N (le_refl _))) (wrap_le ?_)⟩
    have := objective_nonneg hP (isPerm_range g.q.n)
    rw [objective_range] at this
    omega

/-- C2, instance: the engine `engine3` over `inst3` with the stream `env_id` and
`max_itr = 1`. -/
theorem C2_never_worse_than_identity_witness :
    (∀ fuel ret g', run_grasp_pr env_id fuel engine3 1 = Except.ok (ret, g') →
      ret ≤ wrap (∑ i in range engine3.q.n, ∑ j in range engine3.q.n,
        Dv engine3.q i j * Fv engine3.q i j) ∧
      (-2147483648 ≤ ∑ i in range engine3.q.n, ∑ j in range engine3.q.n,
          Dv engine3.q i j * Fv engine3.q i j →
        ret ≤ ∑ i in range engine3.q.n, ∑ j in range engine3.q.n,
          Dv engine3.q i j * Fv engine3.q i j)) ∧
    ∃ N ret g', (∀ fuel, N ≤ fuel → run_grasp_pr env_id fuel engine3 1 = Except.ok (ret, g')) ∧
      ret ≤ ∑ i in range engine3.q.n, ∑ j in range engine3.q.n,
        Dv engine3.q i j * Fv engine3.q i j :=
  have h := C2_never_worse_than_identity env_id engine3 1
    ⟨by decide, by decide, by decide, by decide, by decide, by decide, by decide, by decide,
      fun k => Nat.div_le_self k 4, fun k => Nat.div_le_self k 2⟩ rfl (by decide)
  ⟨h.1, h.2 nonneg_inst3 neutral_inst3 fits_inst3 (by decide) (by decide) rfl
    (fair_env_id 3 (by decide))⟩

/-- C2 as stated fails in two ways.  When the cost of the identity is below
`-2^31`: over `F = ((0,100000),(100000,0))`, `D = ((0,-100000),(-100000,0))`
the sum of `D[i][j] * F[i][j]` is `-2 * 10^10`, and the run of the entry point
with `max_itr = 0` (fresh cost fields holding `2^31 - 1`) returns 1474836480,
the cost computed for the identity.  When the
stream of `genrandint` values is constant: over `inst3` with `max_itr = 1` the
run never returns, whatever the fuel (`ls_step` draws `q` until `q != p`). -/
theorem C2_counterexample :
    (qap_grasppr ⟨fun k => k, fun _ => 0, 2147483647⟩ 60 2 [0, 100000, 100000, 0]
        [0, -100000, -100000, 0] [0, 0] quarter half 1 0 (-1) 2 0 [1, 0] =
        Except.ok ⟨1474836480, [0, 1], [1, 0]⟩ ∧
      ∑ i in range 2, ∑ j in range 2, Dv inst_neg i j * Fv inst_neg i j = -20000000000) ∧
    ∀ fuel, run_grasp_pr env_zero fuel engine3 1 = Except.error Err.fuel := by
  refine ⟨⟨?_, ?_⟩, fun fuel => ?_⟩
  · set_option maxRecDepth 1000000 in rfl
  · simp [Finset.sum_range_succ, sel, Dv, Fv, inst_neg]
  · obtain ⟨e, he⟩ := run_grasp_pr_stuck env_zero (fun _ => rfl) fuel engine3 1 (by decide)
      (by decide) (by decide) (by decide) (by decide)
    have g := (run_grasp_pr_spec env_zero 1 nonneg_inst3 neutral_inst3 fits_inst3 rfl
      (g := engine3) ⟨by decide, by decide, by decide, by decide, by decide, by decide,
        by decide, by decide, fun k => Nat.div_le_self k 4, fun k => Nat.div_le_self k 2⟩
      (by decide) (by decide) rfl (by decide)).1 fuel
    have g : Good (run_grasp_pr env_zero fuel engine3 1) _ := g
    rw [he] at g ⊢
    exact congrArg Except.error g

/-- C1, counterexample: four runs of the entry point with non-negative
matrices, `elite_size = 2`, `max_time = 0`, in which the returned cost is not
the objective of the returned permutation.  With `n = 3`, rows of `F`
`(0,0,0),(1,1,1),(0,0,0)`, rows of `D` `(0,0,1),(1,0,0),(0,0,1)` (diagonals not
constant), `max_itr = 1` and the stream `env_id`, the run returns cost 0 with
the permutation `(0,2,1)`, whose objective is 1.  With `n = 2`,
`F = D = ((0,1),(1,0))` and fresh cost fields holding `-5`, the run with
`max_itr = 0` and the run with `max_itr = 10`, `look4 = 1` (which breaks in its
first iteration) return `-5` with the identity permutation, whose objective is 2.
With `n = 2`, `F = D = ((0,100000),(100000,0))` (zero diagonals), `max_itr = 1`
and the stream `env_id`, the run returns -1474836480 with the identity
permutation, whose objective is `2 * 10^10`. -/
theorem C1_counterexample :
    qap_grasppr env_id 60 3 [0, 0, 0, 1, 1, 1, 0, 0, 0] [0, 0, 1, 1, 0, 0, 0, 0, 1]
      [0, 0, 0] quarter half 1 1 (-1) 2 0 [1, 0] = Except.ok ⟨0, [0, 2, 1], [1, 1]⟩ ∧
    objective instd [0, 2, 1] = 1 ∧
    qap_grasppr env_low 60 2 [0, 1, 1, 0] [0, 1, 1, 0] [0, 0] quarter half 1 0 (-1) 2 0 [1, 0]
      = Except.ok ⟨-5, [0, 1], [1, 0]⟩ ∧
    qap_grasppr env_low 60 2 [0, 1, 1, 0] [0, 1, 1, 0] [0, 0] quarter half 1 10 1 2 0 [1, 0]
      = Except.ok ⟨-5, [0, 1], [1, 1]⟩ ∧
    objective ⟨2, [[0, 1], [1, 0]], [[0, 1], [1, 0]]⟩ [0, 1] = 2 ∧
    qap_grasppr env_id 60 2 [0, 100000, 100000, 0] [0, 100000, 100000, 0] [0, 0] quarter half
      1 1 (-1) 2 0 [1, 0] = Except.ok ⟨-1474836480, [0, 1], [1, 1]⟩ ∧
    objective inst_big [0, 1] = 20000000000 := by
  refine ⟨?_, ?_, ?_, ?_, ?_, ?_, ?_⟩
  · set_option maxRecDepth 1000000 in rfl
  · simp [objective, objf, Finset.sum_range_succ, sel, Dv, Fv, instd]
  · rfl
  · rfl
  · simp [objective, objf, Finset.sum_range_succ, sel, Dv, Fv]
  · set_option maxRecDepth 1000000 in rfl
  · exact objective_big _ (Or.inl rfl)

/-- C1 as amended: for an engine over a well-formed instance with `n >= 2`,
non-negative matrices of which one has a constant diagonal and whose costs fit
in an `int` (`Fits`), valid working and best solutions, `alpha`, `beta` at most
1, `elite_size >= 2`, `max_time = 0`, `max_itr >= 1` and `look4` not in `[0, C(best.p))` on entry (so that the first
iteration runs the construction), for every stream of `genrandint` values and
every fuel: the run never reads outside an array or divides by zero, and
whenever `run_grasp_pr` returns, the returned cost is `best.cost` and equals
`C(best.p)` for the valid permutation `best.p` it leaves in the engine.  It does
return, for every sufficiently large fuel, when the stream never stays on one
residue modulo `n` forever. -/
theorem C1_returned_cost_exact (E : env) (g : grasp) (max_itr : Int) (hb : Buffers g)
    (hP : NonNeg g.q) (hN : Neutral g.q) (hF : Fits g.q) (hvs : Valid g.s) (hvb : Valid g.best)
    (hbn : g.best.n = g.q.n) (he : 2 ≤ g.elite_size) (ht : g.max_time = 0) (hi : 1 ≤ max_itr)
    (hl : ¬ (g.l4 ≥ 0 ∧ g.l4 < objective g.q g.best.p)) :
    (∀ fuel, run_grasp_pr E fuel g max_itr ≠ Except.error Err.oob ∧
      run_grasp_pr E fuel g max_itr ≠ Except.error Err.divzero ∧
      ∀ ret g', run_grasp_pr E fuel g max_itr = Except.ok (ret, g') →
        Valid g'.best ∧ g'.best.n = g.q.n ∧ ret = g'.best.cost ∧
        ret = objective g.q g'.best.p) ∧
    (Fair E g.q.n →
      ∃ N ret g', ∀ fuel, N ≤ fuel → run_grasp_pr E fuel g max_itr = Except.ok (ret, g')) := by
  have sp := run_grasp_pr_spec E max_itr hP hN hF rfl hb hvs hvb hbn he
  constructor
  · intro fuel
    have : Good (run_grasp_pr E fuel g max_itr) _ := sp.1 fuel
    cases hr : run_grasp_pr E fuel g max_itr with
    | error e =>
      rw [hr] at this
      have : e = Err.fuel := this
      subst this
      exact ⟨by simp, by simp, fun _ _ h => by cases h⟩
    | ok r =>
      rw [hr] at this
      have h : r.1 = r.2.best.cost ∧ Valid r.2.best ∧ r.2.best.n = g.q.n ∧ _ := this
      refine ⟨by simp, by simp, fun ret g' e => ?_⟩
      cases e
      exact ⟨h.2.1, h.2.2.1, h.1, h.2.2.2 (by omega) hl (by omega)⟩
  · intro hf
    obtain ⟨N, ⟨ret, g'⟩, _, h⟩ := sp.tot hf
    exact ⟨N, ret, g', h⟩

/-- C1 as amended, instance: the engine `engine3` over `inst3` (flow diagonal
constant) with the stream `env_id` and `max_itr = 1`. -/
theorem C1_returned_cost_exact_witness :
    (∀ fuel, run_grasp_pr env_id fuel engine3 1 ≠ Except.error Err.oob ∧
      run_grasp_pr env_id fuel engine3 1 ≠ Except.error Err.divzero ∧
      ∀ ret g', run_grasp_pr env_id fuel engine3 1 = Except.ok (ret, g') →
        Valid g'.best ∧ g'.best.n = engine3.q.n ∧ ret = g'.best.cost ∧
        ret = objective engine3.q g'.best.p) ∧
    ∃ N ret g', ∀ fuel, N ≤ fuel → run_grasp_pr env_id fuel engine3 1 = Except.ok (ret, g') :=
  have h := C1_returned_cost_exact env_id engine3 1
    ⟨by decide, by decide, by decide, by decide, by decide, by decide, by decide, by decide,
      fun k => Nat.div_le_self k 4, fun k => Nat.div_le_self k 2⟩
    nonneg_inst3 neutral_inst3 fits_inst3 (by decide) (by decide) rfl (by decide) rfl (by decide)
    (fun h => absurd h.1 (by decide))
  ⟨h.1, h.2 (fair_env_id 3 (by decide))⟩

/-- Claim C11: on two solutions of the same dimension `qs_similarity` returns, in
either order, the number of positions at which the two permutations differ; it is
0 on a solution and itself, and positive exactly when the permutations differ in
some position (equivalently, are different lists). -/
theorem C11_similarity_counts_differences (s t : qap_sol) (hs : Shaped s) (ht : Shaped t)
    (hn : s.n = t.n) :
    qs_similarity s s = Except.ok 0 ∧
    ∃ v, qs_similarity s t = Except.ok v ∧ qs_similarity t s = Except.ok v ∧
      v = ((range s.n).filter (fun i => sel s.p i ≠ sel t.p i)).card ∧
      (0 < v ↔ ∃ i, i < s.n ∧ sel s.p i ≠ sel t.p i) ∧ (0 < v ↔ s.p ≠ t.p) := by
  refine ⟨by rw [qs_similarity_eq hs.1 (by rw [hs.1]), simf_self], simf s.p t.p s.n, ?_, ?_,
    simf_card _ _ _, simf_pos, ?_⟩
  · exact qs_similarity_eq hs.1 (by rw [ht.1, hn])
  · rw [qs_similarity_eq ht.1 (by rw [hs.1, hn]), simf_comm, hn]
  · rw [Nat.pos_iff_ne_zero, Ne, simf_eq_zero hs.1 (by rw [ht.1, hn])]

theorem C11_similarity_counts_differences_witness :
    qs_similarity sol3 sol3 = Except.ok 0 ∧
    ∃ v, qs_similarity sol3 ⟨3, [0, 1, 2], [0, 1, 2], 0⟩ = Except.ok v ∧
      qs_similarity ⟨3, [0, 1, 2], [0, 1, 2], 0⟩ sol3 = Except.ok v ∧
      v = ((range sol3.n).filter
        (fun i => sel sol3.p i ≠ sel (⟨3, [0, 1, 2], [0, 1, 2], 0⟩ : qap_sol).p i)).card ∧
      (0 < v ↔ ∃ i, i < sol3.n ∧ sel sol3.p i ≠ sel (⟨3, [0, 1, 2], [0, 1, 2], 0⟩ : qap_sol).p i) ∧
      (0 < v ↔ sol3.p ≠ (⟨3, [0, 1, 2], [0, 1, 2], 0⟩ : qap_sol).p) :=
  C11_similarity_counts_differences sol3 ⟨3, [0, 1, 2], [0, 1, 2], 0⟩ ⟨rfl, rfl⟩ ⟨rfl, rfl⟩ rfl

/-- Claim C14: on a full pool `pr_update` overwrites a member only when the
admission test holds (the current cost is below the cost at `best`, or below
the cost at `worst` with no member of equal cost or closer than `MIN_DIFF`);
then exactly one slot `pos` receives a copy of the current solution, that slot
held a member of cost at least the current cost, and its number of differing
positions was minimal among the members of cost at least the current cost.
When the test fails, no slot is overwritten by the current solution: the call
is the purge, or leaves the pool as it is. -/
theorem C14_pr_update_admission (E : env) (n : Nat) (e : elite) (g : grasp) (hp : Shape n e)
    (hf : e.cur_size = e.size) (hs : Shaped g.s) (hn : g.s.n = n) :
    (Admitted e g.s → ∃ pos rc b w, pos < e.size ∧
      pr_update E e g = Except.ok
        (⟨e.size, e.cur_size, w, b, e.sol.set pos g.s, e.diff⟩, { g with rc := rc }) ∧
      (sel e.sol pos).cost ≥ g.s.cost ∧
      ∀ k, k < e.size → (sel e.sol k).cost ≥ g.s.cost →
        simf (sel e.sol pos).p g.s.p n ≤ simf (sel e.sol k).p g.s.p n) ∧
    (¬ Admitted e g.s → pr_update E e g =
      if g.curr_iter - g.last_improv_iter ≥ MAX_ITER_NO_IMPROV then
        mark_half_set_infinite E e g >>= fun r => pure (r.2.1, r.2.2)
      else pure (e, g)) := by
  refine ⟨fun ha => ?_, pr_update_reject E hp hf hs hn⟩
  obtain ⟨pos, rc, b, w, h1, _, _, h2, h3, h4⟩ := pr_update_admit E hp hf hs hn ha
  exact ⟨pos, rc, b, w, h1, h2, h3, h4⟩

theorem C14_pr_update_admission_witness :
    (Admitted pool19 engine19.s → ∃ pos rc b w, pos < pool19.size ∧
      pr_update env_id pool19 engine19 = Except.ok
        (⟨pool19.size, pool19.cur_size, w, b, pool19.sol.set pos engine19.s, pool19.diff⟩,
          { engine19 with rc := rc }) ∧
      (sel pool19.sol pos).cost ≥ engine19.s.cost ∧
      ∀ k, k < pool19.size → (sel pool19.sol k).cost ≥ engine19.s.cost →
        simf (sel pool19.sol pos).p engine19.s.p 4 ≤ simf (sel pool19.sol k).p engine19.s.p 4) ∧
    (¬ Admitted pool19 engine19.s → pr_update env_id pool19 engine19 =
      if engine19.curr_iter - engine19.last_improv_iter ≥ MAX_ITER_NO_IMPROV then
        mark_half_set_infinite env_id pool19 engine19 >>= fun r => pure (r.2.1, r.2.2)
      else pure (pool19, engine19)) :=
  C14_pr_update_admission env_id 4 pool19 engine19
    ⟨rfl, by decide, by decide, by decide, by
      intro i hi
      have hi : i < 2 := hi
      interval_cases i <;> exact ⟨⟨rfl, rfl⟩, rfl⟩⟩ rfl ⟨rfl, rfl⟩ rfl

/-- Claim C17 (divergence): `pool17` is full, its `best` (slot 0, cost 1) and
`worst` (slot 2, cost 9) hold the minimum and the maximum cost; `pr_update` with
a current solution of cost 3 replaces slot 2, and afterwards `worst` is still 2,
whose cost is now 3, while slot 1 holds cost 5. -/
theorem C17_worst_stale_after_replacement :
    pool17.cur_size = pool17.size ∧
    (∀ k, k < 3 → (sel pool17.sol pool17.best).cost ≤ (sel pool17.sol k).cost ∧
      (sel pool17.sol k).cost ≤ (sel pool17.sol pool17.worst).cost) ∧
    pr_update env_id pool17 engine17 = Except.ok
      (⟨3, 3, 2, 0, [⟨4, [3, 2, 1, 0], [3, 2, 1, 0], 1⟩, ⟨4, [1, 0, 3, 2], [1, 0, 3, 2], 5⟩,
        ⟨4, [0, 1, 2, 3], [0, 1, 2, 3], 3⟩], [0, 0, 0]⟩, { engine17 with rc := 2 }) := by
  refine ⟨rfl, fun k hk => ?_, rfl⟩
  interval_cases k <;> decide

/-- Claim C18 (divergence): `pool18` is an emptied pool (`cur_size = 0`) whose
`best` and `worst` still name slot 1; `pr_insert_sol` stores the current solution
in slot 0 and makes `cur_size` 1, but leaves `best = worst = 1`, which is not a
filled slot. -/
theorem C18_insert_into_emptied_pool :
    pr_insert_sol pool18 engine3 = Except.ok
      ⟨2, 1, 1, 1, [⟨3, [0, 1, 2], [0, 1, 2], 2⟩, ⟨3, [1, 2, 0], [2, 0, 1], 8⟩], [0, 0]⟩ :=
  rfl

/-- Claim C19 (counterexample): the two members of the full `pool19` differ in 4
positions; `pr_update` admits a cheaper current solution and the pool then
holds two members that differ in 2 positions only.  In post-optimization, two
calls of `call_pr` on an emptied pool insert the same permutation twice. -/
theorem C19_counterexample :
    MinDiff 4 pool19 ∧
    pr_update env_id pool19 engine19 = Except.ok
      (⟨2, 2, 0, 0, [⟨4, [0, 1, 2, 3], [0, 1, 2, 3], 5⟩, ⟨4, [0, 1, 3, 2], [0, 1, 3, 2], 10⟩],
        [0, 0]⟩, { engine19 with rc := 2 }) ∧
    simf [0, 1, 2, 3] [0, 1, 3, 2] 4 = 2 ∧
    MinDiff 3 pool_empty ∧
    (call_pr env_id 40 ⟨3, [0, 1, 2], [0, 1, 2], 21⟩ ⟨3, [1, 2, 0], [2, 0, 1], 16⟩ pool_empty
        engine3 >>= fun r =>
      call_pr env_id 40 ⟨3, [1, 2, 0], [2, 0, 1], 16⟩ ⟨3, [0, 1, 2], [0, 1, 2], 21⟩ r.1 r.2 >>=
        fun r => pure r.1) = Except.ok
      ⟨2, 2, 0, 0, [⟨3, [1, 2, 0], [2, 0, 1], 16⟩, ⟨3, [1, 2, 0], [2, 0, 1], 16⟩], [0, 0]⟩ ∧
    simf [1, 2, 0] [1, 2, 0] 3 = 0 := by
  refine ⟨?_, rfl, by decide, ?_, by rfl, by decide⟩
  · intro i j hi hj hne
    have hi : i < 2 := hi
    have hj : j < 2 := hj
    interval_cases i <;> interval_cases j <;> first | exact absurd rfl hne | decide
  · intro i j hi
    exact absurd hi (Nat.not_lt_zero _)

/-- Claim C19 (amended): the invariant holds for the pool made by `pr_new`; it is
preserved by `pr_run` while the pool is filling, and by the replacement in
`pr_update` when no member has the cost of, or fewer than `MIN_DIFF` differing
positions from, the current solution. -/
theorem C19_min_diff_preserved (E : env) (fuel : Nat) (n : Nat) (e : elite) (g : grasp)
    (hp : Shape n e) (hs : Shaped g.s) (hn : g.s.n = n) (hm : MinDiff n e) :
    (∀ size e0, pr_new E g size = some e0 → MinDiff n e0) ∧
    (e.cur_size < e.size → ∃ e', pr_run E fuel e g = Except.ok (e', g) ∧ MinDiff n e') ∧
    (e.cur_size = e.size → g.s.cost < (sel e.sol e.worst).cost → ¬ Near e g.s →
      ∃ pos r, pos < e.size ∧ pr_update E e g = Except.ok r ∧ r.1.sol = e.sol.set pos g.s ∧
        MinDiff n r.1) := by
  refine ⟨fun size e0 h => pr_new_minDiff n h, fun hc => pr_run_minDiff E fuel hp hc hs hn hm,
    fun hf hw hnear => ?_⟩
  obtain ⟨pos, rc, b, w, h1, _, _, h2, _, _⟩ :=
    pr_update_admit E hp hf hs hn (Or.inr ⟨hw, hnear⟩)
  refine ⟨pos, _, h1, h2, rfl, ?_⟩
  refine minDiff_set hm (by rw [hp.1]; exact h1) (fun k a _ => a) (fun k hk _ => ?_)
  have : ¬ simf (sel e.sol k).p g.s.p g.s.n < MIN_DIFF :=
    fun h => hnear ⟨k, by omega, Or.inr h⟩
  rw [hn] at this
  omega

/-- Claim C15: on a full pool of non-negative costs the purge returns with
`cur_size = size - size/2`; the slots below `cur_size` hold costs other than -1,
the slots from `cur_size` on hold cost -1; the kept solutions together with
`size/2` removed ones are a rearrangement of the pool before the purge, and no
kept solution costs more than a removed one; `last_improv_iter` becomes
`curr_iter`. -/
theorem C15_purge_keeps_cheapest (E : env) (e : elite) (g : grasp) (hp : Shape g.q.n e)
    (hn : 1 ≤ g.q.n) (hf : e.cur_size = e.size)
    (hc : ∀ i, i < e.size → 0 ≤ (sel e.sol i).cost) :
    ∃ e' removed, mark_half_set_infinite E e g =
        Except.ok (1, e', { g with last_improv_iter := g.curr_iter }) ∧
      e'.size = e.size ∧ e'.cur_size = e.size - e.size / 2 ∧ e'.sol.length = e.size ∧
      (∀ k, k < e'.cur_size → (sel e'.sol k).cost ≠ -1) ∧
      (∀ k, e'.cur_size ≤ k → k < e.size → (sel e'.sol k).cost = -1) ∧
      removed.length = e.size / 2 ∧
      (e'.sol.take e'.cur_size ++ removed).Perm e.sol ∧
      ∀ a, a ∈ e'.sol.take e'.cur_size → ∀ b, b ∈ removed → a.cost ≤ b.cost :=
  mark_half_purge E hp hn hf hc

theorem C15_purge_keeps_cheapest_witness :
    ∃ e' removed, mark_half_set_infinite env_id pool16 engine3 =
        Except.ok (1, e', { engine3 with last_improv_iter := engine3.curr_iter }) ∧
      e'.size = pool16.size ∧ e'.cur_size = pool16.size - pool16.size / 2 ∧
      e'.sol.length = pool16.size ∧
      (∀ k, k < e'.cur_size → (sel e'.sol k).cost ≠ -1) ∧
      (∀ k, e'.cur_size ≤ k → k < pool16.size → (sel e'.sol k).cost = -1) ∧
      removed.length = pool16.size / 2 ∧
      (e'.sol.take e'.cur_size ++ removed).Perm pool16.sol ∧
      ∀ a, a ∈ e'.sol.take e'.cur_size → ∀ b, b ∈ removed → a.cost ≤ b.cost :=
  C15_purge_keeps_cheapest env_id pool16 engine3
    ⟨rfl, by decide, by decide, by decide, by
      intro i hi
      have hi : i < 2 := hi
      interval_cases i <;> exact ⟨⟨rfl, rfl⟩, rfl⟩⟩ (by decide) rfl (by
      intro i hi
      have hi : i < 2 := hi
      interval_cases i <;> decide)

/-- Claim C16 (divergence): `pool16` is full with costs 0 and 7; the purge keeps
the member of cost 0 in slot 0 and makes `cur_size` 1, but `worst` is still 1,
a slot that is no longer filled (it holds the mark -1). -/
theorem C16_worst_not_recomputed :
    mark_half_set_infinite env_id pool16 engine3 = Except.ok
      (1, ⟨2, 1, 1, 0, [⟨3, [0, 1, 2], [0, 1, 2], 0⟩, ⟨3, [2, 1, 0], [2, 1, 0], -1⟩], [0, 0]⟩,
        { engine3 with last_improv_iter := engine3.curr_iter }) :=
  rfl

/-- C20, as amended: for an instance with non-negative matrices whose costs fit
in an `int` (`Fits`, a part of `Tracked`), a full pool whose members carry
tracked costs and an engine in a sound state, `pr_post_optimization`
returns 1 for every sufficiently large fuel, with a best cost no larger than on
entry.  Its loop returns within `best.cost + 1` sweeps (the argument `k` of
`post_loop` bounds the sweeps).  Over one sweep `best.cost` never increases, and
the loop starts a further sweep exactly when `best.cost` decreased in the sweep
just finished.  No assumption on `max_time` or on the random stream is needed. -/
theorem C20_post_optimization_terminates (E : env) (q : qap_inst) (e : elite) (g : grasp)
    (hP : NonNeg q) (hp : Shape q.n e) (hd : e.diff.length = e.size)
    (hf : e.cur_size = e.size) (ht : ∀ i, i < e.size → Tracked q (sel e.sol i))
    (hs : Sound q g) :
    0 ≤ g.best.cost ∧
    (∃ N e' g', g'.best.cost ≤ g.best.cost ∧
      ∀ fuel, N ≤ fuel → pr_post_optimization E fuel e g = Except.ok (1, e', g')) ∧
    (∃ ecp, pr_new E g e.size = some ecp ∧ ∃ N a, ∀ fuel k, N ≤ fuel →
      g.best.cost.toNat + 1 ≤ k → post_loop E fuel k ecp e g = Except.ok a) ∧
    (∀ fuel ecp e1 g1 r, post_sweep E fuel ecp e1 g1 = Except.ok r →
      r.2.best.cost ≤ g1.best.cost) ∧
    (∀ fuel k ecp e1 g1, post_loop E fuel (k + 1) ecp e1 g1 =
      (pr_copy ecp e1 >>= fun ecp' =>
        post_sweep E fuel ecp' { e1 with cur_size := 0 } g1 >>= fun r =>
          if r.2.best.cost < g1.best.cost then post_loop E fuel k ecp' r.1 r.2
          else pure (ecp', r.1, r.2))) := by
  obtain ⟨ecp, h1, N, a, h2, h3⟩ := pr_post_optimization_returns E q e g hP hp hd hf ht hs
  refine ⟨Tracked.nonneg hP hs.2.2.1, ⟨max N (g.best.cost.toNat + 1), a.2.1, a.2.2, h2,
    fun fuel hfu => ?_⟩, ⟨ecp, h1, N, a, h3⟩, fun fuel ecp e1 g1 r h => post_sweep_best h,
    post_loop_eq E⟩
  unfold pr_post_optimization
  rw [h1]
  simp only [if_neg (by omega : ¬ e.cur_size < e.size)]
  rw [h3 fuel fuel (le_trans (le_max_left _ _) hfu) (le_trans (le_max_right _ _) hfu)]
  rfl

theorem C20_post_optimization_terminates_witness :
    0 ≤ engine20.best.cost ∧
    (∃ N e' g', g'.best.cost ≤ engine20.best.cost ∧
      ∀ fuel, N ≤ fuel → pr_post_optimization env_id fuel pool20 engine20 =
        Except.ok (1, e', g')) ∧
    (∃ ecp, pr_new env_id engine20 pool20.size = some ecp ∧ ∃ N a, ∀ fuel k, N ≤ fuel →
      engine20.best.cost.toNat + 1 ≤ k →
        post_loop env_id fuel k ecp pool20 engine20 = Except.ok a) ∧
    (∀ fuel ecp e1 g1 r, post_sweep env_id fuel ecp e1 g1 = Except.ok r →
      r.2.best.cost ≤ g1.best.cost) ∧
    (∀ fuel k ecp e1 g1, post_loop env_id fuel (k + 1) ecp e1 g1 =
      (pr_copy ecp e1 >>= fun ecp' =>
        post_sweep env_id fuel ecp' { e1 with cur_size := 0 } g1 >>= fun r =>
          if r.2.best.cost < g1.best.cost then post_loop env_id fuel k ecp' r.1 r.2
          else pure (ecp', r.1, r.2))) :=
  C20_post_optimization_terminates env_id inst3 pool20 engine20 nonneg_inst3
    ⟨rfl, by decide, by decide, by decide, by
      intro i hi
      have hi : i < 2 := hi
      interval_cases i <;> exact ⟨⟨rfl, rfl⟩, rfl⟩⟩ rfl rfl
    (by
      intro i hi
      have hi : i < 2 := hi
      interval_cases i
      · exact tracked_of_objective nonneg_inst3 fits_inst3 (by decide) rfl (by
          simp [objective, objf, Finset.sum_range_succ, sel, Dv, Fv, inst3, pool20])
      · exact tracked_of_objective nonneg_inst3 fits_inst3 (by decide) rfl (by
          simp [objective, objf, Finset.sum_range_succ, sel, Dv, Fv, inst3, pool20]))
    ⟨rfl, ⟨by decide, by decide, by decide, by decide, by decide, by decide, by decide,
        by decide, fun k => Nat.div_le_self k 4, fun k => Nat.div_le_self k 2⟩,
      tracked_of_objective nonneg_inst3 fits_inst3 (by decide) rfl (by
        simp [objective, objf, Finset.sum_range_succ, sel, Dv, Fv, inst3, engine20]),
      tracked_of_objective nonneg_inst3 fits_inst3 (by decide) rfl (by
        simp [objective, objf, Finset.sum_range_succ, sel, Dv, Fv, inst3, engine20])⟩

/-- C20, counterexample to the unrestricted reading: `inst_sweep` has
non-negative cells, the pool `pool_sweep` is full, its members and the best
solution of `engine_sweep` carry their objective value 0.  The permutation
(2, 1, 0) has the objective 2500000000, which 32 bits hold as -1794967296: the
first sweep stores it as the best cost, below the 0 on entry, so a second sweep
is started although `best.cost + 1 = 1`: the loop limited to one sweep does not
return, and `pr_post_optimization` returns the best cost -1794967296. -/
theorem C20_counterexample :
    NonNeg inst_sweep ∧ ¬ Fits inst_sweep ∧ pool_sweep.cur_size = pool_sweep.size ∧
    objective inst_sweep [0, 1, 2] = 0 ∧ objective inst_sweep [2, 0, 1] = 0 ∧
    objective inst_sweep [2, 1, 0] = 2500000000 ∧
    engine_sweep.best.cost = 0 ∧
    ∃ ecp, pr_new env_id engine_sweep pool_sweep.size = some ecp ∧
      ((pr_copy ecp pool_sweep >>= fun c =>
          post_sweep env_id 100 c { pool_sweep with cur_size := 0 } engine_sweep).toOption.map
        fun r => r.2.best) = some ⟨3, [2, 1, 0], [2, 1, 0], -1794967296⟩ ∧
      post_loop env_id 100 1 ecp pool_sweep engine_sweep = Except.error Err.fuel ∧
      (pr_post_optimization env_id 100 pool_sweep engine_sweep).toOption.map
        (fun r => (r.1, r.2.2.best.cost)) = some (1, -1794967296) := by
  refine ⟨?_, by decide, rfl, by decide, by decide, by decide, rfl, _, rfl, rfl, rfl, rfl⟩
  intro i j hi hj
  have hi : i < 3 := hi
  have hj : j < 3 := hj
  interval_cases i <;> interval_cases j <;> simp [Fv, Dv, sel, inst_sweep]

theorem C19_min_diff_preserved_witness :
    (∀ size e0, pr_new env_id engine17 size = some e0 → MinDiff 4 e0) ∧
    (pool17.cur_size < pool17.size →
      ∃ e', pr_run env_id 0 pool17 engine17 = Except.ok (e', engine17) ∧ MinDiff 4 e') ∧
    (pool17.cur_size = pool17.size → engine17.s.cost < (sel pool17.sol pool17.worst).cost →
      ¬ Near pool17 engine17.s →
      ∃ pos r, pos < pool17.size ∧ pr_update env_id pool17 engine17 = Except.ok r ∧
        r.1.sol = pool17.sol.set pos engine17.s ∧ MinDiff 4 r.1) :=
  C19_min_diff_preserved env_id 0 4 pool17 engine17
    ⟨rfl, by decide, by decide, by decide, by
      intro i hi
      have hi : i < 3 := hi
      interval_cases i <;> exact ⟨⟨rfl, rfl⟩, rfl⟩⟩ ⟨rfl, rfl⟩ rfl (by
      intro i j hi hj hne
      have hi : i < 3 := hi
      have hj : j < 3 := hj
      interval_cases i <;> interval_cases j <;> first | exact absurd rfl hne | decide)

/-- Claim C12: for `n >= 2`, an `n` by `n` matrix `s` and a buffer of `n*n-n+1`
entries, `sort_vector` returns; among the entries `0 .. n*n-n-1` of the result
each off-diagonal cell occurs exactly once as the triple `(s[i][j], i, j)`, and
the costs are in non-decreasing order when `inc` is set and in non-increasing
order otherwise. -/
theorem C12_sort_vector_sorted (d : List pair) (s : List (List Int)) (n : Nat)
    (inc : Bool) (hn : 2 ≤ n) (hs : Square n s) (hd : d.length = n * n - n + 1) :
    ∃ d', sort_vector d s n inc = Except.ok d' ∧ d'.length = d.length ∧
      (∀ i j, i < n → j < n → i ≠ j →
        ((range (n * n - n)).filter
          (fun t => sel d' t = ⟨sel (sel s i) j, i, j⟩)).card = 1) ∧
      (∀ t u, t ≤ u → u < n * n - n →
        if inc = true then (sel d' t).cost ≤ (sel d' u).cost
        else (sel d' u).cost ≤ (sel d' t).cost) := by
  obtain ⟨d', e, l, c, o⟩ := sort_vector_sorted d s n inc hn hs hd
  refine ⟨d', e, l, fun i j hi hj hij => ?_, o⟩
  rw [Finset.card_filter, c (fun x => if x = ⟨sel (sel s i) j, i, j⟩ then 1 else 0),
    ← Finset.card_filter]
  exact cell_count s n i j hn hi hj hij

theorem C12_sort_vector_sorted_witness :
    ∃ d', sort_vector (List.replicate 7 ⟨2, 0, 0⟩) inst3.D 3 true = Except.ok d' ∧
      d'.length = (List.replicate 7 (⟨2, 0, 0⟩ : pair)).length ∧
      (∀ i j, i < 3 → j < 3 → i ≠ j →
        ((range (3 * 3 - 3)).filter
          (fun t => sel d' t = ⟨sel (sel inst3.D i) j, i, j⟩)).card = 1) ∧
      (∀ t u, t ≤ u → u < 3 * 3 - 3 →
        if true = true then (sel d' t).cost ≤ (sel d' u).cost
        else (sel d' u).cost ≤ (sel d' t).cost) :=
  C12_sort_vector_sorted (List.replicate 7 ⟨2, 0, 0⟩) inst3.D 3 true (by decide)
    ⟨rfl, by
      intro i hi
      interval_cases i <;> rfl⟩ rfl

/-- C13, as amended: for `k = n`, every `n >= 1` and all 1-based arrays `a`, `S`
with the entries `1 .. n` (lists longer than `n`, of one length),
`heap_sortn_doublepair(a, S, n, n)` returns; the positions `1 .. n` of the
result hold the pairs `(a[p], S[p])` of the positions `1 .. n` of the input,
each as often, and no other position is changed; the products
`a[p].cost * S[p].cost` as the code computes them (reduced to 32 bits) are in
non-increasing order along `1 .. n`, so the entries come in reverse heap order;
when every product of the input is within the range of an `int`, the exact
products are in non-increasing order. -/
theorem C13_heap_sortn_sorted (a S : List pair) (n : Nat) (hn : 1 ≤ n) (ha : n < a.length)
    (hs : S.length = a.length) :
    ∃ a' S', heap_sortn doublepair (a, S) n n = Except.ok (a', S') ∧
      a'.length = a.length ∧ S'.length = S.length ∧
      Rearr (fun p => (sel a p, sel S p)) (fun p => (sel a' p, sel S' p)) n ∧
      (∀ i j, 1 ≤ i → i ≤ j → j ≤ n →
        imul (sel a' j).cost (sel S' j).cost ≤ imul (sel a' i).cost (sel S' i).cost) ∧
      ((∀ p, 1 ≤ p → p ≤ n → -2147483648 ≤ (sel a p).cost * (sel S p).cost ∧
          (sel a p).cost * (sel S p).cost < 2147483648) →
        ∀ i j, 1 ≤ i → i ≤ j → j ≤ n →
          (sel a' j).cost * (sel S' j).cost ≤ (sel a' i).cost * (sel S' i).cost) := by
  obtain ⟨⟨a', S'⟩, e, ⟨l1, l2⟩, o, r⟩ := heap_sort_sorted
    (heapModel_doublepair a.length (by omega)) (a, S) n ⟨rfl, hs⟩ (by omega)
  have l1 : a'.length = a.length := l1
  have l2 : S'.length = a.length := l2
  have o : ∀ i j, 1 ≤ i → i ≤ j → j ≤ n →
      -(imul (sel a' i).cost (sel S' i).cost) ≤ -(imul (sel a' j).cost (sel S' j).cost) := o
  have r : Rearr (fun p => (sel a p, sel S p)) (fun p => (sel a' p, sel S' p)) n := r
  refine ⟨a', S', by rw [heap_sortn_full]; exact e, l1, by rw [l2, hs], r,
    fun i j hi hij hj => by have := o i j hi hij hj; omega, fun hb i j hi hij hj => ?_⟩
  have key : ∀ p, 1 ≤ p → p ≤ n →
      imul (sel a' p).cost (sel S' p).cost = (sel a' p).cost * (sel S' p).cost := by
    intro p hp1 hp2
    have h := r.2 (fun x => if imul x.1.cost x.2.cost = x.1.cost * x.2.cost then 0 else 1)
    have z : (∑ i in Ioc 0 n, (fun x : pair × pair =>
        if imul x.1.cost x.2.cost = x.1.cost * x.2.cost then 0 else 1) (sel a i, sel S i)) = 0 := by
      refine Finset.sum_eq_zero (fun i hi => ?_)
      rw [Finset.mem_Ioc] at hi
      have := hb i (by omega) hi.2
      exact if_pos (wrap_id this.1 this.2)
    rw [z] at h
    have := (Finset.sum_eq_zero_iff.1 h) p (Finset.mem_Ioc.2 ⟨by omega, hp2⟩)
    by_contra c
    simp only [if_neg c] at this
    omega
  have := o i j hi hij hj
  rw [key i hi (by omega), key j (by omega) hj] at this
  omega

theorem C13_heap_sortn_sorted_witness :
    ∃ a' S', heap_sortn doublepair (heap_a, heap_s) 3 3 = Except.ok (a', S') ∧
      a'.length = heap_a.length ∧ S'.length = heap_s.length ∧
      Rearr (fun p => (sel heap_a p, sel heap_s p)) (fun p => (sel a' p, sel S' p)) 3 ∧
      (∀ i j, 1 ≤ i → i ≤ j → j ≤ 3 →
        imul (sel a' j).cost (sel S' j).cost ≤ imul (sel a' i).cost (sel S' i).cost) ∧
      ((∀ p, 1 ≤ p → p ≤ 3 → -2147483648 ≤ (sel heap_a p).cost * (sel heap_s p).cost ∧
          (sel heap_a p).cost * (sel heap_s p).cost < 2147483648) →
        ∀ i j, 1 ≤ i → i ≤ j → j ≤ 3 →
          (sel a' j).cost * (sel S' j).cost ≤ (sel a' i).cost * (sel S' i).cost) :=
  C13_heap_sortn_sorted heap_a heap_s 3 (by decide) (by decide) rfl

/-- C13, counterexample: with `n = 3`, `k = 2`, costs 1, 2, 3 in `a[1..3]` and
companion costs 1, `heap_sortn_doublepair` leaves `a[1..3]` with the costs
2, 1, 3.  The tail positions `2..3` hold the costs 1 and 3, not the two smallest
products 2 and 1 in reverse order: the second loop runs `i = k, .., 2` and so
exchanges only among the positions `1..k`.  With `k = 1` the array is returned
as it was and the tail position 3 holds the largest product.  With `k = n = 2`
and the costs 50000 and 1 in both arrays the products are 2500000000 and 1; the
first is -1794967296 in 32 bits, so the entry of the largest product is placed
last, where the smallest belongs. -/
theorem C13_counterexample :
    heap_sortn doublepair (heap_a, heap_s) 3 2 = Except.ok
      ([⟨0, 0, 0⟩, ⟨2, 2, 0⟩, ⟨1, 1, 0⟩, ⟨3, 3, 0⟩],
        [⟨0, 0, 1⟩, ⟨1, 2, 1⟩, ⟨1, 1, 1⟩, ⟨1, 3, 1⟩]) ∧
    heap_sortn doublepair (heap_a, heap_s) 3 1 = Except.ok (heap_a, heap_s) ∧
    heap_sortn doublepair (heap_w, heap_w) 2 2 = Except.ok
      ([⟨0, 0, 0⟩, ⟨1, 2, 0⟩, ⟨50000, 1, 0⟩], [⟨0, 0, 0⟩, ⟨1, 2, 0⟩, ⟨50000, 1, 0⟩]) ∧
    imul 50000 50000 = -1794967296 :=
  ⟨rfl, rfl, rfl, rfl⟩

/-- Claim C22 (divergence): with `n = 3` and the values 0, 1, 2 from `genrandint`,
`qs_random` draws `r = 0 % 3 = 0`, `1 % 2 = 1`, `2 % 1 = 0` and exchanges `p[i]`
with `p[r]`, not with `p[i + r]`: its last step (`i = 2`) exchanges `p[2]` with
`p[0]`, a position fixed at step 0, and the result is `(2,1,0)`.  The shuffle of
the claim exchanges `p[1]` with `p[2]` at step 1 and gives `(0,2,1)`. -/
theorem C22_qs_random_draws_from_prefix :
    qs_random env_id ⟨3, [0, 1, 2], [0, 1, 2], 0⟩ 0 =
      Except.ok (⟨3, [2, 1, 0], [2, 1, 0], 0⟩, 3) :=
  rfl

/-- Claim C23 (counterexample): for the symmetric instance `F = D = |i - j|` with
`n = 3`, the identity and the positions 0 and 1, `g_improvement` returns 2, which
is the drop of the objective from 12 to 10, while the closed form of the
specification gives 1.  And for `F = D = ((0,100000),(0,0))`, the identity and
the positions 0 and 1, where the closed form has no row term to miss and is
`10^10`, `g_improvement` returns 1410065408. -/
theorem C23_counterexample :
    g_improvement ⟨3, [0, 1, 2], [0, 1, 2], 12⟩ inst_sym3 0 1 = Except.ok 2 ∧
    delta_closed_form 3 (Dv inst_sym3) (Fv inst_sym3) (sel [0, 1, 2]) 0 1 = 1 ∧
    objective inst_sym3 [0, 1, 2] = 12 ∧ objective inst_sym3 [1, 0, 2] = 10 ∧
    g_improvement ⟨2, [0, 1], [0, 1], 0⟩ inst_deep 0 1 = Except.ok 1410065408 ∧
    delta_closed_form 2 (Dv inst_deep) (Fv inst_deep) (sel [0, 1]) 0 1 = 10000000000 ∧
    delta_row_part 2 (Dv inst_deep) (Fv inst_deep) (sel [0, 1]) 0 1 = 0 := by
  refine ⟨rfl, ?_, ?_, ?_, rfl, ?_, ?_⟩
  · simp [delta_closed_form, Finset.sum_range_succ, sel, Dv, Fv, inst_sym3]
  · simp [objective, objf, Finset.sum_range_succ, sel, Dv, Fv, inst_sym3]
  · simp [objective, objf, Finset.sum_range_succ, sel, Dv, Fv, inst_sym3]
  · simp [delta_closed_form, Finset.sum_range_succ, sel, Dv, Fv, inst_deep]
  · simp [delta_row_part, Finset.sum_range_succ, sel, Dv, Fv, inst_deep]

/-- Claim C23 (amended): for a well-formed instance, a permutation `p` of
`0..n-1` and in-range positions `i`, `j`, `g_improvement` returns the closed form
of the specification plus, for every `k` other than `i`, `j`, the row term
`(D[i][k]-D[j][k]) * (F[p i][p k]-F[p j][p k])`, the sum being reduced to 32
bits; when the costs of the instance fit in an `int` (`Fits`) it is the sum
itself. -/
theorem C23_improvement_closed_form (q : qap_inst) (s : qap_sol) (i j : Nat) (hq : WF q)
    (hp : IsPerm s.p q.n) (hi : i < q.n) (hj : j < q.n) :
    g_improvement s q i j = Except.ok
      (wrap (delta_closed_form q.n (Dv q) (Fv q) (sel s.p) i j +
        ∑ k in range q.n, if k ≠ i ∧ k ≠ j then
          (Dv q i k - Dv q j k) * (Fv q (sel s.p i) (sel s.p k) - Fv q (sel s.p j) (sel s.p k))
        else 0)) ∧
    (Fits q → g_improvement s q i j = Except.ok
      (delta_closed_form q.n (Dv q) (Fv q) (sel s.p) i j +
        ∑ k in range q.n, if k ≠ i ∧ k ≠ j then
          (Dv q i k - Dv q j k) * (Fv q (sel s.p i) (sel s.p k) - Fv q (sel s.p j) (sel s.p k))
        else 0)) := by
  constructor
  · rw [g_improvement_wrap hq hp hi hj, gainf_split]
    rfl
  · intro hF
    rw [g_improvement_eq hq hp hi hj hF, gainf_split]
    rfl

/-- C23, instance of the amended claim: `inst3`, positions 0 and 2. -/
theorem C23_improvement_closed_form_witness :
    g_improvement sol3 inst3 0 2 = Except.ok
      (wrap (delta_closed_form inst3.n (Dv inst3) (Fv inst3) (sel sol3.p) 0 2 +
        ∑ k in range inst3.n, if k ≠ 0 ∧ k ≠ 2 then
          (Dv inst3 0 k - Dv inst3 2 k) *
            (Fv inst3 (sel sol3.p 0) (sel sol3.p k) - Fv inst3 (sel sol3.p 2) (sel sol3.p k))
        else 0)) ∧
    (Fits inst3 → g_improvement sol3 inst3 0 2 = Except.ok
      (delta_closed_form inst3.n (Dv inst3) (Fv inst3) (sel sol3.p) 0 2 +
        ∑ k in range inst3.n, if k ≠ 0 ∧ k ≠ 2 then
          (Dv inst3 0 k - Dv inst3 2 k) *
            (Fv inst3 (sel sol3.p 0) (sel sol3.p k) - Fv inst3 (sel sol3.p 2) (sel sol3.p k))
        else 0)) :=
  C23_improvement_closed_form inst3 sol3 0 2 (by decide) (Valid.isPerm (by decide)) (by decide)
    (by decide)

/-- Claim C24 (divergence): over `inst24` the flow cells sorted down and the
distance cells sorted up give the aligned products 9, 8, 7, 1, 2, 3; the smallest
is the product 1 of the pair at index 3.  `phase1` copies entry 0 over entry
`n = 3` (not over entry `n*n-n = 6`) before the heap sort, so that pair is lost
and the pair of index 5 occurs twice; with `pos = 1` it selects at index 6 the
pair of flow cell `(2,0)` and distance cell `(2,0)`, of product 2, the second
smallest of the aligned products. -/
theorem C24_phase1_selection :
    sort_vector engine24.f inst24.F 3 false = Except.ok
      [⟨9, 0, 1⟩, ⟨8, 0, 2⟩, ⟨7, 1, 0⟩, ⟨1, 2, 1⟩, ⟨1, 2, 0⟩, ⟨1, 1, 2⟩, ⟨1, 1, 2⟩] ∧
    sort_vector engine24.d inst24.D 3 true = Except.ok
      [⟨1, 1, 2⟩, ⟨1, 0, 2⟩, ⟨1, 0, 1⟩, ⟨1, 1, 0⟩, ⟨2, 2, 0⟩, ⟨3, 2, 1⟩, ⟨3, 2, 1⟩] ∧
    (phase1 env_id engine24).map (fun g => (g.f, g.d, g.assigned, g.s.p)) = Except.ok
      ([⟨9, 0, 1⟩, ⟨9, 0, 1⟩, ⟨8, 0, 2⟩, ⟨7, 1, 0⟩, ⟨1, 1, 2⟩, ⟨1, 1, 2⟩, ⟨1, 2, 0⟩],
        [⟨1, 1, 2⟩, ⟨1, 1, 2⟩, ⟨1, 0, 2⟩, ⟨1, 0, 1⟩, ⟨3, 2, 1⟩, ⟨3, 2, 1⟩, ⟨2, 2, 0⟩],
        [2, 0, 0], [0, 1, 2]) :=
  ⟨rfl, rfl, rfl⟩

/-- Claim C26 (divergence): over the non-negative, non-symmetric `inst26`,
`phase1` assigns the positions 1 and 3 (values 3 and 1) and `sparse_phase2` then
assigns position 0 (value 2) and position 2 (value 0).  The cost of the last
assignment relative to the three before it, as `g_compute_cost` computes it with
these three in place, is 1: the filter of `sparse_phase2` tests
`F[i][last.i] * D[j][last.j]`, the transposed cells, and against the last
assignment only. -/
theorem C26_sparse_assignment_not_free :
    (phase1 env_id (engine4 inst26 ⟨4, [0, 1, 2, 3], [0, 1, 2, 3], 0⟩) >>= fun g1 =>
      sparse_phase2 env_id g1 >>= fun g2 =>
        g_compute_cost { g2 with n_assigned := 3 } 2 0 >>= fun c =>
          pure (g1.assigned, g1.s.p, g1.n_assigned, g2.assigned, g2.s.p, g2.n_assigned, c)) =
      Except.ok ([1, 3, 0, 0], [0, 3, 2, 1], 2, [1, 3, 0, 2], [2, 3, 0, 1], 4, 1) :=
  rfl

/-- Claim C29 (divergence): over `inst29` with the full pool `pool29` and the
current solution `(3,2,1,0)` of cost 30, `pr_rev_run` leaves the current solution
of cost 30 in the engine, while `execute_pr` run toward a separate copy of the
current solution leaves `(1,0,3,2)` of cost 22.  In `pr_rev_run` the guiding
solution is `g->s` itself, which `execute_pr` overwrites as soon as the walk
finds a state cheaper than its start. -/
theorem C29_pr_rev_run_aliasing :
    (pr_rev_run env_id 30 pool29 (engine4 inst29 ⟨4, [3, 2, 1, 0], [3, 2, 1, 0], 30⟩)).map
      (fun r => r.2.s) = Except.ok ⟨4, [3, 2, 1, 0], [3, 2, 1, 0], 30⟩ ∧
    (pr_rev_run_copy env_id 30 pool29 (engine4 inst29 ⟨4, [3, 2, 1, 0], [3, 2, 1, 0], 30⟩)).map
      (fun r => r.2.s) = Except.ok ⟨4, [1, 0, 3, 2], [1, 0, 3, 2], 22⟩ ∧
    objective inst29 [3, 2, 1, 0] = 30 ∧ objective inst29 [2, 3, 0, 1] = 34 ∧
    objective inst29 [0, 1, 2, 3] = 34 := by
  refine ⟨?_, ?_, ?_, ?_, ?_⟩
  · set_option maxRecDepth 1000000 in rfl
  · set_option maxRecDepth 1000000 in rfl
  · simp [objective, objf, Finset.sum_range_succ, sel, Dv, Fv, inst29]
  · simp [objective, objf, Finset.sum_range_succ, sel, Dv, Fv, inst29]
  · simp [objective, objf, Finset.sum_range_succ, sel, Dv, Fv, inst29]

/-- Claim C30 (divergence): the current solution is the identity; slot 0 of
`pool30` is the identity too (`d_0 = 0`) and slot 1 differs from it in 2
positions (`d_1 = 2`), so `total = 2`.  For `r = 0` the scan `r > diff[i]` stops
at once and index 0 is returned; for `r = 1` index 1 is returned.  Index 0 is
returned for one value of `r` instead of none, index 1 for one instead of two. -/
theorem C30_guiding_off_by_one :
    qs_similarity ⟨3, [0, 1, 2], [0, 1, 2], 5⟩ (sel pool30.sol 0) = Except.ok 0 ∧
    qs_similarity ⟨3, [0, 1, 2], [0, 1, 2], 5⟩ (sel pool30.sol 1) = Except.ok 2 ∧
    pr_get_guiding_sol env_id pool30 ⟨3, [0, 1, 2], [0, 1, 2], 5⟩ 0 =
      Except.ok (0, { pool30 with diff := [0, 2] }, 1) ∧
    pr_get_guiding_sol env_id pool30 ⟨3, [0, 1, 2], [0, 1, 2], 5⟩ 1 =
      Except.ok (1, { pool30 with diff := [0, 2] }, 2) :=
  ⟨rfl, rfl, rfl, rfl⟩

/-- Claim C21, counterexample: scenario 3 (`n = 4`, `F[i][j] = D[i][j] = |i-j|`,
`alpha = 0.25`, `beta = 0.5`, `elite_size = 10`, `max_itr = 10`, `look4 = -1`,
`max_time = 0`, seed 270001) with the stream `env_id`, whose `k`-th value is
`k`.  The run returns for every sufficiently large fuel, and whatever it returns
has a cost of at most 36, below the cost 40 of the identity permutation: the
first construction yields the permutation `(1,0,2,3)` of cost 36 and the best
cost never increases afterwards.  The returned permutation has the returned cost
as its objective, so it is neither the identity nor its reverse, which both
cost 40. -/
theorem C21_counterexample :
    (∃ N r, ∀ fuel, N ≤ fuel →
      qap_grasppr env_id fuel 4 abs4 abs4 [0, 0, 0, 0] quarter half 1 10 (-1) 10 0
        [270001, 0] = Except.ok r) ∧
    (∀ fuel r, qap_grasppr env_id fuel 4 abs4 abs4 [0, 0, 0, 0] quarter half 1 10 (-1) 10 0
        [270001, 0] = Except.ok r →
      r.ret ≤ 36 ∧ r.sol ≠ [0, 1, 2, 3] ∧ r.sol ≠ [3, 2, 1, 0]) ∧
    (constructor env_id { { engine21 env_id with best := ⟨4, [0, 1, 2, 3], [0, 1, 2, 3], 40⟩ } with
        curr_iter := 1 }).toOption.map (fun g => (g.s.p, g.s.cost)) = some ([1, 0, 2, 3], 36) ∧
    objective inst_abs4 [0, 1, 2, 3] = 40 ∧ objective inst_abs4 [3, 2, 1, 0] = 40 := by
  have h := abs4_run env_id
  have o2 : objective inst_abs4 [3, 2, 1, 0] = 40 := by
    simp [objective, objf, Finset.sum_range_succ, sel, Dv, Fv, inst_abs4]
  refine ⟨h.2 (fair_env_id 4 (by decide)), fun fuel r hr => ?_, ?_, objective_abs4, o2⟩
  · obtain ⟨_, ⟨p, hp, hs, ho⟩, x, hx, hrx⟩ := h.1 fuel r hr
    have le : r.ret ≤ 36 := by rw [hrx]; exact abs4_run_id fuel x hx
    refine ⟨le, fun c => ?_, fun c => ?_⟩
    · have : p = [0, 1, 2, 3] := by
        rw [hs] at c
        exact List.map_injective_iff.2 (fun a b h => Int.ofNat.inj h)
          (c.trans (by rfl : ([0, 1, 2, 3] : List Int) = [0, 1, 2, 3].map Int.ofNat))
      rw [this, objective_abs4] at ho
      omega
    · have : p = [3, 2, 1, 0] := by
        rw [hs] at c
        exact List.map_injective_iff.2 (fun a b h => Int.ofNat.inj h)
          (c.trans (by rfl : ([3, 2, 1, 0] : List Int) = [3, 2, 1, 0].map Int.ofNat))
      rw [this, o2] at ho
      omega
  · exact abs4_constructor

/-- Claim C21 as amended: in scenario 3 (`n = 4`, `F[i][j] = D[i][j] = |i-j|`,
`alpha = 0.25`, `beta = 0.5`, `elite_size = 10`, `max_itr = 10`, `look4 = -1`,
`max_time = 0`, seed 270001), for every stream of `genrandint` values and every
fuel, whenever the solver returns, the returned best cost is at most the cost 40
of the identity permutation and it is the cost of the returned permutation.  The
solver does return, for every sufficiently large fuel, when the stream never
stays on one residue modulo 4 forever. -/
theorem C21_abs_instance (E : env) :
    (∀ fuel r, qap_grasppr E fuel 4 abs4 abs4 [0, 0, 0, 0] quarter half 1 10 (-1) 10 0
        [270001, 0] = Except.ok r →
      r.ret ≤ objective inst_abs4 [0, 1, 2, 3] ∧ objective inst_abs4 [0, 1, 2, 3] = 40 ∧
      ∃ p, IsPerm p 4 ∧ r.sol = p.map Int.ofNat ∧ r.ret = objective inst_abs4 p) ∧
    (Fair E 4 → ∃ N r, ∀ fuel, N ≤ fuel →
      qap_grasppr E fuel 4 abs4 abs4 [0, 0, 0, 0] quarter half 1 10 (-1) 10 0 [270001, 0] =
        Except.ok r) := by
  have h := abs4_run E
  refine ⟨fun fuel r hr => ?_, h.2⟩
  obtain ⟨le, hp, _⟩ := h.1 fuel r hr
  rw [objective_abs4]
  exact ⟨le, rfl, hp⟩

/-- C21 as amended, instance: the stream `env_id`. -/
theorem C21_abs_instance_witness :
    (∀ fuel r, qap_grasppr env_id fuel 4 abs4 abs4 [0, 0, 0, 0] quarter half 1 10 (-1) 10 0
        [270001, 0] = Except.ok r →
      r.ret ≤ objective inst_abs4 [0, 1, 2, 3] ∧ objective inst_abs4 [0, 1, 2, 3] = 40 ∧
      ∃ p, IsPerm p 4 ∧ r.sol = p.map Int.ofNat ∧ r.ret = objective inst_abs4 p) ∧
    ∃ N r, ∀ fuel, N ≤ fuel →
      qap_grasppr env_id fuel 4 abs4 abs4 [0, 0, 0, 0] quarter half 1 10 (-1) 10 0 [270001, 0] =
        Except.ok r :=
  ⟨(C21_abs_instance env_id).1, (C21_abs_instance env_id).2 (fair_env_id 4 (by decide))⟩

/-- C27, as amended: for an instance with `n >= 1` and non-negative matrices
whose costs fit in an `int` (`Fits`), an engine on it whose working solution has
`n` entries, and valid solutions `s1`, `t` of the instance held in objects of
their own, where the stored cost of `s1` is at least the off-diagonal part of
the objective of `s1` and exceeds it by `span` at most (as does the objective
itself), the walk of `execute_pr(s1, t, g)` has a trace `tr 0, .., tr n` of
states (for every fuel from some `N` on), and for such fuel `execute_pr` returns
1 and leaves in `engine.s` the solution the specification names: `sbest` if
`sbest.cost < t.cost`, else `lopt` if one was recorded (`lopt.cost != -1`), else
`sbest`.  `sbest` starts as `s1`; at a position where the walker is changed and
its new cost is below `sbest.cost`, `pr_local_search` is run on the engine with
the new walker as working solution and `sbest` becomes its result; at every
other position `sbest` stays.  At the end `lopt` is the state `spec_lopt` names
among the visited walker states: the cheapest visited state that is cheaper than
the state before it (which must exist) and than the state after it; when there
is none, `lopt.cost` is -1. -/
theorem C27_execute_pr_result (E : env) (q : qap_inst) (g : grasp) (s1 t : qap_sol)
    (hq : WF q) (hn : 1 ≤ q.n) (hP : NonNeg q) (hF : Fits q)
    (hg : g.q = q) (hgs : Shaped g.s) (hgn : g.s.n = q.n)
    (h1 : Valid s1) (h1n : s1.n = q.n) (hc1 : offobj q s1.p ≤ s1.cost)
    (hc2 : s1.cost ≤ offobj q s1.p + span q) (h2 : Valid t) (h2n : t.n = q.n) :
    ∃ N tr, IsWalk E N t q.n (walk_init E s1 g) tr ∧
      (∀ fuel, N ≤ fuel → execute_pr E fuel s1 (some t) g = Except.ok (1, { (tr q.n).g with
        s := spec_pr_result (tr q.n).sbest (tr q.n).lopt t })) ∧
      (tr 0).sbest = s1 ∧ (tr 0).s = s1 ∧
      (∀ i, i < q.n →
        (sel (tr i).s.p i ≠ sel t.p i ∧ (tr (i + 1)).s.cost < (tr i).sbest.cost →
          (∀ fuel, N ≤ fuel → pr_local_search E fuel { (tr i).g with s := (tr (i + 1)).s } =
            Except.ok (tr (i + 1)).g) ∧ (tr (i + 1)).sbest = (tr (i + 1)).g.s) ∧
        (¬ (sel (tr i).s.p i ≠ sel t.p i ∧ (tr (i + 1)).s.cost < (tr i).sbest.cost) →
          (tr (i + 1)).sbest = (tr i).sbest)) ∧
      (spec_lopt (visited tr t.p q.n) = none → (tr q.n).lopt.cost = -1) ∧
      (∀ x, spec_lopt (visited tr t.p q.n) = some x → (tr q.n).lopt = x ∧ x.cost ≠ -1) := by
  obtain ⟨N, tr, hw, hI⟩ := walk_prefix_any E hq hF h2 h2n
    (walkShape_init E hg hgs hgn h1 h1n) q.n (le_refl _)
  have hs : ∀ i, i < q.n →
      ∃ fuel, execute_pr_step E fuel (some t) i (tr i) = Except.ok (tr (i + 1)) :=
    fun i hi => ⟨N, hw.2 N (le_refl _) i hi⟩
  have h0 : WalkShape q (tr 0) := hI 0 (Nat.zero_le _)
  have hcost := walk_any_cost E hq hF h2 h2n h0 (by rw [hw.1]; exact hc1)
    (by rw [hw.1]; exact hc2) hs
  have hpos : ∀ i, i ≤ q.n → 0 ≤ (tr i).s.cost := by
    intro i hi
    have w := hI i hi
    have hp : IsPerm (tr i).s.p q.n := by rw [← w.2.2.2.2.1]; exact w.2.2.2.1.isPerm
    exact le_trans (offobj_nonneg hP hp) (hcost i hi).1
  have hl := walk_any_lopt E hq h2 h2n h0 hs hpos (by rw [hw.1]; rfl) (by rw [hw.1]; rfl)
    q.n (le_refl _)
  obtain ⟨_, _, _, l4, l5, l6⟩ := hl
  have hne : (tr q.n).lopt.cost ≠ -1 ↔ (tr q.n).lopt.cost > -1 := by
    cases hr : spec_lopt (visited tr t.p q.n) with
    | none =>
      have := l4 hr
      omega
    | some x =>
      have e := l5 x hr
      have := l6 x (spec_lopt_mem _ _ hr)
      rw [e]
      omega
  refine ⟨N, tr, hw, fun fuel hf => ?_, by rw [hw.1]; rfl, by rw [hw.1]; rfl, fun i hi => ?_,
    l4, fun x hx => ⟨l5 x hx, ?_⟩⟩
  · rw [execute_pr_any_walk E hn hgn h1 h1n hw (hI q.n (le_refl _)) fuel hf]
    unfold spec_pr_result
    by_cases a : (tr q.n).sbest.cost < t.cost
    · rw [if_pos a, if_pos a]
    · rw [if_neg a, if_neg a]
      by_cases b : (tr q.n).lopt.cost > -1
      · rw [if_pos b, if_pos (hne.2 b)]
      · rw [if_neg b, if_neg (fun h => b (hne.1 h))]
  · have hc := fun fuel (hf : N ≤ fuel) =>
      execute_pr_step_form E hq h2 h2n (hI i (by omega)) hi (hw.2 fuel hf i hi)
    constructor
    · rintro ⟨c, d⟩
      refine ⟨fun fuel hf => ?_, ?_⟩
      · exact (((hc fuel hf).2 c).2.2.2.2.1 d).1
      · exact (((hc N (le_refl _)).2 c).2.2.2.2.1 d).2
    · intro h
      by_cases c : sel (tr i).s.p i ≠ sel t.p i
      · have d : ¬ (tr (i + 1)).s.cost < (tr i).sbest.cost := fun d => h ⟨c, d⟩
        exact (((hc N (le_refl _)).2 c).2.2.2.2.2.1 d).2
      · rw [(hc N (le_refl _)).1 (not_not.1 c)]
  · have := l6 x (spec_lopt_mem _ _ hx)
    omega

/-- C27, instance: over `inst3` with the engine `engine20`, from the identity
(cost 21) toward `(1,2,0)` (cost 16), with the stream `env_id`. -/
theorem C27_execute_pr_result_witness :
    ∃ N tr, IsWalk env_id N ⟨3, [1, 2, 0], [2, 0, 1], 16⟩ inst3.n
        (walk_init env_id ⟨3, [0, 1, 2], [0, 1, 2], 21⟩ engine20) tr ∧
      (∀ fuel, N ≤ fuel → execute_pr env_id fuel ⟨3, [0, 1, 2], [0, 1, 2], 21⟩
          (some ⟨3, [1, 2, 0], [2, 0, 1], 16⟩) engine20 = Except.ok (1, { (tr inst3.n).g with
        s := spec_pr_result (tr inst3.n).sbest (tr inst3.n).lopt ⟨3, [1, 2, 0], [2, 0, 1], 16⟩ })) ∧
      (tr 0).sbest = ⟨3, [0, 1, 2], [0, 1, 2], 21⟩ ∧ (tr 0).s = ⟨3, [0, 1, 2], [0, 1, 2], 21⟩ ∧
      (∀ i, i < inst3.n →
        (sel (tr i).s.p i ≠ sel [1, 2, 0] i ∧ (tr (i + 1)).s.cost < (tr i).sbest.cost →
          (∀ fuel, N ≤ fuel →
            pr_local_search env_id fuel { (tr i).g with s := (tr (i + 1)).s } =
              Except.ok (tr (i + 1)).g) ∧ (tr (i + 1)).sbest = (tr (i + 1)).g.s) ∧
        (¬ (sel (tr i).s.p i ≠ sel [1, 2, 0] i ∧ (tr (i + 1)).s.cost < (tr i).sbest.cost) →
          (tr (i + 1)).sbest = (tr i).sbest)) ∧
      (spec_lopt (visited tr [1, 2, 0] inst3.n) = none → (tr inst3.n).lopt.cost = -1) ∧
      (∀ x, spec_lopt (visited tr [1, 2, 0] inst3.n) = some x →
        (tr inst3.n).lopt = x ∧ x.cost ≠ -1) :=
  C27_execute_pr_result env_id inst3 engine20 ⟨3, [0, 1, 2], [0, 1, 2], 21⟩
    ⟨3, [1, 2, 0], [2, 0, 1], 16⟩ (by decide) (by decide) nonneg_inst3 fits_inst3 rfl
    (by decide) rfl (by decide) rfl tracked_pool20.1.2.2.1 tracked_pool20.1.2.2.2.2.2
    (by decide) rfl

/-- C27, counterexamples to the unrestricted reading.  For `n = 0` the empty
solution is valid, but `qs_new` returns the null pointer and `execute_pr`
returns 0.  In each of the three other runs of `execute_pr` (`n = 5`, from the
identity) the walk records a local optimum `lopt` whose cost is below -1,
`sbest` stays `s1`, `sbest.cost < t.cost` fails, and `execute_pr` leaves `sbest`
in the engine, not `lopt` as the claim has it: the code takes `lopt` only if
`lopt.cost > -1`.  First run: `instN5` has negative cells, the costs of `s1` and
`t` are their objectives -5 and -5, and `lopt` has the cost -2.  Second run:
`instU5` is non-negative and its costs fit in an `int`, but the stored costs of
`s1` and `t` are their objectives 21 less 50, and `lopt` has the cost -26.
Third run: `instW5` is non-negative, `s1` and `t` have the objective
7000040000, which 32 bits hold as -1589894592, and `lopt` has the cost
-589894592. -/
theorem C27_counterexample :
    (Valid ⟨0, [], [], 0⟩ ∧
      (execute_pr env_id 30 ⟨0, [], [], 0⟩ (some ⟨0, [], [], 0⟩)
          { engine3 with q := ⟨0, [], []⟩, s := ⟨0, [], [], 0⟩ }).toOption.map
        (fun r => r.1) = some 0) ∧
    (objective instN5 [0, 1, 2, 3, 4] = -5 ∧ objective instN5 [1, 3, 0, 4, 2] = -5 ∧
      (for_loop (execute_pr_step env_id 30 (some ⟨5, [1, 3, 0, 4, 2], [2, 0, 4, 1, 3], -5⟩)) 0 5
          (walk_init env_id ⟨5, [0, 1, 2, 3, 4], [0, 1, 2, 3, 4], -5⟩
            (engine5 instN5 ⟨5, [0, 1, 2, 3, 4], [0, 1, 2, 3, 4], -5⟩))).toOption.map
        (fun st => (st.sbest, st.lopt)) =
        some (⟨5, [0, 1, 2, 3, 4], [0, 1, 2, 3, 4], -5⟩,
          ⟨5, [1, 3, 2, 0, 4], [3, 0, 2, 1, 4], -2⟩) ∧
      (execute_pr env_id 30 ⟨5, [0, 1, 2, 3, 4], [0, 1, 2, 3, 4], -5⟩
          (some ⟨5, [1, 3, 0, 4, 2], [2, 0, 4, 1, 3], -5⟩)
          (engine5 instN5 ⟨5, [0, 1, 2, 3, 4], [0, 1, 2, 3, 4], -5⟩)).toOption.map
        (fun r => (r.1, r.2.s)) = some (1, ⟨5, [0, 1, 2, 3, 4], [0, 1, 2, 3, 4], -5⟩) ∧
      spec_pr_result ⟨5, [0, 1, 2, 3, 4], [0, 1, 2, 3, 4], -5⟩
        ⟨5, [1, 3, 2, 0, 4], [3, 0, 2, 1, 4], -2⟩ ⟨5, [1, 3, 0, 4, 2], [2, 0, 4, 1, 3], -5⟩ =
        ⟨5, [1, 3, 2, 0, 4], [3, 0, 2, 1, 4], -2⟩) ∧
    (NonNeg instU5 ∧ Fits instU5 ∧
      objective instU5 [0, 1, 2, 3, 4] = 21 ∧ objective instU5 [2, 0, 3, 4, 1] = 21 ∧
      (for_loop (execute_pr_step env_id 30 (some ⟨5, [2, 0, 3, 4, 1], [1, 4, 0, 2, 3], -29⟩)) 0 5
          (walk_init env_id ⟨5, [0, 1, 2, 3, 4], [0, 1, 2, 3, 4], -29⟩
            (engine5 instU5 ⟨5, [0, 1, 2, 3, 4], [0, 1, 2, 3, 4], -29⟩))).toOption.map
        (fun st => (st.sbest, st.lopt)) =
        some (⟨5, [0, 1, 2, 3, 4], [0, 1, 2, 3, 4], -29⟩,
          ⟨5, [2, 0, 1, 3, 4], [1, 2, 0, 3, 4], -26⟩) ∧
      (execute_pr env_id 30 ⟨5, [0, 1, 2, 3, 4], [0, 1, 2, 3, 4], -29⟩
          (some ⟨5, [2, 0, 3, 4, 1], [1, 4, 0, 2, 3], -29⟩)
          (engine5 instU5 ⟨5, [0, 1, 2, 3, 4], [0, 1, 2, 3, 4], -29⟩)).toOption.map
        (fun r => (r.1, r.2.s)) = some (1, ⟨5, [0, 1, 2, 3, 4], [0, 1, 2, 3, 4], -29⟩) ∧
      spec_pr_result ⟨5, [0, 1, 2, 3, 4], [0, 1, 2, 3, 4], -29⟩
        ⟨5, [2, 0, 1, 3, 4], [1, 2, 0, 3, 4], -26⟩ ⟨5, [2, 0, 3, 4, 1], [1, 4, 0, 2, 3], -29⟩ =
        ⟨5, [2, 0, 1, 3, 4], [1, 2, 0, 3, 4], -26⟩) ∧
    (NonNeg instW5 ∧ ¬ Fits instW5 ∧
      objective instW5 [0, 1, 2, 3, 4] = 7000040000 ∧
      objective instW5 [3, 2, 4, 1, 0] = 7000040000 ∧ wrap 7000040000 = -1589894592 ∧
      (for_loop (execute_pr_step env_id 30
            (some ⟨5, [3, 2, 4, 1, 0], [4, 3, 1, 0, 2], -1589894592⟩)) 0 5
          (walk_init env_id ⟨5, [0, 1, 2, 3, 4], [0, 1, 2, 3, 4], -1589894592⟩
            (engine5 instW5 ⟨5, [0, 1, 2, 3, 4], [0, 1, 2, 3, 4], -1589894592⟩))).toOption.map
        (fun st => (st.sbest, st.lopt)) =
        some (⟨5, [0, 1, 2, 3, 4], [0, 1, 2, 3, 4], -1589894592⟩,
          ⟨5, [3, 2, 1, 0, 4], [3, 2, 1, 0, 4], -589894592⟩) ∧
      (execute_pr env_id 30 ⟨5, [0, 1, 2, 3, 4], [0, 1, 2, 3, 4], -1589894592⟩
          (some ⟨5, [3, 2, 4, 1, 0], [4, 3, 1, 0, 2], -1589894592⟩)
          (engine5 instW5 ⟨5, [0, 1, 2, 3, 4], [0, 1, 2, 3, 4], -1589894592⟩)).toOption.map
        (fun r => (r.1, r.2.s)) =
        some (1, ⟨5, [0, 1, 2, 3, 4], [0, 1, 2, 3, 4], -1589894592⟩) ∧
      spec_pr_result ⟨5, [0, 1, 2, 3, 4], [0, 1, 2, 3, 4], -1589894592⟩
        ⟨5, [3, 2, 1, 0, 4], [3, 2, 1, 0, 4], -589894592⟩
        ⟨5, [3, 2, 4, 1, 0], [4, 3, 1, 0, 2], -1589894592⟩ =
        ⟨5, [3, 2, 1, 0, 4], [3, 2, 1, 0, 4], -589894592⟩) := by
  have nn : ∀ q : qap_inst, q.n = 5 →
      (∀ i, i < 5 → ∀ j, j < 5 → 0 ≤ Fv q i j ∧ 0 ≤ Dv q i j) → NonNeg q := by
    intro q hq h i j hi hj
    exact h i (by rw [← hq]; exact hi) j (by rw [← hq]; exact hj)
  have fu : Fits instU5 := by
    refine fits_of_cells instU5 2 2 (fun a b ha hb => ?_) (fun a b ha hb => ?_) (by decide)
    · have ha : a < 5 := ha
      have hb : b < 5 := hb
      interval_cases a <;> interval_cases b <;> simp [Dv, sel, instU5]
    · have ha : a < 5 := ha
      have hb : b < 5 := hb
      interval_cases a <;> interval_cases b <;> simp [Fv, sel, instU5]
  have fw : ¬ Fits instW5 := by
    intro h
    have c := cell_le_span instW5 (a := 0) (b := 2) (c := 1) (d := 2) (by decide) (by decide)
      (by decide) (by decide)
    have e : |Dv instW5 0 2 * Fv instW5 1 2| = 1600000000 := by decide
    rw [e] at c
    unfold Fits at h
    omega
  refine ⟨⟨by decide, rfl⟩, ⟨by decide, by decide, rfl, rfl, by decide⟩,
    ⟨nn _ rfl (by decide), fu, by decide, by decide, rfl, rfl, by decide⟩,
    ⟨nn _ rfl (by decide), fw, by decide, by decide, by decide, rfl, rfl, by decide⟩⟩

/-- Claim C28: for a well-formed instance, an engine on it whose working
solution has `n` entries, and valid solutions `s1`, `t` of the instance with `t`
in an object of its own, every walk of `execute_pr` from `s1` toward `t`, that
is every sequence `tr 0, .., tr n` of states that starts in the state
`execute_pr` enters its loop with and in which the body of the loop at position
`i` takes `tr i` to `tr (i + 1)`, is monotone toward `t`.  At every position
`i` the walker agrees with `t` below `i` and is valid; if `s.p[i] = t.p[i]`
nothing changes; otherwise the partner `j = s.rev[t.p[i]]` satisfies
`i < j < n`, the walker's permutation becomes the one with positions `i` and `j`
exchanged, which has `t.p[i]` at `i` and is unchanged below `i`, and
`qs_similarity` to `t` strictly decreases.  When `s1.p` and `t.p` differ, the
number of positions at which a swap is made is at most
`qs_similarity(s1, t) - 1`; and at the end the walker's permutation is `t.p`.
Whenever the loop returns, its states form such a walk; and when the costs of
the instance fit in an `int` (`Fits`), the loop returns for every fuel from some
`N` on. -/
theorem C28_walk_monotone (E : env) (q : qap_inst) (g : grasp) (s1 t : qap_sol)
    (hq : WF q) (hg : g.q = q) (hgs : Shaped g.s) (hgn : g.s.n = q.n)
    (h1 : Valid s1) (h1n : s1.n = q.n) (h2 : Valid t) (h2n : t.n = q.n) :
    (∀ tr : Nat → pr_state, tr 0 = walk_init E s1 g →
      (∀ i, i < q.n →
        ∃ fuel, execute_pr_step E fuel (some t) i (tr i) = Except.ok (tr (i + 1))) →
      (∀ i, i < q.n →
        (∀ k, k < i → sel (tr i).s.p k = sel t.p k) ∧ Valid (tr i).s ∧
        (sel (tr i).s.p i = sel t.p i → tr (i + 1) = tr i) ∧
        (sel (tr i).s.p i ≠ sel t.p i →
          i < sel (tr i).s.rev (sel t.p i) ∧ sel (tr i).s.rev (sel t.p i) < q.n ∧
          (tr (i + 1)).s.p = swp (tr i).s.p i (sel (tr i).s.rev (sel t.p i)) ∧
          sel (tr (i + 1)).s.p i = sel t.p i ∧
          (∀ k, k < i → sel (tr (i + 1)).s.p k = sel (tr i).s.p k) ∧
          ∃ a b, qs_similarity (tr (i + 1)).s t = Except.ok a ∧
            qs_similarity (tr i).s t = Except.ok b ∧ a < b)) ∧
      (s1.p ≠ t.p → ∃ d, qs_similarity s1 t = Except.ok d ∧
        (swaps tr t.p q.n).card + 1 ≤ d) ∧
      (tr q.n).s.p = t.p) ∧
    (∀ fuel st, for_loop (execute_pr_step E fuel (some t)) 0 q.n (walk_init E s1 g) =
        Except.ok st →
      ∃ tr : Nat → pr_state, tr 0 = walk_init E s1 g ∧ tr q.n = st ∧
        ∀ i, i < q.n → execute_pr_step E fuel (some t) i (tr i) = Except.ok (tr (i + 1))) ∧
    (Fits q → ∃ N tr, IsWalk E N t q.n (walk_init E s1 g) tr ∧
      ∀ fuel, N ≤ fuel → for_loop (execute_pr_step E fuel (some t)) 0 q.n
        (walk_init E s1 g) = Except.ok (tr q.n)) := by
  refine ⟨fun tr h0 hs => walk_any_facts E hq hg hgs hgn h1 h1n h2 h2n h0 hs,
    fun fuel st h => ?_, fun hF => ?_⟩
  · obtain ⟨tr, t0, tn, ts⟩ := for_loop_trace q.n 0 _ st h
    refine ⟨tr, t0, tn, fun i hi => ?_⟩
    have := ts i hi
    rw [Nat.zero_add] at this
    exact this
  · obtain ⟨N, tr, hw, _⟩ := walk_prefix_any E hq hF h2 h2n
      (walkShape_init E hg hgs hgn h1 h1n) q.n (le_refl _)
    exact ⟨N, tr, hw, fun fuel hf => walk_loop hw fuel hf⟩

/-- C28, instance: over `inst3` with the engine `engine20`, from the identity
toward `(1,2,0)`, with the stream `env_id`: a walk exists and is monotone. -/
theorem C28_walk_monotone_witness :
    ∃ N tr, IsWalk env_id N ⟨3, [1, 2, 0], [2, 0, 1], 16⟩ inst3.n
        (walk_init env_id ⟨3, [0, 1, 2], [0, 1, 2], 21⟩ engine20) tr ∧
      (∀ fuel, N ≤ fuel →
        for_loop (execute_pr_step env_id fuel (some ⟨3, [1, 2, 0], [2, 0, 1], 16⟩)) 0 inst3.n
          (walk_init env_id ⟨3, [0, 1, 2], [0, 1, 2], 21⟩ engine20) = Except.ok (tr inst3.n)) ∧
      (∀ i, i < inst3.n →
        (∀ k, k < i → sel (tr i).s.p k = sel [1, 2, 0] k) ∧ Valid (tr i).s ∧
        (sel (tr i).s.p i = sel [1, 2, 0] i → tr (i + 1) = tr i) ∧
        (sel (tr i).s.p i ≠ sel [1, 2, 0] i →
          i < sel (tr i).s.rev (sel [1, 2, 0] i) ∧ sel (tr i).s.rev (sel [1, 2, 0] i) < inst3.n ∧
          (tr (i + 1)).s.p = swp (tr i).s.p i (sel (tr i).s.rev (sel [1, 2, 0] i)) ∧
          sel (tr (i + 1)).s.p i = sel [1, 2, 0] i ∧
          (∀ k, k < i → sel (tr (i + 1)).s.p k = sel (tr i).s.p k) ∧
          ∃ a b, qs_similarity (tr (i + 1)).s ⟨3, [1, 2, 0], [2, 0, 1], 16⟩ = Except.ok a ∧
            qs_similarity (tr i).s ⟨3, [1, 2, 0], [2, 0, 1], 16⟩ = Except.ok b ∧ a < b)) ∧
      (([0, 1, 2] : List Nat) ≠ [1, 2, 0] →
        ∃ d, qs_similarity ⟨3, [0, 1, 2], [0, 1, 2], 21⟩ ⟨3, [1, 2, 0], [2, 0, 1], 16⟩ =
          Except.ok d ∧ (swaps tr [1, 2, 0] inst3.n).card + 1 ≤ d) ∧
      (tr inst3.n).s.p = [1, 2, 0] := by
  have h := C28_walk_monotone env_id inst3 engine20 ⟨3, [0, 1, 2], [0, 1, 2], 21⟩
    ⟨3, [1, 2, 0], [2, 0, 1], 16⟩ (by decide) rfl (by decide) rfl (by decide) rfl (by decide) rfl
  obtain ⟨N, tr, hw, hl⟩ := h.2.2 fits_inst3
  obtain ⟨a, b, c⟩ := h.1 tr hw.1 (fun i hi => ⟨N, hw.2 N (le_refl _) i hi⟩)
  exact ⟨N, tr, hw, hl, a, b, c⟩

/-- Claim C34, as amended: for a well-formed instance with any diagonals whose
costs fit in an `int` (`Fits`), a valid solution `s` of its dimension and
positions `i`, `j` below `n`, `g_improvement` returns the decrease of the off-diagonal objective `C_off` under the exchange of the
positions `i` and `j`.  The decrease of the full objective exceeds it by
`(D[i][i]-D[j][j]) * (F[p[i]][p[i]]-F[p[j]][p[j]])`; the two agree when `D` or
`F` has a constant diagonal.  The value is the same for `(j,i)`, it is 0 for
`i = j`, and `g_improvement` on the swapped solution returns its negation. -/
theorem C34_improvement_off_diagonal (q : qap_inst) (s : qap_sol) (i j : Nat) (hq : WF q)
    (hF : Fits q) (hs : Valid s) (hn : s.n = q.n) (hi : i < q.n) (hj : j < q.n) :
    ∃ gain, g_improvement s q i j = Except.ok gain ∧
      gain = c_off q s.p - c_off q (swp s.p i j) ∧
      objective q s.p - objective q (swp s.p i j) - gain =
        (Dv q i i - Dv q j j) *
          (Fv q (sel s.p i) (sel s.p i) - Fv q (sel s.p j) (sel s.p j)) ∧
      (Neutral q → gain = objective q s.p - objective q (swp s.p i j)) ∧
      g_improvement s q j i = Except.ok gain ∧
      (i = j → gain = 0) ∧
      ∃ s', qs_swap s i j = Except.ok s' ∧ s'.p = swp s.p i j ∧
        g_improvement s' q i j = Except.ok (-gain) := by
  obtain ⟨e1, e2, e3⟩ := g_improvement_exact hq hs hn hi hj hF
  have hp : IsPerm s.p q.n := by rw [← hn]; exact hs.isPerm
  have li : i < s.p.length := by rw [hp.1]; exact hi
  have lj : j < s.p.length := by rw [hp.1]; exact hj
  refine ⟨_, e1, ?_, e3, fun hN => ?_, ?_, fun e => ?_, ?_⟩
  · rw [← offobj_eq_c_off, ← offobj_eq_c_off]; exact e2
  · have pi : sel s.p i < q.n := hp.2.1 i hi
    have pj : sel s.p j < q.n := hp.2.1 j hj
    have dz : (Dv q i i - Dv q j j) *
        (Fv q (sel s.p i) (sel s.p i) - Fv q (sel s.p j) (sel s.p j)) = 0 := by
      rcases hN with h | h
      · rw [h i j hi hj]; simp
      · rw [h _ _ pi pj]; simp
    rw [dz] at e3
    linarith
  · rw [g_improvement_eq hq hp hj hi hF, gainf_comm]
  · rw [e, gainf_self]
  · have hv := valid_swap hs (by rw [hn]; exact hi : i < s.n) (by rw [hn]; exact hj : j < s.n)
    refine ⟨_, qs_swap_eq hs.1 hs.2.1 hs.2.2.1 (by rw [hn]; exact hi) (by rw [hn]; exact hj),
      rfl, ?_⟩
    rw [g_improvement_eq hq (by rw [← hn]; exact hv.isPerm) hi hj hF]
    show Except.ok (gainf q.n (Dv q) (Fv q) (sel (swp s.p i j)) i j) = _
    rw [sel_swp_exch _ _ _ li lj, gainf_exch _ _ _ _ _ _ hi hj]

/-- C34, instance: `inst3` (whose distance diagonal is not constant), the
solution `sol3` and the positions 0 and 2. -/
theorem C34_improvement_off_diagonal_witness :
    ∃ gain, g_improvement sol3 inst3 0 2 = Except.ok gain ∧
      gain = c_off inst3 sol3.p - c_off inst3 (swp sol3.p 0 2) ∧
      objective inst3 sol3.p - objective inst3 (swp sol3.p 0 2) - gain =
        (Dv inst3 0 0 - Dv inst3 2 2) *
          (Fv inst3 (sel sol3.p 0) (sel sol3.p 0) - Fv inst3 (sel sol3.p 2) (sel sol3.p 2)) ∧
      (Neutral inst3 → gain = objective inst3 sol3.p - objective inst3 (swp sol3.p 0 2)) ∧
      g_improvement sol3 inst3 2 0 = Except.ok gain ∧
      ((0 : Nat) = 2 → gain = 0) ∧
      ∃ s', qs_swap sol3 0 2 = Except.ok s' ∧ s'.p = swp sol3.p 0 2 ∧
        g_improvement s' inst3 0 2 = Except.ok (-gain) :=
  C34_improvement_off_diagonal inst3 sol3 0 2 (by decide) fits_inst3 (by decide) rfl (by decide)
    (by decide)

/-- C34 as stated fails when the costs leave the range of `int`: for
`F = D = ((0,100000),(0,0))`, the identity and the positions 0 and 1,
`g_improvement` returns 1410065408, while the off-diagonal objective drops from
`10^10` to 0 under the exchange. -/
theorem C34_counterexample :
    g_improvement ⟨2, [0, 1], [0, 1], 0⟩ inst_deep 0 1 = Except.ok 1410065408 ∧
    swp [0, 1] 0 1 = [1, 0] ∧
    c_off inst_deep [0, 1] - c_off inst_deep [1, 0] = 10000000000 :=
  ⟨rfl, by decide, by rw [c_off_deep.1, c_off_deep.2]; decide⟩

/-- Claim C31 (divergence): over `inst3`, with the engine `engine20` (best
solution the identity of cost 21), `call_pr` from the identity toward `(1,2,0)`
of cost 16 on the emptied pool `pool_empty` takes the inserting branch: it
stores the result `(1,2,0)` of cost 16 in the pool and returns without running
`update`, so that `best.cost = 21 > 16 = s.cost` on return.  On the full pool
`pool20` the same call goes through `pr_update` and `update`, and `best` is the
result of cost 16. -/
theorem C31_insert_branch_skips_update :
    (call_pr env_id 30 ⟨3, [0, 1, 2], [0, 1, 2], 21⟩ ⟨3, [1, 2, 0], [2, 0, 1], 16⟩ pool_empty
      engine20).map (fun r => (r.1.cur_size, sel r.1.sol 0, r.2.s, r.2.best)) =
      Except.ok (1, ⟨3, [1, 2, 0], [2, 0, 1], 16⟩, ⟨3, [1, 2, 0], [2, 0, 1], 16⟩,
        ⟨3, [0, 1, 2], [0, 1, 2], 21⟩) ∧
    (call_pr env_id 30 ⟨3, [0, 1, 2], [0, 1, 2], 21⟩ ⟨3, [1, 2, 0], [2, 0, 1], 16⟩ pool20
      engine20).map (fun r => (r.1.cur_size, r.2.s, r.2.best)) =
      Except.ok (2, ⟨3, [1, 2, 0], [2, 0, 1], 16⟩, ⟨3, [1, 2, 0], [2, 0, 1], 16⟩) := by
  constructor
  · set_option maxRecDepth 1000000 in rfl
  · set_option maxRecDepth 1000000 in rfl

/-- Claim C37: when the pool is not full, `pr_post_optimization` returns 0 and
leaves the pool and the engine as they are, and `run_grasp_pr` then returns what
its final `update` makes of the engine the main loop left: the best cost of the
main loop when `best.cost <= s.cost` there, which holds as soon as one full
iteration has run.  Divergence: when the main loop runs no iteration, `s.cost`
is the uninitialised content of a fresh solution; for `engine37` with
`max_itr = 0` (pool empty, `elite_size = 2`) the main loop ends with best cost 2,
the cost of the identity, and `run_grasp_pr` returns `-5`, as does the entry
point on these inputs. -/
theorem C37_post_optimization_skipped :
    (∀ (E : env) (fuel : Nat) (e : elite) (g : grasp), e.cur_size < e.size →
      pr_post_optimization E fuel e g = Except.ok (0, e, g)) ∧
    (∀ (E : env) (fuel : Nat) (g : grasp) (max_itr : Int) (ecp e' : elite) (best : qap_sol)
        (g' : grasp), pr_new E g g.elite_size = some ecp →
      qs_objective g.best g.q = Except.ok best →
      main_loop E fuel max_itr.toNat ecp { { g with curr_iter := 0 } with best := best } =
        Except.ok (e', g') →
      e'.cur_size < e'.size →
      run_grasp_pr E fuel g max_itr = (update g' >>= fun g2 => pure (g2.best.cost, g2)) ∧
      (g'.best.cost ≤ g'.s.cost →
        run_grasp_pr E fuel g max_itr = Except.ok (g'.best.cost, g'))) ∧
    (∀ (E : env) (fuel count : Nat) (e : elite) (g : grasp) (r : elite × grasp),
      main_loop E fuel count e g = Except.ok r →
      r.2.best.cost ≤ r.2.s.cost ∨ (r.2.best = g.best ∧ r.2.s = g.s ∧ r.1 = e)) ∧
    pr_new env_low engine37 engine37.elite_size =
      some ⟨2, 0, 0, 0, [⟨2, [0, 1], [0, 1], -5⟩, ⟨2, [0, 1], [0, 1], -5⟩], [0, 0]⟩ ∧
    qs_objective engine37.best engine37.q = Except.ok ⟨2, [0, 1], [0, 1], 2⟩ ∧
    (∀ fuel, (main_loop env_low fuel (0 : Int).toNat
        ⟨2, 0, 0, 0, [⟨2, [0, 1], [0, 1], -5⟩, ⟨2, [0, 1], [0, 1], -5⟩], [0, 0]⟩
        { { engine37 with curr_iter := 0 } with best := ⟨2, [0, 1], [0, 1], 2⟩ }).map
      (fun r => (r.1.cur_size, r.1.size, r.2.best.cost, r.2.s.cost)) =
        Except.ok (0, 2, 2, -5)) ∧
    (∀ fuel, (run_grasp_pr env_low fuel engine37 0).map (fun r => (r.1, r.2.best)) =
      Except.ok (-5, ⟨2, [0, 1], [0, 1], -5⟩)) ∧
    (∀ fuel, qap_grasppr env_low fuel 2 [0, 1, 1, 0] [0, 1, 1, 0] [0, 0] quarter half 1 0 (-1) 2 0
      [1, 0] = Except.ok ⟨-5, [0, 1], [1, 0]⟩) :=
  ⟨pr_post_optimization_skip, fun _ _ _ _ _ _ _ _ h1 h2 h3 h4 => run_grasp_pr_not_full h1 h2 h3 h4,
    fun _ _ count e g r h => main_loop_ends count e g r h, rfl, rfl, fun _ => rfl, fun _ => rfl,
    fun _ => rfl⟩

/-- C36: for an engine with buffers of the allocated sizes over a well-formed
instance (`n >= 2`) and a valid working solution, `phase1` returns with
`n_assigned = 2` and the invariant `AssignInv` (`done[a] = 1` iff `a` is in
`assigned[0..n_assigned)` iff `ldone[s.p[a]] = 1`, `assigned` without repeats,
`done` and `ldone` hold 0 or 1); from an engine with the invariant each of
`sparse_phase2`, one round of the `phase2` loop and `phase2` returns with the
invariant, and so does the whole `constructor`. Under the invariant every
`g_assign(g, p, q)` with `done[p] = 0` and `ldone[q] = 0` returns with the
invariant, `s.p[p] = q`, `n_assigned` one larger, and `s.p[a]` unchanged for
every previously assigned position `a`. -/
theorem C36_assignment_invariant (E : env) (g : grasp) (hb : Buffers g) (hv : Valid g.s) :
    (∃ g', phase1 E g = Except.ok g' ∧ Buffers g' ∧ AssignInv g' ∧ g'.n_assigned = 2) ∧
    (∃ g', constructor E g = Except.ok g' ∧ Buffers g' ∧ AssignInv g') ∧
    (AssignInv g →
      (∀ p q, p < g.q.n → q < g.q.n → sel g.done p = 0 → sel g.ldone q = 0 →
        ∃ g', g_assign g p q = Except.ok g' ∧ Buffers g' ∧ AssignInv g' ∧
          AssignStep g p q g') ∧
      (1 ≤ g.n_assigned → ∃ g', sparse_phase2 E g = Except.ok g' ∧ Buffers g' ∧
        AssignInv g' ∧ g.n_assigned ≤ g'.n_assigned) ∧
      (1 ≤ g.n_assigned → g.n_assigned < g.q.n → ∃ g', phase2_round E g = Except.ok g' ∧
        Buffers g' ∧ AssignInv g' ∧ g'.n_assigned = g.n_assigned + 1) ∧
      (g.n_assigned = 2 → ∃ g', phase2 E g = Except.ok g' ∧ Buffers g' ∧ AssignInv g')) := by
  refine ⟨?_, ?_, fun hi => ?_⟩
  · obtain ⟨g', e, b, m, n2, _⟩ := phase1_ok E g hb hv
    exact ⟨g', e, b, assignInv_of_marks b.2.2.1 m (phase1_bits hb e), n2⟩
  · obtain ⟨g', e, b, m, _⟩ := constructor_ok E hb hv
    exact ⟨g', e, b, assignInv_of_marks b.2.2.1 m (constructor_bits hb e)⟩
  · obtain ⟨hm, hbit⟩ := marks_of_assignInv hb.2.2.1 hi
    refine ⟨fun p q hp hq dp dq => g_assign_inv hb hi hp hq dp dq, fun h1 => ?_,
      fun h1 hk => ?_, fun h2 => ?_⟩
    · obtain ⟨g', e, b, m, _, _, _, le, _⟩ := sparse_phase2_ok E hb hm h1
      exact ⟨g', e, b, assignInv_of_marks b.2.2.1 m ((sparse_phase2_bits e).2 hbit), le⟩
    · obtain ⟨g', e, b, m, n1, _⟩ := phase2_round_ok E hb hm h1 hk
      exact ⟨g', e, b, assignInv_of_marks b.2.2.1 m ((phase2_round_bits e).2 hbit), n1⟩
    · obtain ⟨g', e, b, m, _⟩ := phase2_ok E hb hm h2
      exact ⟨g', e, b, assignInv_of_marks b.2.2.1 m ((phase2_bits e).2 hbit)⟩

/-- C36, instance: the engine `engine25` over `inst3` (positions 0 and 1
assigned) with the stream `env_id`. -/
theorem C36_assignment_invariant_witness :
    AssignInv engine25 ∧
    (∃ g', phase1 env_id engine25 = Except.ok g' ∧ Buffers g' ∧ AssignInv g' ∧
      g'.n_assigned = 2) ∧
    (∃ g', constructor env_id engine25 = Except.ok g' ∧ Buffers g' ∧ AssignInv g') ∧
    (AssignInv engine25 →
      (∀ p q, p < engine25.q.n → q < engine25.q.n → sel engine25.done p = 0 →
        sel engine25.ldone q = 0 →
        ∃ g', g_assign engine25 p q = Except.ok g' ∧ Buffers g' ∧ AssignInv g' ∧
          AssignStep engine25 p q g') ∧
      (1 ≤ engine25.n_assigned → ∃ g', sparse_phase2 env_id engine25 = Except.ok g' ∧
        Buffers g' ∧ AssignInv g' ∧ engine25.n_assigned ≤ g'.n_assigned) ∧
      (1 ≤ engine25.n_assigned → engine25.n_assigned < engine25.q.n →
        ∃ g', phase2_round env_id engine25 = Except.ok g' ∧
        Buffers g' ∧ AssignInv g' ∧ g'.n_assigned = engine25.n_assigned + 1) ∧
      (engine25.n_assigned = 2 → ∃ g', phase2 env_id engine25 = Except.ok g' ∧ Buffers g' ∧
        AssignInv g')) :=
  ⟨by unfold AssignInv; decide, C36_assignment_invariant env_id engine25
    ⟨by decide, by decide, by decide, by decide, by decide, by decide, by decide, by decide,
      fun k => Nat.div_le_self k 4, fun k => Nat.div_le_self k 2⟩ (by decide)⟩

/-- C33, as amended: for every well-formed instance with `n >= 2` whose costs
fit in an `int` (`Fits`), every valid working solution whose stored cost is
within `span` of its off-diagonal objective (`Ranged`, as is a cost that
`qs_objective` computed and the deltas of swaps updated), `max_time = 0` and
every stream of `genrandint` values, `pr_local_search` returns: with `hist` the
record of its rounds (newest first), it returns for every fuel above the number of rounds and for no smaller fuel (one
unit per test of the `while` condition); the record ends in 20 consecutive rounds
without a swap and at no earlier point had 20 consecutive rounds gone without
one; in each of these last 20 rounds no `j` has `g_improvement(s, q, i, j) > 0`
for the drawn `i`; the number of rounds is at most `20 * (k + 1)` for the number
`k` of swaps; every swap lowers the sum over `i != j` of
`D[i][j] * F[p[i]][p[j]]`, which is bounded from below, by at least one, and
`s.cost` by the same amount, so `s.cost` on exit is at most `s.cost` on entry. -/
theorem C33_pr_local_search_terminates (E : env) (g : grasp) (hq : WF g.q) (hn : 2 ≤ g.q.n)
    (hF : Fits g.q) (hv : Valid g.s) (hsn : g.s.n = g.q.n) (hr : Ranged g.q g.s)
    (hmt : g.max_time = 0) :
    ∃ g' hist,
      (∀ fuel, hist.length + 1 ≤ fuel → pr_local_search E fuel g = Except.ok g' ∧
        pr_local_search_hist E fuel g 0 0 0 [] = Except.ok (g', hist)) ∧
      (∀ fuel, fuel ≤ hist.length → pr_local_search E fuel g = Except.error Err.fuel) ∧
      lead hist = 20 ∧ Calm hist.tail ∧
      (∀ x, x ∈ hist.take 20 → ∀ j, j < g.q.n →
        ∃ c, g_improvement g'.s g.q x.1 j = Except.ok c ∧ c ≤ 0) ∧
      hist.length ≤ 20 * (swaps_of hist + 1) ∧
      c_off g.q g'.s.p + swaps_of hist ≤ c_off g.q g.s.p ∧
      -span g.q ≤ c_off g.q g'.s.p ∧
      g'.s.cost - g.s.cost = c_off g.q g'.s.p - c_off g.q g.s.p ∧
      g'.s.cost ≤ g.s.cost ∧ Valid g'.s ∧ g'.s.n = g.s.n := by
  obtain ⟨g', ext, r1, r2, a1, a2, a3, a4, a5, a6, a7, a8, a9, a10, a11⟩ :=
    pr_hist_run E _ g 0 0 0 [] hq (by omega) hv hsn (by omega) hF hr (by omega) rfl
      (fun _ => trivial) trivial (fun x hx => by simp at hx) (le_refl _)
  rw [List.append_nil] at a6 a7 a8
  have hp : IsPerm g'.s.p g.q.n := by
    have := a2.isPerm
    rwa [a3, hsn] at this
  have low := offobj_lower g.q g'.s.p hp.2.1
  have era : ∀ fuel, pr_local_search E fuel g =
      (pr_local_search_hist E fuel g 0 0 0 []).map Prod.fst :=
    fun fuel => (pr_local_search_hist_fst E fuel g 0 0 0 []).symm
  refine ⟨g', ext, fun fuel hf => ?_, fun fuel hf => ?_, a6, a7, fun x hx j hj => ?_,
    stall_length ext a6 a7, ?_, ?_, ?_, ?_, a2, a3⟩
  · have e := r1 fuel hf
    rw [List.append_nil] at e
    exact ⟨by rw [era fuel, e]; rfl, e⟩
  · rw [era fuel, r2 fuel hf]; rfl
  · refine ⟨_, g_improvement_eq hq hp (a11 x (List.mem_of_mem_take hx)) hj hF,
      a8 x hx j hj⟩
  · rw [← offobj_eq_c_off, ← offobj_eq_c_off]; exact a9
  · rw [← offobj_eq_c_off]; exact low
  · rw [← offobj_eq_c_off, ← offobj_eq_c_off]; exact a10
  · have : (0 : Int) ≤ swaps_of ext := Int.natCast_nonneg _
    linarith

/-- C33, instance: the engine `engine20` over `inst3` (working solution the
identity) with the stream `env_id`. -/
theorem C33_pr_local_search_terminates_witness :
    ∃ g' hist,
      (∀ fuel, hist.length + 1 ≤ fuel → pr_local_search env_id fuel engine20 = Except.ok g' ∧
        pr_local_search_hist env_id fuel engine20 0 0 0 [] = Except.ok (g', hist)) ∧
      (∀ fuel, fuel ≤ hist.length →
        pr_local_search env_id fuel engine20 = Except.error Err.fuel) ∧
      lead hist = 20 ∧ Calm hist.tail ∧
      (∀ x, x ∈ hist.take 20 → ∀ j, j < engine20.q.n →
        ∃ c, g_improvement g'.s engine20.q x.1 j = Except.ok c ∧ c ≤ 0) ∧
      hist.length ≤ 20 * (swaps_of hist + 1) ∧
      c_off engine20.q g'.s.p + swaps_of hist ≤ c_off engine20.q engine20.s.p ∧
      -span engine20.q ≤ c_off engine20.q g'.s.p ∧
      g'.s.cost - engine20.s.cost = c_off engine20.q g'.s.p - c_off engine20.q engine20.s.p ∧
      g'.s.cost ≤ engine20.s.cost ∧ Valid g'.s ∧ g'.s.n = engine20.s.n :=
  C33_pr_local_search_terminates env_id engine20 (by decide) (by decide) fits_inst3 (by decide)
    rfl sound_engine20.2.2.2.ranged rfl

/-- C33, counterexample to the unrestricted reading: on the instance
F = ((0, 60000), (40000, 0)), D = ((0, 50000), (0, 0)) the identity has the
objective 3000000000, which `qs_objective` stores reduced to 32 bits as
-1294967296; from there `pr_local_search` swaps the two positions, the stored
cost becomes 2000000000 and so is larger on exit than on entry. On the
three-position instance, a stored cost of -2147483646 (not the objective)
leaves the range of an `int` when the improvements are subtracted: the cost on
exit is 2147483645. -/
theorem C33_counterexample :
    ¬ Fits inst_wide ∧ objective inst_wide [0, 1] = 3000000000 ∧
    (qs_objective ⟨2, [0, 1], [0, 1], 0⟩ inst_wide).toOption.map (fun s => s.cost)
      = some (-1294967296) ∧
    Ranged inst_wide ⟨2, [0, 1], [0, 1], -1294967296⟩ ∧
    (pr_local_search env_id 50
        { engine2 inst_wide with s := ⟨2, [0, 1], [0, 1], -1294967296⟩ }).toOption.map
      (fun g => (g.s.p, g.s.cost)) = some ([1, 0], 2000000000) ∧
    Fits inst3 ∧ ¬ Ranged inst3 ⟨3, [0, 1, 2], [0, 1, 2], -2147483646⟩ ∧
    (pr_local_search env_id 50
        { engine20 with s := ⟨3, [0, 1, 2], [0, 1, 2], -2147483646⟩ }).toOption.map
      (fun g => (g.s.p, g.s.cost)) = some ([1, 2, 0], 2147483645) := by
  refine ⟨by decide, by decide, rfl, by unfold Ranged; decide, rfl, by decide,
    by unfold Ranged; decide, rfl⟩

/-- C32, as amended: for every well-formed instance whose costs fit in an `int`
(`Fits`), every valid working solution whose stored cost is within `span` of
its off-diagonal objective (`Ranged`, as is a cost that `qs_objective` computed
and the deltas of swaps updated) and `max_time = 0`, `local_search` returns
(after `passes` passes; each pass takes one unit of fuel) with a working solution that is a 2-exchange local optimum for
the delta, `g_improvement(g.s, q, i, j) <= 0` for every pair `i < j`, and is
still valid (`p` a permutation, `rev` its inverse); with `log` the record of the
improvements of the swaps applied, all of them are positive and `g.s.cost` is the
entry cost minus their sum (as is the sum over `i != j` of
`D[i][j] * F[p[i]][p[j]]`), so it is never larger than on entry. -/
theorem C32_local_search_local_optimum (E : env) (g : grasp) (hq : WF g.q) (hF : Fits g.q)
    (hv : Valid g.s) (hsn : g.s.n = g.q.n) (hr : Ranged g.q g.s) (hmt : g.max_time = 0) :
    ∃ g' log passes, 0 < passes ∧
      (∀ fuel, passes ≤ fuel → local_search E fuel g = Except.ok g' ∧
        local_search_log E fuel g [] = Except.ok (g', log)) ∧
      (∀ fuel, fuel < passes → local_search E fuel g = Except.error Err.fuel) ∧
      (∀ i j, i < j → j < g.q.n →
        ∃ c, g_improvement g'.s g'.q i j = Except.ok c ∧ c ≤ 0) ∧
      Valid g'.s ∧ g'.s.n = g.s.n ∧ g'.q = g.q ∧
      (∀ x, x ∈ log → 0 < x) ∧ g'.s.cost = g.s.cost - log.sum ∧
      c_off g.q g'.s.p = c_off g.q g.s.p - log.sum ∧ g'.s.cost ≤ g.s.cost := by
  obtain ⟨g', ext, passes, p0, r1, r2, a1, a2, a3, a4, a5, a6, a7⟩ :=
    local_search_log_run E _ g [] hq hv hsn (by omega) hF hr (le_refl _)
  have hp : IsPerm g'.s.p g.q.n := by
    have := a2.isPerm
    rwa [a3, hsn] at this
  have era : ∀ fuel, local_search E fuel g = (local_search_log E fuel g []).map Prod.fst :=
    fun fuel => (local_search_log_fst E fuel g []).symm
  have nn : 0 ≤ ext.sum := by
    by_cases c : ext = []
    · rw [c]; simp
    · exact le_of_lt (sum_pos_of_pos ext c a4)
  refine ⟨g', ext, passes, p0, fun fuel hf => ?_, fun fuel hf => ?_, fun i j hij hj => ?_,
    a2, a3, a1, a4, a5, ?_, by omega⟩
  · have e := r1 fuel hf
    rw [List.append_nil] at e
    exact ⟨by rw [era fuel, e]; rfl, e⟩
  · rw [era fuel, r2 fuel hf]; rfl
  · rw [a1]
    exact ⟨_, g_improvement_eq hq hp (by omega) hj hF, a7 i j hij hj⟩
  · rw [← offobj_eq_c_off, ← offobj_eq_c_off]; exact a6

/-- C32, instance: the engine `engine20` over `inst3` (working solution the
identity, cost 21) with the stream `env_id`. -/
theorem C32_local_search_local_optimum_witness :
    ∃ g' log passes, 0 < passes ∧
      (∀ fuel, passes ≤ fuel → local_search env_id fuel engine20 = Except.ok g' ∧
        local_search_log env_id fuel engine20 [] = Except.ok (g', log)) ∧
      (∀ fuel, fuel < passes → local_search env_id fuel engine20 = Except.error Err.fuel) ∧
      (∀ i j, i < j → j < engine20.q.n →
        ∃ c, g_improvement g'.s g'.q i j = Except.ok c ∧ c ≤ 0) ∧
      Valid g'.s ∧ g'.s.n = engine20.s.n ∧ g'.q = engine20.q ∧
      (∀ x, x ∈ log → 0 < x) ∧ g'.s.cost = engine20.s.cost - log.sum ∧
      c_off engine20.q g'.s.p = c_off engine20.q engine20.s.p - log.sum ∧
      g'.s.cost ≤ engine20.s.cost :=
  C32_local_search_local_optimum env_id engine20 (by decide) fits_inst3 (by decide) rfl
    sound_engine20.2.2.2.ranged rfl

/-- C32, counterexample to the unrestricted reading: on the instance
F = ((0, 60000), (40000, 0)), D = ((0, 50000), (0, 0)) the identity has the
objective 3000000000, stored reduced to 32 bits as -1294967296; `local_search`
swaps the two positions and the stored cost becomes 2000000000, larger on exit
than on entry. On the three-position instance, a stored cost of -2147483646
(not the objective) leaves the range of an `int` when the improvements are
subtracted: the cost on exit is 2147483645. -/
theorem C32_counterexample :
    ¬ Fits inst_wide ∧ objective inst_wide [0, 1] = 3000000000 ∧
    (qs_objective ⟨2, [0, 1], [0, 1], 0⟩ inst_wide).toOption.map (fun s => s.cost)
      = some (-1294967296) ∧
    Ranged inst_wide ⟨2, [0, 1], [0, 1], -1294967296⟩ ∧
    (local_search env_id 5
        { engine2 inst_wide with s := ⟨2, [0, 1], [0, 1], -1294967296⟩ }).toOption.map
      (fun g => (g.s.p, g.s.cost)) = some ([1, 0], 2000000000) ∧
    Fits inst3 ∧ ¬ Ranged inst3 ⟨3, [0, 1, 2], [0, 1, 2], -2147483646⟩ ∧
    (local_search env_id 5
        { engine20 with s := ⟨3, [0, 1, 2], [0, 1, 2], -2147483646⟩ }).toOption.map
      (fun g => (g.s.p, g.s.cost)) = some ([1, 2, 0], 2147483645) := by
  refine ⟨by decide, by decide, rfl, by unfold Ranged; decide, rfl, by decide,
    by unfold Ranged; decide, rfl⟩

end Qap
